import Mathlib

/-!
# Saddlebag: the Worker, its item map and its message buffers

A shallow embedding of `src/src/hashf.cpp`, `src/src/hash_map.cpp`,
`src/src/table.cpp` and `src/src/worker.cpp`, followed by theorems about the
embedded functions.

Conventions of the embedding.

* C++ `int` and `std::size_t` values are mathematical integers / naturals: the
  development does not model wrap-around of `size * 2` or of a message counter.
  The bitwise `x & (N-1)` of `bit_modulo` is the two's-complement `and`, which
  matters for negative hashes.
* A loop `while(true)` is a recursion on a fuel argument; running out of fuel
  is the result `Fault.diverges`.  An access outside an array (undefined
  behaviour in C++) is the result `Fault.out_of_bounds`, a failed `assert`
  the result `Fault.assertion`.
* The build flags are those of `utils.hpp`: `ROBIN_HASH` is true,
  `ROBIN_SWAPPING` is not defined, `DISTRIB_HASH` is `MODULO_HASH`,
  `UPCXX_GPTR_LOCAL_ON` is true.
* The comparison `num_items > (float)size * load_factor` of
  `Robin_Map::above_load_factor` is carried out in binary32: both `int`
  operands go through `to_float`, the rounding to 24 significant bits.  The
  product with `0.5` is exact, so the test is `to_float size < 2 * to_float
  num_items`.
* `Worker::round_off` adds in `double`; the embedding adds in the naturals,
  which is the same result for arguments below `2 ^ 52` (the conversion of
  `max` and the sum are exact there).
* A `Worker` value carries the shared segments of all ranks as it sees them,
  and the embedded member functions run one rank on them.  What another rank
  writes during the run is not part of it.  Only a rank on the same node holds
  a local handle into the segments of a worker (a rank on another node reads
  with `rget`), so a run is the run of the program for a worker that shares
  its node with no other rank (`Worker.Secluded`); for a worker with a
  co-located peer the step of the peer is run explicitly on the segments,
  before the step of the worker.
-/

namespace saddlebags

/-- What a run of the embedded code can end in besides a value. -/
inductive Fault where
  | diverges
  | out_of_bounds
  | assertion
  deriving DecidableEq, Repr

/-! ## hash_map.cpp -/

/-- `int bit_modulo(int x, int N) { return (x & (N-1)); }` -/
def bit_modulo (x N : Int) : Int := Int.land x (N - 1)

/-- The conversion of a non-negative `int` to `float` (binary32, 24 significant
bits, round to nearest, ties to even).  The result is again an integer: below
`2 ^ 24` the value itself, above it the nearest multiple of the unit in the
last place `2 ^ e`, `e = log2 n - 23`. -/
def to_float (n : Nat) : Nat :=
  if n < 2 ^ 24 then n
  else
    let e := Nat.log2 n - 23
    let q := n / 2 ^ e
    let r := n % 2 ^ e
    if 2 * r > 2 ^ e ∨ (2 * r = 2 ^ e ∧ q % 2 = 1) then (q + 1) * 2 ^ e else q * 2 ^ e

/-- `class Entry`: `hash == -1` marks an empty slot. -/
structure Entry (K V : Type) where
  hash : Int
  first : K
  second : V
  deriving DecidableEq, Repr

/-- The entry `Entry tmp; tmp.hash = -1;` that fills a new array. -/
def Entry.blank {K V : Type} [Inhabited K] [Inhabited V] : Entry K V :=
  { hash := -1, first := default, second := default }

/-- `class Robin_Map`: `size` slots in `entries`, `num_items` of them counted
as inserted. -/
structure Robin_Map (K V : Type) where
  size : Nat
  entries : List (Entry K V)
  num_items : Nat
  deriving DecidableEq, Repr

section Map

variable {K V : Type} [DecidableEq K] [Inhabited K] [Inhabited V]

/-- The constructor `Robin_Map()`: 1024 empty slots. -/
def Robin_Map.new : Robin_Map K V :=
  { size := 1024, entries := List.replicate 1024 Entry.blank, num_items := 0 }

/-- `Robin_Map::end()`: the iterator whose `current_loc` is `size`. -/
def Robin_Map.end_ (m : Robin_Map K V) : Nat := m.size

/-- The probe loop shared by `insert_new_array` and `core_insert_with_hash`
(the `ROBIN_SWAPPING` block is compiled out): each round moves `location` to
`bit_modulo(location + i, new_size)` and stores the entry in the first slot
whose hash is `-1`. -/
def insert_loop (entry_array : List (Entry K V)) (new_size : Nat) (key : K) (val : V)
    (hashed : Int) : Nat → Nat → Nat → Except Fault (List (Entry K V))
  | 0, _, _ => .error .diverges
  | fuel + 1, location, i =>
    let location := (bit_modulo ((location : Int) + (i : Int)) new_size).toNat
    match entry_array[location]? with
    | none => .error .out_of_bounds
    | some e =>
      if e.hash = -1 then
        .ok (entry_array.set location { hash := hashed, first := key, second := val })
      else insert_loop entry_array new_size key val hashed fuel location (i + 1)

/-- `Robin_Map::insert_new_array`. -/
def insert_new_array (key : K) (val : V) (hashed : Int) (entry_array : List (Entry K V))
    (new_size : Nat) : Except Fault (List (Entry K V)) :=
  insert_loop entry_array new_size key val hashed new_size
    (bit_modulo hashed new_size).toNat 0

/-- `Robin_Map::core_insert_with_hash`: the same loop on the map's own array. -/
def Robin_Map.core_insert_with_hash (m : Robin_Map K V) (key : K) (val : V) (hashed : Int) :
    Except Fault (Robin_Map K V) :=
  match insert_loop m.entries m.size key val hashed m.size
      (bit_modulo hashed m.size).toNat 0 with
  | .error f => .error f
  | .ok es => .ok { m with entries := es }

/-- `Robin_Map::above_load_factor`: `num_items > (float)size * load_factor`
with `load_factor = 0.5`.  The comparison is made in `float`: `size` is
converted by the cast and `num_items` by the usual arithmetic conversions, the
product with `0.5` is exact. -/
def Robin_Map.above_load_factor (m : Robin_Map K V) : Bool :=
  decide (to_float m.size < 2 * to_float m.num_items)

/-- The loop of `Robin_Map::find`: stop with `end()` at an empty slot, with
the slot at a matching key. -/
def find_loop (m : Robin_Map K V) (key : K) : Nat → Nat → Nat → Except Fault Nat
  | 0, _, _ => .error .diverges
  | fuel + 1, location, i =>
    let location := (bit_modulo ((location : Int) + (i : Int)) m.size).toNat
    match m.entries[location]? with
    | none => .error .out_of_bounds
    | some e =>
      if e.hash = -1 then .ok m.end_
      else if e.first = key then .ok location
      else find_loop m key fuel location (i + 1)

/-- The second loop of `Robin_Map::expand`: every non-empty slot of the old
array, in index order, is re-inserted into the new array with its stored hash. -/
def expand_loop (old : List (Entry K V)) (new_size : Nat) :
    List Nat → List (Entry K V) → Except Fault (List (Entry K V))
  | [], new_entries => .ok new_entries
  | i :: rest, new_entries =>
    match old[i]? with
    | none => .error .out_of_bounds
    | some e =>
      if e.hash ≠ -1 then
        match insert_new_array e.first e.second e.hash new_entries new_size with
        | .error f => .error f
        | .ok es => expand_loop old new_size rest es
      else expand_loop old new_size rest new_entries

/-- `Robin_Map::expand(new_size)`. -/
def Robin_Map.expand (m : Robin_Map K V) (new_size : Nat) : Except Fault (Robin_Map K V) :=
  match expand_loop m.entries new_size (List.range m.size)
      (List.replicate new_size Entry.blank) with
  | .error f => .error f
  | .ok es => .ok { m with entries := es, size := new_size }

variable (hashf : K → Int)

/-- `Robin_Map::find(key)`; the result is the iterator's `current_loc`. -/
def Robin_Map.find (m : Robin_Map K V) (key : K) : Except Fault Nat :=
  find_loop m key m.size (bit_modulo (hashf key) m.size).toNat 0

/-- `Robin_Map::core_insert`. -/
def Robin_Map.core_insert (m : Robin_Map K V) (key : K) (val : V) :
    Except Fault (Robin_Map K V) :=
  m.core_insert_with_hash key val (hashf key)

/-- `Robin_Map::insert(key, val)`. -/
def Robin_Map.insert (m : Robin_Map K V) (key : K) (val : V) : Except Fault (Robin_Map K V) :=
  match (if m.above_load_factor then m.expand (m.size * 2) else .ok m) with
  | .error f => .error f
  | .ok m1 =>
    match m1.core_insert hashf key val with
    | .error f => .error f
    | .ok m2 => .ok { m2 with num_items := m2.num_items + 1 }

end Map

/-! ## The probe sequence and the map invariant -/

/-- The slot examined by one round of a probe loop entered with `location`
and `i`. -/
def probe_step (size location i : Nat) : Nat :=
  (bit_modulo ((location : Int) + (i : Int)) size).toNat

/-- The slot examined in round `n` (counted from 0) of a probe loop that was
entered with `location` and `i`. -/
def walk (size : Nat) : Nat → Nat → Nat → Nat
  | location, i, 0 => probe_step size location i
  | location, i, n + 1 => walk size (probe_step size location i) (i + 1) n

/-- The triangular numbers `0, 1, 3, 6, ...`: the total displacement after
`j` rounds. -/
def tri : Nat → Nat
  | 0 => 0
  | j + 1 => tri j + (j + 1)

section MapDefs

variable {K V : Type}

/-- Slot `loc` exists and holds an entry (its hash is not the marker). -/
def slot_live (es : List (Entry K V)) (loc : Nat) : Prop :=
  ∃ e, es[loc]? = some e ∧ e.hash ≠ -1

/-- Slot `loc` exists and is empty. -/
def slot_empty (es : List (Entry K V)) (loc : Nat) : Prop :=
  ∃ e, es[loc]? = some e ∧ e.hash = -1

end MapDefs

section MapInv

variable {K V : Type}

/-- The entries of the non-empty slots, in slot order. -/
def live_list (es : List (Entry K V)) : List (Entry K V) :=
  es.filter (fun e => decide (e.hash ≠ -1))

/-- Every stored entry lies on the probe sequence of its own hash, within
`sz` rounds, and no slot before it on that sequence is empty. -/
def PathOK (es : List (Entry K V)) (sz : Nat) : Prop :=
  ∀ loc e, es[loc]? = some e → e.hash ≠ -1 →
    ∃ n, n < sz ∧ walk sz (bit_modulo e.hash sz).toNat 0 n = loc ∧
      ∀ j, j < n → slot_live es (walk sz (bit_modulo e.hash sz).toNat 0 j)

/-- An entry array of `sz` slots, `sz` a power of two, that satisfies `PathOK`. -/
def ArrOK (es : List (Entry K V)) (sz : Nat) : Prop :=
  es.length = sz ∧ (∃ k, sz = 2 ^ k) ∧ PathOK es sz

/-- No key is stored in two slots. -/
def keys_distinct (es : List (Entry K V)) : Prop :=
  ((live_list es).map Entry.first).Nodup

/-- The invariant of a map built by `insert`: a well-formed array, every
stored hash is `hashf` of its key, `num_items` counts the non-empty slots, and
the count that the last `insert` found, converted to `float`, was at most half
the capacity (below `2 ^ 24` entries: `num_items ≤ size / 2 + 1`). -/
def Robin_Map.Inv (hashf : K → Int) (m : Robin_Map K V) : Prop :=
  ArrOK m.entries m.size ∧
  (∀ e ∈ m.entries, e.hash ≠ -1 → e.hash = hashf e.first) ∧
  (live_list m.entries).length = m.num_items ∧
  2 * to_float (m.num_items - 1) ≤ m.size ∧ 4 ≤ m.size

/-- Key `k` is stored with value `v`. -/
def Robin_Map.has (m : Robin_Map K V) (k : K) (v : V) : Prop :=
  ∃ e ∈ live_list m.entries, e.first = k ∧ e.second = v

end MapInv

section MapDriver

variable {K V : Type} [DecidableEq K] [Inhabited K] [Inhabited V]

/-- A client that calls `insert(k, v)` for every pair of a list, in order. -/
def insert_all (hashf : K → Int) : Robin_Map K V → List (K × V) → Except Fault (Robin_Map K V)
  | m, [] => .ok m
  | m, kv :: rest =>
    match m.insert hashf kv.1 kv.2 with
    | .error f => .error f
    | .ok m1 => insert_all hashf m1 rest

/-- The entry that `insert(k, v)` stores. -/
def entry_of (hashf : K → Int) (kv : K × V) : Entry K V :=
  { hash := hashf kv.1, first := kv.1, second := kv.2 }

end MapDriver

/-- A hash for examples: the key itself, which is never `-1`. -/
def sample_hash (k : Nat) : Int := (k : Int)

/-! ## utils.hpp -/

/-- `#define DEBUG_DISABLE_CREATE_ON_PUSH true` -/
def DEBUG_DISABLE_CREATE_ON_PUSH : Bool := true

/-- `#define UPCXX_GPTR_LOCAL_ON true` -/
def UPCXX_GPTR_LOCAL_ON : Bool := true

/-- `#define SADDLEBAG_DEBUG 3` -/
def SADDLEBAG_DEBUG : Nat := 3

/-- `#define INITIAL_RESERVE_SIZE 500` -/
def INITIAL_RESERVE_SIZE : Nat := 500

/-- `distrib_hash(const unsigned int & key)` under `DISTRIB_HASH == MODULO_HASH`:
the key itself. -/
def distrib_hash (key : Nat) : Nat := key

/-- A C `for (int i = start; i < start + n; i++) body(i)` over a state. -/
def for_loop {σ : Type} (body : Nat → σ → Except Fault σ) : Nat → Nat → σ → Except Fault σ
  | 0, _, s => .ok s
  | n + 1, i, s =>
    match body i s with
    | .error f => .error f
    | .ok s1 => for_loop body n (i + 1) s1

/-- A C `for (int i = 0; i < n; i++) body(i)`. -/
def for_range {σ : Type} (n : Nat) (body : Nat → σ → Except Fault σ) (s : σ) : Except Fault σ :=
  for_loop body n 0 s

/-! ## message.cpp and item.cpp

The template parameters are instantiated as `TableKey_T = ItemKey_T = Nat` and
`Msg_T = Int`, with `Msg_T() = 0`. -/

/-- `class Message`. -/
structure Message where
  value : Int
  src_table : Nat
  dest_table : Nat
  dest_item : Nat
  src_item : Nat
  deriving DecidableEq, Repr, Inhabited

/-- The virtual member functions of `Item` that the framework invokes. -/
inductive Call where
  | on_create
  | refresh
  | on_push_recv (val : Int)
  | before_work
  | do_work
  | finishing_work
  deriving DecidableEq, Repr

/-- `class Item`.  The base class bodies of the callbacks are empty; `calls`
records every callback invoked on the object, oldest first.  `worker` is the
back-reference, held as the rank of the Worker it points to. -/
structure Item where
  value : Int
  myTableKey : Nat
  myItemKey : Nat
  worker : Option Nat
  next_seqnum : Int
  calls : List Call
  deriving DecidableEq, Repr

/-- The object made by `new ItemType()`. -/
def Item.new : Item :=
  { value := 0, myTableKey := 0, myItemKey := 0, worker := none, next_seqnum := 0, calls := [] }

/-- One callback invocation on an item. -/
def Item.invoke (it : Item) (c : Call) : Item := { it with calls := it.calls ++ [c] }

/-! ## table.cpp -/

def CREATED_NEW_LOCAL : Nat := 100
def REQUESTED_NEW_REMOTE : Nat := 200
def FOUND_EXISTING_LOCAL : Nat := 300
def IGNORED_NEW_REMOTE : Nat := 400
def IGNORED_NEW_LOCAL : Nat := 500
def NOT_FOUND : Nat := 0

/-- `Worker::get_partition`, as a function of `total_workers`. -/
def get_partition (total_workers : Nat) (_table_key item_key : Nat) : Nat :=
  distrib_hash item_key % total_workers

/-- `class TableContainer`.  `objects` are the items allocated by `new`, in
allocation order; an item pointer is `some p` for the object `objects[p]` and
`none` for `nullptr`.  `mapped_items` maps item keys to item pointers. -/
structure TableContainer where
  myTableKey : Nat
  is_global : Bool
  worker : Option Nat
  mapped_items : Robin_Map Nat (Option Nat)
  objects : List Item
  deriving DecidableEq, Repr

/-- The table made by `new TableContainer<...>()`. -/
def TableContainer.new : TableContainer :=
  { myTableKey := 0, is_global := false, worker := none, mapped_items := Robin_Map.new,
    objects := [] }

/-- A callback invoked through an item pointer. -/
def TableContainer.invoke (tb : TableContainer) (obj : Nat) (c : Call) :
    Except Fault TableContainer :=
  match tb.objects[obj]? with
  | none => .error .out_of_bounds
  | some it => .ok { tb with objects := tb.objects.set obj (it.invoke c) }

/-- `TableContainer::create_new_item(key)`: the new object and its pointer. -/
def TableContainer.create_new_item (tb : TableContainer) (key : Nat) : TableContainer × Nat :=
  let newobj : Item := { Item.new with worker := tb.worker, myItemKey := key,
                                       myTableKey := tb.myTableKey }
  let newobj := newobj.invoke Call.on_create
  let newobj := newobj.invoke Call.refresh
  ({ tb with objects := tb.objects ++ [newobj] }, tb.objects.length)

/-- `TableContainer::apply_push_to_item(msg, is_create)`, called on a table of
a worker with `total_workers` workers and rank `rank_me`; the result is the
table afterwards and the returned status. -/
def TableContainer.apply_push_to_item (hashf : Nat → Int) (total_workers rank_me : Nat)
    (tb : TableContainer) (msg : Message) (is_create : Bool) :
    Except Fault (TableContainer × Nat) :=
  if get_partition total_workers tb.myTableKey msg.dest_item ≠ rank_me then
    .ok (tb, IGNORED_NEW_REMOTE)
  else
    let key := msg.dest_item
    match tb.mapped_items.find hashf key with
    | .error f => .error f
    | .ok iterator =>
      if iterator = tb.mapped_items.end_ then
        if is_create then
          let (tb1, newobj) := tb.create_new_item key
          match tb1.invoke newobj (Call.on_push_recv msg.value) with
          | .error f => .error f
          | .ok tb2 =>
            match tb2.mapped_items.insert hashf key (some newobj) with
            | .error f => .error f
            | .ok items => .ok ({ tb2 with mapped_items := items }, CREATED_NEW_LOCAL)
        else .ok (tb, IGNORED_NEW_LOCAL)
      else
        match tb.mapped_items.entries[iterator]? with
        | none => .error .out_of_bounds
        | some e =>
          match e.second with
          | none => .error .assertion
          | some obj =>
            match tb.invoke obj (Call.on_push_recv msg.value) with
            | .error f => .error f
            | .ok tb1 => .ok (tb1, FOUND_EXISTING_LOCAL)

/-! ## worker.cpp

The registered shared segments of all ranks are one value, `shared`; a global
pointer into them is a pair (owning rank, destination index).  A local pointer
obtained from a global pointer with `.local()` is that same pair. -/

/-- The part of one rank's shared segment made by `create_buffers`: for every
destination rank a message counter and an array of `BUFFER_MAX_SIZE` messages. -/
structure Segment where
  push_buffers_size : List Nat
  push_buffers : List (List Message)
  deriving DecidableEq, Repr

/-- A global pointer: the owning rank and the destination index. -/
abbrev GPtr := Nat × Nat

def ERROR_OUT_OF_MEMORY : Nat := 1001
def ERROR_NOT_ENOUGH_BUFFER_SPACE : Nat := 1002

/-- Read the counter a pointer refers to. -/
def read_size (mem : List Segment) (p : GPtr) : Except Fault Nat :=
  match mem[p.1]? with
  | none => .error .out_of_bounds
  | some seg =>
    match seg.push_buffers_size[p.2]? with
    | none => .error .out_of_bounds
    | some c => .ok c

/-- Write the counter a pointer refers to. -/
def write_size (mem : List Segment) (p : GPtr) (v : Nat) : Except Fault (List Segment) :=
  match mem[p.1]? with
  | none => .error .out_of_bounds
  | some seg =>
    if p.2 < seg.push_buffers_size.length then
      .ok (mem.set p.1 { seg with push_buffers_size := seg.push_buffers_size.set p.2 v })
    else .error .out_of_bounds

/-- Read the message array a pointer refers to. -/
def read_buffer (mem : List Segment) (p : GPtr) : Except Fault (List Message) :=
  match mem[p.1]? with
  | none => .error .out_of_bounds
  | some seg =>
    match seg.push_buffers[p.2]? with
    | none => .error .out_of_bounds
    | some b => .ok b

/-- Write slot `idx` of the message array a pointer refers to. -/
def write_slot (mem : List Segment) (p : GPtr) (idx : Nat) (msg : Message) :
    Except Fault (List Segment) :=
  match mem[p.1]? with
  | none => .error .out_of_bounds
  | some seg =>
    match seg.push_buffers[p.2]? with
    | none => .error .out_of_bounds
    | some b =>
      if idx < b.length then
        .ok (mem.set p.1 { seg with push_buffers := seg.push_buffers.set p.2 (b.set idx msg) })
      else .error .out_of_bounds

/-- `dist_object::fetch`: every rank creates its distributed objects in the
same order, object `obj` of a rank wrapping that rank's pointer for
destination `obj`; `fetch(rank)` on object `obj` yields the pointer held by
`rank`. -/
def dist_fetch (obj rank : Nat) : GPtr := (rank, obj)

/-- `class Worker`.  The vectors `my_push_buffers_size` and `my_push_buffers`
are the pointers `(rank_me_, i)` for `i < total_workers`.  Fields that no member
function reads (`my_local_coord`, `rank_in_local`, the `*_g` staging pointers,
...) are left out; `proc_local[i]` is `upcxx::local_team_contains(i)`. -/
structure Worker where
  team_total_workers : Nat
  total_workers : Nat
  rank_n_ : Nat
  total_nodes : Nat
  rank_me_ : Nat
  team_rank_me_ : Nat
  total_tables : Nat
  error : Nat
  cycles_counter : Nat
  BUFFER_MAX_SIZE : Nat
  their_push_size_g : List GPtr
  their_local_push_size : List (Option GPtr)
  fetch_futures_size : List GPtr
  their_push_buffers_g : List GPtr
  their_local_push_buffers : List (Option GPtr)
  fetch_futures_msgs : List GPtr
  rget_futures_size : List (Option Nat)
  rget_futures_msgs : List Bool
  their_remote_push_size : List (Option Nat)
  their_remote_push_buffers : List (Option (List Message))
  tables : List TableContainer
  messages_sent : Nat
  messages_recv_local : Nat
  messages_recv_remote : Nat
  buffer_size_min : Nat
  buffer_size_max : Nat
  proc_local : List Bool
  shared : List Segment
  deriving DecidableEq, Repr

/-- `global_ptr::is_local()`: the owning rank is in the local team. -/
def Worker.gptr_is_local (w : Worker) (p : GPtr) : Bool := w.proc_local.getD p.1 false

/-- `Worker::get_partition`. -/
def Worker.get_partition (w : Worker) (table_key item_key : Nat) : Nat :=
  saddlebags.get_partition w.total_workers table_key item_key

/-- `Worker::is_process_local`. -/
def Worker.is_process_local (w : Worker) (rank : Nat) : Bool :=
  if UPCXX_GPTR_LOCAL_ON ∧ rank < w.their_local_push_buffers.length ∧
      rank < w.their_local_push_size.length then
    (w.their_local_push_buffers.getD rank none).isSome &&
      (w.their_local_push_size.getD rank none).isSome
  else false

/-- `Worker::is_local_root`. -/
def Worker.is_local_root (w : Worker) : Bool := decide (w.team_rank_me_ = 0)

/-- `Worker::valid_buffer_size`. -/
def Worker.valid_buffer_size (w : Worker) (size : Nat) : Nat :=
  if size ≤ w.BUFFER_MAX_SIZE then size else w.BUFFER_MAX_SIZE

/-- `Worker::get_messgaes_count_send`. -/
def Worker.get_messgaes_count_send (w : Worker) (dest_rank : Nat) : Except Fault Nat :=
  if dest_rank < w.total_workers then read_size w.shared (w.rank_me_, dest_rank)
  else .error .assertion

/-- `Worker::get_messgaes_count_recv`. -/
def Worker.get_messgaes_count_recv (w : Worker) (src_rank : Nat) : Except Fault Nat :=
  if src_rank < w.their_local_push_size.length then
    match w.their_local_push_size.getD src_rank none with
    | none => .error .out_of_bounds
    | some p => read_size w.shared p
  else .error .assertion

/-- `Worker::round_off`.  The source adds in `double` (`max += 1e+3 - ...`); for
`max < 2 ^ 52` every intermediate value is an integer below `2 ^ 53`, where the
`double` arithmetic is exact and agrees with the arithmetic of the naturals
used here. -/
def round_off (max : Nat) (is_K : Bool) (is_M : Bool) : Nat :=
  if max > 1000000 ∧ is_M then max + (1000000 - max % 1000000)
  else if max > 1000 ∧ is_K then max + (1000 - max % 1000)
  else max

/-- `Worker::enqueue_push_request`. -/
def Worker.enqueue_push_request (w : Worker) (msg : Message) : Except Fault Worker :=
  let dest_rank := w.get_partition msg.dest_table msg.dest_item
  if dest_rank < w.total_workers then
    match w.get_messgaes_count_send dest_rank with
    | .error f => .error f
    | .ok messages_total =>
      if messages_total ≥ w.BUFFER_MAX_SIZE then
        match write_size w.shared (w.rank_me_, dest_rank) (messages_total + 1) with
        | .error f => .error f
        | .ok mem => .ok { w with shared := mem }
      else
        match write_slot w.shared (w.rank_me_, dest_rank) messages_total msg with
        | .error f => .error f
        | .ok mem1 =>
          match write_size mem1 (w.rank_me_, dest_rank) (messages_total + 1) with
          | .error f => .error f
          | .ok mem2 => .ok { w with shared := mem2 }
  else .ok w

/-- The first loop of `Worker::validate_buffer_space`, over the send counters;
the state is `(max, min)`. -/
def Worker.validate_send (w : Worker) (i : Nat) (s : Nat × Nat) : Except Fault (Nat × Nat) :=
  match w.get_messgaes_count_send i with
  | .error f => .error f
  | .ok c => .ok (if c > s.1 then c else s.1, if c < s.2 then c else s.2)

/-- The second loop of `Worker::validate_buffer_space`, over the counters read
in place from co-located peers. -/
def Worker.validate_recv (w : Worker) (i : Nat) (s : Nat × Nat) : Except Fault (Nat × Nat) :=
  if w.is_process_local i then
    match w.get_messgaes_count_recv i with
    | .error f => .error f
    | .ok c => .ok (if c > s.1 then c else s.1, if c < s.2 then c else s.2)
  else .ok s

/-- `Worker::validate_buffer_space`. -/
def Worker.validate_buffer_space (w : Worker) : Except Fault Worker :=
  match w.get_messgaes_count_send w.rank_me_ with
  | .error f => .error f
  | .ok c0 =>
    match for_range w.total_workers w.validate_send (c0, c0) with
    | .error f => .error f
    | .ok s1 =>
      match for_range w.total_workers w.validate_recv s1 with
      | .error f => .error f
      | .ok (max, min) =>
        let w1 := { w with buffer_size_min := min, buffer_size_max := max }
        if max > w.BUFFER_MAX_SIZE then .ok { w1 with error := ERROR_NOT_ENOUGH_BUFFER_SPACE }
        else .ok w1

/-- The size that `validate_buffer_space` reports as needed when it detects an
overflow: `round_off(max, true, true)`. -/
def Worker.recommended (w : Worker) : Nat := round_off w.buffer_size_max true true

/-- The statement in the loop of `Worker::process_push_buffer`:
`tables[msg.dest_table]->apply_push_to_item(msg, !DEBUG_DISABLE_CREATE_ON_PUSH)`;
the returned status is dropped. -/
def Worker.apply_msg (hashf : Nat → Int) (w : Worker) (msg : Message) : Except Fault Worker :=
  match w.tables[msg.dest_table]? with
  | none => .error .out_of_bounds
  | some tb =>
    match tb.apply_push_to_item hashf w.total_workers w.rank_me_ msg
        (!DEBUG_DISABLE_CREATE_ON_PUSH) with
    | .error f => .error f
    | .ok (tb1, _) => .ok { w with tables := w.tables.set msg.dest_table tb1 }

/-- The loop body of `Worker::process_push_buffer`. -/
def Worker.process_push_body (hashf : Nat → Int) (recv_buffer : List Message) (i : Nat)
    (w : Worker) : Except Fault Worker :=
  match recv_buffer[i]? with
  | none => .error .out_of_bounds
  | some msg => w.apply_msg hashf msg

/-- `Worker::process_push_buffer`: the first `valid_buffer_size(messages_total)`
messages of the buffer are applied in index order. -/
def Worker.process_push_buffer (hashf : Nat → Int) (w : Worker) (recv_buffer : List Message)
    (messages_total : Nat) : Except Fault (Worker × Nat) :=
  let messages_total := w.valid_buffer_size messages_total
  match for_range messages_total (Worker.process_push_body hashf recv_buffer) w with
  | .error f => .error f
  | .ok w2 => .ok (w2, messages_total)

/-- The array a local pointer designates.  A null or dangling pointer
designates no slot: every access through it is out of bounds. -/
def deref_buffer (mem : List Segment) (p : Option GPtr) : List Message :=
  match p with
  | none => []
  | some q =>
    match read_buffer mem q with
    | .ok b => b
    | .error _ => []

/-- The body of the loop of `Worker::apply_push_incoming_local` for peer `i`. -/
def Worker.apply_local_body (hashf : Nat → Int) (i : Nat) (w : Worker) : Except Fault Worker :=
  if w.is_process_local i then
    match w.get_messgaes_count_recv i with
    | .error f => .error f
    | .ok c =>
      let messages_total := w.valid_buffer_size c
      match w.their_local_push_buffers[i]? with
      | none => .error .out_of_bounds
      | some bp =>
        let recv_buffer := deref_buffer w.shared bp
        match (if messages_total > 0 then
                match w.process_push_buffer hashf recv_buffer messages_total with
                | .error f => .error f
                | .ok (w1, n) => .ok { w1 with messages_recv_local := w1.messages_recv_local + n }
              else .ok w : Except Fault Worker) with
        | .error f => .error f
        | .ok w2 =>
          match w2.their_local_push_size[i]? with
          | some (some sp) =>
            match write_size w2.shared sp 0 with
            | .error f => .error f
            | .ok mem => .ok { w2 with shared := mem }
          | _ => .error .out_of_bounds
  else .ok w

/-- The counting loop of `apply_push_incoming_local`
(`SADDLEBAG_DEBUG > 0 && rank_me_ == 0`). -/
def Worker.count_sent_body (i : Nat) (w : Worker) : Except Fault Worker :=
  match w.get_messgaes_count_send i with
  | .error f => .error f
  | .ok c => .ok { w with messages_sent := w.messages_sent + w.valid_buffer_size c }

/-- `Worker::apply_push_incoming_local`. -/
def Worker.apply_push_incoming_local (hashf : Nat → Int) (w : Worker) : Except Fault Worker :=
  match for_range w.total_workers (Worker.apply_local_body hashf) w with
  | .error f => .error f
  | .ok w1 =>
    if SADDLEBAG_DEBUG > 0 ∧ w1.rank_me_ = 0 then
      for_range w1.total_workers Worker.count_sent_body w1
    else .ok w1

/-- Step 1 of `Worker::apply_push_incoming_remote`: a default future for a
co-located peer, the value read by `rget` from the peer's counter otherwise. -/
def Worker.remote_step1 (i : Nat) (w : Worker) : Except Fault Worker :=
  if w.is_process_local i then
    .ok { w with rget_futures_size := w.rget_futures_size ++ [none] }
  else
    match w.their_push_size_g[i]? with
    | none => .error .out_of_bounds
    | some p =>
      match read_size w.shared p with
      | .error f => .error f
      | .ok c => .ok { w with rget_futures_size := w.rget_futures_size ++ [some c] }

/-- Step 3 of `Worker::apply_push_incoming_remote`: store the awaited counter
and copy the first `valid_buffer_size(counter)` messages of the peer's array
into the staging array. -/
def Worker.remote_step3 (i : Nat) (w : Worker) : Except Fault Worker :=
  if w.is_process_local i then
    .ok { w with rget_futures_msgs := w.rget_futures_msgs ++ [false] }
  else
    match w.their_remote_push_size[i]?, w.rget_futures_size[i]? with
    | some (some _), some (some c) =>
      let messages_total := w.valid_buffer_size c
      match w.their_push_buffers_g[i]?, w.their_remote_push_buffers[i]? with
      | some p, some (some stage) =>
        match read_buffer w.shared p with
        | .error f => .error f
        | .ok src =>
          if messages_total ≤ src.length ∧ messages_total ≤ stage.length then
            .ok { w with
              their_remote_push_size := w.their_remote_push_size.set i (some c)
              their_remote_push_buffers := w.their_remote_push_buffers.set i
                (some (src.take messages_total ++ stage.drop messages_total))
              rget_futures_msgs := w.rget_futures_msgs ++ [true] }
          else .error .out_of_bounds
      | _, _ => .error .out_of_bounds
    | _, _ => .error .out_of_bounds

/-- Step 5 of `Worker::apply_push_incoming_remote`. -/
def Worker.remote_step5 (hashf : Nat → Int) (i : Nat) (w : Worker) : Except Fault Worker :=
  if ¬ w.is_process_local i then
    match w.rget_futures_msgs[i]?, w.their_remote_push_size[i]?,
        w.their_remote_push_buffers[i]? with
    | some _, some (some c), some (some recv_buffer) =>
      match w.process_push_buffer hashf recv_buffer (w.valid_buffer_size c) with
      | .error f => .error f
      | .ok (w1, n) => .ok { w1 with messages_recv_remote := w1.messages_recv_remote + n }
    | _, _, _ => .error .out_of_bounds
  else .ok w

/-- `Worker::apply_push_incoming_remote`. -/
def Worker.apply_push_incoming_remote (hashf : Nat → Int) (w : Worker) : Except Fault Worker :=
  match for_range w.total_workers Worker.remote_step1 w with
  | .error f => .error f
  | .ok w1 =>
    if w1.rget_futures_size.length ≠ w1.total_workers then .error .assertion
    else
      match w1.get_messgaes_count_recv w1.rank_me_ with
      | .error f => .error f
      | .ok c =>
        match w1.their_local_push_buffers[w1.rank_me_]? with
        | none => .error .out_of_bounds
        | some bp =>
          match w1.process_push_buffer hashf (deref_buffer w1.shared bp)
              (w1.valid_buffer_size c) with
          | .error f => .error f
          | .ok (w2, n) =>
            let w2 := { w2 with messages_recv_local := w2.messages_recv_local + n }
            match w2.their_local_push_size[w2.rank_me_]? with
            | some (some sp) =>
              match write_size w2.shared sp 0 with
              | .error f => .error f
              | .ok mem =>
                let w3 := { w2 with shared := mem }
                match for_range w3.total_workers Worker.remote_step3 w3 with
                | .error f => .error f
                | .ok w4 =>
                  if w4.rget_futures_msgs.length ≠ w4.total_workers then .error .assertion
                  else
                    match w4.apply_push_incoming_local hashf with
                    | .error f => .error f
                    | .ok w5 => for_range w5.total_workers (Worker.remote_step5 hashf) w5
            | _ => .error .out_of_bounds

/-- The loop body of `Worker::clear_buffers`. -/
def Worker.clear_body (i : Nat) (w : Worker) : Except Fault Worker :=
  if i < w.total_workers then
    match write_size w.shared (w.rank_me_, i) 0 with
    | .error f => .error f
    | .ok mem =>
      let w1 := { w with shared := mem }
      if ¬ w1.is_process_local i then
        match w1.their_remote_push_size[i]? with
        | some (some _) =>
          .ok { w1 with their_remote_push_size := w1.their_remote_push_size.set i (some 0) }
        | _ => .error .out_of_bounds
      else .ok w1
  else .error .out_of_bounds

/-- `Worker::clear_buffers`. -/
def Worker.clear_buffers (w : Worker) : Except Fault Worker :=
  let w0 := { w with messages_sent := 0, messages_recv_local := 0, messages_recv_remote := 0,
                     buffer_size_min := 0, buffer_size_max := 0 }
  match for_range w0.total_workers Worker.clear_body w0 with
  | .error f => .error f
  | .ok w1 =>
    .ok { w1 with fetch_futures_size := [], fetch_futures_msgs := [],
                  rget_futures_size := [], rget_futures_msgs := [] }

section Iteration

variable {K V : Type}

/-- The loop of `Robin_Map::begin()`: the first non-empty slot from `i` on,
`size` when there is none; the first argument counts the slots left. -/
def begin_loop (m : Robin_Map K V) : Nat → Nat → Except Fault Nat
  | 0, _ => .ok m.size
  | n + 1, i =>
    match m.entries[i]? with
    | none => .error .out_of_bounds
    | some e => if e.hash ≠ -1 then .ok i else begin_loop m n (i + 1)

/-- `Robin_Map::begin()`. -/
def Robin_Map.begin_ (m : Robin_Map K V) : Except Fault Nat := begin_loop m m.size 0

/-- The `do ... while` of `RobinIterator::operator++`.  At `current_loc == size`
the second conjunct of the loop condition ends the loop whatever the first
conjunct reads, so the result there is `size`. -/
def incr_loop (m : Robin_Map K V) : Nat → Nat → Except Fault Nat
  | 0, _ => .error .diverges
  | fuel + 1, current_loc =>
    let current_loc := current_loc + 1
    if current_loc = m.size then .ok current_loc
    else
      match m.entries[current_loc]? with
      | none => .error .out_of_bounds
      | some e => if e.hash = -1 then incr_loop m fuel current_loc else .ok current_loc

/-- `RobinIterator::operator++` on the iterator at `current_loc`. -/
def Robin_Map.incr (m : Robin_Map K V) (current_loc : Nat) : Except Fault Nat :=
  incr_loop m m.size current_loc

end Iteration

/-- What the user's `do_work` of an item pushes: a list of
`(destTableKey, destItemKey, val)`. -/
abbrev WorkProgram := Item → List (Nat × Nat × Int)

/-- `Item::push` called by an item of this worker. -/
def Worker.push (w : Worker) (it : Item) (destTableKey destItemKey : Nat) (val : Int) :
    Except Fault Worker :=
  let msg : Message := { dest_table := destTableKey, dest_item := destItemKey,
                         src_table := it.myTableKey, src_item := it.myItemKey, value := val }
  if ¬ (msg.src_table < w.total_tables) then .error .assertion
  else if ¬ (msg.dest_table < w.total_tables) then .error .assertion
  else w.enqueue_push_request msg

/-- A callback invoked through an item pointer of table `t`. -/
def Worker.invoke (w : Worker) (t : Nat) (obj : Option Nat) (c : Call) : Except Fault Worker :=
  match w.tables[t]?, obj with
  | some tb, some p =>
    match tb.invoke p c with
    | .error f => .error f
    | .ok tb1 => .ok { w with tables := w.tables.set t tb1 }
  | _, _ => .error .out_of_bounds

/-- The pushes of one `do_work`, in order. -/
def Worker.push_all (w : Worker) (it : Item) : List (Nat × Nat × Int) → Except Fault Worker
  | [] => .ok w
  | (dt, di, v) :: rest =>
    match w.push it dt di v with
    | .error f => .error f
    | .ok w1 => Worker.push_all w1 it rest

/-- The body of the inner loop of `Worker::work` for the item pointer `obj` of
table `t`: `before_work`, `do_work` (with the pushes the user code makes),
`finishing_work`. -/
def Worker.work_item (prog : WorkProgram) (w : Worker) (t : Nat) (obj : Option Nat) :
    Except Fault Worker :=
  match w.invoke t obj Call.before_work with
  | .error f => .error f
  | .ok w1 =>
    match w1.invoke t obj Call.do_work with
    | .error f => .error f
    | .ok w2 =>
      match w2.tables[t]?, obj with
      | some tb, some p =>
        match tb.objects[p]? with
        | none => .error .out_of_bounds
        | some it =>
          match w2.push_all it (prog it) with
          | .error f => .error f
          | .ok w3 => w3.invoke t obj Call.finishing_work
      | _, _ => .error .out_of_bounds

/-- The inner loop of `Worker::work` over the map of table `t`, from the
iterator at `loc` to `end()`. -/
def Worker.work_table_loop (prog : WorkProgram) (t : Nat) : Nat → Nat → Worker → Except Fault Worker
  | 0, _, _ => .error .diverges
  | fuel + 1, loc, w =>
    match w.tables[t]? with
    | none => .error .out_of_bounds
    | some tb =>
      if loc = tb.mapped_items.end_ then .ok w
      else
        match tb.mapped_items.entries[loc]? with
        | none => .error .out_of_bounds
        | some e =>
          match w.work_item prog t e.second with
          | .error f => .error f
          | .ok w1 =>
            match tb.mapped_items.incr loc with
            | .error f => .error f
            | .ok loc1 => Worker.work_table_loop prog t fuel loc1 w1

/-- `Worker::work`. -/
def Worker.work (prog : WorkProgram) (w : Worker) : Except Fault Worker :=
  for_range w.tables.length (fun t (w1 : Worker) =>
    match w1.tables[t]? with
    | none => .error .out_of_bounds
    | some tb =>
      match tb.mapped_items.begin_ with
      | .error f => .error f
      | .ok loc => Worker.work_table_loop prog t (tb.mapped_items.size + 1) loc w1) w

/-- The first loop of `Worker::create_buffers_gptr_wait`. -/
def Worker.gptr_wait_fetch (i : Nat) (w : Worker) : Except Fault Worker :=
  match w.fetch_futures_size[i]?, w.fetch_futures_msgs[i]? with
  | some fut_sz, some fut_msg =>
    .ok { w with their_push_size_g := w.their_push_size_g ++ [fut_sz],
                 their_push_buffers_g := w.their_push_buffers_g ++ [fut_msg] }
  | _, _ => .error .out_of_bounds

/-- The second loop of `Worker::create_buffers_gptr_wait`. -/
def Worker.gptr_wait_local (i : Nat) (w : Worker) : Except Fault Worker :=
  match w.their_push_size_g[i]?, w.their_push_buffers_g[i]? with
  | some sp, some bp =>
    .ok { w with
      their_local_push_size := w.their_local_push_size ++
        [if w.gptr_is_local sp then some sp else none],
      their_local_push_buffers := w.their_local_push_buffers ++
        [if w.gptr_is_local bp then some bp else none] }
  | _, _ => .error .out_of_bounds

/-- `Worker::create_buffers_gptr_wait`. -/
def Worker.create_buffers_gptr_wait (w : Worker) : Except Fault Worker :=
  match for_range w.total_workers Worker.gptr_wait_fetch w with
  | .error f => .error f
  | .ok w1 =>
    match for_range w1.total_workers Worker.gptr_wait_local w1 with
    | .error f => .error f
    | .ok w2 =>
      if w2.their_local_push_size.length = w2.total_workers ∧
          w2.their_local_push_buffers.length = w2.total_workers ∧
          w2.their_remote_push_size.length = w2.total_workers ∧
          w2.their_remote_push_buffers.length = w2.total_workers then .ok w2
      else .error .assertion

/-- One iteration of the loop of `Worker::cycle`. -/
def Worker.cycle_iteration (hashf : Nat → Int) (prog : WorkProgram) (do_work do_comm : Bool)
    (w : Worker) : Except Fault Worker :=
  match (if do_comm then
          match (if w.is_local_root then w.validate_buffer_space else .ok w :
              Except Fault Worker) with
          | .error f => .error f
          | .ok w1 =>
            match (if w1.total_nodes = 1 ∧ UPCXX_GPTR_LOCAL_ON then
                    w1.apply_push_incoming_local hashf
                  else w1.apply_push_incoming_remote hashf) with
            | .error f => .error f
            | .ok w2 => w2.clear_buffers
        else .ok w : Except Fault Worker) with
  | .error f => .error f
  | .ok w3 =>
    match (if do_work then w3.work prog else .ok w3 : Except Fault Worker) with
    | .error f => .error f
    | .ok w4 => .ok { w4 with cycles_counter := w4.cycles_counter + 1 }

/-- `Worker::cycle(iter, do_work, do_comm)`. -/
def Worker.cycle (hashf : Nat → Int) (prog : WorkProgram) (w : Worker) (iter : Nat)
    (do_work do_comm : Bool) : Except Fault Worker :=
  match (if w.cycles_counter = 0 then w.create_buffers_gptr_wait else .ok w :
      Except Fault Worker) with
  | .error f => .error f
  | .ok w1 => for_range iter (fun _ w2 => Worker.cycle_iteration hashf prog do_work do_comm w2) w1

/-- `Worker::add_table(table_key, is_global)`. -/
def Worker.add_table (w : Worker) (table_key : Nat) (is_global : Bool) : Except Fault Worker :=
  let tables := w.tables ++ [TableContainer.new]
  if table_key + 1 ≠ tables.length then .error .assertion
  else
    match tables[table_key]? with
    | none => .error .out_of_bounds
    | some tb =>
      .ok { w with
        tables := tables.set table_key
          { tb with is_global := is_global, myTableKey := table_key, worker := some w.rank_me_ },
        total_tables := tables.length }

/-- `Worker::add_item(table_key, item_key, is_remote, is_create, status)`: the
worker afterwards, the returned pointer and the status. -/
def Worker.add_item (hashf : Nat → Int) (w : Worker) (table_key item_key : Nat)
    (is_remote is_create : Bool) : Except Fault (Worker × Option Nat × Nat) :=
  if w.get_partition table_key item_key = w.rank_me_ then
    if ¬ (table_key < w.tables.length) then .error .assertion
    else
      match w.tables[table_key]? with
      | none => .error .out_of_bounds
      | some target_table =>
        match target_table.mapped_items.find hashf item_key with
        | .error f => .error f
        | .ok it =>
          if it = target_table.mapped_items.end_ then
            if is_create then
              let new_obj : Item := { Item.new with myTableKey := table_key,
                                                    myItemKey := item_key,
                                                    worker := some w.rank_me_ }
              let new_obj := new_obj.invoke Call.on_create
              let new_obj := new_obj.invoke Call.refresh
              let p := target_table.objects.length
              match target_table.mapped_items.insert hashf item_key (some p) with
              | .error f => .error f
              | .ok items =>
                let tb1 := { target_table with objects := target_table.objects ++ [new_obj],
                                               mapped_items := items }
                .ok ({ w with tables := w.tables.set table_key tb1 }, some p, CREATED_NEW_LOCAL)
            else .ok (w, none, IGNORED_NEW_LOCAL)
          else
            match target_table.mapped_items.entries[it]? with
            | none => .error .out_of_bounds
            | some e =>
              match w.invoke table_key e.second Call.refresh with
              | .error f => .error f
              | .ok w1 => .ok (w1, e.second, FOUND_EXISTING_LOCAL)
  else if w.get_partition table_key item_key ≠ w.rank_me_ ∧ is_create ∧ is_remote then
    let msg : Message := { dest_table := table_key, dest_item := item_key,
                           src_table := table_key, src_item := item_key, value := 0 }
    match w.enqueue_push_request msg with
    | .error f => .error f
    | .ok w1 => .ok (w1, none, REQUESTED_NEW_REMOTE)
  else .ok (w, none, IGNORED_NEW_REMOTE)

/-- The segment a rank registers in `create_buffers`: `n` counters at zero and
`n` arrays of `m` messages. -/
def Segment.new (n m : Nat) : Segment :=
  { push_buffers_size := List.replicate n 0,
    push_buffers := List.replicate n (List.replicate m default) }

/-- The constructor `Worker(buffer_size, mode)` on rank `rank_me` of `rank_n`,
with rank `team_rank_me` in a local team of `team_rank_n` whose members are
given by `proc_local`: `init_upcxx_variables`, `create_buffers` and
`create_buffers_gptr_init`.  The constructor is collective, so `shared` holds
the segments registered by all ranks. -/
def Worker.new (rank_me rank_n team_rank_me team_rank_n : Nat) (proc_local : List Bool)
    (buffer_size : Nat) : Worker :=
  let w0 : Worker :=
    { team_total_workers := team_rank_n, total_workers := rank_n, rank_n_ := rank_n,
      total_nodes := rank_n / team_rank_n + (if rank_n % team_rank_n = 0 then 0 else 1),
      rank_me_ := rank_me, team_rank_me_ := team_rank_me, total_tables := 0, error := 0,
      cycles_counter := 0, BUFFER_MAX_SIZE := buffer_size,
      their_push_size_g := [], their_local_push_size := [], fetch_futures_size := [],
      their_push_buffers_g := [], their_local_push_buffers := [], fetch_futures_msgs := [],
      rget_futures_size := [], rget_futures_msgs := [],
      their_remote_push_size := [], their_remote_push_buffers := [],
      tables := [], messages_sent := 0, messages_recv_local := 0, messages_recv_remote := 0,
      buffer_size_min := 0, buffer_size_max := 0, proc_local := proc_local,
      shared := List.replicate rank_n (Segment.new rank_n buffer_size) }
  { w0 with
    their_remote_push_size := (List.range rank_n).map
      (fun i => if w0.is_process_local i then none else some 0),
    their_remote_push_buffers := (List.range rank_n).map
      (fun i => if w0.is_process_local i then none
                else some (List.replicate buffer_size default)),
    fetch_futures_size := (List.range rank_n).map (fun i => dist_fetch i i),
    fetch_futures_msgs := (List.range rank_n).map (fun i => dist_fetch i i) }

/-! ## Views of the state used in the statements -/

/-- The counter a pointer refers to, 0 when the pointer is dangling. -/
def size_at (mem : List Segment) (p : GPtr) : Nat :=
  match read_size mem p with
  | .ok c => c
  | .error _ => 0

/-- The message array a pointer refers to. -/
def buffer_at (mem : List Segment) (p : GPtr) : List Message := deref_buffer mem (some p)

/-- The shared segments of `n` ranks with buffers of `m` messages. -/
def MemOK (mem : List Segment) (n m : Nat) : Prop :=
  mem.length = n ∧ ∀ seg ∈ mem, seg.push_buffers_size.length = n ∧
    seg.push_buffers.length = n ∧ ∀ b ∈ seg.push_buffers, b.length = m

/-- `send_count[p]`: this worker's counter for destination `p`. -/
def Worker.send_count (w : Worker) (p : Nat) : Nat := size_at w.shared (w.rank_me_, p)

/-- `send[p]`: this worker's message array for destination `p`. -/
def Worker.send_buffer (w : Worker) (p : Nat) : List Message := buffer_at w.shared (w.rank_me_, p)

/-- A client that calls `enqueue_push_request` for every message of a list,
in order. -/
def Worker.enqueue_all : Worker → List Message → Except Fault Worker
  | w, [] => .ok w
  | w, msg :: rest =>
    match w.enqueue_push_request msg with
    | .error f => .error f
    | .ok w1 => Worker.enqueue_all w1 rest

/-- The shared segments have the shape made by the constructors and this
worker is one of the ranks. -/
def Worker.MemWF (w : Worker) : Prop :=
  MemOK w.shared w.total_workers w.BUFFER_MAX_SIZE ∧ w.rank_me_ < w.total_workers

/-- The messages of a list whose partition is `p`, in order. -/
def sent_to (total_workers p : Nat) (msgs : List Message) : List Message :=
  msgs.filter (fun m => decide (get_partition total_workers m.dest_table m.dest_item = p))

/-- Counter and array for destination `p` after the messages `sent` were
enqueued on cleared buffers: the counter is the number of messages for `p`, the
array starts with the first `BUFFER_MAX_SIZE` of them. -/
def Worker.SendHolds (w : Worker) (sent : List Message) (p : Nat) : Prop :=
  w.send_count p = (sent_to w.total_workers p sent).length ∧
  (w.send_buffer p).take (min (sent_to w.total_workers p sent).length w.BUFFER_MAX_SIZE)
    = (sent_to w.total_workers p sent).take w.BUFFER_MAX_SIZE

/-- An example message: the value `i` for item `2 * i + 1` of table 0. -/
def odd_msg (i : Nat) : Message :=
  { value := (i : Int), src_table := 0, dest_table := 0, dest_item := 2 * i + 1, src_item := 0 }

/-- The example messages `odd_msg 0, ..., odd_msg (n - 1)`. -/
def odd_msgs (n : Nat) : List Message := (List.range n).map odd_msg

/-- The counter read in place from co-located peer `i`, through
`their_local_push_size[i]`. -/
def Worker.recv_count (w : Worker) (i : Nat) : Nat :=
  match w.their_local_push_size.getD i none with
  | some p => size_at w.shared p
  | none => 0

/-- The counters `validate_buffer_space` looks at: the send counters of this
worker, then the counters it reads in place from co-located peers. -/
def Worker.counters (w : Worker) : List Nat :=
  (List.range w.total_workers).map w.send_count ++
    ((List.range w.total_workers).filter w.is_process_local).map w.recv_count

/-- The local pointers held for the peers point into the shared segments. -/
def Worker.HandlesOK (w : Worker) : Prop :=
  (∀ (i : Nat) (sp : GPtr), w.their_local_push_size[i]? = some (some sp) →
    sp.1 < w.total_workers ∧ sp.2 < w.total_workers) ∧
  (∀ (i : Nat) (bp : GPtr), w.their_local_push_buffers[i]? = some (some bp) →
    bp.1 < w.total_workers ∧ bp.2 < w.total_workers)

/-- `mx` is the maximum of the list `l`. -/
def IsMaxOf (l : List Nat) (mx : Nat) : Prop := mx ∈ l ∧ ∀ c ∈ l, c ≤ mx

/-- The invariant of a table: its map satisfies the map invariant, no key is
stored twice, and every stored pointer refers to an allocated item that
carries the key it is stored under. -/
def TableOK (hashf : Nat → Int) (tb : TableContainer) : Prop :=
  tb.mapped_items.Inv hashf ∧ keys_distinct tb.mapped_items.entries ∧
  ∀ e ∈ live_list tb.mapped_items.entries,
    ∃ p it, e.second = some p ∧ tb.objects[p]? = some it ∧ it.myItemKey = e.first

/-- Key `k` is not stored in the table. -/
def TableContainer.absent (tb : TableContainer) (k : Nat) : Prop :=
  ∀ e ∈ live_list tb.mapped_items.entries, e.first ≠ k

/-- The item that `create_new_item(key)` followed by `on_push_recv(val)` leaves
in a table with key `t` and back-reference `wk`. -/
def pushed_new_item (t key : Nat) (wk : Option Nat) (val : Int) : Item :=
  { value := 0, myTableKey := t, myItemKey := key, worker := wk, next_seqnum := 0,
    calls := [Call.on_create, Call.refresh, Call.on_push_recv val] }

/-- An example message for item `key` of table 0 with value 7. -/
def msg_to (key : Nat) : Message :=
  { value := 7, src_table := 0, dest_table := 0, dest_item := key, src_item := 0 }

/-- The item that `add_item` creates for key `k` of table `t` on rank `me`,
after its `on_create` and `refresh`. -/
def added_item (t k me : Nat) : Item :=
  { value := 0, myTableKey := t, myItemKey := k, worker := some me, next_seqnum := 0,
    calls := [Call.on_create, Call.refresh] }

/-- How many entries of the table's map are stored under key `k`. -/
def TableContainer.entries_for (tb : TableContainer) (k : Nat) : Nat :=
  ((live_list tb.mapped_items.entries).filter (fun e => decide (e.first = k))).length

/-- How often callback `c` was invoked on an item. -/
def Item.count_call (it : Item) (c : Call) : Nat := it.calls.count c

/-- The worker with table `t` replaced. -/
def Worker.set_table (w : Worker) (t : Nat) (tb : TableContainer) : Worker :=
  { w with tables := w.tables.set t tb }

/-- The table with one more allocated item and a new map. -/
def TableContainer.with_new (tb : TableContainer) (it : Item)
    (items : Robin_Map Nat (Option Nat)) : TableContainer :=
  { tb with objects := tb.objects ++ [it], mapped_items := items }

/-- The table after callback `c` was invoked on its item `p`, which was `it`. -/
def TableContainer.with_call (tb : TableContainer) (p : Nat) (it : Item) (c : Call) :
    TableContainer :=
  { tb with objects := tb.objects.set p (it.invoke c) }

/-- An example worker: rank 0 of two workers on two nodes, `M = 8`, after
`add_table(0, true)`. -/
def sample_worker : Worker :=
  match (Worker.new 0 2 0 1 [true, false] 8).add_table 0 true with
  | .ok w => w
  | .error _ => Worker.new 0 2 0 1 [true, false] 8

/-- The table of `sample_worker`. -/
def sample_table : TableContainer :=
  { TableContainer.new with is_global := true, myTableKey := 0, worker := some 0 }

/-- The messages of a list applied one after the other, the head first. -/
def Worker.apply_msgs (hashf : Nat → Int) : Worker → List Message → Except Fault Worker
  | w, [] => .ok w
  | w, msg :: rest =>
    match w.apply_msg hashf msg with
    | .error f => .error f
    | .ok w1 => Worker.apply_msgs hashf w1 rest

/-- Every table of the worker satisfies the table invariant and carries its
index as key. -/
def Worker.TablesOK (hashf : Nat → Int) (w : Worker) : Prop :=
  ∀ t tb, w.tables[t]? = some tb → TableOK hashf tb ∧ tb.myTableKey = t

/-- The message is addressed to an item that is present in its destination
table on this worker, the home of its key. -/
def Worker.Deliverable (w : Worker) (msg : Message) : Prop :=
  ∃ tb p, w.tables[msg.dest_table]? = some tb ∧ tb.mapped_items.has msg.dest_item (some p) ∧
    w.get_partition msg.dest_table msg.dest_item = w.rank_me_

/-- The callbacks invoked so far on item pointer `p` of table `t`. -/
def Worker.calls_of (w : Worker) (t p : Nat) : List Call :=
  match w.tables[t]? with
  | none => []
  | some tb =>
    match tb.objects[p]? with
    | none => []
    | some it => it.calls

/-- The `on_push_recv` invocations that the messages of a list addressed to
item `k` of table `t` cause, in list order. -/
def recv_calls (t k : Nat) (msgs : List Message) : List Call :=
  (msgs.filter (fun m => decide (m.dest_table = t ∧ m.dest_item = k))).map
    (fun m => Call.on_push_recv m.value)

/-- The maps of all tables. -/
def Worker.maps (w : Worker) : List (Robin_Map Nat (Option Nat)) :=
  w.tables.map (fun tb => tb.mapped_items)

/-- The peer pointers as `create_buffers_gptr_wait` leaves them. -/
def Worker.Ready (w : Worker) : Prop :=
  w.their_push_size_g = (List.range w.total_workers).map (fun i => dist_fetch i i) ∧
  w.their_push_buffers_g = (List.range w.total_workers).map (fun i => dist_fetch i i) ∧
  w.their_local_push_size = (List.range w.total_workers).map
    (fun i => if w.proc_local.getD i false then some (dist_fetch i i) else none) ∧
  w.their_local_push_buffers = (List.range w.total_workers).map
    (fun i => if w.proc_local.getD i false then some (dist_fetch i i) else none)

/-- The peer pointers as the constructor leaves them: none resolved yet, the
fetches of `create_buffers_gptr_init` pending. -/
def Worker.Fresh (w : Worker) : Prop :=
  w.their_push_size_g = [] ∧ w.their_push_buffers_g = [] ∧
  w.their_local_push_size = [] ∧ w.their_local_push_buffers = [] ∧
  w.fetch_futures_size = (List.range w.total_workers).map (fun i => dist_fetch i i) ∧
  w.fetch_futures_msgs = (List.range w.total_workers).map (fun i => dist_fetch i i)

/-- Every peer has a staging counter and a staging array of `M` messages. -/
def Worker.StagingOK (w : Worker) : Prop :=
  w.their_remote_push_size.length = w.total_workers ∧
  w.their_remote_push_buffers.length = w.total_workers ∧
  (∀ i, i < w.total_workers → ∃ c, w.their_remote_push_size[i]? = some (some c)) ∧
  (∀ i, i < w.total_workers → ∃ b, w.their_remote_push_buffers[i]? = some (some b) ∧
    b.length = w.BUFFER_MAX_SIZE)

/-- The state of the buffers that every step of the exchange phase keeps:
well-formed segments and staging, this rank in its own local team, and the
counters this worker reads from its peers all zero. -/
def Worker.Quiet (w : Worker) : Prop :=
  w.MemWF ∧ w.StagingOK ∧ w.proc_local.getD w.rank_me_ false = true ∧
  ∀ i, i < w.total_workers → i ≠ w.rank_me_ → size_at w.shared (dist_fetch i i) = 0

/-- No other rank of the run is in this worker's local team (the worker is
alone on its node).  A rank writes to the segment of another rank only through
`their_local_push_size`, the handles of its co-located peers, so the counters of
a secluded worker are written by that worker alone. -/
def Worker.Secluded (w : Worker) : Prop :=
  ∀ i, i < w.total_workers → i ≠ w.rank_me_ → w.proc_local.getD i false = false

/-- The message is addressed to a table that exists on this worker and to a
key whose home is another rank: `apply_push_to_item` ignores it here. -/
def Worker.Foreign (w : Worker) (msg : Message) : Prop :=
  ∃ tb, w.tables[msg.dest_table]? = some tb ∧
    saddlebags.get_partition w.total_workers tb.myTableKey msg.dest_item ≠ w.rank_me_

/-- The item without its callback log. -/
def Item.frozen (it : Item) : Item := { it with calls := [] }

/-- The allocated items of all tables, without their callback logs. -/
def Worker.frozen (w : Worker) : List (List Item) :=
  w.tables.map (fun tb => tb.objects.map Item.frozen)

/-- Worker `w'` is worker `w` after the messages `l` were delivered to items
present on it: same maps, on every stored item the `on_push_recv` calls of
the messages of `l` addressed to it were appended, in the order of `l`, and
nothing but the callback logs of the allocated items has changed. -/
def Delivered (hashf : Nat → Int) (w w' : Worker) (l : List Message) : Prop :=
  w'.maps = w.maps ∧ w'.TablesOK hashf ∧ w'.total_workers = w.total_workers ∧
  w'.rank_me_ = w.rank_me_ ∧ w'.BUFFER_MAX_SIZE = w.BUFFER_MAX_SIZE ∧
  (∀ t tb e p, w.tables[t]? = some tb → e ∈ live_list tb.mapped_items.entries →
    e.second = some p → w'.calls_of t p = w.calls_of t p ++ recv_calls t e.first l) ∧
  w'.frozen = w.frozen

/-- The worker without the parts that applying messages and counting them
change: tables, shared segments and the three message counters. -/
def Worker.skeleton (w : Worker) : Worker :=
  { w with tables := [], shared := [], messages_sent := 0, messages_recv_local := 0,
           messages_recv_remote := 0 }

/-- The messages that the exchange phase takes from this worker's own send
array: the first `min(count, M)`. -/
def Worker.self_msgs (w : Worker) : List Message :=
  (buffer_at w.shared (dist_fetch w.rank_me_ w.rank_me_)).take
    (min (size_at w.shared (dist_fetch w.rank_me_ w.rank_me_)) w.BUFFER_MAX_SIZE)

/-- The fields fixed after the first cycle: ranks, sizes and peer pointers. -/
def Worker.statics (w : Worker) :
    Nat × Nat × Nat × List Bool × List GPtr × List GPtr × List (Option GPtr) ×
      List (Option GPtr) :=
  (w.total_workers, w.rank_me_, w.BUFFER_MAX_SIZE, w.proc_local, w.their_push_size_g,
    w.their_push_buffers_g, w.their_local_push_size, w.their_local_push_buffers)

/-- The worker `sample_worker` after `add_item(0, 2)`: table 0 holds one item,
stored under the local key 2. -/
def sample_worker_item : Worker :=
  match sample_worker.add_item sample_hash 0 2 false true with
  | .ok (w, _, _) => w
  | .error _ => sample_worker


/-- The table that `add_table(key, is_global)` stores on rank `me`: no items,
an empty map, the key, the flag and the back-reference. -/
def TableContainer.fresh (key : Nat) (is_global : Bool) (me : Nat) : TableContainer :=
  { myTableKey := key, is_global := is_global, worker := some me, mapped_items := Robin_Map.new,
    objects := [] }


/-- The message that the remote branch of `add_item(t, k, ...)` builds:
source and destination are both item `k` of table `t`, the value is `Msg_T()`. -/
def creation_request (t k : Nat) : Message :=
  { value := 0, src_table := t, dest_table := t, dest_item := k, src_item := k }


/-- The worker with its error code replaced. -/
def Worker.with_error (w : Worker) (e : Nat) : Worker := { w with error := e }


/-- The part of one iteration of `cycle` with `do_comm` that follows the
validation: exchange, `clear_buffers`, the work phase when `do_work`, and the
increment of `cycles_counter`. -/
def Worker.after_validate (hashf : Nat → Int) (prog : WorkProgram) (do_work : Bool)
    (w1 : Worker) : Except Fault Worker :=
  match (match (if w1.total_nodes = 1 ∧ UPCXX_GPTR_LOCAL_ON then
                  w1.apply_push_incoming_local hashf
                else w1.apply_push_incoming_remote hashf) with
         | .error f => .error f
         | .ok w2 => w2.clear_buffers : Except Fault Worker) with
  | .error f => .error f
  | .ok w3 =>
    match (if do_work then w3.work prog else .ok w3 : Except Fault Worker) with
    | .error f => .error f
    | .ok w4 => .ok { w4 with cycles_counter := w4.cycles_counter + 1 }


/-- The fields of the worker that neither the exchange phase nor the work phase
writes and that only `cycle` itself and `Item::push` read: the team size, the
rank count, the node count, the rank in the local team, the table count and
the cycle counter. -/
def Worker.config (w : Worker) : Nat × Nat × Nat × Nat × Nat × Nat :=
  (w.team_total_workers, w.rank_n_, w.total_nodes, w.team_rank_me_, w.total_tables,
    w.cycles_counter)

/-- The worker with the fields of `Worker.config` replaced. -/
def Worker.with_config (w : Worker) (c : Nat × Nat × Nat × Nat × Nat × Nat) : Worker :=
  { w with team_total_workers := c.1, rank_n_ := c.2.1, total_nodes := c.2.2.1,
           team_rank_me_ := c.2.2.2.1, total_tables := c.2.2.2.2.1,
           cycles_counter := c.2.2.2.2.2 }


/-- The pairs (table key, item pointer) that an iteration over the maps `ms` of
the tables `t, t + 1, ...` yields: table by table in increasing key, within a
table the non-empty slots in increasing slot index. -/
def visits_from (t : Nat) : List (Robin_Map Nat (Option Nat)) → List (Nat × Option Nat)
  | [] => []
  | m :: rest => (live_list m.entries).map (fun e => (t, e.second)) ++ visits_from (t + 1) rest

/-- The items of the worker in the order of an iteration over its tables. -/
def Worker.visit_order (w : Worker) : List (Nat × Option Nat) := visits_from 0 w.maps

/-- The work phase as the specification words it (for each table in
declaration order, iterate the items of the table's map and invoke
`before_work`, `do_work`, `finishing_work` in that order on each item): the
body of the loop of `work` run for every pair of a list, one pair after the
other, in list order.  To be compared with `Worker.work`. -/
def Worker.work_in_order (prog : WorkProgram) :
    Worker → List (Nat × Option Nat) → Except Fault Worker
  | w, [] => .ok w
  | w, (t, obj) :: rest =>
    match w.work_item prog t obj with
    | .error f => .error f
    | .ok w1 => Worker.work_in_order prog w1 rest

/-- The message that `Item::push(destTableKey, destItemKey, val)` builds when
called by item `it`. -/
def push_msg (it : Item) (x : Nat × Nat × Int) : Message :=
  { dest_table := x.1, dest_item := x.2.1, src_table := it.myTableKey, src_item := it.myItemKey,
    value := x.2.2 }

/-- The item as its `do_work` sees it: `before_work` and `do_work` were
invoked. -/
def Item.at_work (it : Item) : Item := (it.invoke Call.before_work).invoke Call.do_work

/-- The item after its turn in the work phase. -/
def Item.worked (it : Item) : Item := it.at_work.invoke Call.finishing_work


/-- The item behind pointer `obj` of table `t`, if both exist. -/
def Worker.item_at (w : Worker) (t : Nat) (obj : Option Nat) : Option Item :=
  match w.tables[t]?, obj with
  | some tb, some p => tb.objects[p]?
  | _, _ => none

/-- The messages that the items of a list of visits push in their `do_work`,
in visiting order; every item is taken as it is in `w`, before its turn. -/
def Worker.work_msgs (prog : WorkProgram) (w : Worker) : List (Nat × Option Nat) → List Message
  | [] => []
  | v :: rest =>
    (match w.item_at v.1 v.2 with
      | some it => (prog it.at_work).map (push_msg it.at_work)
      | none => []) ++ Worker.work_msgs prog w rest

/-- Every allocated item carries a table key below `total_tables`, as the first
assertion of `Item::push` requires. -/
def Worker.SrcOK (w : Worker) : Prop :=
  ∀ l ∈ w.frozen, ∀ it ∈ l, it.myTableKey < w.total_tables



/-- The `do_comm` block of one iteration of `cycle`: the validation on the
local root, the exchange on the local or on the remote path, `clear_buffers`. -/
def Worker.comm_phase (hashf : Nat → Int) (w : Worker) : Except Fault Worker :=
  match (if w.is_local_root then w.validate_buffer_space else .ok w : Except Fault Worker) with
  | .error f => .error f
  | .ok w1 =>
    match (if w1.total_nodes = 1 ∧ UPCXX_GPTR_LOCAL_ON then
            w1.apply_push_incoming_local hashf
          else w1.apply_push_incoming_remote hashf) with
    | .error f => .error f
    | .ok w2 => w2.clear_buffers



/-- The state of a worker between two iterations of `cycle`: peer pointers
resolved, quiet buffers, no pending `rget`, tables that satisfy their invariant
and items that may push. -/
def Worker.Steady (hashf : Nat → Int) (w : Worker) : Prop :=
  w.Ready ∧ w.Quiet ∧ w.rget_futures_size = [] ∧ w.rget_futures_msgs = [] ∧
  w.TablesOK hashf ∧ w.SrcOK

/-- The pushes of the user program name destination tables below
`total_tables` (the second assertion of `Item::push`), and those whose home is
this rank name items present here. -/
def Worker.ProgOK (w : Worker) (prog : WorkProgram) : Prop :=
  ∀ it, ∀ x ∈ prog it, x.1 < w.total_tables ∧
    (w.get_partition x.1 x.2.1 = w.rank_me_ → w.Deliverable (push_msg it x))



/-- The pushes of the user program do not depend on the callback log of the
pushing item. -/
def prog_static (prog : WorkProgram) : Prop :=
  ∀ it it2 : Item, it.frozen = it2.frozen → prog it = prog it2

/-- The callbacks that `k` iterations of `cycle(k, true, true)` append to the
log of an item when every iteration but the first delivers the calls `R` to it
in its exchange phase: an iteration appends what it delivers and then the
three callbacks of the work phase. -/
def steady_log (R : List Call) : Nat → List Call
  | 0 => []
  | n + 1 => steady_log R n ++ (if n = 0 then [] else R) ++
      [Call.before_work, Call.do_work, Call.finishing_work]



/-- The user program of the fan-in scenario: in its `do_work` an item whose
(table key, item key) is in `senders` pushes the value `v` to item `kr` of
table `tr`; the other items push nothing. -/
def fan_in (senders : List (Nat × Nat)) (tr kr : Nat) (v : Int) : WorkProgram :=
  fun it => if (it.myTableKey, it.myItemKey) ∈ senders then [(tr, kr, v)] else []

/-- The accumulator of a user item whose `on_push_recv(val)` adds `val` to it
and whose other callbacks leave it alone, read off the callback log. -/
def accumulated : List Call → Int
  | [] => 0
  | Call.on_push_recv v :: rest => v + accumulated rest
  | _ :: rest => accumulated rest

/-- Every allocated item carries the key of the table that holds it. -/
def Worker.ItemsOK (w : Worker) : Prop :=
  ∀ (t : Nat) (l : List Item), w.frozen[t]? = some l → ∀ it ∈ l, it.myTableKey = t

/-- The visit is that of an item whose keys are in `senders`. -/
def sender_visit (w : Worker) (senders : List (Nat × Nat)) (v : Nat × Option Nat) : Bool :=
  match w.item_at v.1 v.2 with
  | some it => decide ((it.myTableKey, it.myItemKey) ∈ senders)
  | none => false

/-- The keys under which the item of a visit is known: its table key and its
item key. -/
def visit_key (w : Worker) (v : Nat × Option Nat) : Nat × Nat :=
  match w.item_at v.1 v.2 with
  | some it => (it.myTableKey, it.myItemKey)
  | none => (0, 0)

/-- A client that calls `add_item(t, k, false, true)` for every key of a list,
in order. -/
def Worker.add_items (hashf : Nat → Int) : Worker → Nat → List Nat → Worker
  | w, _, [] => w
  | w, t, k :: rest =>
    match w.add_item hashf t k false true with
    | .ok (w1, _, _) => Worker.add_items hashf w1 t rest
    | .error _ => w

/-- An example worker: the only rank of a run with one worker, `M = 4`, after
`add_table(0, true)`. -/
def solo_worker : Worker :=
  match (Worker.new 0 1 0 1 [true] 4).add_table 0 true with
  | .ok w => w
  | .error _ => Worker.new 0 1 0 1 [true] 4

/-- The worker `solo_worker` after `add_item(0, k)` for the keys 0, 1 and 2. -/
def solo_items : Worker := solo_worker.add_items sample_hash 0 [0, 1, 2]



/-- The peer of `sample_worker`: rank 1 of the same run of two workers on two
nodes, `M = 8`, after its `add_table(0, true)`. -/
def sample_peer : Worker :=
  match (Worker.new 1 2 0 1 [false, true] 8).add_table 0 true with
  | .ok w => w
  | .error _ => Worker.new 1 2 0 1 [false, true] 8



/-- The part of the `do_comm` block before `clear_buffers`: the validation on
the local root and the exchange.  Its result is the state whose counters the
diagnostic line of `cycle` reads. -/
def Worker.exchange_phase (hashf : Nat → Int) (w : Worker) : Except Fault Worker :=
  match (if w.is_local_root then w.validate_buffer_space else .ok w : Except Fault Worker) with
  | .error f => .error f
  | .ok w1 =>
    if w1.total_nodes = 1 ∧ UPCXX_GPTR_LOCAL_ON then w1.apply_push_incoming_local hashf
    else w1.apply_push_incoming_remote hashf

/-- The worker `solo_items` after `create_buffers_gptr_wait`, as at the start
of the first iteration of its first `cycle`. -/
def solo_ready : Worker :=
  match solo_items.create_buffers_gptr_wait with
  | .ok w => w
  | .error _ => solo_items



/-- The worker `solo_ready` after five messages for its item 0 were enqueued:
its send counter for itself is 5, with `M = 4`. -/
def solo_overflow : Worker :=
  match solo_ready.enqueue_all (List.replicate 5 (msg_to 0)) with
  | .ok w => w
  | .error _ => solo_ready

/-- An example worker that is not the root of its local team: rank 1 of a run
of two workers on one node (team rank 1), `M = 4`, after `add_table(0, true)`. -/
def nonroot_worker : Worker :=
  match (Worker.new 1 2 1 2 [true, true] 4).add_table 0 true with
  | .ok w => w
  | .error _ => Worker.new 1 2 1 2 [true, true] 4

/-- The worker `nonroot_worker` after five messages for rank 0 were enqueued:
its send counter for rank 0 is 5, with `M = 4`. -/
def nonroot_overflow : Worker :=
  match nonroot_worker.enqueue_all (List.replicate 5 (msg_to 0)) with
  | .ok w => w
  | .error _ => nonroot_worker

/-- Rank 0 of a run of three workers, `M = 4`, after `add_table(0, true)`: the
ranks 0 and 1 share a node, rank 2 is on another one, so the exchange takes the
remote path. -/
def trio_worker : Worker :=
  match (Worker.new 0 3 0 2 [true, true, false] 4).add_table 0 true with
  | .ok w => w
  | .error _ => Worker.new 0 3 0 2 [true, true, false] 4

/-- The worker `trio_worker` after `add_item(0, 0)`; the home of key 0 is rank 0. -/
def trio_items : Worker := trio_worker.add_items sample_hash 0 [0]

/-- Rank 1 of the same run, the co-located peer of `trio_worker`, after
`add_table(0, true)`. -/
def trio_peer_fresh : Worker :=
  match (Worker.new 1 3 1 2 [true, true, false] 4).add_table 0 true with
  | .ok w => w
  | .error _ => Worker.new 1 3 1 2 [true, true, false] 4

/-- The peer after `create_buffers_gptr_wait`, as in its first `cycle`. -/
def trio_peer : Worker :=
  match trio_peer_fresh.create_buffers_gptr_wait with
  | .ok w => w
  | .error _ => trio_peer_fresh



/-! ## hashf.cpp -/

/-- A mathematical integer brought into the range of a 32-bit `int`, as
two's-complement arithmetic does; on a value below `2^32` this is the cast
`(int)u` of a `uint32`. -/
def wrap32 (x : Int) : Int := (x + 2 ^ 31) % 2 ^ 32 - 2 ^ 31

/-- `int c_abs(int input)`: `input` if it is not negative, `input * -1`
otherwise, the product taken in 32-bit two's-complement arithmetic. -/
def c_abs (input : Int) : Int :=
  if input ≥ 0 then input else wrap32 (input * -1)

/-- `int hashf(key)` for a key that is hashed directly (`int`, `std::string`):
`c_abs(CityHash32(...))`.  `CityHash32` comes from `city.h`, which is not part
of the sources; it is a parameter here, its result taken as a `uint32`. -/
def hashf {K : Type} (CityHash32 : K → Nat) (key : K) : Int :=
  c_abs (wrap32 ((CityHash32 key % 2 ^ 32 : Nat) : Int))



/-- The capacity of a map after `j` more `insert` calls, when it has capacity
`size` and `n` counted entries now: each call doubles the capacity first if
`above_load_factor()` holds, then adds one entry. -/
def capacity_after : Nat → Nat → Nat → Nat
  | size, _, 0 => size
  | size, n, j + 1 =>
    capacity_after (if to_float size < 2 * to_float n then size * 2 else size) (n + 1) j


section IterationClient

variable {K V : Type}

/-- The loop `for (...; it != end(); ++it)` of a client of the map, as in
`Worker::work`, from the iterator at `loc`: it collects `current_loc` and `*it`
of every step. -/
def iterate_loop (m : Robin_Map K V) : Nat → Nat → Except Fault (List (Nat × Entry K V))
  | 0, _ => .error .diverges
  | fuel + 1, loc =>
    if loc = m.end_ then .ok []
    else
      match m.entries[loc]? with
      | none => .error .out_of_bounds
      | some e =>
        match m.incr loc with
        | .error f => .error f
        | .ok loc1 =>
          match iterate_loop m fuel loc1 with
          | .error f => .error f
          | .ok rest => .ok ((loc, e) :: rest)

/-- The client loop `for (it = begin(); it != end(); ++it)`. -/
def Robin_Map.iterate (m : Robin_Map K V) : Except Fault (List (Nat × Entry K V)) :=
  match m.begin_ with
  | .error f => .error f
  | .ok loc => iterate_loop m (m.size + 1) loc

/-- The non-empty slots from index `i` on, each with its entry, in index order. -/
def live_from (es : List (Entry K V)) (i : Nat) : List (Nat × Entry K V) :=
  (List.enumFrom i (es.drop i)).filter (fun p => decide (p.2.hash ≠ -1))

/-- The `do ... while` of `RobinIterator::operator++` with its reads: the
condition `entries[current_loc].hash == -1 && current_loc != size` reads the
array first and compares `current_loc` with `size` second.  The first component
of the result lists the indices of `entries` that are read, in order; a read at
an index outside the array yields the value `beyond`. -/
def incr_reads (m : Robin_Map K V) (beyond : Int) : Nat → Nat → List Nat × Except Fault Nat
  | 0, _ => ([], .error .diverges)
  | fuel + 1, current_loc =>
    let current_loc := current_loc + 1
    let h : Int := match m.entries[current_loc]? with
      | some e => e.hash
      | none => beyond
    if h = -1 ∧ current_loc ≠ m.size then
      let r := incr_reads m beyond fuel current_loc
      (current_loc :: r.1, r.2)
    else ([current_loc], .ok current_loc)

end IterationClient


/-- A map state for examples: four slots, of which slots 1 and 3 hold an entry. -/
def sample_slots : Robin_Map Nat Nat :=
  { size := 4,
    entries := [Entry.blank, { hash := 1, first := 1, second := 10 }, Entry.blank,
                { hash := 3, first := 3, second := 30 }],
    num_items := 2 }


/-- Rank 0 of two workers on two nodes with `M = 8`, after ten messages for
rank 1 were enqueued: the largest counter is 10. -/
def sample_overflow : Worker :=
  match (Worker.new 0 2 0 1 [true, false] 8).enqueue_all (odd_msgs 10) with
  | .ok w => w
  | .error _ => Worker.new 0 2 0 1 [true, false] 8


/-- The fresh map after the inserts of the keys 0 and 1024 with `sample_hash`:
both have the home slot 0, and they are stored in the slots 0 and 1. -/
def collide_map : Robin_Map Nat Nat :=
  { size := 1024,
    entries := ((List.replicate 1024 Entry.blank).set 0
      { hash := 0, first := 0, second := 0 }).set 1 { hash := 1024, first := 1024, second := 0 },
    num_items := 2 }


/-! # Theorems -/

/-! ## The conversion to `float` -/

theorem to_float_small (n : Nat) (h : n < 2 ^ 24) : to_float n = n := by
  unfold to_float
  rw [if_pos h]

/-- The conversion moves a value by less than one unit of its last place. -/
theorem to_float_near (n : Nat) (h : 2 ^ 24 ≤ n) :
    ∃ e q, e = Nat.log2 n - 23 ∧ q = n / 2 ^ e ∧ 2 ^ 23 ≤ q ∧ q * 2 ^ e ≤ n ∧
      n < (q + 1) * 2 ^ e ∧ (to_float n = q * 2 ^ e ∨ to_float n = (q + 1) * 2 ^ e) := by
  have hn0 : n ≠ 0 := by
    have : 0 < 2 ^ 24 := by norm_num
    omega
  have hlog : 24 ≤ Nat.log2 n := by
    by_contra hc
    have h1 : Nat.log2 n < 24 := by omega
    have := (Nat.log2_lt hn0).mp h1
    omega
  have hle : 2 ^ Nat.log2 n ≤ n := Nat.log2_self_le hn0
  have hpos : 0 < 2 ^ (Nat.log2 n - 23) := Nat.two_pow_pos _
  have hsplit : 2 ^ Nat.log2 n = 2 ^ 23 * 2 ^ (Nat.log2 n - 23) := by
    rw [← pow_add]
    congr 1
    omega
  refine ⟨Nat.log2 n - 23, n / 2 ^ (Nat.log2 n - 23), rfl, rfl, ?_, Nat.div_mul_le_self _ _, ?_, ?_⟩
  · rw [Nat.le_div_iff_mul_le hpos, ← hsplit]
    exact hle
  · have h1 := Nat.div_add_mod n (2 ^ (Nat.log2 n - 23))
    have h2 := Nat.mod_lt n hpos
    have h3 : (n / 2 ^ (Nat.log2 n - 23) + 1) * 2 ^ (Nat.log2 n - 23)
        = 2 ^ (Nat.log2 n - 23) * (n / 2 ^ (Nat.log2 n - 23)) + 2 ^ (Nat.log2 n - 23) := by ring
    rw [h3]
    omega
  · unfold to_float
    rw [if_neg (by omega)]
    simp only []
    split
    · exact Or.inr rfl
    · exact Or.inl rfl

theorem to_float_lower (n : Nat) : 3 * n ≤ 4 * to_float n := by
  by_cases h : n < 2 ^ 24
  · rw [to_float_small n h]
    omega
  · obtain ⟨e, q, -, -, hq, h1, h2, h3⟩ := to_float_near n (by omega)
    have h4 : (q + 1) * 2 ^ e = q * 2 ^ e + 2 ^ e := by ring
    have h5 : 3 * 2 ^ e ≤ q * 2 ^ e := by
      apply Nat.mul_le_mul_right
      have : (3 : Nat) ≤ 2 ^ 23 := by norm_num
      omega
    rcases h3 with h3 | h3 <;> rw [h3] <;> omega

theorem to_float_pow2 (k : Nat) : to_float (2 ^ k) = 2 ^ k := by
  by_cases h : 2 ^ k < 2 ^ 24
  · exact to_float_small _ h
  · have hk : 24 ≤ k := by
      by_contra hc
      exact h (Nat.pow_lt_pow_right (by norm_num) (by omega))
    have hlog : Nat.log2 (2 ^ k) = k := Nat.log2_two_pow
    have hsplit : 2 ^ k = 2 ^ 23 * 2 ^ (k - 23) := by
      rw [← pow_add]
      congr 1
      omega
    have hpos : 0 < 2 ^ (k - 23) := Nat.two_pow_pos _
    have hr : 2 ^ k % 2 ^ (k - 23) = 0 := by
      rw [hsplit]
      exact Nat.mul_mod_left _ _
    have hq : 2 ^ k / 2 ^ (k - 23) * 2 ^ (k - 23) = 2 ^ k := by
      rw [hsplit]
      rw [Nat.mul_div_cancel _ hpos]
    unfold to_float
    rw [if_neg h]
    simp only [hlog, hr, Nat.mul_zero]
    rw [if_neg (by omega)]
    exact hq

/-- A value at most a power of two is converted to a value at most that power. -/
theorem to_float_le_pow2 (n k : Nat) (h : n ≤ 2 ^ k) : to_float n ≤ 2 ^ k := by
  by_cases hs : n < 2 ^ 24
  · rw [to_float_small n hs]
    exact h
  · rcases Nat.lt_or_ge n (2 ^ k) with hlt | hge
    · obtain ⟨e, q, he, -, hq, h1, h2, h3⟩ := to_float_near n (by omega)
      have hn0 : n ≠ 0 := by
        have : 0 < 2 ^ 24 := by norm_num
        omega
      have hlog : Nat.log2 n < k := (Nat.log2_lt hn0).mpr hlt
      have hek : e ≤ k := by omega
      have hsplit : 2 ^ k = 2 ^ (k - e) * 2 ^ e := by
        rw [← pow_add]
        congr 1
        omega
      have hpos : 0 < 2 ^ e := Nat.two_pow_pos _
      have hqlt : q < 2 ^ (k - e) := by
        by_contra hc
        have : 2 ^ (k - e) * 2 ^ e ≤ q * 2 ^ e := Nat.mul_le_mul_right _ (by omega)
        omega
      have hfin : (q + 1) * 2 ^ e ≤ 2 ^ k := by
        rw [hsplit]
        exact Nat.mul_le_mul_right _ hqlt
      rcases h3 with h3 | h3 <;> rw [h3] <;> omega
    · have : n = 2 ^ k := by omega
      rw [this, to_float_pow2]

theorem log2_val (n k : Nat) (h1 : 2 ^ k ≤ n) (h2 : n < 2 ^ (k + 1)) : Nat.log2 n = k := by
  have hn0 : n ≠ 0 := by
    have : 0 < 2 ^ k := Nat.two_pow_pos k
    omega
  have ha : Nat.log2 n < k + 1 := (Nat.log2_lt hn0).mpr h2
  have hb : ¬ Nat.log2 n < k := fun hc => by
    have := (Nat.log2_lt hn0).mp hc
    omega
  omega


/-- The bound of the map invariant leaves an empty slot. -/
theorem room_of_bound (n s : Nat) (h : 2 * to_float (n - 1) ≤ s) (h4 : 4 ≤ s) : n < s := by
  have := to_float_lower (n - 1)
  omega


/-! ## The probe sequence -/

theorem bit_modulo_ofNat (x k : Nat) :
    bit_modulo (x : Int) ((2 ^ k : Nat) : Int) = ((x % 2 ^ k : Nat) : Int) := by
  unfold bit_modulo
  have h : ((2 ^ k : Nat) : Int) - 1 = ((2 ^ k - 1 : Nat) : Int) := by
    have : 1 ≤ 2 ^ k := Nat.one_le_two_pow
    omega
  rw [h]
  show ((x &&& (2 ^ k - 1) : Nat) : Int) = _
  rw [Nat.and_pow_two_sub_one_eq_mod]

theorem bit_modulo_negSucc (m k : Nat) :
    bit_modulo (Int.negSucc m) ((2 ^ k : Nat) : Int) = ((Nat.ldiff (2 ^ k - 1) m : Nat) : Int) := by
  unfold bit_modulo
  have h : ((2 ^ k : Nat) : Int) - 1 = ((2 ^ k - 1 : Nat) : Int) := by
    have : 1 ≤ 2 ^ k := Nat.one_le_two_pow
    omega
  rw [h]
  rfl

theorem ldiff_mask_lt (m k : Nat) : Nat.ldiff (2 ^ k - 1) m < 2 ^ k := by
  apply Nat.lt_pow_two_of_testBit
  intro i hi
  rw [Nat.testBit_ldiff]
  have : (2 ^ k - 1).testBit i = false := by
    rw [Nat.testBit_two_pow_sub_one]
    simp; omega
  simp [this]

/-- The home slot of any hash, negative ones included, is a slot of the array. -/
theorem bit_modulo_lt (x : Int) (k : Nat) :
    (bit_modulo x ((2 ^ k : Nat) : Int)).toNat < 2 ^ k := by
  cases x with
  | ofNat n =>
    show (bit_modulo (n : Int) _).toNat < _
    rw [bit_modulo_ofNat, Int.toNat_ofNat]
    exact Nat.mod_lt _ (Nat.two_pow_pos k)
  | negSucc m =>
    rw [bit_modulo_negSucc, Int.toNat_ofNat]
    exact ldiff_mask_lt m k

theorem probe_step_pow2 (k location i : Nat) :
    probe_step (2 ^ k) location i = (location + i) % 2 ^ k := by
  unfold probe_step
  have h : ((location : Int) + (i : Int)) = ((location + i : Nat) : Int) := by push_cast; rfl
  rw [h, bit_modulo_ofNat, Int.toNat_ofNat]

theorem walk_pow2 (k : Nat) : ∀ (n location i : Nat),
    walk (2 ^ k) location i n = (location + i * (n + 1) + tri n) % 2 ^ k
  | 0, location, i => by simp [walk, probe_step_pow2, tri]
  | n + 1, location, i => by
    rw [walk, walk_pow2 k n, probe_step_pow2]
    have e : location + i * (n + 1 + 1) + tri (n + 1)
        = (location + i) + ((i + 1) * (n + 1) + tri n) := by simp only [tri]; ring
    rw [e, Nat.add_assoc ((location + i) % 2 ^ k), Nat.mod_add_mod]

theorem walk_lt (k n location i : Nat) : walk (2 ^ k) location i n < 2 ^ k := by
  rw [walk_pow2]; exact Nat.mod_lt _ (Nat.two_pow_pos k)

theorem two_mul_tri (j : Nat) : 2 * tri j = j * (j + 1) := by
  induction j with
  | zero => rfl
  | succ j ih => simp only [tri]; rw [Nat.mul_add, ih]; ring

theorem tri_mono {i j : Nat} (h : i ≤ j) : tri i ≤ tri j := by
  induction h with
  | refl => exact Nat.le_refl _
  | step _ ih => exact Nat.le_trans ih (by simp only [tri]; omega)

/-- Two different rounds below `2 ^ k` examine different slots. -/
theorem tri_inj_mod (k home i j : Nat) (hij : i < j) (hj : j < 2 ^ k) :
    (home + tri i) % 2 ^ k ≠ (home + tri j) % 2 ^ k := by
  intro h
  have hle : tri i ≤ tri j := tri_mono (Nat.le_of_lt hij)
  have h1 : (home + tri i) ≡ (home + tri j) [MOD 2 ^ k] := h
  have h2 : tri i ≡ tri j [MOD 2 ^ k] := Nat.ModEq.add_left_cancel' home h1
  have h3 : 2 ^ k ∣ tri j - tri i := (Nat.modEq_iff_dvd' hle).mp h2
  have h4 : 2 ^ (k + 1) ∣ (j - i) * (j + i + 1) := by
    have e : (j - i) * (j + i + 1) = 2 * (tri j - tri i) := by
      rw [Nat.mul_sub, two_mul_tri, two_mul_tri]
      obtain ⟨d, rfl⟩ : ∃ d, j = i + d := ⟨j - i, by omega⟩
      simp only [Nat.add_sub_cancel_left]
      have : i * (i + 1) ≤ (i + d) * (i + d + 1) := by nlinarith
      zify [this]
      ring
    rw [e, pow_succ, Nat.mul_comm]
    exact Nat.mul_dvd_mul_left 2 h3
  rcases Nat.even_or_odd (j - i) with he | ho
  · have hodd : Odd (j + i + 1) := by
      rcases he with ⟨c, hc⟩
      exact ⟨i + c, by omega⟩
    have hcop : Nat.Coprime (2 ^ (k + 1)) (j + i + 1) :=
      Nat.Coprime.pow_left _ (Nat.coprime_two_left.mpr hodd)
    have h5 : 2 ^ (k + 1) ∣ j - i := hcop.dvd_of_dvd_mul_right h4
    have h6 := Nat.le_of_dvd (by omega) h5
    rw [pow_succ] at h6
    omega
  · have hcop : Nat.Coprime (2 ^ (k + 1)) (j - i) :=
      Nat.Coprime.pow_left _ (Nat.coprime_two_left.mpr ho)
    have h5 : 2 ^ (k + 1) ∣ j + i + 1 := hcop.dvd_of_dvd_mul_left h4
    have h6 := Nat.le_of_dvd (by omega) h5
    rw [pow_succ] at h6
    omega

/-- Within `2 ^ k` rounds the probe sequence from any home slot reaches every
slot of an array of `2 ^ k` slots. -/
theorem walk_cover (k home s : Nat) (hs : s < 2 ^ k) :
    ∃ n, n < 2 ^ k ∧ walk (2 ^ k) home 0 n = s := by
  let f : Fin (2 ^ k) → Fin (2 ^ k) := fun j =>
    ⟨(home + tri j.1) % 2 ^ k, Nat.mod_lt _ (Nat.two_pow_pos k)⟩
  have hinj : Function.Injective f := by
    intro a b hab
    have hv : (home + tri a.1) % 2 ^ k = (home + tri b.1) % 2 ^ k := congrArg Fin.val hab
    rcases Nat.lt_trichotomy a.1 b.1 with hlt | heq | hgt
    · exact absurd hv (tri_inj_mod k home a.1 b.1 hlt b.2)
    · exact Fin.ext heq
    · exact absurd hv.symm (tri_inj_mod k home b.1 a.1 hgt a.2)
  have hsurj : Function.Surjective f := Finite.injective_iff_surjective.mp hinj
  obtain ⟨j, hj⟩ := hsurj ⟨s, hs⟩
  refine ⟨j.1, j.2, ?_⟩
  rw [walk_pow2]
  simpa using congrArg Fin.val hj

/-! ## The probe loops -/

section MapLemmas
variable {K V : Type}

theorem insert_loop_spec (es : List (Entry K V)) (sz : Nat) (key : K) (val : V) (hashed : Int) :
    ∀ (n fuel location i : Nat), n < fuel →
      (∀ j, j < n → slot_live es (walk sz location i j)) →
      slot_empty es (walk sz location i n) →
      insert_loop es sz key val hashed fuel location i
        = .ok (es.set (walk sz location i n) { hash := hashed, first := key, second := val })
  | 0, fuel, location, i, hf, _, he => by
    obtain ⟨f, rfl⟩ : ∃ f, fuel = f + 1 := ⟨fuel - 1, by omega⟩
    obtain ⟨e, h1, h2⟩ := he
    simp only [walk, probe_step] at h1
    simp only [insert_loop, walk, probe_step, h1, h2, if_true]
  | n + 1, fuel, location, i, hf, hl, he => by
    obtain ⟨f, rfl⟩ : ∃ f, fuel = f + 1 := ⟨fuel - 1, by omega⟩
    obtain ⟨e, h1, h2⟩ := hl 0 (Nat.succ_pos n)
    simp only [walk, probe_step] at h1
    have ih := insert_loop_spec es sz key val hashed n f (probe_step sz location i) (i + 1)
      (by omega) (fun j hj => hl (j + 1) (by omega)) he
    simp only [probe_step] at ih
    simp only [insert_loop, h1, h2, if_false, walk, probe_step]
    exact ih

theorem find_loop_end [DecidableEq K] (m : Robin_Map K V) (key : K) :
    ∀ (n fuel location i : Nat), n < fuel →
      (∀ j, j < n → ∃ e, m.entries[walk m.size location i j]? = some e ∧ e.hash ≠ -1 ∧ e.first ≠ key) →
      slot_empty m.entries (walk m.size location i n) →
      find_loop m key fuel location i = .ok m.size
  | 0, fuel, location, i, hf, _, he => by
    obtain ⟨f, rfl⟩ : ∃ f, fuel = f + 1 := ⟨fuel - 1, by omega⟩
    obtain ⟨e, h1, h2⟩ := he
    simp only [walk, probe_step] at h1
    simp only [find_loop, h1, h2, if_true, Robin_Map.end_]
  | n + 1, fuel, location, i, hf, hl, he => by
    obtain ⟨f, rfl⟩ : ∃ f, fuel = f + 1 := ⟨fuel - 1, by omega⟩
    obtain ⟨e, h1, h2, h3⟩ := hl 0 (Nat.succ_pos n)
    simp only [walk, probe_step] at h1
    have ih := find_loop_end m key n f (probe_step m.size location i) (i + 1)
      (by omega) (fun j hj => hl (j + 1) (by omega)) he
    simp only [probe_step] at ih
    simp only [find_loop, h1, h2, h3, if_false]
    exact ih

theorem find_loop_hit [DecidableEq K] (m : Robin_Map K V) (key : K) :
    ∀ (n fuel location i : Nat), n < fuel →
      (∀ j, j < n → ∃ e, m.entries[walk m.size location i j]? = some e ∧ e.hash ≠ -1 ∧ e.first ≠ key) →
      (∃ e, m.entries[walk m.size location i n]? = some e ∧ e.hash ≠ -1 ∧ e.first = key) →
      find_loop m key fuel location i = .ok (walk m.size location i n)
  | 0, fuel, location, i, hf, _, he => by
    obtain ⟨f, rfl⟩ : ∃ f, fuel = f + 1 := ⟨fuel - 1, by omega⟩
    obtain ⟨e, h1, h2, h3⟩ := he
    simp only [walk, probe_step] at h1
    simp only [find_loop, h1, h2, h3, if_true, if_false, walk, probe_step]
  | n + 1, fuel, location, i, hf, hl, he => by
    obtain ⟨f, rfl⟩ : ∃ f, fuel = f + 1 := ⟨fuel - 1, by omega⟩
    obtain ⟨e, h1, h2, h3⟩ := hl 0 (Nat.succ_pos n)
    simp only [walk, probe_step] at h1
    have ih := find_loop_hit m key n f (probe_step m.size location i) (i + 1)
      (by omega) (fun j hj => hl (j + 1) (by omega)) he
    simp only [probe_step] at ih
    simp only [find_loop, h1, h2, h3, if_false, walk, probe_step]
    exact ih

end MapLemmas

/-! ## Arrays with an empty slot -/

section ArrLemmas
variable {K V : Type}

theorem mem_live_list {es : List (Entry K V)} {e : Entry K V} :
    e ∈ live_list es ↔ e ∈ es ∧ e.hash ≠ -1 := by
  simp [live_list, List.mem_filter]

theorem exists_empty (es : List (Entry K V)) (h : (live_list es).length < es.length) :
    ∃ s, s < es.length ∧ slot_empty es s := by
  obtain ⟨x, hx, hp⟩ := (List.length_filter_lt_length_iff_exists).mp h
  obtain ⟨s, hs, rfl⟩ := List.getElem_of_mem hx
  refine ⟨s, hs, es[s], List.getElem?_eq_getElem hs, ?_⟩
  simpa using hp

theorem slot_live_or_empty (es : List (Entry K V)) (s : Nat) (hs : s < es.length) :
    slot_live es s ∨ slot_empty es s := by
  by_cases h : es[s].hash = -1
  · exact Or.inr ⟨es[s], List.getElem?_eq_getElem hs, h⟩
  · exact Or.inl ⟨es[s], List.getElem?_eq_getElem hs, h⟩

/-- From every home slot the probe sequence meets a first empty slot within
`2 ^ k` rounds, provided the array has one. -/
theorem first_empty (es : List (Entry K V)) (k home : Nat) (hlen : es.length = 2 ^ k)
    (hex : ∃ s, s < es.length ∧ slot_empty es s) :
    ∃ n, n < 2 ^ k ∧ (∀ j, j < n → slot_live es (walk (2 ^ k) home 0 j)) ∧
      slot_empty es (walk (2 ^ k) home 0 n) := by
  classical
  obtain ⟨s, hs, hse⟩ := hex
  obtain ⟨n0, hn0, hw⟩ := walk_cover k home s (hlen ▸ hs)
  have hP : ∃ n, slot_empty es (walk (2 ^ k) home 0 n) := ⟨n0, hw ▸ hse⟩
  refine ⟨Nat.find hP, ?_, ?_, Nat.find_spec hP⟩
  · exact Nat.lt_of_le_of_lt (Nat.find_min' hP (hw ▸ hse)) hn0
  · intro j hj
    have hne := Nat.find_min hP hj
    rcases slot_live_or_empty es (walk (2 ^ k) home 0 j) (hlen ▸ walk_lt k j home 0) with h | h
    · exact h
    · exact absurd h hne

theorem slot_live_set {es : List (Entry K V)} {loc j : Nat} (new : Entry K V)
    (hl : slot_live es j) (he : slot_empty es loc) : slot_live (es.set loc new) j := by
  obtain ⟨e, h1, h2⟩ := hl
  obtain ⟨e', h3, h4⟩ := he
  have hne : loc ≠ j := by
    rintro rfl
    rw [h1] at h3
    cases h3
    exact h2 h4
  exact ⟨e, by rw [List.getElem?_set_ne hne]; exact h1, h2⟩

theorem live_list_set (new : Entry K V) (hnew : new.hash ≠ -1) :
    ∀ (es : List (Entry K V)) (loc : Nat), slot_empty es loc →
      (live_list (es.set loc new)).Perm (new :: live_list es)
  | [], loc, ⟨e, h, _⟩ => by simp at h
  | a :: t, 0, ⟨e, h, he⟩ => by
    simp only [List.getElem?_cons_zero, Option.some.injEq] at h
    subst h
    simp [live_list, List.filter_cons, hnew, he]
  | a :: t, loc + 1, ⟨e, h, he⟩ => by
    simp only [List.getElem?_cons_succ] at h
    have ih := live_list_set new hnew t loc ⟨e, h, he⟩
    simp only [live_list] at ih
    by_cases ha : a.hash = -1
    · simpa [live_list, List.filter_cons, ha] using ih
    · simp only [live_list, List.set_cons_succ, List.filter_cons, ha, ne_eq, not_false_eq_true,
        decide_True, if_true]
      exact (List.Perm.cons a ih).trans (List.Perm.swap new a _)

/-- Storing an entry in the first empty slot of its probe sequence keeps the
array well formed. -/
theorem insert_arr (es : List (Entry K V)) (sz : Nat) (key : K) (val : V) (hashed : Int)
    (hok : ArrOK es sz) (hroom : (live_list es).length < sz) :
    ∃ loc, insert_new_array key val hashed es sz
        = .ok (es.set loc { hash := hashed, first := key, second := val }) ∧
      slot_empty es loc ∧
      ArrOK (es.set loc { hash := hashed, first := key, second := val }) sz := by
  obtain ⟨hlen, ⟨k, rfl⟩, hpath⟩ := hok
  obtain ⟨n, hn, hlive, hemp⟩ := first_empty es k (bit_modulo hashed ((2 ^ k : Nat) : Int)).toNat hlen
    (exists_empty es (hlen ▸ hroom))
  refine ⟨_, insert_loop_spec es (2 ^ k) key val hashed n (2 ^ k) _ 0 hn hlive hemp, hemp, ?_, ⟨k, rfl⟩, ?_⟩
  · simp [hlen]
  · intro loc e hloc he
    by_cases hc : walk (2 ^ k) (bit_modulo hashed ((2 ^ k : Nat) : Int)).toNat 0 n = loc
    · subst hc
      have hlt : walk (2 ^ k) (bit_modulo hashed ((2 ^ k : Nat) : Int)).toNat 0 n < es.length :=
        hlen ▸ walk_lt k n _ 0
      rw [List.getElem?_set_self hlt] at hloc
      cases hloc
      exact ⟨n, hn, rfl, fun j hj => slot_live_set _ (hlive j hj) hemp⟩
    · rw [List.getElem?_set_ne hc] at hloc
      obtain ⟨n', hn', hw, hl'⟩ := hpath loc e hloc he
      exact ⟨n', hn', hw, fun j hj => slot_live_set _ (hl' j hj) hemp⟩

end ArrLemmas

/-! ## find -/

section FindLemmas
variable {K V : Type}

theorem keys_distinct_index {es : List (Entry K V)} (hd : keys_distinct es) {a b : Nat}
    {e1 e2 : Entry K V} (h1 : es[a]? = some e1) (h2 : es[b]? = some e2)
    (l1 : e1.hash ≠ -1) (l2 : e2.hash ≠ -1) (hk : e1.first = e2.first) : a = b := by
  unfold keys_distinct live_list at hd
  rw [List.Nodup, List.pairwise_map, List.pairwise_filter, List.pairwise_iff_getElem] at hd
  obtain ⟨ha, rfl⟩ := List.getElem?_eq_some_iff.mp h1
  obtain ⟨hb, rfl⟩ := List.getElem?_eq_some_iff.mp h2
  rcases Nat.lt_trichotomy a b with h | h | h
  · exact absurd hk (hd a b ha hb h (by simpa using l1) (by simpa using l2))
  · exact h
  · exact absurd hk.symm (hd b a hb ha h (by simpa using l2) (by simpa using l1))

/-- A stored key is found, at the slot that stores it. -/
theorem find_present [DecidableEq K] (hashf : K → Int) (m : Robin_Map K V)
    (hinv : m.Inv hashf) (hd : keys_distinct m.entries) (e : Entry K V)
    (he : e ∈ live_list m.entries) :
    ∃ loc, m.find hashf e.first = .ok loc ∧ loc < m.size ∧ m.entries[loc]? = some e := by
  classical
  obtain ⟨⟨hlen, ⟨k, hk⟩, hpath⟩, hhash, -, -, -⟩ := hinv
  obtain ⟨hmem, hlive⟩ := mem_live_list.mp he
  obtain ⟨loc0, hloc0, hget⟩ := List.getElem_of_mem hmem
  have hget? : m.entries[loc0]? = some e := by rw [List.getElem?_eq_getElem hloc0, hget]
  obtain ⟨n, hn, hw, hbefore⟩ := hpath loc0 e hget? hlive
  rw [hhash e hmem hlive] at hw hbefore
  have hP : ∃ j, ∃ e', m.entries[walk m.size (bit_modulo (hashf e.first) m.size).toNat 0 j]?
      = some e' ∧ e'.hash ≠ -1 ∧ e'.first = e.first := ⟨n, e, hw ▸ hget?, hlive, rfl⟩
  have hle : Nat.find hP ≤ n := Nat.find_min' hP ⟨e, hw ▸ hget?, hlive, rfl⟩
  obtain ⟨e', hg', hl', hk'⟩ := Nat.find_spec hP
  have hres := find_loop_hit m e.first (Nat.find hP) m.size
    (bit_modulo (hashf e.first) m.size).toNat 0 (Nat.lt_of_le_of_lt hle hn)
    (fun j hj => by
      obtain ⟨e2, hg2, hl2⟩ := hbefore j (Nat.lt_of_lt_of_le hj hle)
      exact ⟨e2, hg2, hl2, fun hk2 => Nat.find_min hP hj ⟨e2, hg2, hl2, hk2⟩⟩)
    ⟨e', hg', hl', hk'⟩
  have hsame := keys_distinct_index hd hg' hget? hl' hlive hk'
  refine ⟨_, hres, ?_, ?_⟩
  · rw [hsame, ← hlen]; exact hloc0
  · rw [hsame]; exact hget?

/-- A key that is not stored is reported as `end()`. -/
theorem find_absent [DecidableEq K] (hashf : K → Int) (m : Robin_Map K V)
    (hinv : m.Inv hashf) (key : K) (hno : ∀ e ∈ live_list m.entries, e.first ≠ key) :
    m.find hashf key = .ok m.size := by
  obtain ⟨⟨hlen, ⟨k, hk⟩, -⟩, -, hcount, hhalf, htwo⟩ := hinv
  have hroom : (live_list m.entries).length < m.entries.length := by
    have := room_of_bound _ _ hhalf htwo
    omega
  have hfe := first_empty m.entries k (bit_modulo (hashf key) m.size).toNat (hk ▸ hlen)
    (exists_empty m.entries hroom)
  rw [← hk] at hfe
  obtain ⟨n, hn, hlive, hemp⟩ := hfe
  exact find_loop_end m key n m.size _ 0 hn
    (fun j hj => by
      obtain ⟨e2, hg2, hl2⟩ := hlive j hj
      exact ⟨e2, hg2, hl2, hno e2 (mem_live_list.mpr ⟨List.getElem?_mem hg2, hl2⟩)⟩)
    hemp

theorem find_loop_sound [DecidableEq K] (m : Robin_Map K V) (key : K) :
    ∀ (fuel location i loc : Nat), find_loop m key fuel location i = .ok loc → loc ≠ m.size →
      ∃ e, m.entries[loc]? = some e ∧ e.hash ≠ -1 ∧ e.first = key
  | 0, _, _, _, h, _ => by simp [find_loop] at h
  | fuel + 1, location, i, loc, h, hne => by
    simp only [find_loop] at h
    split at h
    · simp at h
    · rename_i e he
      by_cases h1 : e.hash = -1
      · simp only [h1, if_true, Robin_Map.end_, Except.ok.injEq] at h
        exact absurd h.symm hne
      · by_cases h2 : e.first = key
        · simp only [h1, h2, if_true, if_false, Except.ok.injEq] at h
          subst h
          exact ⟨e, he, h1, h2⟩
        · simp only [h1, h2, if_false] at h
          exact find_loop_sound m key fuel _ _ loc h hne

/-- Whatever the state of the map, an iterator other than `end()` returned by
`find` points at a non-empty slot that stores the key. -/
theorem find_sound [DecidableEq K] (hashf : K → Int) (m : Robin_Map K V) (key : K) (loc : Nat)
    (h : m.find hashf key = .ok loc) (hne : loc ≠ m.size) :
    ∃ e, m.entries[loc]? = some e ∧ e.hash ≠ -1 ∧ e.first = key :=
  find_loop_sound m key _ _ _ loc h hne

end FindLemmas

/-! ## expand and insert -/

section InsertLemmas
variable {K V : Type}

theorem live_list_cons_live (e : Entry K V) (l : List (Entry K V)) (h : e.hash ≠ -1) :
    live_list (e :: l) = e :: live_list l := by
  simp [live_list, List.filter_cons, h]

theorem live_list_cons_blank (e : Entry K V) (l : List (Entry K V)) (h : e.hash = -1) :
    live_list (e :: l) = live_list l := by
  simp [live_list, List.filter_cons, h]

theorem live_list_replicate_blank [Inhabited K] [Inhabited V] (n : Nat) :
    live_list (List.replicate n (Entry.blank : Entry K V)) = [] := by
  simp [live_list, List.filter_eq_nil_iff, Entry.blank]

theorem arrOK_replicate_blank [Inhabited K] [Inhabited V] (k : Nat) :
    ArrOK (List.replicate (2 ^ k) (Entry.blank : Entry K V)) (2 ^ k) := by
  refine ⟨by simp, ⟨k, rfl⟩, ?_⟩
  intro loc e hloc he
  have hmem := List.getElem?_mem hloc
  rw [List.mem_replicate] at hmem
  exact absurd (by rw [hmem.2]; rfl) he

/-- The re-insertion loop of `expand` on the slots `s, s+1, ..., s+n-1` of the
old array: it succeeds and the new array gains exactly their entries. -/
theorem expand_loop_spec (old : List (Entry K V)) (sz : Nat) :
    ∀ (n s : Nat) (new_entries : List (Entry K V)), s + n = old.length →
      ArrOK new_entries sz →
      (live_list new_entries).length + (live_list (old.drop s)).length < sz + 1 →
      ∃ es, expand_loop old sz (List.range' s n) new_entries = .ok es ∧ ArrOK es sz ∧
        (live_list es).Perm (live_list (old.drop s) ++ live_list new_entries)
  | 0, s, new_entries, hs, hok, _ => by
    refine ⟨new_entries, rfl, hok, ?_⟩
    rw [List.drop_of_length_le (by omega)]
    simp [live_list]
  | n + 1, s, new_entries, hs, hok, hroom => by
    have hlt : s < old.length := by omega
    have hdrop : old.drop s = old[s] :: old.drop (s + 1) := List.drop_eq_getElem_cons hlt
    by_cases hl : old[s].hash = -1
    · rw [hdrop, live_list_cons_blank _ _ hl] at hroom ⊢
      obtain ⟨es, h1, h2, h3⟩ := expand_loop_spec old sz n (s + 1) new_entries (by omega) hok hroom
      refine ⟨es, ?_, h2, h3⟩
      simp only [List.range'_succ, expand_loop, List.getElem?_eq_getElem hlt, hl, ne_eq,
        not_true_eq_false, if_false]
      exact h1
    · rw [hdrop, live_list_cons_live _ _ hl] at hroom ⊢
      simp only [List.length_cons] at hroom
      obtain ⟨loc, hins, hemp, hok'⟩ := insert_arr new_entries sz old[s].first old[s].second
        old[s].hash hok (by omega)
      have hperm := live_list_set (old[s]) hl new_entries loc hemp
      have hlen' : (live_list (new_entries.set loc old[s])).length
          = (live_list new_entries).length + 1 := by rw [hperm.length_eq]; rfl
      obtain ⟨es, h1, h2, h3⟩ := expand_loop_spec old sz n (s + 1) (new_entries.set loc old[s])
        (by omega) hok' (by omega)
      refine ⟨es, ?_, h2, ?_⟩
      · simp only [List.range'_succ, expand_loop, List.getElem?_eq_getElem hlt, hl, ne_eq,
          not_false_eq_true, if_true, hins]
        exact h1
      · refine h3.trans ?_
        refine (List.Perm.append_left _ hperm).trans ?_
        exact List.perm_middle

/-- On a map that satisfies the invariant, `expand(size * 2)` succeeds and
keeps every entry. -/
theorem expand_spec [Inhabited K] [Inhabited V] (hashf : K → Int) (m : Robin_Map K V)
    (hinv : m.Inv hashf) :
    ∃ m', m.expand (m.size * 2) = .ok m' ∧ m'.size = m.size * 2 ∧
      m'.num_items = m.num_items ∧ ArrOK m'.entries m'.size ∧
      (live_list m'.entries).Perm (live_list m.entries) := by
  obtain ⟨⟨hlen, ⟨k, hk⟩, hpath⟩, hhash, hcount, hhalf, hfour⟩ := hinv
  have hsz : m.size * 2 = 2 ^ (k + 1) := by rw [hk, pow_succ]
  have hblank : ArrOK (List.replicate (m.size * 2) (Entry.blank : Entry K V)) (m.size * 2) := by
    rw [hsz]; exact arrOK_replicate_blank (k + 1)
  obtain ⟨es, h1, h2, h3⟩ := expand_loop_spec m.entries (m.size * 2) m.size 0
    (List.replicate (m.size * 2) Entry.blank) (by omega) hblank
    (by
      have := room_of_bound _ _ hhalf hfour
      rw [live_list_replicate_blank, List.drop_zero]; simp only [List.length_nil]; omega)
  refine ⟨{ m with entries := es, size := m.size * 2 }, ?_, rfl, rfl, h2, ?_⟩
  · simp only [Robin_Map.expand, List.range_eq_range', h1]
  · simpa [live_list_replicate_blank] using h3

/-- `insert` on a map that satisfies the invariant: it succeeds, the
invariant holds again, and the stored entries are the old ones and the new one. -/
theorem insert_spec [Inhabited K] [Inhabited V] (hashf : K → Int) (m : Robin_Map K V)
    (hinv : m.Inv hashf) (key : K) (val : V) (hkey : hashf key ≠ -1) :
    ∃ m', m.insert hashf key val = .ok m' ∧ m'.Inv hashf ∧
      (live_list m'.entries).Perm
        ({ hash := hashf key, first := key, second := val } :: live_list m.entries) ∧
      m'.num_items = m.num_items + 1 ∧
      m'.size = (if to_float m.size < 2 * to_float m.num_items then m.size * 2 else m.size) := by
  have key_step : ∀ m1 : Robin_Map K V, ArrOK m1.entries m1.size →
      (∀ e ∈ m1.entries, e.hash ≠ -1 → e.hash = hashf e.first) →
      (live_list m1.entries).length = m1.num_items → 2 * to_float m1.num_items ≤ m1.size →
      m1.num_items < m1.size → 4 ≤ m1.size →
      ∃ m', (match m1.core_insert hashf key val with
          | .error f => (.error f : Except Fault (Robin_Map K V))
          | .ok m2 => .ok { m2 with num_items := m2.num_items + 1 }) = .ok m' ∧
        m'.Inv hashf ∧
        (live_list m'.entries).Perm
          ({ hash := hashf key, first := key, second := val } :: live_list m1.entries) ∧
        m'.num_items = m1.num_items + 1 ∧ m'.size = m1.size := by
    intro m1 hok hhash hcount hhalf hroom hfour
    obtain ⟨loc, hins, hemp, hok'⟩ := insert_arr m1.entries m1.size key val (hashf key) hok
      (by omega)
    have hperm := live_list_set ({ hash := hashf key, first := key, second := val } : Entry K V)
      hkey m1.entries loc hemp
    refine ⟨{ m1 with entries := m1.entries.set loc ⟨hashf key, key, val⟩,
                      num_items := m1.num_items + 1 }, ?_, ⟨hok', ?_, ?_, ?_, hfour⟩, hperm, rfl, rfl⟩
    · simp only [Robin_Map.core_insert, Robin_Map.core_insert_with_hash]
      unfold insert_new_array at hins
      rw [hins]
    · intro e he hl
      rcases List.mem_or_eq_of_mem_set he with h | h
      · exact hhash e h hl
      · subst h; rfl
    · show (live_list (m1.entries.set loc _)).length = m1.num_items + 1
      rw [hperm.length_eq, List.length_cons, hcount]
    · show 2 * to_float (m1.num_items + 1 - 1) ≤ m1.size
      rw [Nat.add_sub_cancel]
      exact hhalf
  have hroom : m.num_items < m.size := room_of_bound _ _ hinv.2.2.2.1 hinv.2.2.2.2
  by_cases hload : to_float m.size < 2 * to_float m.num_items
  · obtain ⟨me, hexp, hsize, hnum, hokE, hpermE⟩ := expand_spec hashf m hinv
    obtain ⟨⟨hlen, ⟨k, hk⟩, hpath⟩, hhash, hcount, hhalf, hfour⟩ := hinv
    have hfl : to_float m.num_items ≤ m.size := by
      rw [hk]
      exact to_float_le_pow2 _ k (by omega)
    obtain ⟨m', h1, h2, h3, h4, h5⟩ := key_step me hokE
      (fun e he hl => by
        have : e ∈ live_list m.entries := hpermE.mem_iff.mp (mem_live_list.mpr ⟨he, hl⟩)
        exact hhash e (mem_live_list.mp this).1 hl)
      (by rw [hpermE.length_eq, hcount, hnum]) (by rw [hnum, hsize]; omega) (by omega) (by omega)
    refine ⟨m', ?_, h2, h3.trans (List.Perm.cons _ hpermE), by omega, by simp [hload, h5, hsize]⟩
    simp only [Robin_Map.insert, Robin_Map.above_load_factor, hload, decide_True, if_true, hexp]
    exact h1
  · obtain ⟨hok, hhash, hcount, hhalf, hfour⟩ := hinv
    have hfs : to_float m.size = m.size := by
      obtain ⟨k, hk⟩ := hok.2.1
      rw [hk]
      exact to_float_pow2 k
    obtain ⟨m', h1, h2, h3, h4, h5⟩ := key_step m hok hhash hcount (by omega) hroom hfour
    refine ⟨m', ?_, h2, h3, h4, by simp [hload, h5]⟩
    simp only [Robin_Map.insert, Robin_Map.above_load_factor, hload, decide_False]
    exact h1

theorem inv_new [Inhabited K] [Inhabited V] (hashf : K → Int) :
    (Robin_Map.new : Robin_Map K V).Inv hashf := by
  refine ⟨arrOK_replicate_blank 10, ?_, ?_, Nat.zero_le _, (by show 4 ≤ 1024; omega)⟩
  · intro e he hl
    simp only [Robin_Map.new, List.mem_replicate] at he
    exact absurd (by rw [he.2]; rfl) hl
  · show (live_list (List.replicate 1024 Entry.blank)).length = 0
    rw [live_list_replicate_blank]; rfl

end InsertLemmas

/-! ## Sequences of inserts -/

section SeqLemmas
variable {K V : Type}

theorem insert_all_spec [DecidableEq K] [Inhabited K] [Inhabited V] (hashf : K → Int)
    (hh : ∀ k, hashf k ≠ -1) :
    ∀ (kvs : List (K × V)) (m : Robin_Map K V), m.Inv hashf →
      ∃ m', insert_all hashf m kvs = .ok m' ∧ m'.Inv hashf ∧
        (live_list m'.entries).Perm (kvs.map (entry_of hashf) ++ live_list m.entries)
  | [], m, hinv => ⟨m, rfl, hinv, by simp⟩
  | kv :: rest, m, hinv => by
    obtain ⟨m1, h1, hinv1, hperm1, -, -⟩ := insert_spec hashf m hinv kv.1 kv.2 (hh kv.1)
    obtain ⟨m', h2, hinv', hperm'⟩ := insert_all_spec hashf hh rest m1 hinv1
    refine ⟨m', ?_, hinv', ?_⟩
    · simp only [insert_all, h1]; exact h2
    · refine hperm'.trans ((List.Perm.append_left _ hperm1).trans ?_)
      exact List.perm_middle

theorem insert_all_new [DecidableEq K] [Inhabited K] [Inhabited V] (hashf : K → Int)
    (hh : ∀ k, hashf k ≠ -1) (kvs : List (K × V)) :
    ∃ m, insert_all hashf (Robin_Map.new : Robin_Map K V) kvs = .ok m ∧ m.Inv hashf ∧
      (live_list m.entries).Perm (kvs.map (entry_of hashf)) := by
  obtain ⟨m, h1, h2, h3⟩ := insert_all_spec hashf hh kvs Robin_Map.new (inv_new hashf)
  refine ⟨m, h1, h2, ?_⟩
  have : live_list (Robin_Map.new : Robin_Map K V).entries = [] := live_list_replicate_blank 1024
  simpa [this] using h3

end SeqLemmas

/-! ## The claims about the map -/

section MapClaims
variable {K V : Type}

theorem sample_hash_ne (k : Nat) : sample_hash k ≠ -1 := by
  unfold sample_hash; omega

/-- C8 (map round-trip). For a hash function that never returns `-1`, a list
of pairs with pairwise distinct keys and every prefix `take n` of that list:
inserting the prefix into a fresh map succeeds, and `find` of every key of the
prefix returns a slot other than `end()` whose entry has that key as `first`
and the inserted value as `second`.  The list is arbitrary, so this holds
whatever number of `expand` calls the inserts have triggered. -/
theorem C8_map_round_trip [DecidableEq K] [Inhabited K] [Inhabited V] (hashf : K → Int)
    (hh : ∀ k, hashf k ≠ -1) (kvs : List (K × V)) (hd : (kvs.map Prod.fst).Nodup) (n : Nat) :
    ∃ m, insert_all hashf (Robin_Map.new : Robin_Map K V) (kvs.take n) = .ok m ∧
      ∀ kv ∈ kvs.take n, ∃ loc e, m.find hashf kv.1 = .ok loc ∧ loc ≠ m.end_ ∧
        m.entries[loc]? = some e ∧ e.first = kv.1 ∧ e.second = kv.2 := by
  obtain ⟨m, h1, hinv, hperm⟩ := insert_all_new hashf hh (kvs.take n)
  refine ⟨m, h1, ?_⟩
  have hsub : ((kvs.take n).map Prod.fst).Nodup :=
    hd.sublist ((List.take_sublist n kvs).map Prod.fst)
  have hkeys : keys_distinct m.entries := by
    unfold keys_distinct
    refine (hperm.map Entry.first).nodup_iff.mpr ?_
    simpa [List.map_map, Function.comp_def, entry_of] using hsub
  intro kv hkv
  have hmem : entry_of hashf kv ∈ live_list m.entries :=
    hperm.mem_iff.mpr (List.mem_map_of_mem _ hkv)
  obtain ⟨loc, hfind, hlt, hget⟩ := find_present hashf m hinv hkeys _ hmem
  exact ⟨loc, entry_of hashf kv, hfind, Nat.ne_of_lt hlt, hget, rfl, rfl⟩

/-- The statement of C8 on the keys 1 and 1025, which share the home slot 1
of a fresh map, with `sample_hash` as hash. -/
theorem C8_map_round_trip_witness :
    (∀ k, sample_hash k ≠ -1) ∧
    (([(1, 10), (1025, 20)] : List (Nat × Nat)).map Prod.fst).Nodup ∧
    ∃ m, insert_all sample_hash (Robin_Map.new : Robin_Map Nat Nat)
        (([(1, 10), (1025, 20)] : List (Nat × Nat)).take 2) = .ok m ∧
      ∀ kv ∈ ([(1, 10), (1025, 20)] : List (Nat × Nat)).take 2, ∃ loc e,
        m.find sample_hash kv.1 = .ok loc ∧ loc ≠ m.end_ ∧
        m.entries[loc]? = some e ∧ e.first = kv.1 ∧ e.second = kv.2 :=
  ⟨sample_hash_ne, by decide,
    C8_map_round_trip sample_hash (sample_hash_ne) [(1, 10), (1025, 20)]
      (by decide) 2⟩

/-- C9 (find of an absent key). For a hash function that never returns `-1`
and the map reached from the empty map by any list of `insert` calls:
`find(k)` of a key that is not in the list returns `end()`, and whenever
`find(k)` returns a slot other than `end()` that slot is non-empty and stores
the key `k`. -/
theorem C9_find_absent [DecidableEq K] [Inhabited K] [Inhabited V] (hashf : K → Int)
    (hh : ∀ k, hashf k ≠ -1) (kvs : List (K × V)) (k : K) :
    ∃ m, insert_all hashf (Robin_Map.new : Robin_Map K V) kvs = .ok m ∧
      (k ∉ kvs.map Prod.fst → m.find hashf k = .ok m.end_) ∧
      (∀ loc, m.find hashf k = .ok loc → loc ≠ m.end_ →
        ∃ e, m.entries[loc]? = some e ∧ e.hash ≠ -1 ∧ e.first = k) := by
  obtain ⟨m, h1, hinv, hperm⟩ := insert_all_new hashf hh kvs
  refine ⟨m, h1, ?_, fun loc hf hne => find_sound hashf m k loc hf hne⟩
  intro hk
  refine find_absent hashf m hinv k ?_
  intro e he hek
  have := hperm.mem_iff.mp he
  rw [List.mem_map] at this
  obtain ⟨kv, hkv, rfl⟩ := this
  exact hk (List.mem_map.mpr ⟨kv, hkv, hek⟩)

/-- The statement of C9 for the absent key 2049 after inserting the keys 1
and 1025, all three with home slot 1. -/
theorem C9_find_absent_witness :
    (∀ k, sample_hash k ≠ -1) ∧
    ∃ m, insert_all sample_hash (Robin_Map.new : Robin_Map Nat Nat)
        [(1, 10), (1025, 20)] = .ok m ∧
      (2049 ∉ ([(1, 10), (1025, 20)] : List (Nat × Nat)).map Prod.fst →
        m.find sample_hash 2049 = .ok m.end_) ∧
      (∀ loc, m.find sample_hash 2049 = .ok loc → loc ≠ m.end_ →
        ∃ e, m.entries[loc]? = some e ∧ e.hash ≠ -1 ∧ e.first = 2049) :=
  ⟨sample_hash_ne,
    C9_find_absent sample_hash (sample_hash_ne) [(1, 10), (1025, 20)] 2049⟩

end MapClaims

/-! ## Loops and shared memory -/

theorem for_loop_inv {σ : Type} (body : Nat → σ → Except Fault σ) (P : Nat → σ → Prop) :
    ∀ (n i : Nat) (s : σ), P i s →
      (∀ j s1, i ≤ j → j < i + n → P j s1 → ∃ s2, body j s1 = .ok s2 ∧ P (j + 1) s2) →
      ∃ s', for_loop body n i s = .ok s' ∧ P (i + n) s'
  | 0, i, s, h, _ => ⟨s, rfl, h⟩
  | n + 1, i, s, h, hstep => by
    obtain ⟨s1, hb, h1⟩ := hstep i s (Nat.le_refl i) (by omega) h
    obtain ⟨s', hl, h'⟩ := for_loop_inv body P n (i + 1) s1 h1
      (fun j s2 hj1 hj2 hp => hstep j s2 (by omega) (by omega) hp)
    refine ⟨s', ?_, by rw [Nat.add_comm n 1, ← Nat.add_assoc]; exact h'⟩
    simp only [for_loop, hb]
    exact hl

theorem for_range_inv {σ : Type} (body : Nat → σ → Except Fault σ) (P : Nat → σ → Prop)
    (n : Nat) (s : σ) (h0 : P 0 s)
    (hstep : ∀ j s1, j < n → P j s1 → ∃ s2, body j s1 = .ok s2 ∧ P (j + 1) s2) :
    ∃ s', for_range n body s = .ok s' ∧ P n s' := by
  obtain ⟨s', h1, h2⟩ := for_loop_inv body P n 0 s h0
    (fun j s1 _ hj hp => hstep j s1 (by omega) hp)
  exact ⟨s', h1, by simpa using h2⟩

theorem memOK_get {mem : List Segment} {n m : Nat} (h : MemOK mem n m) {r : Nat} (hr : r < n) :
    ∃ seg, mem[r]? = some seg ∧ seg.push_buffers_size.length = n ∧
      seg.push_buffers.length = n ∧ ∀ b ∈ seg.push_buffers, b.length = m := by
  have hlt : r < mem.length := h.1 ▸ hr
  exact ⟨mem[r], List.getElem?_eq_getElem hlt, h.2 _ (List.getElem_mem hlt)⟩

theorem read_size_ok {mem : List Segment} {n m : Nat} (h : MemOK mem n m) (p : GPtr)
    (h1 : p.1 < n) (h2 : p.2 < n) : read_size mem p = .ok (size_at mem p) := by
  obtain ⟨seg, hs, hl, -, -⟩ := memOK_get h h1
  have : p.2 < seg.push_buffers_size.length := hl ▸ h2
  simp [size_at, read_size, hs, List.getElem?_eq_getElem this]

theorem read_buffer_ok {mem : List Segment} {n m : Nat} (h : MemOK mem n m) (p : GPtr)
    (h1 : p.1 < n) (h2 : p.2 < n) :
    read_buffer mem p = .ok (buffer_at mem p) ∧ (buffer_at mem p).length = m := by
  obtain ⟨seg, hs, -, hl, hb⟩ := memOK_get h h1
  have hlt : p.2 < seg.push_buffers.length := hl ▸ h2
  refine ⟨by simp [buffer_at, deref_buffer, read_buffer, hs, List.getElem?_eq_getElem hlt], ?_⟩
  simp only [buffer_at, deref_buffer, read_buffer, hs, List.getElem?_eq_getElem hlt]
  exact hb _ (List.getElem_mem hlt)

theorem write_size_spec {mem : List Segment} {n m : Nat} (h : MemOK mem n m) (p : GPtr)
    (v : Nat) (h1 : p.1 < n) (h2 : p.2 < n) :
    ∃ mem', write_size mem p v = .ok mem' ∧ MemOK mem' n m ∧ size_at mem' p = v ∧
      (∀ q, q ≠ p → size_at mem' q = size_at mem q) ∧
      (∀ q, buffer_at mem' q = buffer_at mem q) := by
  obtain ⟨seg, hs, hl, hl2, hb⟩ := memOK_get h h1
  have hlt : p.2 < seg.push_buffers_size.length := hl ▸ h2
  have hr : p.1 < mem.length := h.1 ▸ h1
  refine ⟨mem.set p.1 { seg with push_buffers_size := seg.push_buffers_size.set p.2 v },
    by simp only [write_size, hs, hlt, if_true], ⟨by simp [h.1], ?_⟩, ?_, ?_, ?_⟩
  · intro seg' hseg'
    rcases List.mem_or_eq_of_mem_set hseg' with hm | rfl
    · exact h.2 _ hm
    · exact ⟨by simp [hl], hl2, hb⟩
  · simp [size_at, read_size, List.getElem?_set_self hr, List.getElem?_set_self hlt]
  · intro q hq
    by_cases hq1 : p.1 = q.1
    · have hq2 : p.2 ≠ q.2 := fun e => hq (Prod.ext hq1.symm e.symm)
      simp [size_at, read_size, ← hq1, List.getElem?_set_self hr, hs, List.getElem?_set_ne hq2]
    · simp [size_at, read_size, List.getElem?_set_ne hq1]
  · intro q
    by_cases hq1 : p.1 = q.1
    · simp [buffer_at, deref_buffer, read_buffer, ← hq1, List.getElem?_set_self hr, hs]
    · simp [buffer_at, deref_buffer, read_buffer, List.getElem?_set_ne hq1]

theorem write_slot_spec {mem : List Segment} {n m : Nat} (h : MemOK mem n m) (p : GPtr)
    (idx : Nat) (msg : Message) (h1 : p.1 < n) (h2 : p.2 < n) (h3 : idx < m) :
    ∃ mem', write_slot mem p idx msg = .ok mem' ∧ MemOK mem' n m ∧
      buffer_at mem' p = (buffer_at mem p).set idx msg ∧
      (∀ q, q ≠ p → buffer_at mem' q = buffer_at mem q) ∧
      (∀ q, size_at mem' q = size_at mem q) := by
  obtain ⟨seg, hs, hl, hl2, hb⟩ := memOK_get h h1
  have hlt : p.2 < seg.push_buffers.length := hl2 ▸ h2
  have hr : p.1 < mem.length := h.1 ▸ h1
  have hbl : (seg.push_buffers[p.2]).length = m := hb _ (List.getElem_mem hlt)
  have hidx : idx < (seg.push_buffers[p.2]).length := hbl ▸ h3
  refine ⟨mem.set p.1
      { seg with push_buffers := seg.push_buffers.set p.2 ((seg.push_buffers[p.2]).set idx msg) },
    by simp only [write_slot, hs, List.getElem?_eq_getElem hlt, hidx, if_true],
    ⟨by simp [h.1], ?_⟩, ?_, ?_, ?_⟩
  · intro seg' hseg'
    rcases List.mem_or_eq_of_mem_set hseg' with hm | rfl
    · exact h.2 _ hm
    · refine ⟨hl, by simp [hl2], ?_⟩
      intro b hbm
      rcases List.mem_or_eq_of_mem_set hbm with hm | rfl
      · exact hb _ hm
      · simp [hbl]
  · simp [buffer_at, deref_buffer, read_buffer, List.getElem?_set_self hr,
      List.getElem?_set_self hlt, hs, List.getElem?_eq_getElem hlt]
  · intro q hq
    by_cases hq1 : p.1 = q.1
    · have hq2 : p.2 ≠ q.2 := fun e => hq (Prod.ext hq1.symm e.symm)
      simp [buffer_at, deref_buffer, read_buffer, ← hq1, List.getElem?_set_self hr, hs,
        List.getElem?_set_ne hq2]
    · simp [buffer_at, deref_buffer, read_buffer, List.getElem?_set_ne hq1]
  · intro q
    by_cases hq1 : p.1 = q.1
    · simp [size_at, read_size, ← hq1, List.getElem?_set_self hr, hs]
    · simp [size_at, read_size, List.getElem?_set_ne hq1]

/-! ## enqueue_push_request -/

theorem enqueue_spec (w : Worker) (hw : w.MemWF) (msg : Message) :
    ∃ w', w.enqueue_push_request msg = .ok w' ∧ w' = { w with shared := w'.shared } ∧
      w'.MemWF ∧
      w'.send_count (w.get_partition msg.dest_table msg.dest_item)
        = w.send_count (w.get_partition msg.dest_table msg.dest_item) + 1 ∧
      (w.send_count (w.get_partition msg.dest_table msg.dest_item) < w.BUFFER_MAX_SIZE →
        w'.send_buffer (w.get_partition msg.dest_table msg.dest_item)
          = (w.send_buffer (w.get_partition msg.dest_table msg.dest_item)).set
              (w.send_count (w.get_partition msg.dest_table msg.dest_item)) msg) ∧
      (w.BUFFER_MAX_SIZE ≤ w.send_count (w.get_partition msg.dest_table msg.dest_item) →
        w'.send_buffer (w.get_partition msg.dest_table msg.dest_item)
          = w.send_buffer (w.get_partition msg.dest_table msg.dest_item)) ∧
      (∀ q : GPtr, q ≠ (w.rank_me_, w.get_partition msg.dest_table msg.dest_item) →
        size_at w'.shared q = size_at w.shared q ∧ buffer_at w'.shared q = buffer_at w.shared q) := by
  obtain ⟨hmem, hme⟩ := hw
  generalize hp : w.get_partition msg.dest_table msg.dest_item = p
  have hpN : p < w.total_workers := by
    rw [← hp]; exact Nat.mod_lt _ (by omega)
  have hread := read_size_ok hmem (w.rank_me_, p) hme hpN
  by_cases hfull : w.BUFFER_MAX_SIZE ≤ size_at w.shared (w.rank_me_, p)
  · obtain ⟨mem', hwr, hok', hsz, hothers, hbufs⟩ :=
      write_size_spec hmem (w.rank_me_, p) (size_at w.shared (w.rank_me_, p) + 1) hme hpN
    refine ⟨{ w with shared := mem' }, ?_, rfl, ⟨hok', hme⟩, hsz, ?_, fun _ => hbufs _,
      fun q hq => ⟨hothers q hq, hbufs q⟩⟩
    · simp only [Worker.enqueue_push_request, hp, hpN, if_true, Worker.get_messgaes_count_send,
        hread, ge_iff_le, hfull, hwr]
    · intro hlt
      exact absurd hfull (Nat.not_le.mpr hlt)
  · have hidx : size_at w.shared (w.rank_me_, p) < w.BUFFER_MAX_SIZE := Nat.not_le.mp hfull
    obtain ⟨mem1, hws, hok1, hbuf1, hbufo1, hsz1⟩ :=
      write_slot_spec hmem (w.rank_me_, p) (size_at w.shared (w.rank_me_, p)) msg hme hpN hidx
    obtain ⟨mem2, hwr, hok2, hsz2, hothers2, hbufs2⟩ :=
      write_size_spec hok1 (w.rank_me_, p) (size_at w.shared (w.rank_me_, p) + 1) hme hpN
    refine ⟨{ w with shared := mem2 }, ?_, rfl, ⟨hok2, hme⟩, hsz2, ?_, ?_, ?_⟩
    · simp only [Worker.enqueue_push_request, hp, hpN, if_true, Worker.get_messgaes_count_send,
        hread, ge_iff_le, hfull, if_false, hws, hwr]
    · intro _
      show buffer_at mem2 _ = _
      rw [hbufs2, hbuf1]; rfl
    · intro hge
      exact absurd hge hfull
    · intro q hq
      exact ⟨by rw [hothers2 q hq, hsz1], by rw [hbufs2, hbufo1 q hq]⟩

theorem take_succ_set {α : Type} (x : α) : ∀ (l : List α) (c : Nat), c < l.length →
    (l.set c x).take (c + 1) = l.take c ++ [x]
  | [], c, h => by simp at h
  | a :: t, 0, _ => by simp
  | a :: t, c + 1, h => by
    simp only [List.set_cons_succ, List.take_succ_cons, List.cons_append, List.cons.injEq,
      true_and]
    exact take_succ_set x t c (by simpa using h)

theorem sent_to_append (n p : Nat) (a b : List Message) :
    sent_to n p (a ++ b) = sent_to n p a ++ sent_to n p b := by
  simp [sent_to]

theorem sendHolds_step (w w' : Worker) (hw : w.MemWF) (msg : Message) (sent : List Message)
    (p : Nat) (hp : p < w.total_workers) (h : w.SendHolds sent p)
    (he : w.enqueue_push_request msg = .ok w') : w'.SendHolds (sent ++ [msg]) p := by
  obtain ⟨w2, he2, hframe, hwf2, hcnt, hlt, hge, hoth⟩ := enqueue_spec w hw msg
  rw [he] at he2
  cases he2
  have htw : w'.total_workers = w.total_workers := by rw [hframe]
  have hM : w'.BUFFER_MAX_SIZE = w.BUFFER_MAX_SIZE := by rw [hframe]
  have hrk : w'.rank_me_ = w.rank_me_ := by rw [hframe]
  obtain ⟨hc, hb⟩ := h
  have hlenbuf : (w.send_buffer p).length = w.BUFFER_MAX_SIZE :=
    (read_buffer_ok hw.1 (w.rank_me_, p) hw.2 hp).2
  unfold Worker.SendHolds
  rw [htw, hM, sent_to_append]
  by_cases hd : w.get_partition msg.dest_table msg.dest_item = p
  · have hs1 : sent_to w.total_workers p [msg] = [msg] := by
      simp only [sent_to, List.filter_cons, List.filter_nil]
      rw [if_pos]
      simpa [Worker.get_partition] using hd
    rw [hs1]
    rw [hd] at hcnt hlt hge
    refine ⟨by rw [hcnt, hc]; simp, ?_⟩
    by_cases hfull : w.BUFFER_MAX_SIZE ≤ w.send_count p
    · rw [hge hfull]
      have hmin : min (sent_to w.total_workers p sent ++ [msg]).length w.BUFFER_MAX_SIZE
          = w.BUFFER_MAX_SIZE := by
        simp only [List.length_append, List.length_singleton]; omega
      have hmin0 : min (sent_to w.total_workers p sent).length w.BUFFER_MAX_SIZE
          = w.BUFFER_MAX_SIZE := by omega
      rw [hmin0] at hb
      rw [hmin, hb, List.take_append_of_le_length (by omega)]
    · have hl : w.send_count p < w.BUFFER_MAX_SIZE := Nat.not_le.mp hfull
      rw [hlt hl]
      have hlenS : (sent_to w.total_workers p sent).length = w.send_count p := hc.symm
      have hmin : min (sent_to w.total_workers p sent ++ [msg]).length w.BUFFER_MAX_SIZE
          = w.send_count p + 1 := by
        simp only [List.length_append, List.length_singleton]; omega
      have hmin0 : min (sent_to w.total_workers p sent).length w.BUFFER_MAX_SIZE
          = w.send_count p := by omega
      rw [hmin0, List.take_of_length_le (l := sent_to w.total_workers p sent) (by omega)] at hb
      rw [hmin, take_succ_set _ _ _ (by omega), hb,
        List.take_of_length_le (by simp only [List.length_append, List.length_singleton]; omega)]
  · have hs1 : sent_to w.total_workers p [msg] = [] := by
      simp only [sent_to, List.filter_cons, List.filter_nil]
      rw [if_neg]
      simpa [Worker.get_partition] using hd
    rw [hs1, List.append_nil]
    have hne : ((w.rank_me_, p) : GPtr) ≠ (w.rank_me_, w.get_partition msg.dest_table msg.dest_item) :=
      fun e => hd (congrArg Prod.snd e).symm
    obtain ⟨h1, h2⟩ := hoth (w.rank_me_, p) hne
    refine ⟨?_, ?_⟩
    · show size_at w'.shared (w'.rank_me_, p) = _
      rw [hrk, h1]; exact hc
    · show (buffer_at w'.shared (w'.rank_me_, p)).take _ = _
      rw [hrk, h2]; exact hb

theorem enqueue_all_spec : ∀ (msgs : List Message) (w : Worker), w.MemWF →
    ∃ w', w.enqueue_all msgs = .ok w' ∧ w' = { w with shared := w'.shared } ∧ w'.MemWF ∧
      (∀ sent p, p < w.total_workers → w.SendHolds sent p → w'.SendHolds (sent ++ msgs) p) ∧
      (∀ q : GPtr, q.1 ≠ w.rank_me_ →
        size_at w'.shared q = size_at w.shared q ∧ buffer_at w'.shared q = buffer_at w.shared q)
  | [], w, hw => ⟨w, rfl, rfl, hw, fun sent p _ h => by simpa using h, fun _ _ => ⟨rfl, rfl⟩⟩
  | msg :: rest, w, hw => by
    obtain ⟨w1, he, hframe, hwf1, -, -, -, hoth⟩ := enqueue_spec w hw msg
    obtain ⟨w', hr, hframe', hwf', hholds, hoth'⟩ := enqueue_all_spec rest w1 hwf1
    have htw : w1.total_workers = w.total_workers := by rw [hframe]
    have hrk : w1.rank_me_ = w.rank_me_ := by rw [hframe]
    refine ⟨w', by simp only [Worker.enqueue_all, he]; exact hr, ?_, hwf', ?_, ?_⟩
    · rw [hframe'] ; rw [hframe]
    · intro sent p hp h
      have := hholds (sent ++ [msg]) p (htw ▸ hp) (sendHolds_step w w1 hw msg sent p hp h he)
      simpa using this
    · intro q hq
      have h1 := hoth' q (hrk ▸ hq)
      have h2 := hoth q (fun e => hq (congrArg Prod.fst e))
      exact ⟨h1.1.trans h2.1, h1.2.trans h2.2⟩

theorem memOK_new (n m : Nat) : MemOK (List.replicate n (Segment.new n m)) n m := by
  refine ⟨by simp, ?_⟩
  intro seg hseg
  rw [List.mem_replicate] at hseg
  obtain ⟨-, rfl⟩ := hseg
  refine ⟨by simp [Segment.new], by simp [Segment.new], ?_⟩
  intro b hb
  simp only [Segment.new, List.mem_replicate] at hb
  rw [hb.2]; simp

theorem memWF_new (rank_me rank_n team_rank_me team_rank_n : Nat) (proc_local : List Bool)
    (buffer_size : Nat) (h : rank_me < rank_n) :
    (Worker.new rank_me rank_n team_rank_me team_rank_n proc_local buffer_size).MemWF :=
  ⟨memOK_new rank_n buffer_size, h⟩

/-- C3 (overflow policy of enqueue). On a worker whose shared segments have
the shape made by the constructors: (1) `enqueue_push_request(msg)` succeeds
and, with `p` the partition of the message, sets `send_count[p]` to the old
value plus one in every case, writes `msg` into slot `old_count` of `send[p]`
when `old_count < M`, leaves `send[p]` as it was when `old_count >= M`, and
changes no other counter or array of any rank; (2) after `M + j` enqueues to
`p` on a cleared counter, the counter is `M + j` and the array holds exactly
the first `M` messages in enqueue order. -/
theorem C3_enqueue_overflow_policy (w : Worker) (hw : w.MemWF) :
    (∀ msg : Message, ∃ w', w.enqueue_push_request msg = .ok w' ∧
      w'.send_count (w.get_partition msg.dest_table msg.dest_item)
        = w.send_count (w.get_partition msg.dest_table msg.dest_item) + 1 ∧
      (w.send_count (w.get_partition msg.dest_table msg.dest_item) < w.BUFFER_MAX_SIZE →
        w'.send_buffer (w.get_partition msg.dest_table msg.dest_item)
          = (w.send_buffer (w.get_partition msg.dest_table msg.dest_item)).set
              (w.send_count (w.get_partition msg.dest_table msg.dest_item)) msg) ∧
      (w.BUFFER_MAX_SIZE ≤ w.send_count (w.get_partition msg.dest_table msg.dest_item) →
        w'.send_buffer (w.get_partition msg.dest_table msg.dest_item)
          = w.send_buffer (w.get_partition msg.dest_table msg.dest_item)) ∧
      (∀ q : GPtr, q ≠ (w.rank_me_, w.get_partition msg.dest_table msg.dest_item) →
        size_at w'.shared q = size_at w.shared q ∧
        buffer_at w'.shared q = buffer_at w.shared q)) ∧
    (∀ (msgs : List Message) (p j : Nat), p < w.total_workers →
      (∀ m ∈ msgs, w.get_partition m.dest_table m.dest_item = p) →
      w.send_count p = 0 → msgs.length = w.BUFFER_MAX_SIZE + j →
      ∃ w', w.enqueue_all msgs = .ok w' ∧ w'.send_count p = w.BUFFER_MAX_SIZE + j ∧
        w'.send_buffer p = msgs.take w.BUFFER_MAX_SIZE) := by
  constructor
  · intro msg
    obtain ⟨w', h1, -, -, h2, h3, h4, h5⟩ := enqueue_spec w hw msg
    exact ⟨w', h1, h2, h3, h4, h5⟩
  · intro msgs p j hp hall hzero hlen
    obtain ⟨w', h1, hframe, hwf', hholds, -⟩ := enqueue_all_spec msgs w hw
    have h0 : w.SendHolds [] p := by
      refine ⟨by simpa [sent_to] using hzero, by simp [sent_to]⟩
    have hfil : sent_to w.total_workers p msgs = msgs := by
      unfold sent_to
      rw [List.filter_eq_self]
      intro m hm
      simpa [Worker.get_partition] using hall m hm
    obtain ⟨hc, hb⟩ := hholds [] p hp h0
    have htw : w'.total_workers = w.total_workers := by rw [hframe]
    have hM : w'.BUFFER_MAX_SIZE = w.BUFFER_MAX_SIZE := by rw [hframe]
    rw [List.nil_append, htw, hfil] at hc hb
    rw [hM] at hb
    have hbl : (w'.send_buffer p).length = w'.BUFFER_MAX_SIZE :=
      (read_buffer_ok hwf'.1 (w'.rank_me_, p) hwf'.2 (htw ▸ hp)).2
    refine ⟨w', h1, by rw [hc, hlen], ?_⟩
    rw [← hb, List.take_of_length_le]
    rw [hbl, hM, hlen]; omega

/-- The statement of C3 on rank 0 of two workers with `M = 8`: after the 10
messages of `odd_msgs 10`, all for rank 1, the counter is 10 and the array
holds the first 8. -/
theorem C3_enqueue_overflow_policy_witness :
    (Worker.new 0 2 0 1 [true, false] 8).MemWF ∧
    ∃ w', (Worker.new 0 2 0 1 [true, false] 8).enqueue_all (odd_msgs 10) = .ok w' ∧
      w'.send_count 1 = 8 + 2 ∧ w'.send_buffer 1 = (odd_msgs 10).take 8 :=
  ⟨memWF_new 0 2 0 1 [true, false] 8 (by decide),
    (C3_enqueue_overflow_policy (Worker.new 0 2 0 1 [true, false] 8)
      (memWF_new 0 2 0 1 [true, false] 8 (by decide))).2 (odd_msgs 10) 1 2 (by decide)
      (by decide) (by decide) (by decide)⟩

/-! ## validate_buffer_space -/

theorem isMaxOf_snoc (l : List Nat) (mx c : Nat) (h : IsMaxOf l mx) :
    IsMaxOf (l ++ [c]) (if c > mx then c else mx) := by
  obtain ⟨hm, hle⟩ := h
  by_cases hc : c > mx
  · simp only [hc, if_true]
    refine ⟨by simp, ?_⟩
    intro x hx
    rcases List.mem_append.mp hx with h1 | h1
    · exact Nat.le_of_lt (Nat.lt_of_le_of_lt (hle x h1) hc)
    · simp at h1; omega
  · simp only [hc, if_false]
    refine ⟨List.mem_append_left _ hm, ?_⟩
    intro x hx
    rcases List.mem_append.mp hx with h1 | h1
    · exact hle x h1
    · simp at h1; omega

theorem round_off_ge (x : Nat) (a b : Bool) : x ≤ round_off x a b := by
  unfold round_off
  split
  · omega
  · split <;> omega

theorem get_count_recv_ok (w : Worker) (hw : w.MemWF) (hh : w.HandlesOK) (i : Nat)
    (hl : w.is_process_local i = true) :
    w.get_messgaes_count_recv i = .ok (w.recv_count i) := by
  simp only [Worker.is_process_local, UPCXX_GPTR_LOCAL_ON] at hl
  split at hl
  · rename_i hc
    obtain ⟨-, -, hlen⟩ := hc
    simp only [Bool.and_eq_true, Option.isSome_iff_exists] at hl
    obtain ⟨-, sp, hsp⟩ := hl
    have hget : w.their_local_push_size[i]? = some (some sp) := by
      rw [List.getElem?_eq_getElem hlen]
      rw [List.getD_eq_getElem _ _ hlen] at hsp
      rw [hsp]
    obtain ⟨h1, h2⟩ := hh.1 i sp hget
    simp only [Worker.get_messgaes_count_recv, hlen, if_true, hsp, Worker.recv_count]
    exact read_size_ok hw.1 sp h1 h2
  · simp at hl

theorem validate_spec (w : Worker) (hw : w.MemWF) (hh : w.HandlesOK) :
    ∃ mx mn, w.validate_buffer_space = .ok
        (if mx > w.BUFFER_MAX_SIZE then
          { w with buffer_size_min := mn, buffer_size_max := mx,
                   error := ERROR_NOT_ENOUGH_BUFFER_SPACE }
         else { w with buffer_size_min := mn, buffer_size_max := mx }) ∧
      IsMaxOf w.counters mx := by
  have hsend : ∀ i, i < w.total_workers → w.get_messgaes_count_send i = .ok (w.send_count i) := by
    intro i hi
    simp only [Worker.get_messgaes_count_send, hi, if_true]
    exact read_size_ok hw.1 (w.rank_me_, i) hw.2 hi
  obtain ⟨s1, hl1, hP1⟩ := for_range_inv w.validate_send
    (fun i s => IsMaxOf (w.send_count w.rank_me_ :: (List.range i).map w.send_count) s.1)
    w.total_workers (w.send_count w.rank_me_, w.send_count w.rank_me_)
    ⟨by simp, by simp⟩
    (fun j s hj hp => by
      refine ⟨(if w.send_count j > s.1 then w.send_count j else s.1,
          if w.send_count j < s.2 then w.send_count j else s.2),
        by simp only [Worker.validate_send, hsend j hj], ?_⟩
      have := isMaxOf_snoc _ s.1 (w.send_count j) hp
      simpa [List.range_succ] using this)
  have hP1' : IsMaxOf ((List.range w.total_workers).map w.send_count) s1.1 := by
    have hmem : w.send_count w.rank_me_ ∈ (List.range w.total_workers).map w.send_count :=
      List.mem_map.mpr ⟨w.rank_me_, List.mem_range.mpr hw.2, rfl⟩
    obtain ⟨h1, h2⟩ := hP1
    refine ⟨?_, fun c hc => h2 c (List.mem_cons_of_mem _ hc)⟩
    rcases List.mem_cons.mp h1 with h | h
    · rw [h]; exact hmem
    · exact h
  obtain ⟨s2, hl2, hP2⟩ := for_range_inv w.validate_recv
    (fun i s => IsMaxOf ((List.range w.total_workers).map w.send_count ++
      ((List.range i).filter w.is_process_local).map w.recv_count) s.1)
    w.total_workers s1 (by simpa using hP1')
    (fun j s hj hp => by
      by_cases hloc : w.is_process_local j = true
      · refine ⟨(if w.recv_count j > s.1 then w.recv_count j else s.1,
            if w.recv_count j < s.2 then w.recv_count j else s.2),
          by simp only [Worker.validate_recv, hloc, if_true, get_count_recv_ok w hw hh j hloc],
          ?_⟩
        have := isMaxOf_snoc _ s.1 (w.recv_count j) hp
        simpa [List.range_succ, List.filter_append, hloc] using this
      · refine ⟨s, by simp only [Worker.validate_recv, hloc]; rfl, ?_⟩
        simpa [List.range_succ, List.filter_append, hloc] using hp)
  refine ⟨s2.1, s2.2, ?_, hP2⟩
  simp only [Worker.validate_buffer_space, hsend w.rank_me_ hw.2, hl1, hl2]
  split <;> rfl

theorem sent_to_length_le (n p : Nat) (msgs : List Message) :
    (sent_to n p msgs).length ≤ msgs.length := List.length_filter_le _ _

theorem handlesOK_frame (w w' : Worker) (h : w' = { w with shared := w'.shared })
    (hh : w.HandlesOK) : w'.HandlesOK := by
  rw [h]; exact hh

theorem is_process_local_frame (w w' : Worker) (h : w' = { w with shared := w'.shared })
    (i : Nat) : w'.is_process_local i = w.is_process_local i := by
  rw [h]; rfl

/-- C4 (overflow detection by validate). On a worker whose shared segments
and peer pointers are well formed: (1) `validate_buffer_space` succeeds, stores
in `buffer_size_max` the maximum of the counters it looks at (the send
counters and the counters read in place from co-located peers), sets `error`
to `ERROR_NOT_ENOUGH_BUFFER_SPACE` when that maximum exceeds `M` and leaves
`error` unchanged otherwise, and the size it reports, `round_off(max, true,
true)`, is at least the maximum; (2) `round_off` never returns less than its
argument; (3) after enqueuing messages for one peer on counters that are all
zero, validate sets the error when more than `M` messages were enqueued (so
for `M + 1`) and leaves it unchanged when at most `M` were (so for `M`). -/
theorem C4_validate_overflow (w : Worker) (hw : w.MemWF) (hh : w.HandlesOK) :
    (∃ w', w.validate_buffer_space = .ok w' ∧ IsMaxOf w.counters w'.buffer_size_max ∧
      (w.BUFFER_MAX_SIZE < w'.buffer_size_max → w'.error = ERROR_NOT_ENOUGH_BUFFER_SPACE) ∧
      (w'.buffer_size_max ≤ w.BUFFER_MAX_SIZE → w'.error = w.error) ∧
      w'.buffer_size_max ≤ w'.recommended) ∧
    (∀ (x : Nat) (is_K is_M : Bool), x ≤ round_off x is_K is_M) ∧
    (∀ (msgs : List Message) (p : Nat), p < w.total_workers →
      (∀ m ∈ msgs, w.get_partition m.dest_table m.dest_item = p) →
      (∀ c ∈ w.counters, c = 0) →
      ∃ w1 w2, w.enqueue_all msgs = .ok w1 ∧ w1.validate_buffer_space = .ok w2 ∧
        (w.BUFFER_MAX_SIZE < msgs.length → w2.error = ERROR_NOT_ENOUGH_BUFFER_SPACE) ∧
        (msgs.length ≤ w.BUFFER_MAX_SIZE → w2.error = w.error)) := by
  have part1 : ∀ v : Worker, v.MemWF → v.HandlesOK →
      ∃ v', v.validate_buffer_space = .ok v' ∧ IsMaxOf v.counters v'.buffer_size_max ∧
        (v.BUFFER_MAX_SIZE < v'.buffer_size_max → v'.error = ERROR_NOT_ENOUGH_BUFFER_SPACE) ∧
        (v'.buffer_size_max ≤ v.BUFFER_MAX_SIZE → v'.error = v.error) ∧
        v'.buffer_size_max ≤ v'.recommended := by
    intro v hv hvh
    obtain ⟨mx, mn, hval, hmax⟩ := validate_spec v hv hvh
    by_cases hc : mx > v.BUFFER_MAX_SIZE
    · rw [if_pos hc] at hval
      exact ⟨_, hval, hmax, fun _ => rfl, fun hle => absurd hc (Nat.not_lt.mpr hle),
        round_off_ge _ _ _⟩
    · rw [if_neg hc] at hval
      exact ⟨_, hval, hmax, fun hlt => absurd hlt hc, fun _ => rfl, round_off_ge _ _ _⟩
  refine ⟨part1 w hw hh, round_off_ge, ?_⟩
  intro msgs p hp hall hzero
  obtain ⟨w1, he, hframe, hwf1, hholds, hoth⟩ := enqueue_all_spec msgs w hw
  have hh1 : w1.HandlesOK := handlesOK_frame w w1 hframe hh
  obtain ⟨w2, hv, hmax, hset, hkeep, -⟩ := part1 w1 hwf1 hh1
  have htw : w1.total_workers = w.total_workers := by rw [hframe]
  have hM : w1.BUFFER_MAX_SIZE = w.BUFFER_MAX_SIZE := by rw [hframe]
  have hrk : w1.rank_me_ = w.rank_me_ := by rw [hframe]
  have herr : w1.error = w.error := by rw [hframe]
  have hsend0 : ∀ q, q < w.total_workers → w.send_count q = 0 := fun q hq =>
    hzero _ (List.mem_append_left _ (List.mem_map.mpr ⟨q, List.mem_range.mpr hq, rfl⟩))
  have hcount : ∀ q, q < w.total_workers →
      w1.send_count q = (sent_to w.total_workers q msgs).length := by
    intro q hq
    have := (hholds [] q hq ⟨by simpa [sent_to] using hsend0 q hq, by simp [sent_to]⟩).1
    simpa [htw] using this
  refine ⟨w1, w2, he, hv, ?_, ?_⟩
  · intro hlt
    apply hset
    rw [hM]
    have hfil : sent_to w.total_workers p msgs = msgs := by
      unfold sent_to
      rw [List.filter_eq_self]
      intro m hm
      simpa [Worker.get_partition] using hall m hm
    have hin : w1.send_count p ∈ w1.counters :=
      List.mem_append_left _ (List.mem_map.mpr ⟨p, List.mem_range.mpr (htw ▸ hp), rfl⟩)
    have := hmax.2 _ hin
    rw [hcount p hp, hfil] at this
    omega
  · intro hle
    rw [hkeep, herr]
    rw [hM]
    have hb := hmax.1
    rcases List.mem_append.mp hb with h | h
    · obtain ⟨q, hq, hqe⟩ := List.mem_map.mp h
      rw [List.mem_range, htw] at hq
      rw [← hqe, hcount q hq]
      exact Nat.le_trans (sent_to_length_le _ _ _) hle
    · obtain ⟨i, hi, hie⟩ := List.mem_map.mp h
      rw [List.mem_filter, List.mem_range, htw, is_process_local_frame w w1 hframe] at hi
      rw [← hie]
      have hsame : w1.their_local_push_size = w.their_local_push_size := by rw [hframe]
      unfold Worker.recv_count
      rw [hsame]
      cases hsp : w.their_local_push_size.getD i none with
      | none => simp
      | some sp =>
        simp only
        have hlen : i < w.their_local_push_size.length := by
          by_contra hcon
          rw [List.getD_eq_default _ _ (Nat.le_of_not_lt hcon)] at hsp
          cases hsp
        have hget : w.their_local_push_size[i]? = some (some sp) := by
          rw [List.getElem?_eq_getElem hlen]
          rw [List.getD_eq_getElem _ _ hlen] at hsp
          rw [hsp]
        obtain ⟨h1, h2⟩ := hh.1 i sp hget
        by_cases hme : sp.1 = w.rank_me_
        · have : size_at w1.shared sp = w1.send_count sp.2 := by
            unfold Worker.send_count
            rw [hrk, ← hme]
          rw [this, hcount sp.2 h2]
          exact Nat.le_trans (sent_to_length_le _ _ _) hle
        · rw [(hoth sp hme).1]
          have hz : w.recv_count i = 0 :=
            hzero _ (List.mem_append_right _ (List.mem_map.mpr
              ⟨i, List.mem_filter.mpr ⟨List.mem_range.mpr hi.1, hi.2⟩, rfl⟩))
          unfold Worker.recv_count at hz
          rw [hsp] at hz
          simp only at hz
          rw [hz]
          exact Nat.zero_le _

theorem handlesOK_new (rank_me rank_n team_rank_me team_rank_n : Nat) (proc_local : List Bool)
    (buffer_size : Nat) :
    (Worker.new rank_me rank_n team_rank_me team_rank_n proc_local buffer_size).HandlesOK :=
  ⟨fun i sp h => by simp [Worker.new] at h, fun i bp h => by simp [Worker.new] at h⟩

/-- The statement of C4 on rank 0 of two workers with `M = 8`: 9 messages for
rank 1 trip the error, 8 messages do not. -/
theorem C4_validate_overflow_witness :
    (Worker.new 0 2 0 1 [true, false] 8).MemWF ∧
    (Worker.new 0 2 0 1 [true, false] 8).HandlesOK ∧
    (∃ w1 w2, (Worker.new 0 2 0 1 [true, false] 8).enqueue_all (odd_msgs 9) = .ok w1 ∧
      w1.validate_buffer_space = .ok w2 ∧ w2.error = ERROR_NOT_ENOUGH_BUFFER_SPACE) ∧
    (∃ w1 w2, (Worker.new 0 2 0 1 [true, false] 8).enqueue_all (odd_msgs 8) = .ok w1 ∧
      w1.validate_buffer_space = .ok w2 ∧ w2.error = 0) := by
  have hw := memWF_new 0 2 0 1 [true, false] 8 (by decide)
  have hh := handlesOK_new 0 2 0 1 [true, false] 8
  have h := (C4_validate_overflow (Worker.new 0 2 0 1 [true, false] 8) hw hh).2.2
  refine ⟨hw, hh, ?_, ?_⟩
  · obtain ⟨w1, w2, h1, h2, h3, -⟩ := h (odd_msgs 9) 1 (by decide) (by decide) (by decide)
    exact ⟨w1, w2, h1, h2, h3 (by decide)⟩
  · obtain ⟨w1, w2, h1, h2, -, h4⟩ := h (odd_msgs 8) 1 (by decide) (by decide) (by decide)
    exact ⟨w1, w2, h1, h2, h4 (by decide)⟩

/-! ## apply_push_to_item -/

theorem apply_remote (hashf : Nat → Int) (n me : Nat) (tb : TableContainer) (msg : Message)
    (create : Bool) (h : get_partition n tb.myTableKey msg.dest_item ≠ me) :
    tb.apply_push_to_item hashf n me msg create = .ok (tb, IGNORED_NEW_REMOTE) := by
  simp only [TableContainer.apply_push_to_item, h, ne_eq, not_false_eq_true, if_true]

theorem apply_found (hashf : Nat → Int) (n me : Nat) (tb : TableContainer)
    (hok : TableOK hashf tb) (msg : Message) (create : Bool)
    (h : get_partition n tb.myTableKey msg.dest_item = me) (p : Nat)
    (hhas : tb.mapped_items.has msg.dest_item (some p)) :
    ∃ it, tb.objects[p]? = some it ∧ it.myItemKey = msg.dest_item ∧
      tb.apply_push_to_item hashf n me msg create
        = .ok ({ tb with objects := tb.objects.set p (it.invoke (Call.on_push_recv msg.value)) },
               FOUND_EXISTING_LOCAL) := by
  obtain ⟨hinv, hkd, hptr⟩ := hok
  obtain ⟨e, he, hk, hv⟩ := hhas
  obtain ⟨loc, hfind, hlt, hget⟩ := find_present hashf tb.mapped_items hinv hkd e he
  obtain ⟨p', it, hp', hit, hkey⟩ := hptr e he
  rw [hv] at hp'
  cases hp'
  rw [hk] at hfind hkey
  refine ⟨it, hit, hkey, ?_⟩
  have hne : ¬ (loc = tb.mapped_items.end_) := Nat.ne_of_lt hlt
  simp only [TableContainer.apply_push_to_item, h, ne_eq, not_true_eq_false, if_false, hfind,
    hne, hget, hv, TableContainer.invoke, hit]

theorem apply_absent_ignore (hashf : Nat → Int) (n me : Nat) (tb : TableContainer)
    (hok : TableOK hashf tb) (msg : Message)
    (h : get_partition n tb.myTableKey msg.dest_item = me) (habs : tb.absent msg.dest_item) :
    tb.apply_push_to_item hashf n me msg false = .ok (tb, IGNORED_NEW_LOCAL) := by
  have hfind := find_absent hashf tb.mapped_items hok.1 msg.dest_item habs
  simp only [TableContainer.apply_push_to_item, h, ne_eq, not_true_eq_false, if_false, hfind,
    Robin_Map.end_, if_true, Bool.false_eq_true]

theorem apply_absent_create (hashf : Nat → Int) (hh : ∀ k, hashf k ≠ -1) (n me : Nat)
    (tb : TableContainer) (hok : TableOK hashf tb) (msg : Message)
    (h : get_partition n tb.myTableKey msg.dest_item = me) (habs : tb.absent msg.dest_item) :
    ∃ items, tb.mapped_items.insert hashf msg.dest_item (some tb.objects.length) = .ok items ∧
      tb.apply_push_to_item hashf n me msg true
        = .ok ({ tb with
                 objects := tb.objects ++
                   [pushed_new_item tb.myTableKey msg.dest_item tb.worker msg.value],
                 mapped_items := items }, CREATED_NEW_LOCAL) ∧
      TableOK hashf { tb with
                 objects := tb.objects ++
                   [pushed_new_item tb.myTableKey msg.dest_item tb.worker msg.value],
                 mapped_items := items } ∧
      (live_list items.entries).Perm
        ({ hash := hashf msg.dest_item, first := msg.dest_item,
           second := some tb.objects.length } :: live_list tb.mapped_items.entries) := by
  have hfind := find_absent hashf tb.mapped_items hok.1 msg.dest_item habs
  obtain ⟨items, hins, hinv', hperm, -, -⟩ :=
    insert_spec hashf tb.mapped_items hok.1 msg.dest_item (some tb.objects.length)
      (hh msg.dest_item)
  refine ⟨items, hins, ?_, ⟨hinv', ?_, ?_⟩, hperm⟩
  · simp only [TableContainer.apply_push_to_item, h, ne_eq, not_true_eq_false, if_false, hfind,
      Robin_Map.end_, if_true, TableContainer.create_new_item, TableContainer.invoke,
      List.getElem?_concat_length, List.set_append_right _ _ (Nat.le_refl _),
      Nat.sub_self, List.set_cons_zero, hins, Item.invoke, Item.new, List.nil_append,
      List.cons_append, pushed_new_item]
  · unfold keys_distinct
    refine (hperm.map Entry.first).nodup_iff.mpr ?_
    simp only [List.map_cons, List.nodup_cons]
    refine ⟨?_, hok.2.1⟩
    intro hmem
    obtain ⟨e, he, hek⟩ := List.mem_map.mp hmem
    exact habs e he hek
  · intro e he
    rcases List.mem_cons.mp (hperm.mem_iff.mp he) with rfl | hold
    · exact ⟨tb.objects.length, pushed_new_item tb.myTableKey msg.dest_item tb.worker msg.value,
        rfl, by simp, rfl⟩
    · obtain ⟨p, it, h1, h2, h3⟩ := hok.2.2 e hold
      refine ⟨p, it, h1, ?_, h3⟩
      have hp : p < tb.objects.length := (List.getElem?_eq_some_iff.mp h2).1
      simp only [List.getElem?_append_left hp]
      exact h2

theorem live_list_new_map {K V : Type} [Inhabited K] [Inhabited V] :
    live_list (Robin_Map.new : Robin_Map K V).entries = [] :=
  live_list_replicate_blank 1024

theorem tableOK_new (hashf : Nat → Int) : TableOK hashf TableContainer.new := by
  refine ⟨inv_new hashf, ?_, ?_⟩
  · unfold keys_distinct
    rw [show TableContainer.new.mapped_items = Robin_Map.new from rfl, live_list_new_map]
    exact List.nodup_nil
  · intro e he
    rw [show TableContainer.new.mapped_items = Robin_Map.new from rfl, live_list_new_map] at he
    cases he

theorem absent_new (k : Nat) : TableContainer.new.absent k := by
  intro e he
  rw [show TableContainer.new.mapped_items = Robin_Map.new from rfl, live_list_new_map] at he
  cases he

/-- C5 (status of apply). For a hash that never returns `-1` and a table that
satisfies the table invariant, `apply_push_to_item(msg, create)` called on a
worker of rank `me` among `n`: returns `IGNORED_NEW_REMOTE` (400) and the
table as it was when the partition of `msg.dest_item` is not `me`; otherwise,
when the key is stored with item pointer `p`, returns `FOUND_EXISTING_LOCAL`
(300) and the only change is one `on_push_recv(msg.value)` appended to the
calls of item `p`; otherwise, when the key is absent, returns
`CREATED_NEW_LOCAL` (100) if `create` is true and `IGNORED_NEW_LOCAL` (500)
with the table as it was if `create` is false. -/
theorem C5_apply_status (hashf : Nat → Int) (hh : ∀ k, hashf k ≠ -1) (n me : Nat)
    (tb : TableContainer) (hok : TableOK hashf tb) (msg : Message) (create : Bool) :
    (get_partition n tb.myTableKey msg.dest_item ≠ me →
      tb.apply_push_to_item hashf n me msg create = .ok (tb, 400)) ∧
    (get_partition n tb.myTableKey msg.dest_item = me →
      ∀ p, tb.mapped_items.has msg.dest_item (some p) →
        ∃ it, tb.objects[p]? = some it ∧
          tb.apply_push_to_item hashf n me msg create
            = .ok ({ tb with objects :=
                      tb.objects.set p { it with calls := it.calls ++ [Call.on_push_recv msg.value] } },
                   300)) ∧
    (get_partition n tb.myTableKey msg.dest_item = me → tb.absent msg.dest_item →
      create = true → ∃ tb', tb.apply_push_to_item hashf n me msg create = .ok (tb', 100)) ∧
    (get_partition n tb.myTableKey msg.dest_item = me → tb.absent msg.dest_item →
      create = false → tb.apply_push_to_item hashf n me msg create = .ok (tb, 500)) := by
  refine ⟨fun h => apply_remote hashf n me tb msg create h, ?_, ?_, ?_⟩
  · intro h p hp
    obtain ⟨it, h1, -, h2⟩ := apply_found hashf n me tb hok msg create h p hp
    exact ⟨it, h1, h2⟩
  · intro h habs hc
    subst hc
    obtain ⟨items, -, h2, -, -⟩ := apply_absent_create hashf hh n me tb hok msg h habs
    exact ⟨_, h2⟩
  · intro h habs hc
    subst hc
    exact apply_absent_ignore hashf n me tb hok msg h habs

/-- The statement of C5 on an empty table of rank 0 of two workers: a message
for key 1 (home rank 1) is rejected with 400, a message for the absent key 2
(home rank 0) gives 100 with `create` and 500 without. -/
theorem C5_apply_status_witness :
    (∀ k, sample_hash k ≠ -1) ∧ TableOK sample_hash TableContainer.new ∧
    TableContainer.new.apply_push_to_item sample_hash 2 0 (msg_to 1) true
      = .ok (TableContainer.new, 400) ∧
    (∃ tb', TableContainer.new.apply_push_to_item sample_hash 2 0 (msg_to 2) true
      = .ok (tb', 100)) ∧
    TableContainer.new.apply_push_to_item sample_hash 2 0 (msg_to 2) false
      = .ok (TableContainer.new, 500) :=
  ⟨sample_hash_ne, tableOK_new sample_hash,
    (C5_apply_status sample_hash sample_hash_ne 2 0 TableContainer.new
      (tableOK_new sample_hash) (msg_to 1) true).1 (by decide),
    (C5_apply_status sample_hash sample_hash_ne 2 0 TableContainer.new
      (tableOK_new sample_hash) (msg_to 2) true).2.2.1 (by decide) (absent_new 2) rfl,
    (C5_apply_status sample_hash sample_hash_ne 2 0 TableContainer.new
      (tableOK_new sample_hash) (msg_to 2) false).2.2.2 (by decide) (absent_new 2) rfl⟩

/-! ## add_item -/

theorem present_or_absent (hashf : Nat → Int) (tb : TableContainer) (hok : TableOK hashf tb)
    (k : Nat) : tb.absent k ∨ ∃ p, tb.mapped_items.has k (some p) := by
  by_cases h : tb.absent k
  · exact Or.inl h
  · right
    unfold TableContainer.absent at h
    push_neg at h
    obtain ⟨e, he, hk⟩ := h
    obtain ⟨p, it, hp, -, -⟩ := hok.2.2 e he
    exact ⟨p, e, he, hk, hp⟩

theorem absent_not_has (tb : TableContainer) (k : Nat) (h : tb.absent k) (v : Option Nat) :
    ¬ tb.mapped_items.has k v := by
  rintro ⟨e, he, hk, -⟩
  exact h e he hk

theorem tableOK_invoke (hashf : Nat → Int) (tb : TableContainer) (hok : TableOK hashf tb)
    (p : Nat) (it : Item) (hit : tb.objects[p]? = some it) (c : Call) :
    TableOK hashf (tb.with_call p it c) := by
  refine ⟨hok.1, hok.2.1, ?_⟩
  intro e he
  obtain ⟨q, it', h1, h2, h3⟩ := hok.2.2 e he
  by_cases hq : p = q
  · subst hq
    rw [hit] at h2
    cases h2
    have hp : p < tb.objects.length := (List.getElem?_eq_some_iff.mp hit).1
    exact ⟨p, it.invoke c, h1,
      by simp [TableContainer.with_call, List.getElem?_set_self hp], h3⟩
  · exact ⟨q, it', h1,
      by simp only [TableContainer.with_call, List.getElem?_set_ne hq]; exact h2, h3⟩

theorem add_item_create (hashf : Nat → Int) (hh : ∀ k, hashf k ≠ -1) (w : Worker)
    (t k : Nat) (is_remote : Bool) (tb : TableContainer) (htb : w.tables[t]? = some tb)
    (hok : TableOK hashf tb) (hhome : w.get_partition t k = w.rank_me_) (habs : tb.absent k) :
    ∃ items, tb.mapped_items.insert hashf k (some tb.objects.length) = .ok items ∧
      w.add_item hashf t k is_remote true
        = .ok (w.set_table t (tb.with_new (added_item t k w.rank_me_) items),
               some tb.objects.length, CREATED_NEW_LOCAL) ∧
      TableOK hashf (tb.with_new (added_item t k w.rank_me_) items) ∧
      (live_list items.entries).Perm
        ({ hash := hashf k, first := k, second := some tb.objects.length }
          :: live_list tb.mapped_items.entries) := by
  have hfind := find_absent hashf tb.mapped_items hok.1 k habs
  have hlt : t < w.tables.length := (List.getElem?_eq_some_iff.mp htb).1
  obtain ⟨items, hins, hinv', hperm, -, -⟩ :=
    insert_spec hashf tb.mapped_items hok.1 k (some tb.objects.length) (hh k)
  refine ⟨items, hins, ?_, ⟨hinv', ?_, ?_⟩, hperm⟩
  · simp only [Worker.add_item, hhome, if_true, hlt, not_true_eq_false, if_false, htb, hfind,
      Robin_Map.end_, hins, Item.invoke, Item.new, List.nil_append, List.cons_append, added_item,
      Worker.set_table, TableContainer.with_new]
  · unfold keys_distinct
    refine (hperm.map Entry.first).nodup_iff.mpr ?_
    simp only [List.map_cons, List.nodup_cons]
    refine ⟨?_, hok.2.1⟩
    intro hmem
    obtain ⟨e, he, hek⟩ := List.mem_map.mp hmem
    exact habs e he hek
  · intro e he
    rcases List.mem_cons.mp (hperm.mem_iff.mp he) with rfl | hold
    · exact ⟨tb.objects.length, added_item t k w.rank_me_, rfl,
        by simp [TableContainer.with_new], rfl⟩
    · obtain ⟨p, it, h1, h2, h3⟩ := hok.2.2 e hold
      refine ⟨p, it, h1, ?_, h3⟩
      have hp : p < tb.objects.length := (List.getElem?_eq_some_iff.mp h2).1
      simp only [TableContainer.with_new, List.getElem?_append_left hp]
      exact h2

theorem add_item_ignore_local (hashf : Nat → Int) (w : Worker) (t k : Nat) (is_remote : Bool)
    (tb : TableContainer) (htb : w.tables[t]? = some tb) (hok : TableOK hashf tb)
    (hhome : w.get_partition t k = w.rank_me_) (habs : tb.absent k) :
    w.add_item hashf t k is_remote false = .ok (w, none, IGNORED_NEW_LOCAL) := by
  have hfind := find_absent hashf tb.mapped_items hok.1 k habs
  have hlt : t < w.tables.length := (List.getElem?_eq_some_iff.mp htb).1
  simp only [Worker.add_item, hhome, if_true, hlt, not_true_eq_false, if_false, htb, hfind,
    Robin_Map.end_, Bool.false_eq_true]

theorem add_item_found (hashf : Nat → Int) (w : Worker) (t k : Nat) (is_remote create : Bool)
    (tb : TableContainer) (htb : w.tables[t]? = some tb) (hok : TableOK hashf tb)
    (hhome : w.get_partition t k = w.rank_me_) (p : Nat)
    (hhas : tb.mapped_items.has k (some p)) :
    ∃ it, tb.objects[p]? = some it ∧ it.myItemKey = k ∧
      w.add_item hashf t k is_remote create
        = .ok (w.set_table t (tb.with_call p it Call.refresh), some p, FOUND_EXISTING_LOCAL) := by
  obtain ⟨hinv, hkd, hptr⟩ := hok
  obtain ⟨e, he, hk, hv⟩ := hhas
  obtain ⟨loc, hfind, hlt, hget⟩ := find_present hashf tb.mapped_items hinv hkd e he
  obtain ⟨p', it, hp', hit, hkey⟩ := hptr e he
  rw [hv] at hp'
  cases hp'
  rw [hk] at hfind hkey
  refine ⟨it, hit, hkey, ?_⟩
  have hne : ¬ (loc = tb.mapped_items.end_) := Nat.ne_of_lt hlt
  have htl : t < w.tables.length := (List.getElem?_eq_some_iff.mp htb).1
  simp only [Worker.add_item, hhome, if_true, htl, not_true_eq_false, if_false, htb, hfind,
    hne, hget, hv, Worker.invoke, TableContainer.invoke, hit, Worker.set_table,
    TableContainer.with_call]

theorem add_item_request (hashf : Nat → Int) (w : Worker) (hw : w.MemWF) (t k : Nat)
    (hhome : w.get_partition t k ≠ w.rank_me_) :
    ∃ w', w.enqueue_push_request
        { value := 0, src_table := t, dest_table := t, dest_item := k, src_item := k } = .ok w' ∧
      w.add_item hashf t k true true = .ok (w', none, REQUESTED_NEW_REMOTE) := by
  obtain ⟨w', he, -⟩ := enqueue_spec w hw
    { value := 0, src_table := t, dest_table := t, dest_item := k, src_item := k }
  refine ⟨w', he, ?_⟩
  simp only [Worker.add_item, hhome, if_false, ne_eq, not_false_eq_true, and_self, if_true, he]

theorem add_item_ignore_remote (hashf : Nat → Int) (w : Worker) (t k : Nat)
    (is_remote create : Bool) (hhome : w.get_partition t k ≠ w.rank_me_)
    (hno : ¬ (is_remote = true ∧ create = true)) :
    w.add_item hashf t k is_remote create = .ok (w, none, IGNORED_NEW_REMOTE) := by
  have : ¬ (create = true ∧ is_remote = true) := fun h => hno ⟨h.2, h.1⟩
  simp only [Worker.add_item, hhome, if_false, ne_eq, not_false_eq_true, true_and, this]

theorem tableOK_fresh (hashf : Nat → Int) (tb : TableContainer)
    (h : tb.mapped_items = Robin_Map.new) : TableOK hashf tb := by
  refine ⟨h ▸ inv_new hashf, ?_, ?_⟩
  · unfold keys_distinct
    rw [h, live_list_new_map]
    exact List.nodup_nil
  · intro e he
    rw [h, live_list_new_map] at he
    cases he

theorem absent_fresh (tb : TableContainer) (h : tb.mapped_items = Robin_Map.new) (k : Nat) :
    tb.absent k := by
  intro e he
  rw [h, live_list_new_map] at he
  cases he

theorem sample_worker_table : sample_worker.tables[0]? = some sample_table := by
  simp [sample_worker, Worker.add_table, Worker.new, sample_table]

theorem sample_worker_memWF : sample_worker.MemWF := by
  have h : sample_worker.shared = (Worker.new 0 2 0 1 [true, false] 8).shared := by
    simp [sample_worker, Worker.add_table, Worker.new]
  refine ⟨?_, ?_⟩
  · rw [h]
    exact memOK_new 2 8
  · show 0 < 2
    omega

/-- C6 (status of add_item). For a hash that never returns `-1` and a worker
with well-formed shared segments, `add_item(t, k, is_remote, create)` returns:
when the home of `k` is this rank and table `t` satisfies the table invariant,
the pointer of the newly allocated item and `CREATED_NEW_LOCAL` (100) if `k` is
absent and `create` is true, null and `IGNORED_NEW_LOCAL` (500) if `k` is absent
and `create` is false, the stored pointer and `FOUND_EXISTING_LOCAL` (300) if
`k` is present; when the home is another rank, null and `REQUESTED_NEW_REMOTE`
(200) if `is_remote` and `create` are both true, null and `IGNORED_NEW_REMOTE`
(400) otherwise.  The call always succeeds, the returned pointer is non-null
exactly for the statuses 100 and 300, and with the statuses 400 and 500 the
worker (its tables and send buffers) is unchanged. -/
theorem C6_add_item_status (hashf : Nat → Int) (hh : ∀ k, hashf k ≠ -1) (w : Worker)
    (hw : w.MemWF) (t k : Nat) (is_remote create : Bool)
    (ht : w.get_partition t k = w.rank_me_ → ∃ tb, w.tables[t]? = some tb ∧ TableOK hashf tb) :
    (w.get_partition t k = w.rank_me_ → ∀ tb, w.tables[t]? = some tb →
      (tb.absent k → create = true → ∃ items,
        w.add_item hashf t k is_remote create
          = .ok (w.set_table t (tb.with_new (added_item t k w.rank_me_) items),
                 some tb.objects.length, 100)) ∧
      (tb.absent k → create = false →
        w.add_item hashf t k is_remote create = .ok (w, none, 500)) ∧
      (∀ p, tb.mapped_items.has k (some p) →
        ∃ w', w.add_item hashf t k is_remote create = .ok (w', some p, 300))) ∧
    (w.get_partition t k ≠ w.rank_me_ →
      (is_remote = true ∧ create = true →
        ∃ w', w.add_item hashf t k is_remote create = .ok (w', none, 200)) ∧
      (¬ (is_remote = true ∧ create = true) →
        w.add_item hashf t k is_remote create = .ok (w, none, 400))) ∧
    (∃ w' ptr st, w.add_item hashf t k is_remote create = .ok (w', ptr, st) ∧
      (ptr ≠ none ↔ (st = 100 ∨ st = 300)) ∧ (st = 400 ∨ st = 500 → w' = w)) := by
  have local_cases : w.get_partition t k = w.rank_me_ → ∀ tb, w.tables[t]? = some tb →
      (tb.absent k → create = true → ∃ items,
        w.add_item hashf t k is_remote create
          = .ok (w.set_table t (tb.with_new (added_item t k w.rank_me_) items),
                 some tb.objects.length, 100)) ∧
      (tb.absent k → create = false →
        w.add_item hashf t k is_remote create = .ok (w, none, 500)) ∧
      (∀ p, tb.mapped_items.has k (some p) →
        ∃ w', w.add_item hashf t k is_remote create = .ok (w', some p, 300)) := by
    intro hhome tb htb
    obtain ⟨tb', htb', hok⟩ := ht hhome
    rw [htb] at htb'
    cases htb'
    refine ⟨?_, ?_, ?_⟩
    · intro habs hc
      subst hc
      obtain ⟨items, -, h2, -, -⟩ := add_item_create hashf hh w t k is_remote tb htb hok hhome habs
      exact ⟨items, h2⟩
    · intro habs hc
      subst hc
      exact add_item_ignore_local hashf w t k is_remote tb htb hok hhome habs
    · intro p hp
      obtain ⟨it, -, -, h3⟩ := add_item_found hashf w t k is_remote create tb htb hok hhome p hp
      exact ⟨_, h3⟩
  have remote_cases : w.get_partition t k ≠ w.rank_me_ →
      (is_remote = true ∧ create = true →
        ∃ w', w.add_item hashf t k is_remote create = .ok (w', none, 200)) ∧
      (¬ (is_remote = true ∧ create = true) →
        w.add_item hashf t k is_remote create = .ok (w, none, 400)) := by
    intro hhome
    refine ⟨?_, fun hno => add_item_ignore_remote hashf w t k is_remote create hhome hno⟩
    rintro ⟨rfl, rfl⟩
    obtain ⟨w', -, h2⟩ := add_item_request hashf w hw t k hhome
    exact ⟨w', h2⟩
  refine ⟨local_cases, remote_cases, ?_⟩
  by_cases hhome : w.get_partition t k = w.rank_me_
  · obtain ⟨tb, htb, hok⟩ := ht hhome
    obtain ⟨h1, h2, h3⟩ := local_cases hhome tb htb
    rcases present_or_absent hashf tb hok k with habs | ⟨p, hp⟩
    · by_cases hc : create = true
      · obtain ⟨items, hi⟩ := h1 habs hc
        exact ⟨_, _, _, hi, by simp, by simp⟩
      · exact ⟨w, none, 500, h2 habs (Bool.eq_false_iff.mpr hc), by simp, fun _ => rfl⟩
    · obtain ⟨w', hf⟩ := h3 p hp
      exact ⟨w', some p, 300, hf, by simp, by simp⟩
  · obtain ⟨h1, h2⟩ := remote_cases hhome
    by_cases hc : is_remote = true ∧ create = true
    · obtain ⟨w', hr⟩ := h1 hc
      exact ⟨w', none, 200, hr, by simp, by simp⟩
    · exact ⟨w, none, 400, h2 hc, by simp, fun _ => rfl⟩

/-- The statement of C6 on `sample_worker` (rank 0 of two): the absent local
key 2 is created with pointer 0 or ignored with 500, the remote key 1 is
requested with 200 or ignored with 400. -/
theorem C6_add_item_status_witness :
    (∀ k, sample_hash k ≠ -1) ∧ sample_worker.MemWF ∧
    (∃ items, sample_worker.add_item sample_hash 0 2 false true
      = .ok (sample_worker.set_table 0 (sample_table.with_new (added_item 0 2 0) items),
             some 0, 100)) ∧
    sample_worker.add_item sample_hash 0 2 false false = .ok (sample_worker, none, 500) ∧
    (∃ w', sample_worker.add_item sample_hash 0 1 true true = .ok (w', none, 200)) ∧
    sample_worker.add_item sample_hash 0 1 false true = .ok (sample_worker, none, 400) := by
  have ht : ∀ k, sample_worker.get_partition 0 k = sample_worker.rank_me_ →
      ∃ tb, sample_worker.tables[0]? = some tb ∧ TableOK sample_hash tb :=
    fun _ _ => ⟨sample_table, sample_worker_table, tableOK_fresh sample_hash sample_table rfl⟩
  refine ⟨sample_hash_ne, sample_worker_memWF, ?_, ?_, ?_, ?_⟩
  · exact ((C6_add_item_status sample_hash sample_hash_ne sample_worker sample_worker_memWF
      0 2 false true (ht 2)).1 (by decide) sample_table sample_worker_table).1
      (absent_fresh sample_table rfl 2) rfl
  · exact ((C6_add_item_status sample_hash sample_hash_ne sample_worker sample_worker_memWF
      0 2 false false (ht 2)).1 (by decide) sample_table sample_worker_table).2.1
      (absent_fresh sample_table rfl 2) rfl
  · exact ((C6_add_item_status sample_hash sample_hash_ne sample_worker sample_worker_memWF
      0 1 true true (ht 1)).2.1 (by decide)).1 ⟨rfl, rfl⟩
  · exact ((C6_add_item_status sample_hash sample_hash_ne sample_worker sample_worker_memWF
      0 1 false true (ht 1)).2.1 (by decide)).2 (by decide)

theorem set_table_get (w : Worker) (t : Nat) (tb tb' : TableContainer)
    (h : w.tables[t]? = some tb) : (w.set_table t tb').tables[t]? = some tb' := by
  have hlt : t < w.tables.length := (List.getElem?_eq_some_iff.mp h).1
  simp [Worker.set_table, List.getElem?_set_self hlt]

/-- C7 (idempotent add_item for local keys). For a hash that never returns
`-1`, a table `t` that satisfies the table invariant and a key `k` whose home
is this rank and which is absent: two successive calls `add_item(t, k)` succeed
and return the same non-null pointer `p` (the first with status 100, the second
with 300); the item `p` did not exist before, after the first call its calls
are `on_create, refresh` and after the second `on_create, refresh, refresh`, so
`on_create` ran once and `refresh` twice; after each call the map of the table
holds exactly one entry for `k`. -/
theorem C7_add_item_idempotent (hashf : Nat → Int) (hh : ∀ k, hashf k ≠ -1) (w : Worker)
    (t k : Nat) (tb : TableContainer) (htb : w.tables[t]? = some tb) (hok : TableOK hashf tb)
    (hhome : w.get_partition t k = w.rank_me_) (habs : tb.absent k) :
    ∃ w1 w2 p tb1 tb2 it1 it2,
      w.add_item hashf t k false true = .ok (w1, some p, 100) ∧
      w1.add_item hashf t k false true = .ok (w2, some p, 300) ∧
      tb.objects[p]? = none ∧
      w1.tables[t]? = some tb1 ∧ tb1.objects[p]? = some it1 ∧
      w2.tables[t]? = some tb2 ∧ tb2.objects[p]? = some it2 ∧
      it1.calls = [Call.on_create, Call.refresh] ∧
      it2.calls = [Call.on_create, Call.refresh, Call.refresh] ∧
      it2.count_call Call.on_create = 1 ∧ it2.count_call Call.refresh = 2 ∧
      tb1.entries_for k = 1 ∧ tb2.entries_for k = 1 := by
  obtain ⟨items, -, hadd1, hok1, hperm⟩ :=
    add_item_create hashf hh w t k false tb htb hok hhome habs
  have htb1 := set_table_get w t tb (tb.with_new (added_item t k w.rank_me_) items) htb
  have hhas : (tb.with_new (added_item t k w.rank_me_) items).mapped_items.has k
      (some tb.objects.length) :=
    ⟨_, hperm.mem_iff.mpr (List.mem_cons_self _ _), rfl, rfl⟩
  obtain ⟨it, hit, -, hadd2⟩ := add_item_found hashf
    (w.set_table t (tb.with_new (added_item t k w.rank_me_) items)) t k false true
    (tb.with_new (added_item t k w.rank_me_) items) htb1 hok1 hhome
    tb.objects.length hhas
  have hit' : it = added_item t k w.rank_me_ := by
    simp [TableContainer.with_new] at hit
    exact hit.symm
  subst hit'
  have hcount : (tb.with_new (added_item t k w.rank_me_) items).entries_for k = 1 := by
    unfold TableContainer.entries_for
    have hp := (hperm.filter (fun e => decide (e.first = k))).length_eq
    have hnone : (live_list tb.mapped_items.entries).filter (fun e => decide (e.first = k)) = [] := by
      rw [List.filter_eq_nil_iff]
      intro e he
      simpa using habs e he
    simp only [TableContainer.with_new]
    rw [hp, List.filter_cons]
    simp [hnone]
  refine ⟨_, _, tb.objects.length, _, _, added_item t k w.rank_me_,
    (added_item t k w.rank_me_).invoke Call.refresh, hadd1, hadd2, by simp, htb1, by
      simp [TableContainer.with_new],
    set_table_get _ t _ _ htb1, ?_, rfl, rfl,
    by simp [Item.count_call, Item.invoke, added_item],
    by simp [Item.count_call, Item.invoke, added_item], hcount, hcount⟩
  simp [TableContainer.with_call, TableContainer.with_new]

/-- The statement of C7 on `sample_worker` for the absent local key 2 of
table 0. -/
theorem C7_add_item_idempotent_witness :
    (∀ k, sample_hash k ≠ -1) ∧ sample_worker.tables[0]? = some sample_table ∧
    TableOK sample_hash sample_table ∧
    sample_worker.get_partition 0 2 = sample_worker.rank_me_ ∧ sample_table.absent 2 ∧
    ∃ w1 w2 p tb1 tb2 it1 it2,
      sample_worker.add_item sample_hash 0 2 false true = .ok (w1, some p, 100) ∧
      w1.add_item sample_hash 0 2 false true = .ok (w2, some p, 300) ∧
      sample_table.objects[p]? = none ∧
      w1.tables[0]? = some tb1 ∧ tb1.objects[p]? = some it1 ∧
      w2.tables[0]? = some tb2 ∧ tb2.objects[p]? = some it2 ∧
      it1.calls = [Call.on_create, Call.refresh] ∧
      it2.calls = [Call.on_create, Call.refresh, Call.refresh] ∧
      it2.count_call Call.on_create = 1 ∧ it2.count_call Call.refresh = 2 ∧
      tb1.entries_for 2 = 1 ∧ tb2.entries_for 2 = 1 :=
  ⟨sample_hash_ne, sample_worker_table, tableOK_fresh sample_hash sample_table rfl,
    by decide, absent_fresh sample_table rfl 2,
    C7_add_item_idempotent sample_hash sample_hash_ne sample_worker 0 2 sample_table
      sample_worker_table (tableOK_fresh sample_hash sample_table rfl) (by decide)
      (absent_fresh sample_table rfl 2)⟩

/-! ## process_push_buffer -/

theorem process_loop_eq (hashf : Nat → Int) (buf : List Message) :
    ∀ (n i : Nat) (w : Worker), i + n ≤ buf.length →
      for_loop (Worker.process_push_body hashf buf) n i w
        = Worker.apply_msgs hashf w ((buf.drop i).take n)
  | 0, i, w, _ => by simp [for_loop, Worker.apply_msgs]
  | n + 1, i, w, h => by
    have hi : i < buf.length := by omega
    rw [List.drop_eq_getElem_cons hi]
    simp only [for_loop, Worker.process_push_body, List.getElem?_eq_getElem hi, List.take_succ_cons,
      Worker.apply_msgs]
    cases hm : w.apply_msg hashf buf[i] with
    | error f => rfl
    | ok w1 => exact process_loop_eq hashf buf n (i + 1) w1 (by omega)

theorem process_push_buffer_eq (hashf : Nat → Int) (w : Worker) (buf : List Message) (c : Nat)
    (h : w.valid_buffer_size c ≤ buf.length) :
    w.process_push_buffer hashf buf c
      = match Worker.apply_msgs hashf w (buf.take (w.valid_buffer_size c)) with
        | .error f => .error f
        | .ok w2 => .ok (w2, w.valid_buffer_size c) := by
  simp only [Worker.process_push_buffer, for_range]
  rw [process_loop_eq hashf buf _ 0 w (by omega), List.drop_zero]

theorem list_set_same {α : Type} : ∀ (l : List α) (i : Nat) (x : α), l[i]? = some x →
    l.set i x = l
  | [], _, _, h => by simp at h
  | a :: t, 0, x, h => by
    simp only [List.getElem?_cons_zero, Option.some.injEq] at h
    subst h; rfl
  | a :: t, i + 1, x, h => by
    simp only [List.getElem?_cons_succ] at h
    simp only [List.set_cons_succ, list_set_same t i x h]

theorem set_table_self (w : Worker) (t : Nat) (tb : TableContainer)
    (h : w.tables[t]? = some tb) : { w with tables := w.tables.set t tb } = w := by
  rw [list_set_same w.tables t tb h]

theorem apply_msg_dropped (hashf : Nat → Int) (w : Worker) (msg : Message)
    (tb : TableContainer) (htb : w.tables[msg.dest_table]? = some tb) (hok : TableOK hashf tb)
    (hhome : get_partition w.total_workers tb.myTableKey msg.dest_item = w.rank_me_)
    (habs : tb.absent msg.dest_item) : w.apply_msg hashf msg = .ok w := by
  have h := apply_absent_ignore hashf w.total_workers w.rank_me_ tb hok msg hhome habs
  simp only [Worker.apply_msg, htb, DEBUG_DISABLE_CREATE_ON_PUSH, Bool.not_true, h]
  rw [set_table_self w msg.dest_table tb htb]

theorem sample_worker_drops : sample_worker.process_push_buffer sample_hash [msg_to 2] 1
    = .ok (sample_worker, 1) := by
  have hv : sample_worker.valid_buffer_size 1 = 1 := by decide
  rw [process_push_buffer_eq sample_hash sample_worker [msg_to 2] 1 (by rw [hv]; simp), hv]
  simp only [List.take_succ_cons, List.take_zero, Worker.apply_msgs]
  rw [apply_msg_dropped sample_hash sample_worker (msg_to 2) sample_table sample_worker_table
    (tableOK_fresh sample_hash sample_table rfl) (by decide) (absent_fresh sample_table rfl 2)]

/-- C10, as stated, fails: on `sample_worker` (rank 0 of two, table 0 empty)
`process_push_buffer` applied to one message for key 2, whose home is rank 0
and which is absent, does not leave a table that stores key 2. -/
theorem C10_create_on_push_counterexample :
    sample_worker.tables[0]? = some sample_table ∧ sample_table.absent 2 ∧
    sample_worker.get_partition 0 2 = sample_worker.rank_me_ ∧
    ¬ (∃ w' n tb' p, sample_worker.process_push_buffer sample_hash [msg_to 2] 1 = .ok (w', n) ∧
        w'.tables[0]? = some tb' ∧ tb'.mapped_items.has 2 (some p)) := by
  refine ⟨sample_worker_table, absent_fresh sample_table rfl 2, by decide, ?_⟩
  rintro ⟨w', n, tb', p, h1, h2, h3⟩
  rw [sample_worker_drops] at h1
  cases h1
  rw [sample_worker_table] at h2
  cases h2
  exact absent_not_has sample_table 2 (absent_fresh sample_table rfl 2) _ h3

/-- C10 as amended (create-on-push is disabled in this build). For a hash
that never returns `-1`, a worker with `M >= 1` and a message whose destination
table satisfies the table invariant, whose destination key has this worker as
home and is absent from the table: the statement of the exchange loop drops the
message and leaves the worker unchanged, so does `process_push_buffer` on a
buffer holding that message; `apply_push_to_item` is called with `is_create =
false` and returns `IGNORED_NEW_LOCAL`.  Called with `is_create = true` the same
`apply_push_to_item` returns `CREATED_NEW_LOCAL` and the table afterwards stores
the key with a new item whose calls are `on_create, refresh,
on_push_recv(value)`. -/
theorem C10_create_on_push_disabled (hashf : Nat → Int) (hh : ∀ k, hashf k ≠ -1) (w : Worker)
    (msg : Message) (tb : TableContainer) (htb : w.tables[msg.dest_table]? = some tb)
    (hok : TableOK hashf tb)
    (hhome : get_partition w.total_workers tb.myTableKey msg.dest_item = w.rank_me_)
    (habs : tb.absent msg.dest_item) (hM : 1 ≤ w.BUFFER_MAX_SIZE) :
    (!DEBUG_DISABLE_CREATE_ON_PUSH) = false ∧
    w.apply_msg hashf msg = .ok w ∧
    w.process_push_buffer hashf [msg] 1 = .ok (w, 1) ∧
    tb.apply_push_to_item hashf w.total_workers w.rank_me_ msg (!DEBUG_DISABLE_CREATE_ON_PUSH)
      = .ok (tb, IGNORED_NEW_LOCAL) ∧
    ∃ items, tb.apply_push_to_item hashf w.total_workers w.rank_me_ msg true
        = .ok (tb.with_new (pushed_new_item tb.myTableKey msg.dest_item tb.worker msg.value)
                 items, CREATED_NEW_LOCAL) ∧
      items.has msg.dest_item (some tb.objects.length) ∧
      (pushed_new_item tb.myTableKey msg.dest_item tb.worker msg.value).calls
        = [Call.on_create, Call.refresh, Call.on_push_recv msg.value] := by
  have hdrop := apply_msg_dropped hashf w msg tb htb hok hhome habs
  have hv : w.valid_buffer_size 1 = 1 := by simp [Worker.valid_buffer_size, hM]
  refine ⟨rfl, hdrop, ?_, apply_absent_ignore hashf _ _ tb hok msg hhome habs, ?_⟩
  · rw [process_push_buffer_eq hashf w [msg] 1 (by rw [hv]; simp), hv]
    simp only [List.take_succ_cons, List.take_zero, Worker.apply_msgs, hdrop]
  · obtain ⟨items, -, h2, -, hperm⟩ := apply_absent_create hashf hh _ _ tb hok msg hhome habs
    exact ⟨items, h2, ⟨_, hperm.mem_iff.mpr (List.mem_cons_self _ _), rfl, rfl⟩, rfl⟩

/-- The amended C10 on `sample_worker` and a message for the absent local key 2. -/
theorem C10_create_on_push_disabled_witness :
    (∀ k, sample_hash k ≠ -1) ∧
    sample_worker.tables[(msg_to 2).dest_table]? = some sample_table ∧
    TableOK sample_hash sample_table ∧
    get_partition sample_worker.total_workers sample_table.myTableKey (msg_to 2).dest_item
      = sample_worker.rank_me_ ∧
    sample_table.absent (msg_to 2).dest_item ∧ 1 ≤ sample_worker.BUFFER_MAX_SIZE ∧
    sample_worker.process_push_buffer sample_hash [msg_to 2] 1 = .ok (sample_worker, 1) :=
  ⟨sample_hash_ne, sample_worker_table, tableOK_fresh sample_hash sample_table rfl, by decide,
    absent_fresh sample_table rfl 2, by decide,
    (C10_create_on_push_disabled sample_hash sample_hash_ne sample_worker (msg_to 2)
      sample_table sample_worker_table (tableOK_fresh sample_hash sample_table rfl) (by decide)
      (absent_fresh sample_table rfl 2) (by decide)).2.2.1⟩

/-! ## Delivery to present items -/

theorem apply_msg_found (hashf : Nat → Int) (w : Worker) (msg : Message) (tb : TableContainer)
    (htb : w.tables[msg.dest_table]? = some tb) (hok : TableOK hashf tb)
    (hhome : get_partition w.total_workers tb.myTableKey msg.dest_item = w.rank_me_) (p : Nat)
    (hhas : tb.mapped_items.has msg.dest_item (some p)) :
    ∃ it, tb.objects[p]? = some it ∧ it.myItemKey = msg.dest_item ∧
      w.apply_msg hashf msg
        = .ok (w.set_table msg.dest_table (tb.with_call p it (Call.on_push_recv msg.value))) := by
  obtain ⟨it, h1, h2, h3⟩ := apply_found hashf w.total_workers w.rank_me_ tb hok msg
    (!DEBUG_DISABLE_CREATE_ON_PUSH) hhome p hhas
  refine ⟨it, h1, h2, ?_⟩
  simp only [Worker.apply_msg, htb, h3, Worker.set_table, TableContainer.with_call]

theorem entry_unique (es : List (Entry Nat (Option Nat))) (hd : keys_distinct es)
    (e1 e2 : Entry Nat (Option Nat)) (h1 : e1 ∈ live_list es) (h2 : e2 ∈ live_list es)
    (hk : e1.first = e2.first) : e1 = e2 :=
  List.inj_on_of_nodup_map hd h1 h2 hk

theorem recv_calls_cons (t k : Nat) (m : Message) (rest : List Message) :
    recv_calls t k (m :: rest)
      = (if m.dest_table = t ∧ m.dest_item = k then [Call.on_push_recv m.value] else [])
        ++ recv_calls t k rest := by
  unfold recv_calls
  by_cases h : m.dest_table = t ∧ m.dest_item = k
  · simp [List.filter_cons, h]
  · simp [List.filter_cons, h]

theorem recv_calls_append (t k : Nat) (a b : List Message) :
    recv_calls t k (a ++ b) = recv_calls t k a ++ recv_calls t k b := by
  simp [recv_calls]

theorem maps_get (w w' : Worker) (h : w'.maps = w.maps) (t : Nat) (tb : TableContainer)
    (htb : w.tables[t]? = some tb) :
    ∃ tb', w'.tables[t]? = some tb' ∧ tb'.mapped_items = tb.mapped_items := by
  have := congrArg (fun l => l[t]?) h
  simp only [Worker.maps, List.getElem?_map, htb, Option.map_some'] at this
  cases h' : w'.tables[t]? with
  | none => rw [h'] at this; simp at this
  | some tb' =>
    rw [h'] at this
    simp only [Option.map_some', Option.some.injEq] at this
    exact ⟨tb', rfl, this⟩

/-- One delivery: the worker after `apply_msg` on a deliverable message. -/
theorem apply_msg_step (hashf : Nat → Int) (w : Worker) (hok : w.TablesOK hashf)
    (msg : Message) (hd : w.Deliverable msg) :
    ∃ w1, w.apply_msg hashf msg = .ok w1 ∧ w1 = { w with tables := w1.tables } ∧
      w1.maps = w.maps ∧ w1.TablesOK hashf ∧
      ∀ t tb e p, w.tables[t]? = some tb → e ∈ live_list tb.mapped_items.entries →
        e.second = some p →
        w1.calls_of t p = w.calls_of t p ++ recv_calls t e.first [msg] := by
  obtain ⟨tb0, p0, htb0, hhas0, hhome⟩ := hd
  obtain ⟨hok0, hkey0⟩ := hok _ tb0 htb0
  have hhome' : get_partition w.total_workers tb0.myTableKey msg.dest_item = w.rank_me_ := hhome
  obtain ⟨it0, hit0, hik0, happ⟩ := apply_msg_found hashf w msg tb0 htb0 hok0 hhome' p0 hhas0
  have hlt0 : msg.dest_table < w.tables.length := (List.getElem?_eq_some_iff.mp htb0).1
  have hp0 : p0 < tb0.objects.length := (List.getElem?_eq_some_iff.mp hit0).1
  refine ⟨_, happ, rfl, ?_, ?_, ?_⟩
  · simp only [Worker.maps, Worker.set_table, List.map_set]
    apply list_set_same
    simp [htb0, TableContainer.with_call]
  · intro t tb htb
    by_cases ht : msg.dest_table = t
    · subst ht
      simp only [Worker.set_table, List.getElem?_set_self hlt0, Option.some.injEq] at htb
      subst htb
      exact ⟨tableOK_invoke hashf tb0 hok0 p0 it0 hit0 _, hkey0⟩
    · simp only [Worker.set_table, List.getElem?_set_ne ht] at htb
      exact hok t tb htb
  · intro t tb e p htb he hep
    by_cases ht : msg.dest_table = t
    · subst ht
      rw [htb0] at htb
      cases htb
      obtain ⟨e0, he0, hk0, hv0⟩ := hhas0
      obtain ⟨q, itq, hq1, hq2, hq3⟩ := hok0.2.2 e he
      rw [hep] at hq1
      cases hq1
      by_cases hpp : p0 = p
      · subst hpp
        rw [hit0] at hq2
        cases hq2
        have hkk : msg.dest_item = e.first := by rw [← hik0, hq3]
        simp [Worker.calls_of, Worker.set_table, List.getElem?_set_self hlt0, htb0,
          TableContainer.with_call, List.getElem?_set_self hp0, hit0, Item.invoke,
          recv_calls, hkk]
      · have hkk : ¬ (msg.dest_item = e.first) := by
          intro hc
          have := entry_unique _ hok0.2.1 e0 e he0 he (hk0.trans hc)
          rw [this, hep] at hv0
          cases hv0
          exact hpp rfl
        simp [Worker.calls_of, Worker.set_table, List.getElem?_set_self hlt0, htb0,
          TableContainer.with_call, List.getElem?_set_ne hpp, recv_calls, hkk]
    · have hne : ¬ (msg.dest_table = t ∧ msg.dest_item = e.first) := fun h => ht h.1
      simp [Worker.calls_of, Worker.set_table, List.getElem?_set_ne ht, recv_calls, hne]

/-- Deliveries in sequence: every stored item gets exactly the `on_push_recv`
calls of the messages addressed to it, in list order. -/
theorem apply_msgs_spec (hashf : Nat → Int) : ∀ (msgs : List Message) (w : Worker),
    w.TablesOK hashf → (∀ m ∈ msgs, w.Deliverable m) →
    ∃ w', Worker.apply_msgs hashf w msgs = .ok w' ∧ w' = { w with tables := w'.tables } ∧
      w'.maps = w.maps ∧ w'.TablesOK hashf ∧
      ∀ t tb e p, w.tables[t]? = some tb → e ∈ live_list tb.mapped_items.entries →
        e.second = some p →
        w'.calls_of t p = w.calls_of t p ++ recv_calls t e.first msgs
  | [], w, hok, _ => ⟨w, rfl, rfl, rfl, hok, fun t tb e p _ _ _ => by simp [recv_calls]⟩
  | m :: rest, w, hok, hd => by
    obtain ⟨w1, h1, hf1, hm1, hok1, hc1⟩ := apply_msg_step hashf w hok m
      (hd m (List.mem_cons_self _ _))
    have hd1 : ∀ m' ∈ rest, w1.Deliverable m' := by
      intro m' hm'
      obtain ⟨tb, p, h2, h3, h4⟩ := hd m' (List.mem_cons_of_mem _ hm')
      obtain ⟨tb', h5, h6⟩ := maps_get w w1 hm1 _ tb h2
      refine ⟨tb', p, h5, h6 ▸ h3, ?_⟩
      rw [hf1]; exact h4
    obtain ⟨w', h2, hf2, hm2, hok2, hc2⟩ := apply_msgs_spec hashf rest w1 hok1 hd1
    refine ⟨w', by simp only [Worker.apply_msgs, h1]; exact h2, ?_, hm2.trans hm1, hok2, ?_⟩
    · rw [hf2]; rw [hf1]
    · intro t tb e p htb he hep
      obtain ⟨tb1, h5, h6⟩ := maps_get w w1 hm1 t tb htb
      rw [hc2 t tb1 e p h5 (h6 ▸ he) hep, hc1 t tb e p htb he hep, List.append_assoc,
        ← recv_calls_append]
      rfl

theorem frozen_invoke (it : Item) (c : Call) : (it.invoke c).frozen = it.frozen := rfl

theorem apply_msg_frozen (hashf : Nat → Int) (w : Worker) (hok : w.TablesOK hashf)
    (msg : Message) (hd : w.Deliverable msg) (w1 : Worker)
    (h : w.apply_msg hashf msg = .ok w1) : w1.frozen = w.frozen := by
  obtain ⟨tb0, p0, htb0, hhas0, hhome⟩ := hd
  obtain ⟨hok0, -⟩ := hok _ tb0 htb0
  obtain ⟨it0, hit0, -, happ⟩ := apply_msg_found hashf w msg tb0 htb0 hok0 hhome p0 hhas0
  rw [happ] at h
  cases h
  simp only [Worker.frozen, Worker.set_table, List.map_set]
  apply list_set_same
  simp only [List.getElem?_map, htb0, Option.map_some', TableContainer.with_call, List.map_set,
    Option.some.injEq]
  symm
  apply list_set_same
  simp only [List.getElem?_map, hit0, Option.map_some', frozen_invoke]

theorem apply_msgs_frozen (hashf : Nat → Int) : ∀ (msgs : List Message) (w : Worker),
    w.TablesOK hashf → (∀ m ∈ msgs, w.Deliverable m) → ∀ w', Worker.apply_msgs hashf w msgs = .ok w' →
    w'.frozen = w.frozen
  | [], w, _, _, w', h => by
    simp only [Worker.apply_msgs, Except.ok.injEq] at h
    rw [h]
  | m :: rest, w, hok, hd, w', h => by
    obtain ⟨w1, h1, hf1, hm1, hok1, -⟩ := apply_msg_step hashf w hok m
      (hd m (List.mem_cons_self _ _))
    have hd1 : ∀ m' ∈ rest, w1.Deliverable m' := by
      intro m' hm'
      obtain ⟨tb, p, h2, h3, h4⟩ := hd m' (List.mem_cons_of_mem _ hm')
      obtain ⟨tb', h5, h6⟩ := maps_get w w1 hm1 _ tb h2
      refine ⟨tb', p, h5, h6 ▸ h3, ?_⟩
      rw [hf1]; exact h4
    simp only [Worker.apply_msgs, h1] at h
    exact (apply_msgs_frozen hashf rest w1 hok1 hd1 w' h).trans
      (apply_msg_frozen hashf w hok m (hd m (List.mem_cons_self _ _)) w1 h1)

theorem valid_buffer_size_eq (w : Worker) (c : Nat) :
    w.valid_buffer_size c = min c w.BUFFER_MAX_SIZE := by
  unfold Worker.valid_buffer_size
  split <;> omega

/-- C2 (per-sender FIFO). On a worker with well-formed shared segments whose
send counters are all zero (just cleared), after any sequence `msgs` of
`enqueue_push_request` calls, for every peer `p`: the counter for `p` is the
number of messages of the sequence whose partition is `p`; for each
`j < min(send_count[p], M)` slot `j` of the send array for `p` holds the `j`-th
such message; `process_push_buffer`, run by any receiver with the same `M` on
that array and counter, is the application one after the other, in enqueue
order, of the first `M` messages enqueued for `p`; and when those messages are
addressed to items present on the receiver, every such item gets exactly their
`on_push_recv` calls appended in the order the sender enqueued them. -/
theorem C2_per_sender_fifo (w : Worker) (hw : w.MemWF)
    (hzero : ∀ p, p < w.total_workers → w.send_count p = 0) (msgs : List Message) :
    ∃ w1, w.enqueue_all msgs = .ok w1 ∧ ∀ p, p < w.total_workers →
      w1.send_count p = (sent_to w.total_workers p msgs).length ∧
      (∀ j, j < min (w1.send_count p) w.BUFFER_MAX_SIZE →
        (w1.send_buffer p)[j]? = (sent_to w.total_workers p msgs)[j]?) ∧
      (∀ (hashf : Nat → Int) (r : Worker), r.BUFFER_MAX_SIZE = w.BUFFER_MAX_SIZE →
        r.process_push_buffer hashf (w1.send_buffer p) (w1.send_count p)
          = match Worker.apply_msgs hashf r
                ((sent_to w.total_workers p msgs).take w.BUFFER_MAX_SIZE) with
            | .error f => .error f
            | .ok r' => .ok (r', min (w1.send_count p) w.BUFFER_MAX_SIZE)) ∧
      (∀ (hashf : Nat → Int) (r : Worker), r.BUFFER_MAX_SIZE = w.BUFFER_MAX_SIZE →
        r.TablesOK hashf →
        (∀ m ∈ (sent_to w.total_workers p msgs).take w.BUFFER_MAX_SIZE, r.Deliverable m) →
        ∃ r', r.process_push_buffer hashf (w1.send_buffer p) (w1.send_count p)
            = .ok (r', min (w1.send_count p) w.BUFFER_MAX_SIZE) ∧
          ∀ t tb e q, r.tables[t]? = some tb → e ∈ live_list tb.mapped_items.entries →
            e.second = some q →
            r'.calls_of t q = r.calls_of t q ++
              recv_calls t e.first ((sent_to w.total_workers p msgs).take w.BUFFER_MAX_SIZE)) := by
  obtain ⟨w1, he, hframe, hwf1, hholds, -⟩ := enqueue_all_spec msgs w hw
  refine ⟨w1, he, ?_⟩
  intro p hp
  have htw : w1.total_workers = w.total_workers := by rw [hframe]
  have hM : w1.BUFFER_MAX_SIZE = w.BUFFER_MAX_SIZE := by rw [hframe]
  obtain ⟨hc, hb⟩ := hholds [] p hp ⟨by simpa [sent_to] using hzero p hp, by simp [sent_to]⟩
  rw [List.nil_append, htw] at hc hb
  rw [hM] at hb
  have hbl : (w1.send_buffer p).length = w.BUFFER_MAX_SIZE := by
    rw [← hM]
    exact (read_buffer_ok hwf1.1 (w1.rank_me_, p) hwf1.2 (htw ▸ hp)).2
  have hproc : ∀ (hashf : Nat → Int) (r : Worker), r.BUFFER_MAX_SIZE = w.BUFFER_MAX_SIZE →
      r.process_push_buffer hashf (w1.send_buffer p) (w1.send_count p)
        = match Worker.apply_msgs hashf r
              ((sent_to w.total_workers p msgs).take w.BUFFER_MAX_SIZE) with
          | .error f => .error f
          | .ok r' => .ok (r', min (w1.send_count p) w.BUFFER_MAX_SIZE) := by
    intro hashf r hr
    have hv : r.valid_buffer_size (w1.send_count p) = min (w1.send_count p) w.BUFFER_MAX_SIZE := by
      rw [valid_buffer_size_eq, hr]
    rw [process_push_buffer_eq hashf r _ _ (by rw [hv, hbl]; omega), hv, hc, hb]
  refine ⟨hc, ?_, hproc, ?_⟩
  · intro j hj
    rw [hc] at hj
    have h1 : ((w1.send_buffer p).take
        (min (sent_to w.total_workers p msgs).length w.BUFFER_MAX_SIZE))[j]?
        = (w1.send_buffer p)[j]? := List.getElem?_take_of_lt hj
    have h2 : ((sent_to w.total_workers p msgs).take w.BUFFER_MAX_SIZE)[j]?
        = (sent_to w.total_workers p msgs)[j]? := List.getElem?_take_of_lt (by omega)
    rw [← h1, hb, h2]
  · intro hashf r hr hok hdel
    obtain ⟨r', h1, -, -, -, h5⟩ := apply_msgs_spec hashf _ r hok hdel
    refine ⟨r', ?_, h5⟩
    rw [hproc hashf r hr, h1]

/-- The statement of C2 on rank 0 of two workers with `M = 8` and the five
messages of `odd_msgs 5`. -/
theorem C2_per_sender_fifo_witness :
    (Worker.new 0 2 0 1 [true, false] 8).MemWF ∧
    (∀ p, p < 2 → (Worker.new 0 2 0 1 [true, false] 8).send_count p = 0) ∧
    ∃ w1, (Worker.new 0 2 0 1 [true, false] 8).enqueue_all (odd_msgs 5) = .ok w1 ∧
      w1.send_count 1 = (sent_to 2 1 (odd_msgs 5)).length ∧
      ∀ j, j < min (w1.send_count 1) 8 →
        (w1.send_buffer 1)[j]? = (sent_to 2 1 (odd_msgs 5))[j]? := by
  have hz : ∀ p, p < 2 → (Worker.new 0 2 0 1 [true, false] 8).send_count p = 0 := by decide
  refine ⟨memWF_new 0 2 0 1 [true, false] 8 (by decide), hz, ?_⟩
  obtain ⟨w1, h1, h2⟩ := C2_per_sender_fifo (Worker.new 0 2 0 1 [true, false] 8)
    (memWF_new 0 2 0 1 [true, false] 8 (by decide)) hz (odd_msgs 5)
  exact ⟨w1, h1, (h2 1 (by decide)).1, (h2 1 (by decide)).2.1⟩

/-! ## The exchange phase on a worker whose peers sent nothing -/

theorem delivered_refl (hashf : Nat → Int) (w : Worker) (hok : w.TablesOK hashf) :
    Delivered hashf w w [] :=
  ⟨rfl, hok, rfl, rfl, rfl, fun _ _ _ _ _ _ _ => by simp [recv_calls], rfl⟩

theorem delivered_frame (hashf : Nat → Int) (w0 w w' : Worker) (l : List Message)
    (h : Delivered hashf w0 w l) (ht : w'.tables = w.tables)
    (hn : w'.total_workers = w.total_workers) (hr : w'.rank_me_ = w.rank_me_)
    (hm : w'.BUFFER_MAX_SIZE = w.BUFFER_MAX_SIZE) : Delivered hashf w0 w' l := by
  obtain ⟨h1, h2, h3, h4, h5, h6, h7⟩ := h
  refine ⟨by simp only [Worker.maps, ht]; exact h1, ?_, hn.trans h3, hr.trans h4, hm.trans h5, ?_,
    by simp only [Worker.frozen, ht]; exact h7⟩
  · intro t tb htb
    exact h2 t tb (ht ▸ htb)
  · intro t tb e p htb he hep
    have := h6 t tb e p htb he hep
    simpa only [Worker.calls_of, ht] using this

theorem delivered_deliverable (hashf : Nat → Int) (w0 w : Worker) (l : List Message)
    (h : Delivered hashf w0 w l) (m : Message) (hd : w0.Deliverable m) : w.Deliverable m := by
  obtain ⟨tb, p, h1, h2, h3⟩ := hd
  obtain ⟨tb', h4, h5⟩ := maps_get w0 w h.1 _ tb h1
  refine ⟨tb', p, h4, h5 ▸ h2, ?_⟩
  simp only [Worker.get_partition, h.2.2.1, h.2.2.2.1]
  exact h3

theorem delivered_apply (hashf : Nat → Int) (w0 w : Worker) (l l2 : List Message)
    (h : Delivered hashf w0 w l) (hd : ∀ m ∈ l2, w0.Deliverable m) :
    ∃ w', Worker.apply_msgs hashf w l2 = .ok w' ∧ w' = { w with tables := w'.tables } ∧
      Delivered hashf w0 w' (l ++ l2) := by
  obtain ⟨w', h1, h2, h3, h4, h5⟩ := apply_msgs_spec hashf l2 w h.2.1
    (fun m hm => delivered_deliverable hashf w0 w l h m (hd m hm))
  refine ⟨w', h1, h2, h3.trans h.1, h4, ?_, ?_, ?_, ?_, ?_⟩
  · rw [h2]; exact h.2.2.1
  · rw [h2]; exact h.2.2.2.1
  · rw [h2]; exact h.2.2.2.2.1
  · intro t tb e p htb he hep
    obtain ⟨tb', h6, h7⟩ := maps_get w0 w h.1 t tb htb
    rw [h5 t tb' e p h6 (h7 ▸ he) hep, h.2.2.2.2.2.1 t tb e p htb he hep, List.append_assoc,
      recv_calls_append]
  · exact (apply_msgs_frozen hashf l2 w h.2.1
      (fun m hm => delivered_deliverable hashf w0 w l h m (hd m hm)) w' h1).trans h.2.2.2.2.2.2

theorem ready_local_size (w : Worker) (hr : w.Ready) (i : Nat) (hi : i < w.total_workers) :
    w.their_local_push_size[i]?
      = some (if w.proc_local.getD i false then some (dist_fetch i i) else none) := by
  rw [hr.2.2.1]
  simp [hi]

theorem ready_local_buffers (w : Worker) (hr : w.Ready) (i : Nat) (hi : i < w.total_workers) :
    w.their_local_push_buffers[i]?
      = some (if w.proc_local.getD i false then some (dist_fetch i i) else none) := by
  rw [hr.2.2.2]
  simp [hi]

theorem ready_is_process_local (w : Worker) (hr : w.Ready) (i : Nat)
    (hi : i < w.total_workers) : w.is_process_local i = w.proc_local.getD i false := by
  have h1 := ready_local_size w hr i hi
  have h2 := ready_local_buffers w hr i hi
  have l1 : i < w.their_local_push_size.length := by rw [hr.2.2.1]; simpa using hi
  have l2 : i < w.their_local_push_buffers.length := by rw [hr.2.2.2]; simpa using hi
  rw [List.getElem?_eq_getElem l1] at h1
  rw [List.getElem?_eq_getElem l2] at h2
  simp only [Option.some.injEq] at h1 h2
  simp only [Worker.is_process_local, UPCXX_GPTR_LOCAL_ON, l1, l2, and_self, if_true,
    List.getD_eq_getElem _ _ l1, List.getD_eq_getElem _ _ l2, h1, h2]
  cases w.proc_local.getD i false <;> simp

theorem ready_handlesOK (w : Worker) (hr : w.Ready) : w.HandlesOK := by
  constructor
  · intro i sp h
    rw [hr.2.2.1] at h
    simp only [List.getElem?_map] at h
    cases hri : (List.range w.total_workers)[i]? with
    | none => rw [hri] at h; simp at h
    | some j =>
      rw [hri] at h
      have hj : j < w.total_workers := List.mem_range.mp (List.getElem?_mem hri)
      simp only [Option.map_some', Option.some.injEq] at h
      split at h
      · cases h; exact ⟨hj, hj⟩
      · cases h
  · intro i sp h
    rw [hr.2.2.2] at h
    simp only [List.getElem?_map] at h
    cases hri : (List.range w.total_workers)[i]? with
    | none => rw [hri] at h; simp at h
    | some j =>
      rw [hri] at h
      have hj : j < w.total_workers := List.mem_range.mp (List.getElem?_mem hri)
      simp only [Option.map_some', Option.some.injEq] at h
      split at h
      · cases h; exact ⟨hj, hj⟩
      · cases h

theorem ready_of_skeleton (w w' : Worker) (h : w'.skeleton = w.skeleton) (hr : w.Ready) :
    w'.Ready := by
  have e1 : w'.their_push_size_g = w.their_push_size_g := by
    have := congrArg Worker.their_push_size_g h; exact this
  have e2 : w'.their_push_buffers_g = w.their_push_buffers_g := by
    have := congrArg Worker.their_push_buffers_g h; exact this
  have e3 : w'.their_local_push_size = w.their_local_push_size := by
    have := congrArg Worker.their_local_push_size h; exact this
  have e4 : w'.their_local_push_buffers = w.their_local_push_buffers := by
    have := congrArg Worker.their_local_push_buffers h; exact this
  have e5 : w'.total_workers = w.total_workers := by
    have := congrArg Worker.total_workers h; exact this
  have e6 : w'.proc_local = w.proc_local := by
    have := congrArg Worker.proc_local h; exact this
  unfold Worker.Ready
  rw [e1, e2, e3, e4, e5, e6]
  exact hr

theorem quiet_of_skeleton (w w' : Worker) (h : w'.skeleton = w.skeleton) (hq : w.Quiet)
    (hmem : MemOK w'.shared w.total_workers w.BUFFER_MAX_SIZE)
    (hz : ∀ i, i < w.total_workers → i ≠ w.rank_me_ → size_at w'.shared (dist_fetch i i) = 0) :
    w'.Quiet := by
  have e1 : w'.their_remote_push_size = w.their_remote_push_size := by
    have := congrArg Worker.their_remote_push_size h; exact this
  have e2 : w'.their_remote_push_buffers = w.their_remote_push_buffers := by
    have := congrArg Worker.their_remote_push_buffers h; exact this
  have e3 : w'.BUFFER_MAX_SIZE = w.BUFFER_MAX_SIZE := by
    have := congrArg Worker.BUFFER_MAX_SIZE h; exact this
  have e4 : w'.rank_me_ = w.rank_me_ := by
    have := congrArg Worker.rank_me_ h; exact this
  have e5 : w'.total_workers = w.total_workers := by
    have := congrArg Worker.total_workers h; exact this
  have e6 : w'.proc_local = w.proc_local := by
    have := congrArg Worker.proc_local h; exact this
  obtain ⟨⟨-, hme⟩, hs, hl, -⟩ := hq
  unfold Worker.Quiet Worker.MemWF Worker.StagingOK
  rw [e1, e2, e3, e4, e5, e6]
  exact ⟨⟨hmem, hme⟩, hs, hl, hz⟩

/-- The body of the local exchange loop for a peer `i` other than this rank:
nothing is applied; the peer's counter, already zero, is written to zero. -/
theorem local_body_peer (hashf : Nat → Int) (w : Worker) (hr : w.Ready) (hq : w.Quiet) (i : Nat)
    (hi : i < w.total_workers) (hne : i ≠ w.rank_me_) :
    ∃ w', w.apply_local_body hashf i = .ok w' ∧ w'.skeleton = w.skeleton ∧
      w'.tables = w.tables ∧ MemOK w'.shared w.total_workers w.BUFFER_MAX_SIZE ∧
      (∀ q, size_at w'.shared q = size_at w.shared q) ∧
      (∀ q, buffer_at w'.shared q = buffer_at w.shared q) := by
  have hloc := ready_is_process_local w hr i hi
  by_cases hp : w.proc_local.getD i false = true
  · rw [hp] at hloc
    have hz : size_at w.shared (dist_fetch i i) = 0 := hq.2.2.2 i hi hne
    have hc : w.get_messgaes_count_recv i = .ok 0 := by
      rw [get_count_recv_ok w hq.1 (ready_handlesOK w hr) i hloc]
      have hs := ready_local_size w hr i hi
      have l1 : i < w.their_local_push_size.length := by rw [hr.2.2.1]; simpa using hi
      rw [List.getElem?_eq_getElem l1, hp] at hs
      simp only [if_true, Option.some.injEq] at hs
      simp only [Worker.recv_count, List.getD_eq_getElem _ _ l1, hs, hz]
    obtain ⟨mem', hwr, hok', hsz, hoth, hbufs⟩ :=
      write_size_spec hq.1.1 (dist_fetch i i) 0 hi hi
    have hv : w.valid_buffer_size 0 = 0 := by simp [Worker.valid_buffer_size]
    refine ⟨{ w with shared := mem' }, ?_, rfl, rfl, hok', ?_, hbufs⟩
    · simp only [Worker.apply_local_body, hloc, if_true, hc, hv, ready_local_buffers w hr i hi,
        hp, Nat.lt_irrefl, if_false, ready_local_size w hr i hi, hwr, gt_iff_lt]
    · intro q
      by_cases hq' : q = dist_fetch i i
      · rw [hq', hsz, hz]
      · exact hoth q hq'
  · have hp' : w.proc_local.getD i false = false := by simpa using hp
    rw [hp'] at hloc
    refine ⟨w, ?_, rfl, rfl, hq.1.1, fun _ => rfl, fun _ => rfl⟩
    simp only [Worker.apply_local_body, hloc, Bool.false_eq_true, if_false]

/-- The body of the local exchange loop for this rank itself: the messages
of the own send array are applied, then the own counter is cleared. -/
theorem local_body_self (hashf : Nat → Int) (w0 w : Worker) (l : List Message) (hr : w.Ready)
    (hq : w.Quiet) (hd : Delivered hashf w0 w l) (hdl : ∀ m ∈ w.self_msgs, w0.Deliverable m) :
    ∃ w', w.apply_local_body hashf w.rank_me_ = .ok w' ∧ w'.skeleton = w.skeleton ∧
      Delivered hashf w0 w' (l ++ w.self_msgs) ∧
      MemOK w'.shared w.total_workers w.BUFFER_MAX_SIZE ∧
      size_at w'.shared (dist_fetch w.rank_me_ w.rank_me_) = 0 ∧
      (∀ q, q ≠ dist_fetch w.rank_me_ w.rank_me_ → size_at w'.shared q = size_at w.shared q) ∧
      (∀ q, buffer_at w'.shared q = buffer_at w.shared q) := by
  have hme := hq.1.2
  have hp := hq.2.2.1
  have hloc := ready_is_process_local w hr w.rank_me_ hme
  rw [hp] at hloc
  have hc : w.get_messgaes_count_recv w.rank_me_
      = .ok (size_at w.shared (dist_fetch w.rank_me_ w.rank_me_)) := by
    rw [get_count_recv_ok w hq.1 (ready_handlesOK w hr) _ hloc]
    have hs := ready_local_size w hr _ hme
    have l1 : w.rank_me_ < w.their_local_push_size.length := by rw [hr.2.2.1]; simpa using hme
    rw [List.getElem?_eq_getElem l1, hp] at hs
    simp only [if_true, Option.some.injEq] at hs
    simp only [Worker.recv_count, List.getD_eq_getElem _ _ l1, hs]
  obtain ⟨w1, happ, hf1, hd1⟩ := delivered_apply hashf w0 w l w.self_msgs hd hdl
  obtain ⟨mem', hwr, hok', hsz, hoth, hbufs⟩ :=
    write_size_spec hq.1.1 (dist_fetch w.rank_me_ w.rank_me_) 0 hme hme
  have hbl := (read_buffer_ok hq.1.1 (dist_fetch w.rank_me_ w.rank_me_) hme hme).2
  have hderef : deref_buffer w.shared (some (dist_fetch w.rank_me_ w.rank_me_))
      = buffer_at w.shared (dist_fetch w.rank_me_ w.rank_me_) := rfl
  generalize hcdef : size_at w.shared (dist_fetch w.rank_me_ w.rank_me_) = c at *
  have hv : w.valid_buffer_size c = min c w.BUFFER_MAX_SIZE := valid_buffer_size_eq w c
  have hvv : w.valid_buffer_size (min c w.BUFFER_MAX_SIZE) = min c w.BUFFER_MAX_SIZE := by
    rw [valid_buffer_size_eq]; omega
  by_cases hpos : min c w.BUFFER_MAX_SIZE > 0
  · have hproc := process_push_buffer_eq hashf w
      (buffer_at w.shared (dist_fetch w.rank_me_ w.rank_me_)) (min c w.BUFFER_MAX_SIZE)
      (by rw [hvv, hbl]; omega)
    rw [hvv] at hproc
    have hself : w.self_msgs = (buffer_at w.shared (dist_fetch w.rank_me_ w.rank_me_)).take
        (min c w.BUFFER_MAX_SIZE) := by simp only [Worker.self_msgs, hcdef]
    rw [hself] at happ
    rw [happ] at hproc
    have hsh : w1.shared = w.shared := by rw [hf1]
    have hls : w1.their_local_push_size = w.their_local_push_size := by rw [hf1]
    refine ⟨{ w1 with messages_recv_local := w1.messages_recv_local + min c w.BUFFER_MAX_SIZE,
                      shared := mem' }, ?_, ?_, ?_, hok', hsz, hoth, hbufs⟩
    · simp only [Worker.apply_local_body, hloc, if_true, hc, hv, ready_local_buffers w hr _ hme,
        hp, hderef, hpos, hproc, hls, ready_local_size w hr _ hme, hsh, hwr]
    · rw [hf1]; rfl
    · exact delivered_frame hashf w0 w1 _ _ hd1 rfl rfl rfl rfl
  · have hzero : min c w.BUFFER_MAX_SIZE = 0 := by omega
    have hself : w.self_msgs = [] := by
      simp only [Worker.self_msgs, hcdef, hzero, List.take_zero]
    refine ⟨{ w with shared := mem' }, ?_, rfl, ?_, hok', hsz, hoth, hbufs⟩
    · simp only [Worker.apply_local_body, hloc, if_true, hc, hv, ready_local_buffers w hr _ hme,
        hp, hpos, if_false, ready_local_size w hr _ hme, hwr]
    · rw [hself, List.append_nil]
      exact delivered_frame hashf w0 w _ l hd rfl rfl rfl rfl

theorem skeleton_fields (w w' : Worker) (h : w'.skeleton = w.skeleton) :
    w'.total_workers = w.total_workers ∧ w'.rank_me_ = w.rank_me_ ∧
    w'.BUFFER_MAX_SIZE = w.BUFFER_MAX_SIZE := by
  refine ⟨?_, ?_, ?_⟩
  · have := congrArg Worker.total_workers h; exact this
  · have := congrArg Worker.rank_me_ h; exact this
  · have := congrArg Worker.BUFFER_MAX_SIZE h; exact this

/-- The loop of `apply_push_incoming_local` on a quiet worker: exactly the
messages of the own send array are delivered and the own counter is cleared. -/
theorem local_loop (hashf : Nat → Int) (w0 w : Worker) (l : List Message) (hr : w.Ready)
    (hq : w.Quiet) (hd : Delivered hashf w0 w l) (hdl : ∀ m ∈ w.self_msgs, w0.Deliverable m) :
    ∃ w', for_range w.total_workers (Worker.apply_local_body hashf) w = .ok w' ∧
      w'.skeleton = w.skeleton ∧ w'.Quiet ∧ Delivered hashf w0 w' (l ++ w.self_msgs) ∧
      size_at w'.shared (dist_fetch w.rank_me_ w.rank_me_) = 0 ∧
      (∀ q, q ≠ dist_fetch w.rank_me_ w.rank_me_ → size_at w'.shared q = size_at w.shared q) ∧
      (∀ q, buffer_at w'.shared q = buffer_at w.shared q) := by
  obtain ⟨w', hloop, hsk, hmem, hsz, hbuf, hcase⟩ := for_range_inv (Worker.apply_local_body hashf)
    (fun i s => s.skeleton = w.skeleton ∧ MemOK s.shared w.total_workers w.BUFFER_MAX_SIZE ∧
      (∀ q, q ≠ dist_fetch w.rank_me_ w.rank_me_ → size_at s.shared q = size_at w.shared q) ∧
      (∀ q, buffer_at s.shared q = buffer_at w.shared q) ∧
      ((i ≤ w.rank_me_ ∧ Delivered hashf w0 s l ∧
          size_at s.shared (dist_fetch w.rank_me_ w.rank_me_)
            = size_at w.shared (dist_fetch w.rank_me_ w.rank_me_)) ∨
       (w.rank_me_ < i ∧ Delivered hashf w0 s (l ++ w.self_msgs) ∧
          size_at s.shared (dist_fetch w.rank_me_ w.rank_me_) = 0)))
    w.total_workers w
    ⟨rfl, hq.1.1, fun _ _ => rfl, fun _ => rfl, Or.inl ⟨Nat.zero_le _, hd, rfl⟩⟩
    (fun j s hj ⟨hsk, hmem, hsz, hbuf, hcase⟩ => by
      obtain ⟨eN, eR, eM⟩ := skeleton_fields w s hsk
      have hrs : s.Ready := ready_of_skeleton w s hsk hr
      have hpeers : ∀ i, i < w.total_workers → i ≠ w.rank_me_ →
          size_at s.shared (dist_fetch i i) = 0 := by
        intro i hi hne
        rw [hsz _ (fun e => hne (congrArg Prod.fst e))]
        exact hq.2.2.2 i hi hne
      have hqs : s.Quiet := quiet_of_skeleton w s hsk hq hmem hpeers
      by_cases hjm : j = w.rank_me_
      · subst hjm
        rcases hcase with ⟨-, hds, hcs⟩ | ⟨hlt, -, -⟩
        · have hself : s.self_msgs = w.self_msgs := by
            simp only [Worker.self_msgs, eR, eM, hbuf, hcs]
          obtain ⟨s', h1, h2, h3, h4, h5, h6, h7⟩ := local_body_self hashf w0 s l hrs hqs hds
            (by rw [hself]; exact hdl)
          rw [eR] at h1 h5 h6
          rw [eN, eM] at h4
          rw [hself] at h3
          refine ⟨s', h1, h2.trans hsk, h4, ?_, fun q => (h7 q).trans (hbuf q),
            Or.inr ⟨Nat.lt_succ_self _, h3, h5⟩⟩
          intro q hq'
          rw [h6 q hq', hsz q hq']
        · exact absurd hlt (Nat.lt_irrefl _)
      · obtain ⟨s', h1, h2, h3, h4, h5, h6⟩ := local_body_peer hashf s hrs hqs j (eN ▸ hj)
          (eR ▸ hjm)
        rw [eN, eM] at h4
        obtain ⟨eN', eR', eM'⟩ := skeleton_fields s s' h2
        refine ⟨s', h1, h2.trans hsk, h4, fun q hq' => (h5 q).trans (hsz q hq'),
          fun q => (h6 q).trans (hbuf q), ?_⟩
        rcases hcase with ⟨hle, hds, hcs⟩ | ⟨hlt, hds, hcs⟩
        · exact Or.inl ⟨by omega, delivered_frame hashf w0 s s' l hds h3 eN' eR' eM',
            (h5 _).trans hcs⟩
        · exact Or.inr ⟨by omega, delivered_frame hashf w0 s s' _ hds h3 eN' eR' eM',
            (h5 _).trans hcs⟩)
  have hpeers : ∀ i, i < w.total_workers → i ≠ w.rank_me_ →
      size_at w'.shared (dist_fetch i i) = 0 := by
    intro i hi hne
    rw [hsz _ (fun e => hne (congrArg Prod.fst e))]
    exact hq.2.2.2 i hi hne
  rcases hcase with ⟨hle, -, -⟩ | ⟨-, hdw, hcw⟩
  · exact absurd hq.1.2 (Nat.not_lt.mpr hle)
  · exact ⟨w', hloop, hsk, quiet_of_skeleton w w' hsk hq hmem hpeers, hdw, hcw, hsz, hbuf⟩

theorem statics_of_skeleton (w w' : Worker) (h : w'.skeleton = w.skeleton) :
    w'.statics = w.statics := by
  have e1 : w'.their_push_size_g = w.their_push_size_g := by
    have := congrArg Worker.their_push_size_g h; exact this
  have e2 : w'.their_push_buffers_g = w.their_push_buffers_g := by
    have := congrArg Worker.their_push_buffers_g h; exact this
  have e3 : w'.their_local_push_size = w.their_local_push_size := by
    have := congrArg Worker.their_local_push_size h; exact this
  have e4 : w'.their_local_push_buffers = w.their_local_push_buffers := by
    have := congrArg Worker.their_local_push_buffers h; exact this
  have e5 : w'.total_workers = w.total_workers := by
    have := congrArg Worker.total_workers h; exact this
  have e6 : w'.proc_local = w.proc_local := by
    have := congrArg Worker.proc_local h; exact this
  have e7 : w'.rank_me_ = w.rank_me_ := by
    have := congrArg Worker.rank_me_ h; exact this
  have e8 : w'.BUFFER_MAX_SIZE = w.BUFFER_MAX_SIZE := by
    have := congrArg Worker.BUFFER_MAX_SIZE h; exact this
  simp only [Worker.statics, e1, e2, e3, e4, e5, e6, e7, e8]

theorem statics_fields (w w' : Worker) (h : w'.statics = w.statics) :
    w'.total_workers = w.total_workers ∧ w'.rank_me_ = w.rank_me_ ∧
    w'.BUFFER_MAX_SIZE = w.BUFFER_MAX_SIZE ∧ w'.proc_local = w.proc_local ∧
    w'.their_push_size_g = w.their_push_size_g ∧
    w'.their_push_buffers_g = w.their_push_buffers_g ∧
    w'.their_local_push_size = w.their_local_push_size ∧
    w'.their_local_push_buffers = w.their_local_push_buffers := by
  simp only [Worker.statics, Prod.mk.injEq] at h
  exact h

theorem ready_of_statics (w w' : Worker) (h : w'.statics = w.statics) (hr : w.Ready) :
    w'.Ready := by
  obtain ⟨e1, -, -, e4, e5, e6, e7, e8⟩ := statics_fields w w' h
  unfold Worker.Ready
  rw [e1, e4, e5, e6, e7, e8]
  exact hr

theorem is_process_local_statics (w w' : Worker) (h : w'.statics = w.statics) (i : Nat) :
    w'.is_process_local i = w.is_process_local i := by
  obtain ⟨-, -, -, -, -, -, e7, e8⟩ := statics_fields w w' h
  simp only [Worker.is_process_local, e7, e8]

theorem count_sent_loop (w : Worker) (hw : w.MemWF) :
    ∃ w', for_range w.total_workers Worker.count_sent_body w = .ok w' ∧
      w'.skeleton = w.skeleton ∧ w'.tables = w.tables ∧ w'.shared = w.shared := by
  obtain ⟨w', h1, h2, h3, h4⟩ := for_range_inv Worker.count_sent_body
    (fun _ s => s.skeleton = w.skeleton ∧ s.tables = w.tables ∧ s.shared = w.shared)
    w.total_workers w ⟨rfl, rfl, rfl⟩
    (fun j s hj ⟨hsk, ht, hs⟩ => by
      obtain ⟨eN, eR, -⟩ := skeleton_fields w s hsk
      have hread := read_size_ok hw.1 (w.rank_me_, j) hw.2 hj
      refine ⟨{ s with messages_sent := s.messages_sent
          + s.valid_buffer_size (size_at w.shared (w.rank_me_, j)) }, ?_, hsk, ht, hs⟩
      simp only [Worker.count_sent_body, Worker.get_messgaes_count_send, eN, hj, if_true, eR, hs,
        hread])
  exact ⟨w', h1, h2, h3, h4⟩

/-- `apply_push_incoming_local` on a quiet worker: exactly the messages of the
own send array are delivered, once. -/
theorem incoming_local_spec (hashf : Nat → Int) (w0 w : Worker) (l : List Message)
    (hr : w.Ready) (hq : w.Quiet) (hd : Delivered hashf w0 w l)
    (hdl : ∀ m ∈ w.self_msgs, w0.Deliverable m) :
    ∃ w', w.apply_push_incoming_local hashf = .ok w' ∧
      w'.skeleton = w.skeleton ∧ w'.Quiet ∧ Delivered hashf w0 w' (l ++ w.self_msgs) ∧
      size_at w'.shared (dist_fetch w.rank_me_ w.rank_me_) = 0 ∧
      (∀ q, q ≠ dist_fetch w.rank_me_ w.rank_me_ → size_at w'.shared q = size_at w.shared q) ∧
      (∀ q, buffer_at w'.shared q = buffer_at w.shared q) := by
  obtain ⟨w1, h1, hsk, hq1, hd1, hc, hsz, hbuf⟩ := local_loop hashf w0 w l hr hq hd hdl
  obtain ⟨eN, eR, eM⟩ := skeleton_fields w w1 hsk
  by_cases hz : SADDLEBAG_DEBUG > 0 ∧ w1.rank_me_ = 0
  · obtain ⟨w2, h2, hsk2, ht2, hs2⟩ := count_sent_loop w1 hq1.1
    obtain ⟨eN2, eR2, eM2⟩ := skeleton_fields w1 w2 hsk2
    refine ⟨w2, ?_, hsk2.trans hsk, ?_, delivered_frame hashf w0 w1 w2 _ hd1 ht2 eN2 eR2 eM2,
      hs2 ▸ hc, fun q hq' => hs2 ▸ hsz q hq', fun q => hs2 ▸ hbuf q⟩
    · simp only [Worker.apply_push_incoming_local, h1, hz, and_self, if_true]
      exact h2
    · refine quiet_of_skeleton w1 w2 hsk2 hq1 (hs2 ▸ hq1.1.1) ?_
      intro i hi hne
      rw [hs2]
      exact hq1.2.2.2 i hi hne
  · refine ⟨w1, ?_, hsk, hq1, hd1, hc, hsz, hbuf⟩
    simp only [Worker.apply_push_incoming_local, h1, hz, if_false]

theorem stagingOK_set (w w' : Worker) (hs : w.StagingOK) (i : Nat)
    (h1 : w'.their_remote_push_size = w.their_remote_push_size.set i (some 0))
    (h2 : w'.their_remote_push_buffers = w.their_remote_push_buffers)
    (h3 : w'.total_workers = w.total_workers) (h4 : w'.BUFFER_MAX_SIZE = w.BUFFER_MAX_SIZE) :
    w'.StagingOK := by
  obtain ⟨a, b, c, d⟩ := hs
  unfold Worker.StagingOK
  rw [h1, h2, h3, h4]
  refine ⟨by simpa using a, b, ?_, d⟩
  intro k hk
  by_cases hik : i = k
  · subst hik
    exact ⟨0, by rw [List.getElem?_set_self (by omega)]⟩
  · rw [List.getElem?_set_ne hik]
    exact c k hk

theorem clear_body_local (s : Worker) (j : Nat) (hj : j < s.total_workers) (mem' : List Segment)
    (hwr : write_size s.shared (s.rank_me_, j) 0 = .ok mem')
    (hloc : s.is_process_local j = true) :
    s.clear_body j = .ok { s with shared := mem' } := by
  have hloc' : ({ s with shared := mem' } : Worker).is_process_local j = true := hloc
  unfold Worker.clear_body
  rw [if_pos hj, hwr]
  dsimp only
  rw [if_neg (by rw [hloc']; simp)]

theorem clear_body_remote (s : Worker) (j : Nat) (hj : j < s.total_workers) (mem' : List Segment)
    (hwr : write_size s.shared (s.rank_me_, j) 0 = .ok mem')
    (hloc : ¬ (s.is_process_local j = true)) (c : Nat)
    (hc : s.their_remote_push_size[j]? = some (some c)) :
    s.clear_body j = .ok { s with shared := mem',
                                  their_remote_push_size := s.their_remote_push_size.set j (some 0) } := by
  have hloc' : ¬ (({ s with shared := mem' } : Worker).is_process_local j = true) := hloc
  unfold Worker.clear_body
  rw [if_pos hj, hwr]
  dsimp only
  rw [if_pos hloc', hc]

/-- `clear_buffers` on a quiet worker: every send counter of this worker is
zero afterwards, the futures are dropped, tables and peer pointers stay. -/
theorem clear_buffers_spec (w : Worker) (hq : w.Quiet) :
    ∃ w', w.clear_buffers = .ok w' ∧ w'.statics = w.statics ∧ w'.tables = w.tables ∧
      w'.Quiet ∧ w'.rget_futures_size = [] ∧ w'.rget_futures_msgs = [] ∧
      (∀ k, k < w.total_workers → size_at w'.shared (w.rank_me_, k) = 0) ∧
      w'.cycles_counter = w.cycles_counter := by
  obtain ⟨hmw, hst, hpl, hpeers⟩ := hq
  obtain ⟨w1, hloop, hstat, htab, hmem, hstg, hoth, hzero, hcc⟩ := for_range_inv Worker.clear_body
    (fun i s => s.statics = w.statics ∧ s.tables = w.tables ∧
      MemOK s.shared w.total_workers w.BUFFER_MAX_SIZE ∧ s.StagingOK ∧
      (∀ q : GPtr, q.1 ≠ w.rank_me_ → size_at s.shared q = size_at w.shared q) ∧
      (∀ k, k < i → size_at s.shared (w.rank_me_, k) = 0) ∧
      s.cycles_counter = w.cycles_counter)
    w.total_workers
    { w with messages_sent := 0, messages_recv_local := 0, messages_recv_remote := 0,
             buffer_size_min := 0, buffer_size_max := 0 }
    ⟨rfl, rfl, hmw.1, hst, fun _ _ => rfl, fun k hk => absurd hk (Nat.not_lt_zero k), rfl⟩
    (fun j s hj ⟨hstat, htab, hmem, hstg, hoth, hzero, hcc⟩ => by
      obtain ⟨eN, eR, eM, -⟩ := statics_fields w s hstat
      obtain ⟨mem', hwr, hok', hsz, hothers, hbufs⟩ :=
        write_size_spec hmem (w.rank_me_, j) 0 hmw.2 hj
      have hzero' : ∀ k, k < j + 1 → size_at mem' (w.rank_me_, k) = 0 := by
        intro k hk
        by_cases hkj : k = j
        · rw [hkj]; exact hsz
        · rw [hothers _ (fun e => hkj (congrArg Prod.snd e))]
          exact hzero k (by omega)
      have hoth' : ∀ q : GPtr, q.1 ≠ w.rank_me_ → size_at mem' q = size_at w.shared q := by
        intro q hq
        rw [hothers q (fun e => hq (congrArg Prod.fst e))]
        exact hoth q hq
      by_cases hloc : s.is_process_local j = true
      · exact ⟨{ s with shared := mem' },
          clear_body_local s j (eN ▸ hj) mem' (eR ▸ hwr) hloc,
          hstat, htab, hok', hstg, hoth', hzero', hcc⟩
      · obtain ⟨c, hc⟩ := hstg.2.2.1 j (eN ▸ hj)
        exact ⟨{ s with shared := mem',
                        their_remote_push_size := s.their_remote_push_size.set j (some 0) },
          clear_body_remote s j (eN ▸ hj) mem' (eR ▸ hwr) hloc c hc,
          hstat, htab, hok', stagingOK_set s _ hstg j rfl rfl rfl rfl, hoth', hzero', hcc⟩)
  obtain ⟨eN, eR, eM, ePL, -⟩ := statics_fields w w1 hstat
  refine ⟨{ w1 with fetch_futures_size := [], fetch_futures_msgs := [],
                    rget_futures_size := [], rget_futures_msgs := [] }, ?_, hstat, htab, ?_,
    rfl, rfl, hzero, hcc⟩
  · simp only [Worker.clear_buffers, hloop]
  · refine ⟨⟨?_, ?_⟩, hstg, ?_, ?_⟩
    · show MemOK w1.shared w1.total_workers w1.BUFFER_MAX_SIZE
      rw [eN, eM]; exact hmem
    · show w1.rank_me_ < w1.total_workers
      rw [eN, eR]; exact hmw.2
    · show w1.proc_local.getD w1.rank_me_ false = true
      rw [ePL, eR]; exact hpl
    · intro i hi hne
      show size_at w1.shared (dist_fetch i i) = 0
      have hi' : i < w.total_workers := eN ▸ hi
      have hne' : i ≠ w.rank_me_ := eR ▸ hne
      rw [hoth _ hne']
      exact hpeers i hi' hne'

/-! ## The remote path -/

theorem ready_push_size_g (w : Worker) (hr : w.Ready) (i : Nat) (hi : i < w.total_workers) :
    w.their_push_size_g[i]? = some (dist_fetch i i) := by
  rw [hr.1]; simp [hi]

theorem ready_push_buffers_g (w : Worker) (hr : w.Ready) (i : Nat) (hi : i < w.total_workers) :
    w.their_push_buffers_g[i]? = some (dist_fetch i i) := by
  rw [hr.2.1]; simp [hi]

theorem nonlocal_ne_me (w : Worker) (hr : w.Ready) (hq : w.Quiet) (i : Nat)
    (hi : i < w.total_workers) (hloc : ¬ (w.is_process_local i = true)) : i ≠ w.rank_me_ := by
  intro h
  subst h
  rw [ready_is_process_local w hr _ hi] at hloc
  exact hloc hq.2.2.1

/-- Step 1 of the remote path on a quiet worker: one future per peer, the
futures of the remote peers holding the counter value zero. -/
theorem remote_step1_loop (w : Worker) (hr : w.Ready) (hq : w.Quiet)
    (hfut : w.rget_futures_size = []) :
    ∃ fs : List (Option Nat), for_range w.total_workers Worker.remote_step1 w
        = .ok { w with rget_futures_size := fs } ∧ fs.length = w.total_workers ∧
      ∀ k, k < w.total_workers → ¬ (w.is_process_local k = true) → fs[k]? = some (some 0) := by
  obtain ⟨w1, hloop, fs, hw1, hlen, hfs⟩ := for_range_inv Worker.remote_step1
    (fun i s => ∃ fs : List (Option Nat), s = { w with rget_futures_size := fs } ∧
      fs.length = i ∧ ∀ k, k < i → ¬ (w.is_process_local k = true) → fs[k]? = some (some 0))
    w.total_workers w ⟨[], by rw [← hfut], rfl, fun k hk => absurd hk (Nat.not_lt_zero k)⟩
    (fun j s hj ⟨fs, hs, hlen, hfs⟩ => by
      subst hs
      by_cases hloc : w.is_process_local j = true
      · have hloc' : ({ w with rget_futures_size := fs } : Worker).is_process_local j = true := hloc
        refine ⟨{ w with rget_futures_size := fs ++ [none] }, ?_, fs ++ [none], rfl,
          by simp [hlen], ?_⟩
        · simp only [Worker.remote_step1, hloc', if_true]
        · intro k hk hnl
          have hkj : k ≠ j := fun e => hnl (e ▸ hloc)
          rw [List.getElem?_append_left (by omega)]
          exact hfs k (by omega) hnl
      · have hloc' : ¬ (({ w with rget_futures_size := fs } : Worker).is_process_local j = true) :=
          hloc
        have hz : size_at w.shared (dist_fetch j j) = 0 :=
          hq.2.2.2 j hj (nonlocal_ne_me w hr hq j hj hloc)
        have hread := read_size_ok hq.1.1 (dist_fetch j j) hj hj
        rw [hz] at hread
        refine ⟨{ w with rget_futures_size := fs ++ [some 0] }, ?_, fs ++ [some 0], rfl,
          by simp [hlen], ?_⟩
        · simp only [Worker.remote_step1, hloc', Bool.false_eq_true, if_false,
            ready_push_size_g w hr j hj, hread]
        · intro k hk hnl
          by_cases hkj : k = j
          · subst hkj
            rw [← hlen, List.getElem?_concat_length]
          · rw [List.getElem?_append_left (by omega)]
            exact hfs k (by omega) hnl)
  subst hw1
  exact ⟨fs, hloop, hlen, hfs⟩

/-- Step 2 of the remote path: the messages of the own send array are
applied and the own counter is cleared. -/
theorem remote_self_step (hashf : Nat → Int) (w0 w : Worker) (l : List Message) (hr : w.Ready)
    (hq : w.Quiet) (hd : Delivered hashf w0 w l) (hdl : ∀ m ∈ w.self_msgs, w0.Deliverable m) :
    ∃ w1 mem', w.get_messgaes_count_recv w.rank_me_
        = .ok (size_at w.shared (dist_fetch w.rank_me_ w.rank_me_)) ∧
      w.their_local_push_buffers[w.rank_me_]? = some (some (dist_fetch w.rank_me_ w.rank_me_)) ∧
      w.their_local_push_size[w.rank_me_]? = some (some (dist_fetch w.rank_me_ w.rank_me_)) ∧
      w.process_push_buffer hashf (deref_buffer w.shared (some (dist_fetch w.rank_me_ w.rank_me_)))
          (w.valid_buffer_size (size_at w.shared (dist_fetch w.rank_me_ w.rank_me_)))
        = .ok (w1, min (size_at w.shared (dist_fetch w.rank_me_ w.rank_me_)) w.BUFFER_MAX_SIZE) ∧
      w1 = { w with tables := w1.tables } ∧ Delivered hashf w0 w1 (l ++ w.self_msgs) ∧
      write_size w.shared (dist_fetch w.rank_me_ w.rank_me_) 0 = .ok mem' ∧
      MemOK mem' w.total_workers w.BUFFER_MAX_SIZE ∧
      size_at mem' (dist_fetch w.rank_me_ w.rank_me_) = 0 ∧
      (∀ q, q ≠ dist_fetch w.rank_me_ w.rank_me_ → size_at mem' q = size_at w.shared q) ∧
      (∀ q, buffer_at mem' q = buffer_at w.shared q) := by
  have hme := hq.1.2
  have hp := hq.2.2.1
  have hloc := ready_is_process_local w hr w.rank_me_ hme
  rw [hp] at hloc
  have hs := ready_local_size w hr _ hme
  have hb := ready_local_buffers w hr _ hme
  rw [hp] at hs hb
  simp only [if_true] at hs hb
  have hc : w.get_messgaes_count_recv w.rank_me_
      = .ok (size_at w.shared (dist_fetch w.rank_me_ w.rank_me_)) := by
    rw [get_count_recv_ok w hq.1 (ready_handlesOK w hr) _ hloc]
    have l1 : w.rank_me_ < w.their_local_push_size.length := by rw [hr.2.2.1]; simpa using hme
    rw [List.getElem?_eq_getElem l1] at hs
    simp only [Option.some.injEq] at hs
    simp only [Worker.recv_count, List.getD_eq_getElem _ _ l1, hs]
  obtain ⟨w1, happ, hf1, hd1⟩ := delivered_apply hashf w0 w l w.self_msgs hd hdl
  obtain ⟨mem', hwr, hok', hsz, hoth, hbufs⟩ :=
    write_size_spec hq.1.1 (dist_fetch w.rank_me_ w.rank_me_) 0 hme hme
  have hbl := (read_buffer_ok hq.1.1 (dist_fetch w.rank_me_ w.rank_me_) hme hme).2
  refine ⟨w1, mem', hc, hb, hs, ?_, hf1, hd1, hwr, hok', hsz, hoth, hbufs⟩
  have hvv : w.valid_buffer_size
      (w.valid_buffer_size (size_at w.shared (dist_fetch w.rank_me_ w.rank_me_)))
      = min (size_at w.shared (dist_fetch w.rank_me_ w.rank_me_)) w.BUFFER_MAX_SIZE := by
    rw [valid_buffer_size_eq, valid_buffer_size_eq]; omega
  have hproc := process_push_buffer_eq hashf w
    (deref_buffer w.shared (some (dist_fetch w.rank_me_ w.rank_me_)))
    (w.valid_buffer_size (size_at w.shared (dist_fetch w.rank_me_ w.rank_me_)))
    (by rw [hvv]; show _ ≤ (buffer_at _ _).length; rw [hbl]; omega)
  rw [hvv] at hproc
  have hself : w.self_msgs = (deref_buffer w.shared (some (dist_fetch w.rank_me_ w.rank_me_))).take
      (min (size_at w.shared (dist_fetch w.rank_me_ w.rank_me_)) w.BUFFER_MAX_SIZE) := rfl
  rw [hself] at happ
  rw [happ] at hproc
  exact hproc

theorem remote_step3_local (s : Worker) (j : Nat) (hloc : s.is_process_local j = true) :
    s.remote_step3 j = .ok { s with rget_futures_msgs := s.rget_futures_msgs ++ [false] } := by
  simp only [Worker.remote_step3, hloc, if_true]

theorem remote_step3_remote (s : Worker) (j : Nat) (hloc : ¬ (s.is_process_local j = true))
    (c0 : Nat) (h1 : s.their_remote_push_size[j]? = some (some c0))
    (h2 : s.rget_futures_size[j]? = some (some 0)) (p : GPtr)
    (h3 : s.their_push_buffers_g[j]? = some p) (stage src : List Message)
    (h4 : s.their_remote_push_buffers[j]? = some (some stage))
    (h5 : read_buffer s.shared p = .ok src) :
    s.remote_step3 j = .ok { s with
      their_remote_push_size := s.their_remote_push_size.set j (some 0),
      rget_futures_msgs := s.rget_futures_msgs ++ [true] } := by
  have hv : s.valid_buffer_size 0 = 0 := by simp [Worker.valid_buffer_size]
  have hset : s.their_remote_push_buffers.set j (some stage) = s.their_remote_push_buffers :=
    list_set_same _ _ _ h4
  simp only [Worker.remote_step3, hloc, Bool.false_eq_true, if_false, h1, h2, hv, h3, h4, h5,
    Nat.zero_le, and_self, if_true, List.take_zero, List.drop_zero, List.nil_append, hset]

/-- Step 3 of the remote path when every remote counter read was zero: the
staging counters of the remote peers become zero, nothing else changes but the
list of futures. -/
theorem remote_step3_loop (w : Worker) (hr : w.Ready) (hq : w.Quiet)
    (hfs : ∀ k, k < w.total_workers → ¬ (w.is_process_local k = true) →
      w.rget_futures_size[k]? = some (some 0))
    (hfm : w.rget_futures_msgs = []) :
    ∃ w', for_range w.total_workers Worker.remote_step3 w = .ok w' ∧
      w'.statics = w.statics ∧ w'.tables = w.tables ∧ w'.shared = w.shared ∧ w'.StagingOK ∧
      w'.rget_futures_msgs.length = w.total_workers ∧
      ∀ k, k < w.total_workers → ¬ (w.is_process_local k = true) →
        w'.their_remote_push_size[k]? = some (some 0) := by
  obtain ⟨w', hloop, h1, h2, h3, h4, h5, h6, h7⟩ := for_range_inv Worker.remote_step3
    (fun i s => s.statics = w.statics ∧ s.tables = w.tables ∧ s.shared = w.shared ∧
      s.rget_futures_size = w.rget_futures_size ∧ s.StagingOK ∧
      s.rget_futures_msgs.length = i ∧
      ∀ k, k < i → ¬ (w.is_process_local k = true) →
        s.their_remote_push_size[k]? = some (some 0))
    w.total_workers w
    ⟨rfl, rfl, rfl, rfl, hq.2.1, by rw [hfm]; rfl, fun k hk => absurd hk (Nat.not_lt_zero k)⟩
    (fun j s hj ⟨hstat, htab, hsh, hrf, hstg, hlen, hz⟩ => by
      obtain ⟨eN, eR, eM, ePL, eSG, eBG, eLS, eLB⟩ := statics_fields w s hstat
      have hlocEq := is_process_local_statics w s hstat j
      by_cases hloc : w.is_process_local j = true
      · refine ⟨_, remote_step3_local s j (hlocEq ▸ hloc), hstat, htab, hsh, hrf, hstg,
          by simp [hlen], ?_⟩
        intro k hk hnl
        have hkj : k ≠ j := fun e => hnl (e ▸ hloc)
        exact hz k (by omega) hnl
      · obtain ⟨c0, hc0⟩ := hstg.2.2.1 j (eN ▸ hj)
        obtain ⟨stage, hst, -⟩ := hstg.2.2.2 j (eN ▸ hj)
        have hpb : s.their_push_buffers_g[j]? = some (dist_fetch j j) := by
          rw [eBG]; exact ready_push_buffers_g w hr j hj
        have hrd := (read_buffer_ok hq.1.1 (dist_fetch j j) hj hj).1
        refine ⟨_, remote_step3_remote s j (by rw [hlocEq]; exact hloc) c0 hc0
          (by rw [hrf]; exact hfs j hj hloc) (dist_fetch j j) hpb stage _ hst
          (by rw [hsh]; exact hrd), hstat, htab, hsh, hrf,
          stagingOK_set s _ hstg j rfl rfl rfl rfl, by simp [hlen], ?_⟩
        intro k hk hnl
        show (s.their_remote_push_size.set j (some 0))[k]? = some (some 0)
        by_cases hkj : j = k
        · subst hkj
          rw [List.getElem?_set_self (by rw [hstg.1, eN]; exact hj)]
        · rw [List.getElem?_set_ne hkj]
          exact hz k (by omega) hnl)
  exact ⟨w', hloop, h1, h2, h3, h5, h6, h7⟩

theorem remote_step5_local (hashf : Nat → Int) (s : Worker) (j : Nat)
    (hloc : s.is_process_local j = true) : s.remote_step5 hashf j = .ok s := by
  simp only [Worker.remote_step5, hloc, not_true_eq_false, if_false]

theorem remote_step5_remote (hashf : Nat → Int) (s : Worker) (j : Nat)
    (hloc : ¬ (s.is_process_local j = true)) (f : Bool) (h1 : s.rget_futures_msgs[j]? = some f)
    (h2 : s.their_remote_push_size[j]? = some (some 0)) (b : List Message)
    (h3 : s.their_remote_push_buffers[j]? = some (some b)) :
    s.remote_step5 hashf j = .ok s := by
  have hv : s.valid_buffer_size 0 = 0 := by simp [Worker.valid_buffer_size]
  simp only [Worker.remote_step5, hloc, Bool.false_eq_true, not_false_eq_true, if_true, h1, h2,
    h3, hv, Worker.process_push_buffer, for_range, for_loop, Nat.add_zero]

/-- Step 5 of the remote path when every staging counter of a remote peer is
zero: nothing is applied. -/
theorem remote_step5_loop (hashf : Nat → Int) (w : Worker) (hstg : w.StagingOK)
    (hfm : w.rget_futures_msgs.length = w.total_workers)
    (hz : ∀ k, k < w.total_workers → ¬ (w.is_process_local k = true) →
      w.their_remote_push_size[k]? = some (some 0)) :
    for_range w.total_workers (Worker.remote_step5 hashf) w = .ok w := by
  obtain ⟨w', hloop, rfl⟩ := for_range_inv (Worker.remote_step5 hashf) (fun _ s => s = w)
    w.total_workers w rfl
    (fun j s hj hs => by
      subst hs
      by_cases hloc : s.is_process_local j = true
      · exact ⟨s, remote_step5_local hashf s j hloc, rfl⟩
      · obtain ⟨b, hb, -⟩ := hstg.2.2.2 j hj
        cases hf : s.rget_futures_msgs[j]? with
        | none =>
          rw [List.getElem?_eq_none_iff] at hf
          omega
        | some f => exact ⟨s, remote_step5_remote hashf s j hloc f hf (hz j hj hloc) b hb, rfl⟩)
  exact hloop

theorem tables_frame_fields (a b : Worker) (h : b = { a with tables := b.tables }) :
    b.statics = a.statics ∧ b.shared = a.shared ∧
    b.rget_futures_size = a.rget_futures_size ∧ b.rget_futures_msgs = a.rget_futures_msgs ∧
    b.their_remote_push_size = a.their_remote_push_size ∧
    b.their_remote_push_buffers = a.their_remote_push_buffers := by
  rw [h]
  exact ⟨rfl, rfl, rfl, rfl, rfl, rfl⟩

theorem quiet_of_statics (w w' : Worker) (h : w'.statics = w.statics) (hq : w.Quiet)
    (hmem : MemOK w'.shared w.total_workers w.BUFFER_MAX_SIZE) (hstg : w'.StagingOK)
    (hz : ∀ i, i < w.total_workers → i ≠ w.rank_me_ → size_at w'.shared (dist_fetch i i) = 0) :
    w'.Quiet := by
  obtain ⟨eN, eR, eM, ePL, -⟩ := statics_fields w w' h
  refine ⟨⟨?_, ?_⟩, hstg, ?_, ?_⟩
  · rw [eN, eM]; exact hmem
  · rw [eN, eR]; exact hq.1.2
  · rw [ePL, eR]; exact hq.2.2.1
  · intro i hi hne
    exact hz i (eN ▸ hi) (eR ▸ hne)

theorem stagingOK_of_eq (w w' : Worker) (hs : w.StagingOK)
    (h1 : w'.their_remote_push_size = w.their_remote_push_size)
    (h2 : w'.their_remote_push_buffers = w.their_remote_push_buffers)
    (h3 : w'.total_workers = w.total_workers) (h4 : w'.BUFFER_MAX_SIZE = w.BUFFER_MAX_SIZE) :
    w'.StagingOK := by
  unfold Worker.StagingOK
  rw [h1, h2, h3, h4]
  exact hs

/-- `apply_push_incoming_remote` on a quiet worker: exactly the messages of the
own send array are delivered, once, although the own array is visited in step
2 and again in step 4. -/
theorem incoming_remote_spec (hashf : Nat → Int) (w0 w : Worker) (l : List Message)
    (hr : w.Ready) (hq : w.Quiet) (hf1 : w.rget_futures_size = [])
    (hf2 : w.rget_futures_msgs = []) (hd : Delivered hashf w0 w l)
    (hdl : ∀ m ∈ w.self_msgs, w0.Deliverable m) :
    ∃ w', w.apply_push_incoming_remote hashf = .ok w' ∧ w'.statics = w.statics ∧ w'.Quiet ∧
      Delivered hashf w0 w' (l ++ w.self_msgs) := by
  -- step 1
  obtain ⟨fs, hs1, hlen, hfs⟩ := remote_step1_loop w hr hq hf1
  generalize hw1 : ({ w with rget_futures_size := fs } : Worker) = w1 at hs1
  have e1 : w1.statics = w.statics := by rw [← hw1]; rfl
  have hr1 : w1.Ready := ready_of_statics w w1 e1 hr
  have hq1 : w1.Quiet := by rw [← hw1]; exact hq
  have hd1 : Delivered hashf w0 w1 l := by
    rw [← hw1]; exact delivered_frame hashf w0 w _ l hd rfl rfl rfl rfl
  have hself1 : w1.self_msgs = w.self_msgs := by rw [← hw1]; rfl
  have hN1 : w1.total_workers = w.total_workers := by rw [← hw1]
  have hfs1 : w1.rget_futures_size = fs := by rw [← hw1]
  have hfm1 : w1.rget_futures_msgs = [] := by rw [← hw1]; exact hf2
  -- step 2
  obtain ⟨w2, mem', hc, hb, hs, hproc, hfr2, hd2, hwr, hok', hsz, hoth, hbufs⟩ :=
    remote_self_step hashf w0 w1 l hr1 hq1 hd1 (by rw [hself1]; exact hdl)
  obtain ⟨e2, hsh2, hrf2, hrm2, hrs2, hrb2⟩ := tables_frame_fields w1 w2 hfr2
  obtain ⟨eN2, eR2, eM2, ePL2, -, -, eLS2, -⟩ := statics_fields w1 w2 e2
  generalize min (size_at w1.shared (dist_fetch w1.rank_me_ w1.rank_me_)) w1.BUFFER_MAX_SIZE
    = n at hproc
  obtain ⟨w3, hw3⟩ : ∃ w3 : Worker, w3 =
      { w2 with messages_recv_local := w2.messages_recv_local + n, shared := mem' } := ⟨_, rfl⟩
  have e3 : w3.statics = w1.statics := by rw [hw3]; exact e2
  have hr3 : w3.Ready := ready_of_statics w1 w3 e3 hr1
  have hstg3 : w3.StagingOK := by
    rw [hw3]; exact stagingOK_of_eq w1 _ hq1.2.1 hrs2 hrb2 eN2 eM2
  have hsh3 : w3.shared = mem' := by rw [hw3]
  have hq3 : w3.Quiet := by
    refine quiet_of_statics w1 w3 e3 hq1 (hsh3 ▸ hok') hstg3 ?_
    intro i hi hne
    rw [hsh3, hoth _ (fun e => hne (congrArg Prod.fst e))]
    exact hq1.2.2.2 i hi hne
  have hd3 : Delivered hashf w0 w3 (l ++ w1.self_msgs) := by
    rw [hw3]; exact delivered_frame hashf w0 w2 _ _ hd2 rfl rfl rfl rfl
  have his3 : ∀ k, w3.is_process_local k = w.is_process_local k := fun k =>
    (is_process_local_statics w1 w3 e3 k).trans (is_process_local_statics w w1 e1 k)
  obtain ⟨eN3, eR3, eM3, -⟩ := statics_fields w1 w3 e3
  have hfs3 : ∀ k, k < w3.total_workers → ¬ (w3.is_process_local k = true) →
      w3.rget_futures_size[k]? = some (some 0) := by
    intro k hk hnl
    have : w3.rget_futures_size = fs := by rw [hw3]; exact hrf2.trans hfs1
    rw [this]
    exact hfs k (by rw [← hN1, ← eN3]; exact hk) (by rw [← his3]; exact hnl)
  have hfm3 : w3.rget_futures_msgs = [] := by rw [hw3]; exact hrm2.trans hfm1
  -- step 3
  obtain ⟨w4, hs3, e4, ht4, hsh4, hstg4, hlen4, hz4⟩ := remote_step3_loop w3 hr3 hq3 hfs3 hfm3
  obtain ⟨eN4, eR4, eM4, -⟩ := statics_fields w3 w4 e4
  have hr4 : w4.Ready := ready_of_statics w3 w4 e4 hr3
  have hq4 : w4.Quiet := by
    refine quiet_of_statics w3 w4 e4 hq3 (hsh4 ▸ hq3.1.1) hstg4 ?_
    intro i hi hne
    rw [hsh4]
    exact hq3.2.2.2 i hi hne
  have hd4 : Delivered hashf w0 w4 (l ++ w1.self_msgs) :=
    delivered_frame hashf w0 w3 w4 _ hd3 ht4 eN4 eR4 eM4
  have hself4 : w4.self_msgs = [] := by
    have hzero : size_at w4.shared (dist_fetch w4.rank_me_ w4.rank_me_) = 0 := by
      rw [hsh4, hsh3, eR4, eR3]; exact hsz
    simp only [Worker.self_msgs, hzero, Nat.zero_min, List.take_zero]
  -- step 4
  obtain ⟨w5, hs4, hsk5, hq5, hd5, -, -, -⟩ := incoming_local_spec hashf w0 w4 _ hr4 hq4 hd4
    (by rw [hself4]; intro m hm; cases hm)
  rw [hself4, List.append_nil, hself1] at hd5
  have e5 : w5.statics = w4.statics := statics_of_skeleton w4 w5 hsk5
  obtain ⟨eN5, -⟩ := statics_fields w4 w5 e5
  have hrm5 : w5.rget_futures_msgs = w4.rget_futures_msgs := by
    have := congrArg Worker.rget_futures_msgs hsk5; exact this
  have hrs5 : w5.their_remote_push_size = w4.their_remote_push_size := by
    have := congrArg Worker.their_remote_push_size hsk5; exact this
  -- step 5
  have hs5 := remote_step5_loop hashf w5 hq5.2.1 (by rw [hrm5, hlen4, eN5, eN4])
    (by
      intro k hk hnl
      rw [hrs5]
      refine hz4 k (by rw [← eN4, ← eN5]; exact hk) ?_
      rw [← is_process_local_statics w3 w4 e4, ← is_process_local_statics w4 w5 e5]
      exact hnl)
  refine ⟨w5, ?_, (e5.trans e4).trans (e3.trans e1), hq5, hd5⟩
  have hlen1 : ¬ (fs.length ≠ w1.total_workers) := by rw [hN1, hlen]; simp
  have hlen4' : ¬ (w4.rget_futures_msgs.length ≠ w4.total_workers) := by
    rw [hlen4, eN4]; simp
  have hs' : w2.their_local_push_size[w2.rank_me_]?
      = some (some (dist_fetch w1.rank_me_ w1.rank_me_)) := by rw [eLS2, eR2]; exact hs
  have hwr' : write_size w2.shared (dist_fetch w1.rank_me_ w1.rank_me_) 0 = .ok mem' := by
    rw [hsh2]; exact hwr
  rw [hw3] at hs3
  dsimp only at hs3
  unfold Worker.apply_push_incoming_remote
  rw [hs1]
  simp only [hfs1, hlen1, if_false, hc, hb, hproc, hs', hwr']
  rw [hs3]
  simp only [hlen4', if_false, hs4, hs5]

/-! ## cycle -/

theorem dist_fetch_fst (obj rank : Nat) : (dist_fetch obj rank).1 = rank := rfl

/-- `create_buffers_gptr_wait` on a freshly constructed worker resolves the
peer pointers and changes nothing else. -/
theorem gptr_wait_spec (w : Worker) (hf : w.Fresh) (hq : w.Quiet) :
    ∃ w', w.create_buffers_gptr_wait = .ok w' ∧ w'.Ready ∧ w'.Quiet ∧
      w'.tables = w.tables ∧ w'.total_workers = w.total_workers ∧ w'.rank_me_ = w.rank_me_ ∧
      w'.BUFFER_MAX_SIZE = w.BUFFER_MAX_SIZE ∧ w'.shared = w.shared ∧
      w'.rget_futures_size = w.rget_futures_size ∧
      w'.rget_futures_msgs = w.rget_futures_msgs := by
  obtain ⟨f1, f2, f3, f4, f5, f6⟩ := hf
  have hinit1 : w = { w with
      their_push_size_g := (List.range 0).map (fun k => dist_fetch k k),
      their_push_buffers_g := (List.range 0).map (fun k => dist_fetch k k) } := by
    have h : w = { w with their_push_size_g := w.their_push_size_g,
                          their_push_buffers_g := w.their_push_buffers_g } := rfl
    rw [f1, f2] at h
    exact h
  obtain ⟨w1, hl1, hw1⟩ := for_range_inv Worker.gptr_wait_fetch
    (fun i s => s = { w with
      their_push_size_g := (List.range i).map (fun k => dist_fetch k k),
      their_push_buffers_g := (List.range i).map (fun k => dist_fetch k k) })
    w.total_workers w hinit1
    (fun j s hj hs' => by
      subst hs'
      have h1 : w.fetch_futures_size[j]? = some (dist_fetch j j) := by rw [f5]; simp [hj]
      have h2 : w.fetch_futures_msgs[j]? = some (dist_fetch j j) := by rw [f6]; simp [hj]
      refine ⟨{ w with
        their_push_size_g := (List.range (j + 1)).map (fun k => dist_fetch k k),
        their_push_buffers_g := (List.range (j + 1)).map (fun k => dist_fetch k k) }, ?_, rfl⟩
      simp only [Worker.gptr_wait_fetch, h1, h2, List.range_succ, List.map_append, List.map_cons,
        List.map_nil])
  have hinit2 : w1 = { w1 with
      their_local_push_size := (List.range 0).map
        (fun k => if w.proc_local.getD k false then some (dist_fetch k k) else none),
      their_local_push_buffers := (List.range 0).map
        (fun k => if w.proc_local.getD k false then some (dist_fetch k k) else none) } := by
    have h : w1 = { w1 with their_local_push_size := w1.their_local_push_size,
                            their_local_push_buffers := w1.their_local_push_buffers } := rfl
    have e3 : w1.their_local_push_size = [] := by rw [hw1]; exact f3
    have e4 : w1.their_local_push_buffers = [] := by rw [hw1]; exact f4
    rw [e3, e4] at h
    exact h
  have hg1 : ∀ j, j < w.total_workers → w1.their_push_size_g[j]? = some (dist_fetch j j) := by
    intro j hj; rw [hw1]; simp [hj]
  have hg2 : ∀ j, j < w.total_workers → w1.their_push_buffers_g[j]? = some (dist_fetch j j) := by
    intro j hj; rw [hw1]; simp [hj]
  have hpl1 : w1.proc_local = w.proc_local := by rw [hw1]
  obtain ⟨w2, hl2, hw2⟩ := for_range_inv Worker.gptr_wait_local
    (fun i s => s = { w1 with
      their_local_push_size := (List.range i).map
        (fun k => if w.proc_local.getD k false then some (dist_fetch k k) else none),
      their_local_push_buffers := (List.range i).map
        (fun k => if w.proc_local.getD k false then some (dist_fetch k k) else none) })
    w.total_workers w1 hinit2
    (fun j s hj hs' => by
      subst hs'
      refine ⟨{ w1 with
        their_local_push_size := (List.range (j + 1)).map
          (fun k => if w.proc_local.getD k false then some (dist_fetch k k) else none),
        their_local_push_buffers := (List.range (j + 1)).map
          (fun k => if w.proc_local.getD k false then some (dist_fetch k k) else none) }, ?_, rfl⟩
      simp only [Worker.gptr_wait_local, hg1 j hj, hg2 j hj, Worker.gptr_is_local, dist_fetch_fst,
        hpl1, List.range_succ, List.map_append, List.map_cons, List.map_nil])
  have hN1 : w1.total_workers = w.total_workers := by rw [hw1]
  have hN2 : w2.total_workers = w.total_workers := by rw [hw2, hw1]
  have hPL2 : w2.proc_local = w.proc_local := by rw [hw2, hw1]
  have hstg : w2.StagingOK := stagingOK_of_eq w w2 hq.2.1 (by rw [hw2, hw1]) (by rw [hw2, hw1])
    hN2 (by rw [hw2, hw1])
  refine ⟨w2, ?_, ?_, ?_, by rw [hw2, hw1], hN2, by rw [hw2, hw1], by rw [hw2, hw1],
    by rw [hw2, hw1], by rw [hw2, hw1], by rw [hw2, hw1]⟩
  · have a1 : w2.their_local_push_size.length = w2.total_workers := by rw [hw2]; simp [hN1]
    have a2 : w2.their_local_push_buffers.length = w2.total_workers := by rw [hw2]; simp [hN1]
    simp only [Worker.create_buffers_gptr_wait, hl1, hN1, hl2, a1, a2, hstg.1, hstg.2.1, and_self,
      if_true]
  · unfold Worker.Ready
    rw [hN2, hPL2, hw2, hw1]
    exact ⟨rfl, rfl, rfl, rfl⟩
  · have hsh : w2.shared = w.shared := by rw [hw2, hw1]
    refine ⟨⟨?_, ?_⟩, hstg, ?_, ?_⟩
    · rw [hsh, hN2, show w2.BUFFER_MAX_SIZE = w.BUFFER_MAX_SIZE by rw [hw2, hw1]]
      exact hq.1.1
    · rw [hN2, show w2.rank_me_ = w.rank_me_ by rw [hw2, hw1]]
      exact hq.1.2
    · rw [hPL2, show w2.rank_me_ = w.rank_me_ by rw [hw2, hw1]]
      exact hq.2.2.1
    · intro i hi hne
      rw [hsh]
      exact hq.2.2.2 i (hN2 ▸ hi) (by rw [hw2, hw1] at hne; exact hne)

/-- One iteration of `cycle(_, do_work = false, do_comm = true)` on a quiet
worker: the messages of the own send array are delivered exactly once and
afterwards the own send array is empty. -/
theorem cycle_iteration_spec (hashf : Nat → Int) (prog : WorkProgram) (w0 w : Worker)
    (l : List Message) (hr : w.Ready) (hq : w.Quiet) (hf1 : w.rget_futures_size = [])
    (hf2 : w.rget_futures_msgs = []) (hd : Delivered hashf w0 w l)
    (hdl : ∀ m ∈ w.self_msgs, w0.Deliverable m) :
    ∃ w', w.cycle_iteration hashf prog false true = .ok w' ∧ w'.Ready ∧ w'.Quiet ∧
      w'.rget_futures_size = [] ∧ w'.rget_futures_msgs = [] ∧
      Delivered hashf w0 w' (l ++ w.self_msgs) ∧ w'.self_msgs = [] := by
  -- validate
  have hval : ∃ wv, (if w.is_local_root then w.validate_buffer_space else .ok w :
        Except Fault Worker) = .ok wv ∧ wv.skeleton = { w.skeleton with
          buffer_size_min := wv.buffer_size_min, buffer_size_max := wv.buffer_size_max,
          error := wv.error } ∧ wv.tables = w.tables ∧ wv.shared = w.shared ∧
        wv.total_nodes = w.total_nodes := by
    by_cases hroot : w.is_local_root = true
    · obtain ⟨mx, mn, hv, -⟩ := validate_spec w hq.1 (ready_handlesOK w hr)
      rw [if_pos hroot, hv]
      by_cases hmx : mx > w.BUFFER_MAX_SIZE
      · rw [if_pos hmx]; exact ⟨_, rfl, rfl, rfl, rfl, rfl⟩
      · rw [if_neg hmx]; exact ⟨_, rfl, rfl, rfl, rfl, rfl⟩
    · rw [if_neg hroot]; exact ⟨w, rfl, rfl, rfl, rfl, rfl⟩
  obtain ⟨wv, hv, hskv, htv, hshv, htnv⟩ := hval
  have estat : wv.statics = w.statics := by
    have e1 : wv.their_push_size_g = w.their_push_size_g := by
      have := congrArg Worker.their_push_size_g hskv; exact this
    have e2 : wv.their_push_buffers_g = w.their_push_buffers_g := by
      have := congrArg Worker.their_push_buffers_g hskv; exact this
    have e3 : wv.their_local_push_size = w.their_local_push_size := by
      have := congrArg Worker.their_local_push_size hskv; exact this
    have e4 : wv.their_local_push_buffers = w.their_local_push_buffers := by
      have := congrArg Worker.their_local_push_buffers hskv; exact this
    have e5 : wv.total_workers = w.total_workers := by
      have := congrArg Worker.total_workers hskv; exact this
    have e6 : wv.proc_local = w.proc_local := by
      have := congrArg Worker.proc_local hskv; exact this
    have e7 : wv.rank_me_ = w.rank_me_ := by
      have := congrArg Worker.rank_me_ hskv; exact this
    have e8 : wv.BUFFER_MAX_SIZE = w.BUFFER_MAX_SIZE := by
      have := congrArg Worker.BUFFER_MAX_SIZE hskv; exact this
    simp only [Worker.statics, e1, e2, e3, e4, e5, e6, e7, e8]
  obtain ⟨eN, eR, eM, -⟩ := statics_fields w wv estat
  have hrv : wv.Ready := ready_of_statics w wv estat hr
  have hstgv : wv.StagingOK := stagingOK_of_eq w wv hq.2.1
    (by have := congrArg Worker.their_remote_push_size hskv; exact this)
    (by have := congrArg Worker.their_remote_push_buffers hskv; exact this) eN eM
  have hqv : wv.Quiet := quiet_of_statics w wv estat hq (hshv ▸ hq.1.1) hstgv
    (fun i hi hne => by rw [hshv]; exact hq.2.2.2 i hi hne)
  have hdv : Delivered hashf w0 wv l := delivered_frame hashf w0 w wv l hd htv eN eR eM
  have hselfv : wv.self_msgs = w.self_msgs := by
    simp only [Worker.self_msgs, hshv, eR, eM]
  have hf1v : wv.rget_futures_size = [] := by
    have := congrArg Worker.rget_futures_size hskv; exact this.trans hf1
  have hf2v : wv.rget_futures_msgs = [] := by
    have := congrArg Worker.rget_futures_msgs hskv; exact this.trans hf2
  -- exchange
  have hex : ∃ w2, (if wv.total_nodes = 1 ∧ UPCXX_GPTR_LOCAL_ON then
        wv.apply_push_incoming_local hashf else wv.apply_push_incoming_remote hashf) = .ok w2 ∧
      w2.statics = wv.statics ∧ w2.Quiet ∧ Delivered hashf w0 w2 (l ++ w.self_msgs) := by
    by_cases hpath : wv.total_nodes = 1 ∧ UPCXX_GPTR_LOCAL_ON
    · obtain ⟨w2, h1, h2, h3, h4, -⟩ := incoming_local_spec hashf w0 wv l hrv hqv hdv
        (by rw [hselfv]; exact hdl)
      rw [if_pos hpath]
      exact ⟨w2, h1, statics_of_skeleton wv w2 h2, h3, hselfv ▸ h4⟩
    · obtain ⟨w2, h1, h2, h3, h4⟩ := incoming_remote_spec hashf w0 wv l hrv hqv hf1v hf2v hdv
        (by rw [hselfv]; exact hdl)
      rw [if_neg hpath]
      exact ⟨w2, h1, h2, h3, hselfv ▸ h4⟩
  obtain ⟨w2, hx, estat2, hq2, hd2⟩ := hex
  -- clear
  obtain ⟨w3, hcl, estat3, ht3, hq3, hc1, hc2, hzero, -⟩ := clear_buffers_spec w2 hq2
  obtain ⟨eN3, eR3, eM3, -⟩ := statics_fields w2 w3 estat3
  have hr3 : w3.Ready := ready_of_statics w2 w3 estat3 (ready_of_statics wv w2 estat2 hrv)
  have hd3 : Delivered hashf w0 w3 (l ++ w.self_msgs) :=
    delivered_frame hashf w0 w2 w3 _ hd2 ht3 eN3 eR3 eM3
  have hself3 : w3.self_msgs = [] := by
    have hz : size_at w3.shared (dist_fetch w3.rank_me_ w3.rank_me_) = 0 := by
      rw [eR3]; exact hzero w2.rank_me_ hq2.1.2
    simp only [Worker.self_msgs, hz, Nat.zero_min, List.take_zero]
  refine ⟨{ w3 with cycles_counter := w3.cycles_counter + 1 }, ?_, hr3, hq3, hc1, hc2, hd3, hself3⟩
  unfold Worker.cycle_iteration
  simp only [if_true, hv, hx, hcl, Bool.false_eq_true, if_false]

theorem self_msgs_eq (w w' : Worker) (hs : w'.shared = w.shared) (hr : w'.rank_me_ = w.rank_me_)
    (hm : w'.BUFFER_MAX_SIZE = w.BUFFER_MAX_SIZE) : w'.self_msgs = w.self_msgs := by
  simp only [Worker.self_msgs, hs, hr, hm]

/-- `cycle(j, false, true)` with `j ≥ 1` on a quiet worker delivers the messages
of the own send array exactly once, whatever the number of iterations. -/
theorem cycle_spec (hashf : Nat → Int) (prog : WorkProgram) (w : Worker) (j : Nat)
    (hboot : (w.cycles_counter = 0 ∧ w.Fresh) ∨ (w.cycles_counter ≠ 0 ∧ w.Ready))
    (hq : w.Quiet) (hf1 : w.rget_futures_size = []) (hf2 : w.rget_futures_msgs = [])
    (hok : w.TablesOK hashf) (hdl : ∀ m ∈ w.self_msgs, w.Deliverable m) (hj : 1 ≤ j) :
    ∃ w', w.cycle hashf prog j false true = .ok w' ∧ Delivered hashf w w' w.self_msgs := by
  have hstart : ∃ w1, (if w.cycles_counter = 0 then w.create_buffers_gptr_wait else .ok w :
        Except Fault Worker) = .ok w1 ∧ w1.Ready ∧ w1.Quiet ∧ w1.rget_futures_size = [] ∧
      w1.rget_futures_msgs = [] ∧ Delivered hashf w w1 [] ∧ w1.self_msgs = w.self_msgs := by
    rcases hboot with ⟨hc, hfr⟩ | ⟨hc, hrd⟩
    · obtain ⟨w1, h1, h2, h3, h4, h5, h6, h7, h8, h9, h10⟩ := gptr_wait_spec w hfr hq
      rw [if_pos hc]
      exact ⟨w1, h1, h2, h3, h9.trans hf1, h10.trans hf2,
        delivered_frame hashf w w w1 [] (delivered_refl hashf w hok) h4 h5 h6 h7,
        self_msgs_eq w w1 h8 h6 h7⟩
    · rw [if_neg hc]
      exact ⟨w, rfl, hrd, hq, hf1, hf2, delivered_refl hashf w hok, rfl⟩
  obtain ⟨w1, hs, hr1, hq1, hg1, hg2, hd1, hself1⟩ := hstart
  obtain ⟨w', hloop, hP⟩ := for_range_inv
    (fun _ w2 => Worker.cycle_iteration hashf prog false true w2)
    (fun i s => s.Ready ∧ s.Quiet ∧ s.rget_futures_size = [] ∧ s.rget_futures_msgs = [] ∧
      Delivered hashf w s (if i = 0 then [] else w.self_msgs) ∧
      s.self_msgs = (if i = 0 then w.self_msgs else []))
    j w1 ⟨hr1, hq1, hg1, hg2, by simpa using hd1, by simpa using hself1⟩
    (by
      intro i s _ ⟨a1, a2, a3, a4, a5, a6⟩
      obtain ⟨s2, b1, b2, b3, b4, b5, b6, b7⟩ := cycle_iteration_spec hashf prog w s _ a1 a2 a3 a4 a5
        (by
          intro m hm
          rw [a6] at hm
          by_cases hi : i = 0
          · rw [if_pos hi] at hm; exact hdl m hm
          · rw [if_neg hi] at hm; simp at hm)
      refine ⟨s2, b1, b2, b3, b4, b5, ?_, ?_⟩
      · rw [a6] at b6
        by_cases hi : i = 0
        · simpa [hi] using b6
        · simpa [hi] using b6
      · simpa using b7)
  refine ⟨w', ?_, ?_⟩
  · unfold Worker.cycle
    rw [hs]
    exact hloop
  · have := hP.2.2.2.2.1
    rwa [if_neg (by omega)] at this

theorem sent_to_all (n p : Nat) : ∀ (msgs : List Message),
    (∀ m ∈ msgs, get_partition n m.dest_table m.dest_item = p) → sent_to n p msgs = msgs := by
  intro msgs h
  unfold sent_to
  rw [List.filter_eq_self]
  intro m hm
  simpa using h m hm

/-- After `k ≤ M` messages for this rank were enqueued on a worker whose own
send array was cleared, the exchange phase reads exactly these messages from
the own send array. -/
theorem enqueue_all_self (w : Worker) (msgs : List Message) (hw : w.MemWF)
    (hzero : w.send_count w.rank_me_ = 0) (hk : msgs.length ≤ w.BUFFER_MAX_SIZE)
    (hp : ∀ m ∈ msgs, w.get_partition m.dest_table m.dest_item = w.rank_me_) :
    ∃ w1, w.enqueue_all msgs = .ok w1 ∧ w1 = { w with shared := w1.shared } ∧ w1.MemWF ∧
      w1.self_msgs = msgs ∧
      ∀ q : GPtr, q.1 ≠ w.rank_me_ → size_at w1.shared q = size_at w.shared q := by
  obtain ⟨w1, h1, h2, h3, h4, h5⟩ := enqueue_all_spec msgs w hw
  have hN : w1.total_workers = w.total_workers := by rw [h2]
  have hR : w1.rank_me_ = w.rank_me_ := by rw [h2]
  have hM : w1.BUFFER_MAX_SIZE = w.BUFFER_MAX_SIZE := by rw [h2]
  have h0 : w.SendHolds [] w.rank_me_ := by
    refine ⟨by simpa [sent_to] using hzero, by simp [sent_to]⟩
  have hh := h4 [] w.rank_me_ hw.2 h0
  rw [List.nil_append] at hh
  have hst : sent_to w.total_workers w.rank_me_ msgs = msgs := sent_to_all _ _ msgs hp
  simp only [Worker.SendHolds, Worker.send_count, Worker.send_buffer, hN, hR, hM, hst] at hh
  obtain ⟨c1, c2⟩ := hh
  rw [List.take_of_length_le hk] at c2
  refine ⟨w1, h1, h2, h3, ?_, fun q hq => (h5 q hq).1⟩
  simp only [Worker.self_msgs, dist_fetch, hR, hM, c1]
  exact c2

theorem sample_worker_item_eq : ∃ items,
    sample_worker_item
      = sample_worker.set_table 0 (sample_table.with_new (added_item 0 2 0) items) ∧
    TableOK sample_hash (sample_table.with_new (added_item 0 2 0) items) ∧
    (live_list items.entries).Perm
      ({ hash := sample_hash 2, first := 2, second := some sample_table.objects.length }
        :: live_list sample_table.mapped_items.entries) := by
  obtain ⟨items, -, h2, h3, h4⟩ := add_item_create sample_hash sample_hash_ne sample_worker 0 2
    false sample_table sample_worker_table (tableOK_fresh sample_hash sample_table rfl)
    (by decide) (absent_fresh sample_table rfl 2)
  refine ⟨items, ?_, h3, h4⟩
  unfold sample_worker_item
  rw [h2]
  rfl

theorem sample_worker_fresh : sample_worker.Fresh := by
  simp [sample_worker, Worker.add_table, Worker.new, Worker.Fresh]

theorem sample_worker_quiet : sample_worker.Quiet := by
  refine ⟨sample_worker_memWF, ?_, ?_, ?_⟩
  · simp [sample_worker, Worker.add_table, Worker.new, Worker.StagingOK, Worker.is_process_local]
    constructor
    · intro i hi
      interval_cases i <;> simp
    · intro i hi
      interval_cases i <;> simp
  · simp [sample_worker, Worker.add_table, Worker.new]
  · have hN : sample_worker.total_workers = 2 := rfl
    intro i hi hne
    rw [hN] at hi
    interval_cases i
    · exact absurd rfl hne
    · decide

theorem sample_worker_item_ready : sample_worker_item.cycles_counter = 0 ∧ sample_worker_item.Fresh ∧
    sample_worker_item.Quiet ∧ sample_worker_item.rget_futures_size = [] ∧
    sample_worker_item.rget_futures_msgs = [] ∧ sample_worker_item.TablesOK sample_hash ∧
    sample_worker_item.send_count sample_worker_item.rank_me_ = 0 ∧
    sample_worker_item.Deliverable (msg_to 2) := by
  obtain ⟨items, h1, h2, h3⟩ := sample_worker_item_eq
  have ht : sample_worker.tables = [sample_table] := by
    simp [sample_worker, Worker.add_table, Worker.new, sample_table]
  rw [h1]
  have hz : sample_worker.send_count sample_worker.rank_me_ = 0 := by decide
  have hp : sample_worker.get_partition (msg_to 2).dest_table (msg_to 2).dest_item
      = sample_worker.rank_me_ := by decide
  refine ⟨rfl, sample_worker_fresh, sample_worker_quiet, rfl, rfl, ?_, hz, ?_⟩
  · intro t tb htb
    simp only [Worker.set_table, ht, List.set_cons_zero] at htb
    cases t with
    | zero =>
      simp only [List.getElem?_cons_zero, Option.some.injEq] at htb
      subst htb
      exact ⟨h2, rfl⟩
    | succ n => simp at htb
  · refine ⟨_, 0, set_table_get sample_worker 0 sample_table _ sample_worker_table, ?_, hp⟩
    exact ⟨_, h3.symm.subset (List.mem_cons_self _ _), rfl, rfl⟩

/-- Delivery on a worker that no other rank disturbs.  On a worker whose peers
have sent nothing (the counters it reads from them are zero), whose own send
array for itself is cleared, and which is either before its first cycle (peer
fetches pending) or after it (peer pointers resolved): if `k ≤ M` messages, each
addressed to an item present in its destination table on this rank, are
enqueued and then `cycle(j, do_work = false, do_comm = true)` runs for any
`j ≥ 1` on the segments as the enqueue left them, then both calls succeed, the
maps of all tables are unchanged, and every stored item has got appended to its
callback log exactly the `on_push_recv(value)` calls of the enqueued messages
addressed to it, one per message, in enqueue order.  The run is that of this
rank alone: no other rank writes to the segments between the enqueue and the
end of the cycle.  That is the case when no other rank shares the node of the
worker (`Worker.Secluded`), since only co-located ranks hold a local handle of
its counter; the run with a co-located peer is treated further below. -/
theorem exactly_once_undisturbed (hashf : Nat → Int) (prog : WorkProgram) (w : Worker)
    (msgs : List Message) (j : Nat)
    (hboot : (w.cycles_counter = 0 ∧ w.Fresh) ∨ (w.cycles_counter ≠ 0 ∧ w.Ready))
    (hq : w.Quiet) (hf1 : w.rget_futures_size = []) (hf2 : w.rget_futures_msgs = [])
    (hok : w.TablesOK hashf) (hzero : w.send_count w.rank_me_ = 0)
    (hk : msgs.length ≤ w.BUFFER_MAX_SIZE) (hdel : ∀ m ∈ msgs, w.Deliverable m) (hj : 1 ≤ j) :
    ∃ w1 w2, w.enqueue_all msgs = .ok w1 ∧ w1.cycle hashf prog j false true = .ok w2 ∧
      w2.maps = w.maps ∧
      ∀ t tb e p, w.tables[t]? = some tb → e ∈ live_list tb.mapped_items.entries →
        e.second = some p → w2.calls_of t p = w.calls_of t p ++ recv_calls t e.first msgs := by
  obtain ⟨w1, h1, h2, h3, h4, h5⟩ := enqueue_all_self w msgs hq.1 hzero hk
    (fun m hm => (hdel m hm).choose_spec.choose_spec.2.2)
  have eT : w1.tables = w.tables := by rw [h2]
  have eN : w1.total_workers = w.total_workers := by rw [h2]
  have eR : w1.rank_me_ = w.rank_me_ := by rw [h2]
  have eM : w1.BUFFER_MAX_SIZE = w.BUFFER_MAX_SIZE := by rw [h2]
  have eC : w1.cycles_counter = w.cycles_counter := by rw [h2]
  have hboot1 : (w1.cycles_counter = 0 ∧ w1.Fresh) ∨ (w1.cycles_counter ≠ 0 ∧ w1.Ready) := by
    rcases hboot with ⟨a, b⟩ | ⟨a, b⟩
    · left
      refine ⟨eC.trans a, ?_⟩
      rw [h2]
      exact b
    · right
      refine ⟨eC ▸ a, ?_⟩
      rw [h2]
      exact b
  have hq1 : w1.Quiet := by
    refine ⟨h3, ?_, ?_, ?_⟩
    · rw [h2]; exact hq.2.1
    · rw [h2]; exact hq.2.2.1
    · intro i hi hne
      rw [eN] at hi
      rw [eR] at hne
      rw [h5 (dist_fetch i i) (by rw [dist_fetch_fst]; exact hne)]
      exact hq.2.2.2 i hi hne
  have hok1 : w1.TablesOK hashf := by
    intro t tb htb
    exact hok t tb (eT ▸ htb)
  have hdel1 : ∀ m ∈ w1.self_msgs, w1.Deliverable m := by
    intro m hm
    rw [h4] at hm
    obtain ⟨tb, p, a, b, c⟩ := hdel m hm
    refine ⟨tb, p, eT ▸ a, b, ?_⟩
    simp only [Worker.get_partition, eN, eR]
    exact c
  obtain ⟨w2, hc, hd⟩ := cycle_spec hashf prog w1 j hboot1 hq1 (by rw [h2]; exact hf1)
    (by rw [h2]; exact hf2) hok1 hdel1 hj
  rw [h4] at hd
  refine ⟨w1, w2, h1, hc, ?_, ?_⟩
  · rw [hd.1]
    simp only [Worker.maps, eT]
  · intro t tb e p htb he hep
    have := hd.2.2.2.2.2.1 t tb e p (eT ▸ htb) he hep
    simpa only [Worker.calls_of, eT] using this

/-- The undisturbed delivery on `sample_worker_item` (rank 0 of two workers on
two nodes, so the exchange takes the remote path and no rank shares the node;
one item under key 2), two messages with value 7 for that item and three
iterations: the item's log ends with exactly two `on_push_recv(7)`. -/
theorem exactly_once_undisturbed_sample :
    ((sample_worker_item.cycles_counter = 0 ∧ sample_worker_item.Fresh) ∨
      (sample_worker_item.cycles_counter ≠ 0 ∧ sample_worker_item.Ready)) ∧
    sample_worker_item.Quiet ∧ sample_worker_item.rget_futures_size = [] ∧
    sample_worker_item.rget_futures_msgs = [] ∧ sample_worker_item.TablesOK sample_hash ∧
    sample_worker_item.send_count sample_worker_item.rank_me_ = 0 ∧
    [msg_to 2, msg_to 2].length ≤ sample_worker_item.BUFFER_MAX_SIZE ∧
    (∀ m ∈ [msg_to 2, msg_to 2], sample_worker_item.Deliverable m) ∧ 1 ≤ 3 ∧
    ∃ w1 w2, sample_worker_item.enqueue_all [msg_to 2, msg_to 2] = .ok w1 ∧
      w1.cycle sample_hash (fun _ => []) 3 false true = .ok w2 ∧
      w2.maps = sample_worker_item.maps ∧
      w2.calls_of 0 0 = [Call.on_create, Call.refresh, Call.on_push_recv 7, Call.on_push_recv 7] := by
  obtain ⟨a1, a2, a3, a4, a5, a6, a7, a8⟩ := sample_worker_item_ready
  obtain ⟨items, hi1, -, hi3⟩ := sample_worker_item_eq
  have hM : sample_worker_item.BUFFER_MAX_SIZE = 8 := by
    rw [hi1]
    rfl
  have hk : [msg_to 2, msg_to 2].length ≤ sample_worker_item.BUFFER_MAX_SIZE := by
    rw [hM]; decide
  have hd : ∀ m ∈ [msg_to 2, msg_to 2], sample_worker_item.Deliverable m := by
    intro m hm
    simp only [List.mem_cons, List.mem_singleton, List.mem_nil_iff, or_false, or_self] at hm
    rw [hm]
    exact a8
  obtain ⟨w1, w2, b1, b2, b3, b4⟩ := exactly_once_undisturbed sample_hash (fun _ => [])
    sample_worker_item [msg_to 2, msg_to 2] 3 (Or.inl ⟨a1, a2⟩) a3 a4 a5 a6 a7 hk hd (by decide)
  have ht : sample_worker_item.tables[0]?
      = some (sample_table.with_new (added_item 0 2 0) items) := by
    rw [hi1]
    exact set_table_get sample_worker 0 sample_table _ sample_worker_table
  have hc : sample_worker_item.calls_of 0 0 = [Call.on_create, Call.refresh] := by
    simp only [Worker.calls_of, ht]
    rfl
  have := b4 0 _ _ 0 ht (hi3.symm.subset (List.mem_cons_self _ _)) rfl
  rw [hc] at this
  exact ⟨Or.inl ⟨a1, a2⟩, a3, a4, a5, a6, a7, hk, hd, by decide, w1, w2, b1, b2, b3, this⟩

/-! ## Messages for a table that does not exist -/

theorem apply_msgs_append (hashf : Nat → Int) : ∀ (a b : List Message) (w : Worker),
    Worker.apply_msgs hashf w (a ++ b)
      = match Worker.apply_msgs hashf w a with
        | .error f => .error f
        | .ok w1 => Worker.apply_msgs hashf w1 b
  | [], b, w => rfl
  | m :: a, b, w => by
    simp only [List.cons_append, Worker.apply_msgs]
    cases h : w.apply_msg hashf m with
    | error f => rfl
    | ok w1 => exact apply_msgs_append hashf a b w1

theorem apply_msg_malformed (hashf : Nat → Int) (w : Worker) (msg : Message)
    (h : w.tables.length ≤ msg.dest_table) : w.apply_msg hashf msg = .error .out_of_bounds := by
  unfold Worker.apply_msg
  rw [List.getElem?_eq_none_iff.mpr h]

theorem process_loop_fault (hashf : Nat → Int) (buf rest : List Message) (bad : Message)
    (w1 : Worker) (hbad : w1.tables.length ≤ bad.dest_table) :
    ∀ (pre : List Message) (w : Worker) (i n : Nat), Worker.apply_msgs hashf w pre = .ok w1 →
      buf.drop i = pre ++ bad :: rest → pre.length < n →
      for_loop (Worker.process_push_body hashf buf) n i w = .error .out_of_bounds
  | [], w, i, n, hpre, hb, hn => by
    obtain ⟨n, rfl⟩ : ∃ k, n = k + 1 := ⟨n - 1, by simp at hn; omega⟩
    simp only [Worker.apply_msgs, Except.ok.injEq] at hpre
    subst hpre
    have h0 : buf[i]? = some bad := by
      have := congrArg (fun l => l[0]?) hb
      simpa [List.getElem?_drop] using this
    simp only [for_loop, Worker.process_push_body, h0, apply_msg_malformed hashf w bad hbad]
  | m :: pre, w, i, n, hpre, hb, hn => by
    obtain ⟨n, rfl⟩ : ∃ k, n = k + 1 := ⟨n - 1, by simp at hn; omega⟩
    have h0 : buf[i]? = some m := by
      have := congrArg (fun l => l[0]?) hb
      simpa [List.getElem?_drop] using this
    have h1 : buf.drop (i + 1) = pre ++ bad :: rest := by
      have := congrArg (fun l => l.drop 1) hb
      simpa [List.drop_drop, Nat.add_comm] using this
    simp only [Worker.apply_msgs] at hpre
    cases hm : w.apply_msg hashf m with
    | error f => rw [hm] at hpre; cases hpre
    | ok w2 =>
      rw [hm] at hpre
      simp only [for_loop, Worker.process_push_body, h0, hm]
      exact process_loop_fault hashf buf rest bad w1 hbad pre w2 (i + 1) n hpre h1
        (by simp at hn; omega)

theorem send_buffer_length (w : Worker) (hw : w.MemWF) (p : Nat) (hp : p < w.total_workers) :
    (w.send_buffer p).length = w.BUFFER_MAX_SIZE :=
  (read_buffer_ok hw.1 (w.rank_me_, p) hw.2 hp).2

/-- C11 (code defect). `process_push_buffer` has no check of `dest_table`: when
the messages before it were applied and the next message within the counted
prefix names a table index `≥ tables.size()`, the statement
`tables[msg.dest_table]->apply_push_to_item(...)` indexes the vector outside its
bounds, so the run ends in that fault; the message is not skipped and the
remaining messages are not applied.  Such a message can be enqueued through
`add_item`: for a key whose home is another rank, `add_item(t, k, true, true)`
stores a message with `dest_table = t` in the send array for that rank whatever
`t` is, also when the sender has no table `t`. -/
theorem C11_malformed_message_fault (hashf : Nat → Int) (w w1 : Worker) (pre rest : List Message)
    (bad : Message) (n : Nat) (hpre : Worker.apply_msgs hashf w pre = .ok w1)
    (hbad : w1.tables.length ≤ bad.dest_table) (hn : pre.length < n)
    (hM : pre.length < w.BUFFER_MAX_SIZE) :
    w1.apply_msg hashf bad = .error .out_of_bounds ∧
    w.process_push_buffer hashf (pre ++ bad :: rest) n = .error .out_of_bounds ∧
    ∀ (s : Worker) (t k : Nat), s.MemWF → s.get_partition t k ≠ s.rank_me_ →
      s.send_count (s.get_partition t k) < s.BUFFER_MAX_SIZE →
      ∃ s', s.add_item hashf t k true true = .ok (s', none, REQUESTED_NEW_REMOTE) ∧
        (s'.send_buffer (s.get_partition t k))[s.send_count (s.get_partition t k)]?
          = some { value := 0, src_table := t, dest_table := t, dest_item := k, src_item := k } := by
  refine ⟨apply_msg_malformed hashf w1 bad hbad, ?_, ?_⟩
  · have hv : pre.length < w.valid_buffer_size n := by
      rw [valid_buffer_size_eq]; omega
    unfold Worker.process_push_buffer
    have hloop := process_loop_fault hashf (pre ++ bad :: rest) rest bad w1 hbad pre w 0
      (w.valid_buffer_size n) hpre rfl hv
    unfold for_range
    simp only [hloop]
  · intro s t k hs hhome hc
    obtain ⟨s', h1, h2⟩ := add_item_request hashf s hs t k hhome
    obtain ⟨s2, e1, -, -, -, e5, -, -⟩ := enqueue_spec s hs
      { value := 0, src_table := t, dest_table := t, dest_item := k, src_item := k }
    rw [h1] at e1
    cases e1
    refine ⟨s', h2, ?_⟩
    have hp : s.get_partition t k < s.total_workers := by
      unfold Worker.get_partition saddlebags.get_partition
      exact Nat.mod_lt _ (by have := hs.2; omega)
    rw [e5 hc, List.getElem?_set_self (by rw [send_buffer_length s hs _ hp]; exact hc)]

theorem sample_worker_tables : sample_worker.tables = [sample_table] := by
  simp [sample_worker, Worker.add_table, Worker.new, sample_table]

/-- The statement of C11 on `sample_worker` (one table): the message that
`add_item(1, 1, true, true)` enqueues names table 1; a buffer that starts with it
makes `process_push_buffer` index `tables[1]`. -/
theorem C11_malformed_message_fault_witness :
    Worker.apply_msgs sample_hash sample_worker [] = .ok sample_worker ∧
    sample_worker.tables.length
      ≤ ({ value := 0, src_table := 1, dest_table := 1, dest_item := 1, src_item := 1 } :
          Message).dest_table ∧
    ([] : List Message).length < 2 ∧
    ([] : List Message).length < sample_worker.BUFFER_MAX_SIZE ∧
    sample_worker.process_push_buffer sample_hash
      ([] ++ { value := 0, src_table := 1, dest_table := 1, dest_item := 1, src_item := 1 }
        :: [msg_to 2]) 2 = .error .out_of_bounds ∧
    ∃ s', sample_worker.add_item sample_hash 1 1 true true = .ok (s', none, REQUESTED_NEW_REMOTE) ∧
      (s'.send_buffer 1)[0]?
        = some { value := 0, src_table := 1, dest_table := 1, dest_item := 1, src_item := 1 } := by
  have h1 : sample_worker.tables.length
      ≤ ({ value := 0, src_table := 1, dest_table := 1, dest_item := 1, src_item := 1 } :
          Message).dest_table := by
    rw [sample_worker_tables]; decide
  have h2 : ([] : List Message).length < sample_worker.BUFFER_MAX_SIZE := by decide
  have h := C11_malformed_message_fault sample_hash sample_worker sample_worker [] [msg_to 2]
    { value := 0, src_table := 1, dest_table := 1, dest_item := 1, src_item := 1 } 2 rfl h1
    (by decide) h2
  have hp : sample_worker.get_partition 1 1 = 1 := by decide
  have hc : sample_worker.send_count 1 = 0 := by decide
  have h3 := h.2.2 sample_worker 1 1 sample_worker_memWF (by rw [hp]; decide)
    (by rw [hp, hc]; decide)
  rw [hp, hc] at h3
  exact ⟨rfl, h1, by decide, h2, h.2.1, h3⟩

/-! ## add_table -/

theorem add_table_eq (w : Worker) (is_global : Bool) :
    w.add_table w.tables.length is_global
      = .ok { w with tables := w.tables ++ [TableContainer.fresh w.tables.length is_global w.rank_me_],
                     total_tables := w.tables.length + 1 } := by
  have hget : (w.tables ++ [TableContainer.new])[w.tables.length]? = some TableContainer.new := by
    simp
  have hnew : (w.tables ++ [TableContainer.new]).set w.tables.length
      { TableContainer.new with is_global := is_global, myTableKey := w.tables.length,
                                worker := some w.rank_me_ }
      = w.tables ++ [TableContainer.fresh w.tables.length is_global w.rank_me_] := by
    simp [TableContainer.new, TableContainer.fresh]
  unfold Worker.add_table
  simp only [List.length_append, List.length_singleton, ne_eq, not_true_eq_false, if_false,
    hget, hnew]

/-- C20 (add_table in order). On a worker whose `total_tables` is the length of
`tables` (true after the constructor and kept by `add_table`): if
`add_table(key, is_global)` is called with `key == total_tables`, the call
succeeds, afterwards `total_tables == key + 1 == tables.size()`, `tables[key]` is
a table with `myTableKey == key`, the given `is_global`, the back-reference to
this worker, an empty map and no items, every table added before is unchanged,
and no other field of the worker changes. -/
theorem C20_add_table_in_order (w : Worker) (key : Nat) (is_global : Bool)
    (hinv : w.total_tables = w.tables.length) (hkey : key = w.total_tables) :
    ∃ w', w.add_table key is_global = .ok w' ∧
      w'.total_tables = key + 1 ∧ w'.tables.length = key + 1 ∧
      w'.tables[key]? = some (TableContainer.fresh key is_global w.rank_me_) ∧
      (TableContainer.fresh key is_global w.rank_me_).myTableKey = key ∧
      (TableContainer.fresh key is_global w.rank_me_).is_global = is_global ∧
      (TableContainer.fresh key is_global w.rank_me_).worker = some w.rank_me_ ∧
      (TableContainer.fresh key is_global w.rank_me_).objects = [] ∧
      live_list (TableContainer.fresh key is_global w.rank_me_).mapped_items.entries = [] ∧
      (∀ t, t < key → w'.tables[t]? = w.tables[t]?) ∧
      w' = { w with tables := w'.tables, total_tables := w'.total_tables } := by
  have hk : key = w.tables.length := hkey.trans hinv
  subst hk
  refine ⟨_, add_table_eq w is_global, ?_, ?_, ?_, rfl, rfl, rfl, rfl, live_list_new_map, ?_, rfl⟩
  · rfl
  · simp
  · simp
  · intro t ht
    simp [List.getElem?_append_left ht]

/-- The statement of C20 on a freshly constructed worker and key 0. -/
theorem C20_add_table_in_order_witness :
    (Worker.new 0 2 0 1 [true, false] 8).total_tables
      = (Worker.new 0 2 0 1 [true, false] 8).tables.length ∧
    0 = (Worker.new 0 2 0 1 [true, false] 8).total_tables ∧
    ∃ w', (Worker.new 0 2 0 1 [true, false] 8).add_table 0 true = .ok w' ∧
      w'.total_tables = 1 ∧ w'.tables[0]? = some (TableContainer.fresh 0 true 0) :=
  have h := C20_add_table_in_order (Worker.new 0 2 0 1 [true, false] 8) 0 true rfl rfl
  ⟨rfl, rfl, h.choose, h.choose_spec.1, h.choose_spec.2.1, h.choose_spec.2.2.2.1⟩

/-! ## The remote branch of add_item -/

/-- C18 (remote creation request). On a worker with well-formed shared
segments, for a key `k` whose home `p = get_partition(t, k)` is another rank:
`add_item(t, k, true, true)` returns the null pointer with status
`REQUESTED_NEW_REMOTE`; the worker afterwards is the result of one
`enqueue_push_request` of the message with `src_table = dest_table = t`,
`src_item = dest_item = k` and value `Msg_T()`: the counter for `p` is the old
value plus one, the message is in slot `old count` of the array for `p` when
that is below `M` (the array is unchanged otherwise, as for every enqueue), the
counters and arrays of all other destinations and ranks are unchanged, and
nothing but the shared segment changes, in particular no table. -/
theorem C18_remote_creation_request (hashf : Nat → Int) (w : Worker) (hw : w.MemWF) (t k : Nat)
    (hhome : w.get_partition t k ≠ w.rank_me_) :
    ∃ w', w.add_item hashf t k true true = .ok (w', none, REQUESTED_NEW_REMOTE) ∧
      w.enqueue_push_request (creation_request t k) = .ok w' ∧
      (creation_request t k).src_table = t ∧ (creation_request t k).dest_table = t ∧
      (creation_request t k).src_item = k ∧ (creation_request t k).dest_item = k ∧
      (creation_request t k).value = 0 ∧
      w'.tables = w.tables ∧ w' = { w with shared := w'.shared } ∧
      w'.send_count (w.get_partition t k) = w.send_count (w.get_partition t k) + 1 ∧
      (w.send_count (w.get_partition t k) < w.BUFFER_MAX_SIZE →
        (w'.send_buffer (w.get_partition t k))[w.send_count (w.get_partition t k)]?
            = some (creation_request t k) ∧
        ∀ j, j ≠ w.send_count (w.get_partition t k) →
          (w'.send_buffer (w.get_partition t k))[j]? = (w.send_buffer (w.get_partition t k))[j]?) ∧
      (w.BUFFER_MAX_SIZE ≤ w.send_count (w.get_partition t k) →
        w'.send_buffer (w.get_partition t k) = w.send_buffer (w.get_partition t k)) ∧
      (∀ q : GPtr, q ≠ (w.rank_me_, w.get_partition t k) →
        size_at w'.shared q = size_at w.shared q ∧
        buffer_at w'.shared q = buffer_at w.shared q) := by
  obtain ⟨w', h1, h2⟩ := add_item_request hashf w hw t k hhome
  obtain ⟨w2, e1, e2, -, e4, e5, e6, e7⟩ := enqueue_spec w hw (creation_request t k)
  have e1' := e1
  rw [show creation_request t k
      = { value := 0, src_table := t, dest_table := t, dest_item := k, src_item := k } from rfl,
    h1] at e1'
  cases e1'
  have hp : w.get_partition t k < w.total_workers := by
    unfold Worker.get_partition saddlebags.get_partition
    exact Nat.mod_lt _ (by have := hw.2; omega)
  refine ⟨w', h2, e1, rfl, rfl, rfl, rfl, rfl, by rw [e2], e2, e4, ?_, e6, e7⟩
  intro hc
  have e5' := e5 hc
  simp only [creation_request] at e5' ⊢
  rw [e5']
  refine ⟨List.getElem?_set_self (by rw [send_buffer_length w hw _ hp]; exact hc), ?_⟩
  intro j hj
  exact List.getElem?_set_ne (Ne.symm hj)

/-- The statement of C18 on `sample_worker` (rank 0 of two, empty send arrays)
and key 1 of table 0, whose home is rank 1. -/
theorem C18_remote_creation_request_witness :
    sample_worker.MemWF ∧ sample_worker.get_partition 0 1 ≠ sample_worker.rank_me_ ∧
    ∃ w', sample_worker.add_item sample_hash 0 1 true true = .ok (w', none, 200) ∧
      w'.tables = sample_worker.tables ∧ w'.send_count 1 = 1 ∧
      (w'.send_buffer 1)[0]? = some (creation_request 0 1) := by
  have hne : sample_worker.get_partition 0 1 ≠ sample_worker.rank_me_ := by decide
  obtain ⟨w', h1, -, -, -, -, -, -, h2, -, h3, h4, -, -⟩ :=
    C18_remote_creation_request sample_hash sample_worker sample_worker_memWF 0 1 hne
  have hp : sample_worker.get_partition 0 1 = 1 := by decide
  have hc : sample_worker.send_count 1 = 0 := by decide
  rw [hp, hc] at h3 h4
  exact ⟨sample_worker_memWF, hne, w', h1, h2, h3, (h4 (by decide)).1⟩

/-! ## Creation through apply_push_to_item -/

theorem apply_created_case (hashf : Nat → Int) (n me : Nat) (tb : TableContainer)
    (hok : TableOK hashf tb) (msg : Message) (create : Bool) (tb2 : TableContainer)
    (h : tb.apply_push_to_item hashf n me msg create = .ok (tb2, CREATED_NEW_LOCAL)) :
    create = true ∧ get_partition n tb.myTableKey msg.dest_item = me ∧
      tb.absent msg.dest_item := by
  by_cases hp : get_partition n tb.myTableKey msg.dest_item = me
  · rcases present_or_absent hashf tb hok msg.dest_item with habs | ⟨p, hhas⟩
    · by_cases hc : create = true
      · exact ⟨hc, hp, habs⟩
      · rw [Bool.eq_false_iff.mpr hc, apply_absent_ignore hashf n me tb hok msg hp habs] at h
        simp [IGNORED_NEW_LOCAL, CREATED_NEW_LOCAL] at h
    · obtain ⟨it, -, -, h2⟩ := apply_found hashf n me tb hok msg create hp p hhas
      rw [h2] at h
      simp [FOUND_EXISTING_LOCAL, CREATED_NEW_LOCAL] at h
  · rw [apply_remote hashf n me tb msg create hp] at h
    simp [IGNORED_NEW_REMOTE, CREATED_NEW_LOCAL] at h

/-- C17 (creation through apply). For a hash that never returns `-1` and a
table that satisfies the table invariant: `apply_push_to_item` returns
`CREATED_NEW_LOCAL` exactly when it is called with `is_create` for a message
whose key has this rank as home and is absent.  In that case the call succeeds;
a new item is allocated (its pointer `p` was not allocated before) with
`myItemKey == msg.dest_item`, `myTableKey ==` the table's key and the table's
worker back-reference; the callbacks invoked on it are `on_create`, `refresh`,
`on_push_recv(msg.value)`, in that order and once each; the items allocated
before are unchanged; afterwards `find(msg.dest_item)` returns a slot other
than `end()` whose value is `p`, and `find` of every key stored before returns
a slot other than `end()` with the entry stored before. -/
theorem C17_creation_through_apply (hashf : Nat → Int) (hh : ∀ k, hashf k ≠ -1) (n me : Nat)
    (tb : TableContainer) (hok : TableOK hashf tb) (msg : Message) :
    (∀ create tb2, tb.apply_push_to_item hashf n me msg create = .ok (tb2, CREATED_NEW_LOCAL) →
      create = true ∧ get_partition n tb.myTableKey msg.dest_item = me ∧
        tb.absent msg.dest_item) ∧
    (get_partition n tb.myTableKey msg.dest_item = me → tb.absent msg.dest_item →
      ∃ tb' p it, tb.apply_push_to_item hashf n me msg true = .ok (tb', CREATED_NEW_LOCAL) ∧
        tb.objects[p]? = none ∧ tb'.objects[p]? = some it ∧
        it.myItemKey = msg.dest_item ∧ it.myTableKey = tb.myTableKey ∧ it.worker = tb.worker ∧
        it.calls = [Call.on_create, Call.refresh, Call.on_push_recv msg.value] ∧
        it.count_call Call.on_create = 1 ∧ it.count_call Call.refresh = 1 ∧
        it.count_call (Call.on_push_recv msg.value) = 1 ∧
        (∀ q, q < tb.objects.length → tb'.objects[q]? = tb.objects[q]?) ∧
        tb'.myTableKey = tb.myTableKey ∧
        (∃ loc e, tb'.mapped_items.find hashf msg.dest_item = .ok loc ∧
          loc ≠ tb'.mapped_items.end_ ∧ tb'.mapped_items.entries[loc]? = some e ∧
          e.first = msg.dest_item ∧ e.second = some p) ∧
        (∀ e ∈ live_list tb.mapped_items.entries,
          ∃ loc, tb'.mapped_items.find hashf e.first = .ok loc ∧
            loc ≠ tb'.mapped_items.end_ ∧ tb'.mapped_items.entries[loc]? = some e)) := by
  refine ⟨fun create tb2 h => apply_created_case hashf n me tb hok msg create tb2 h, ?_⟩
  intro hp habs
  obtain ⟨items, -, happ, hok', hperm⟩ := apply_absent_create hashf hh n me tb hok msg hp habs
  refine ⟨_, tb.objects.length, pushed_new_item tb.myTableKey msg.dest_item tb.worker msg.value,
    happ, by simp, by simp, rfl, rfl, rfl, rfl, ?_, ?_, ?_, ?_, rfl, ?_, ?_⟩
  · simp [Item.count_call, pushed_new_item]
  · simp [Item.count_call, pushed_new_item]
  · simp [Item.count_call, pushed_new_item]
  · intro q hq
    simp [List.getElem?_append_left hq]
  · obtain ⟨loc, h1, h2, h3⟩ := find_present hashf items hok'.1 hok'.2.1
      { hash := hashf msg.dest_item, first := msg.dest_item, second := some tb.objects.length }
      (hperm.symm.subset (List.mem_cons_self _ _))
    exact ⟨loc, _, h1, by simp only [Robin_Map.end_]; omega, h3, rfl, rfl⟩
  · intro e he
    obtain ⟨loc, h1, h2, h3⟩ := find_present hashf items hok'.1 hok'.2.1 e
      (hperm.symm.subset (List.mem_cons_of_mem _ he))
    exact ⟨loc, h1, by simp only [Robin_Map.end_]; omega, h3⟩

/-- The statement of C17 on a new table of rank 0 of two workers and a message
with value 7 for the absent local key 2. -/
theorem C17_creation_through_apply_witness :
    (∀ k, sample_hash k ≠ -1) ∧ TableOK sample_hash TableContainer.new ∧
    get_partition 2 TableContainer.new.myTableKey (msg_to 2).dest_item = 0 ∧
    TableContainer.new.absent (msg_to 2).dest_item ∧
    ∃ tb' p it, TableContainer.new.apply_push_to_item sample_hash 2 0 (msg_to 2) true
        = .ok (tb', 100) ∧
      tb'.objects[p]? = some it ∧ it.myItemKey = 2 ∧
      it.calls = [Call.on_create, Call.refresh, Call.on_push_recv 7] ∧
      ∃ loc e, tb'.mapped_items.find sample_hash 2 = .ok loc ∧ loc ≠ tb'.mapped_items.end_ ∧
        tb'.mapped_items.entries[loc]? = some e ∧ e.second = some p := by
  obtain ⟨tb', p, it, h1, -, h3, h4, -, -, h7, -, -, -, -, -, ⟨loc, e, f1, f2, f3, -, f5⟩, -⟩ :=
    (C17_creation_through_apply sample_hash sample_hash_ne 2 0 TableContainer.new
      (tableOK_new sample_hash) (msg_to 2)).2 (by decide) (absent_new _)
  exact ⟨sample_hash_ne, tableOK_new sample_hash, by decide, absent_new _, tb', p, it, h1, h3, h4,
    h7, loc, e, f1, f2, f3, f5⟩

/-! ## The error code

No member function reads `error` to decide what to do, and only
`validate_buffer_space` writes it: every function commutes with replacing the
error code. -/

theorem for_loop_map {σ : Type} (g : σ → σ) (body : Nat → σ → Except Fault σ)
    (h : ∀ i s, body i (g s) = Except.map g (body i s)) :
    ∀ (n i : Nat) (s : σ), for_loop body n i (g s) = Except.map g (for_loop body n i s)
  | 0, _, _ => rfl
  | n + 1, i, s => by
    simp only [for_loop, h]
    cases hb : body i s with
    | error f => rfl
    | ok s1 =>
      simp only [Except.map]
      exact for_loop_map g body h n (i + 1) s1

theorem we_team_total_workers (w : Worker) (e : Nat) : (w.with_error e).team_total_workers = w.team_total_workers := rfl

theorem we_total_workers (w : Worker) (e : Nat) : (w.with_error e).total_workers = w.total_workers := rfl

theorem we_rank_n_ (w : Worker) (e : Nat) : (w.with_error e).rank_n_ = w.rank_n_ := rfl

theorem we_total_nodes (w : Worker) (e : Nat) : (w.with_error e).total_nodes = w.total_nodes := rfl

theorem we_rank_me_ (w : Worker) (e : Nat) : (w.with_error e).rank_me_ = w.rank_me_ := rfl

theorem we_team_rank_me_ (w : Worker) (e : Nat) : (w.with_error e).team_rank_me_ = w.team_rank_me_ := rfl

theorem we_total_tables (w : Worker) (e : Nat) : (w.with_error e).total_tables = w.total_tables := rfl

theorem we_cycles_counter (w : Worker) (e : Nat) : (w.with_error e).cycles_counter = w.cycles_counter := rfl

theorem we_BUFFER_MAX_SIZE (w : Worker) (e : Nat) : (w.with_error e).BUFFER_MAX_SIZE = w.BUFFER_MAX_SIZE := rfl

theorem we_their_push_size_g (w : Worker) (e : Nat) : (w.with_error e).their_push_size_g = w.their_push_size_g := rfl

theorem we_their_local_push_size (w : Worker) (e : Nat) : (w.with_error e).their_local_push_size = w.their_local_push_size := rfl

theorem we_fetch_futures_size (w : Worker) (e : Nat) : (w.with_error e).fetch_futures_size = w.fetch_futures_size := rfl

theorem we_their_push_buffers_g (w : Worker) (e : Nat) : (w.with_error e).their_push_buffers_g = w.their_push_buffers_g := rfl

theorem we_their_local_push_buffers (w : Worker) (e : Nat) : (w.with_error e).their_local_push_buffers = w.their_local_push_buffers := rfl

theorem we_fetch_futures_msgs (w : Worker) (e : Nat) : (w.with_error e).fetch_futures_msgs = w.fetch_futures_msgs := rfl

theorem we_rget_futures_size (w : Worker) (e : Nat) : (w.with_error e).rget_futures_size = w.rget_futures_size := rfl

theorem we_rget_futures_msgs (w : Worker) (e : Nat) : (w.with_error e).rget_futures_msgs = w.rget_futures_msgs := rfl

theorem we_their_remote_push_size (w : Worker) (e : Nat) : (w.with_error e).their_remote_push_size = w.their_remote_push_size := rfl

theorem we_their_remote_push_buffers (w : Worker) (e : Nat) : (w.with_error e).their_remote_push_buffers = w.their_remote_push_buffers := rfl

theorem we_tables (w : Worker) (e : Nat) : (w.with_error e).tables = w.tables := rfl

theorem we_messages_sent (w : Worker) (e : Nat) : (w.with_error e).messages_sent = w.messages_sent := rfl

theorem we_messages_recv_local (w : Worker) (e : Nat) : (w.with_error e).messages_recv_local = w.messages_recv_local := rfl

theorem we_messages_recv_remote (w : Worker) (e : Nat) : (w.with_error e).messages_recv_remote = w.messages_recv_remote := rfl

theorem we_buffer_size_min (w : Worker) (e : Nat) : (w.with_error e).buffer_size_min = w.buffer_size_min := rfl

theorem we_buffer_size_max (w : Worker) (e : Nat) : (w.with_error e).buffer_size_max = w.buffer_size_max := rfl

theorem we_proc_local (w : Worker) (e : Nat) : (w.with_error e).proc_local = w.proc_local := rfl

theorem we_shared (w : Worker) (e : Nat) : (w.with_error e).shared = w.shared := rfl

theorem we_error (w : Worker) (e : Nat) : (w.with_error e).error = e := rfl

theorem with_error_with_error (w : Worker) (a b : Nat) :
    (w.with_error a).with_error b = w.with_error b := rfl

theorem with_error_self (w : Worker) : w.with_error w.error = w := rfl

theorem err_is_process_local (w : Worker) (e : Nat) (i : Nat) :
    (w.with_error e).is_process_local i = w.is_process_local i := rfl

theorem err_count_send (w : Worker) (e : Nat) (i : Nat) :
    (w.with_error e).get_messgaes_count_send i = w.get_messgaes_count_send i := rfl

theorem err_count_recv (w : Worker) (e : Nat) (i : Nat) :
    (w.with_error e).get_messgaes_count_recv i = w.get_messgaes_count_recv i := rfl

theorem err_valid (w : Worker) (e : Nat) (c : Nat) :
    (w.with_error e).valid_buffer_size c = w.valid_buffer_size c := rfl

theorem err_enqueue (w : Worker) (e : Nat) (msg : Message) :
    (w.with_error e).enqueue_push_request msg
      = Except.map (fun x => x.with_error e) (w.enqueue_push_request msg) := by
  simp only [Worker.enqueue_push_request, Worker.with_error, Worker.get_partition,
    Worker.get_messgaes_count_send]
  repeat' split
  all_goals simp_all [Except.map]

theorem err_apply_msg (hashf : Nat → Int) (w : Worker) (e : Nat) (msg : Message) :
    (w.with_error e).apply_msg hashf msg
      = Except.map (fun x => x.with_error e) (w.apply_msg hashf msg) := by
  simp only [Worker.apply_msg, Worker.with_error]
  repeat' split
  all_goals simp_all [Except.map]

theorem err_process_body (hashf : Nat → Int) (buf : List Message) (i : Nat) (w : Worker)
    (e : Nat) : Worker.process_push_body hashf buf i (w.with_error e)
      = Except.map (fun x => x.with_error e) (Worker.process_push_body hashf buf i w) := by
  simp only [Worker.process_push_body]
  split
  · rfl
  · exact err_apply_msg hashf w e _

theorem err_process_push_buffer (hashf : Nat → Int) (w : Worker) (e : Nat) (buf : List Message)
    (c : Nat) : (w.with_error e).process_push_buffer hashf buf c
      = Except.map (fun x => (x.1.with_error e, x.2)) (w.process_push_buffer hashf buf c) := by
  simp only [Worker.process_push_buffer, err_valid, for_range]
  rw [for_loop_map (fun x => x.with_error e) _ (fun i s => err_process_body hashf buf i s e)]
  cases for_loop (Worker.process_push_body hashf buf) (w.valid_buffer_size c) 0 w <;> rfl

theorem err_apply_local_body (hashf : Nat → Int) (i : Nat) (w : Worker) (e : Nat) :
    Worker.apply_local_body hashf i (w.with_error e)
      = Except.map (fun x => x.with_error e) (Worker.apply_local_body hashf i w) := by
  simp only [Worker.apply_local_body, err_is_process_local, err_count_recv, err_valid,
    err_process_push_buffer, we_their_local_push_buffers, we_shared]
  split_ifs with h1
  swap
  · rfl
  cases h2 : w.get_messgaes_count_recv i
  · rfl
  rename_i c
  cases h3 : w.their_local_push_buffers[i]?
  · rfl
  rename_i bp
  simp only []
  have tail : ∀ (w2 : Worker),
      (match (w2.with_error e).their_local_push_size[i]? with
        | some (some sp) =>
          match write_size (w2.with_error e).shared sp 0 with
          | .error f => .error f
          | .ok mem => .ok { w2.with_error e with shared := mem }
        | _ => .error .out_of_bounds : Except Fault Worker)
      = Except.map (fun x => x.with_error e)
          (match w2.their_local_push_size[i]? with
            | some (some sp) =>
              match write_size w2.shared sp 0 with
              | .error f => .error f
              | .ok mem => .ok { w2 with shared := mem }
            | _ => .error .out_of_bounds) := by
    intro w2
    simp only [we_their_local_push_size, we_shared]
    cases h6 : w2.their_local_push_size[i]?
    · rfl
    rename_i o
    cases o
    · rfl
    rename_i sp
    simp only []
    cases write_size w2.shared sp 0 <;> rfl
  split_ifs with h4
  · cases h5 : w.process_push_buffer hashf (deref_buffer w.shared bp) (w.valid_buffer_size c)
    · rfl
    rename_i r
    exact tail { r.1 with messages_recv_local := r.1.messages_recv_local + r.2 }
  · exact tail w

theorem for_range_map {σ : Type} (g : σ → σ) (body : Nat → σ → Except Fault σ)
    (h : ∀ i s, body i (g s) = Except.map g (body i s)) (n : Nat) (s : σ) :
    for_range n body (g s) = Except.map g (for_range n body s) :=
  for_loop_map g body h n 0 s

theorem err_count_sent_body (i : Nat) (w : Worker) (e : Nat) :
    Worker.count_sent_body i (w.with_error e)
      = Except.map (fun x => x.with_error e) (Worker.count_sent_body i w) := by
  simp only [Worker.count_sent_body, err_count_send, err_valid, we_messages_sent]
  cases w.get_messgaes_count_send i <;> rfl

theorem err_incoming_local (hashf : Nat → Int) (w : Worker) (e : Nat) :
    (w.with_error e).apply_push_incoming_local hashf
      = Except.map (fun x => x.with_error e) (w.apply_push_incoming_local hashf) := by
  simp only [Worker.apply_push_incoming_local, we_total_workers]
  rw [for_range_map (fun x => x.with_error e) _ (fun i s => err_apply_local_body hashf i s e)]
  cases for_range w.total_workers (Worker.apply_local_body hashf) w
  · rfl
  rename_i w1
  simp only [Except.map, we_rank_me_, we_total_workers]
  split_ifs
  · exact for_range_map (fun x => x.with_error e) _ (fun i s => err_count_sent_body i s e) _ w1
  · rfl

theorem err_remote_step1 (i : Nat) (w : Worker) (e : Nat) :
    Worker.remote_step1 i (w.with_error e)
      = Except.map (fun x => x.with_error e) (Worker.remote_step1 i w) := by
  simp only [Worker.remote_step1, err_is_process_local, we_their_push_size_g, we_shared,
    we_rget_futures_size]
  split_ifs
  · rfl
  cases w.their_push_size_g[i]?
  · rfl
  rename_i p
  simp only []
  cases read_size w.shared p <;> rfl

theorem err_remote_step3 (i : Nat) (w : Worker) (e : Nat) :
    Worker.remote_step3 i (w.with_error e)
      = Except.map (fun x => x.with_error e) (Worker.remote_step3 i w) := by
  simp only [Worker.remote_step3, err_is_process_local, we_their_remote_push_size,
    we_rget_futures_size, err_valid, we_their_push_buffers_g, we_their_remote_push_buffers,
    we_shared, we_rget_futures_msgs]
  split_ifs
  · rfl
  rcases w.their_remote_push_size[i]? with _ | _ | a <;> rcases w.rget_futures_size[i]? with _ | _ | c
    <;> try rfl
  simp only []
  rcases w.their_push_buffers_g[i]? with _ | p <;>
    rcases w.their_remote_push_buffers[i]? with _ | _ | stage <;> try rfl
  simp only []
  cases read_buffer w.shared p
  · rfl
  simp only []
  split_ifs <;> rfl

theorem err_remote_step5 (hashf : Nat → Int) (i : Nat) (w : Worker) (e : Nat) :
    Worker.remote_step5 hashf i (w.with_error e)
      = Except.map (fun x => x.with_error e) (Worker.remote_step5 hashf i w) := by
  simp only [Worker.remote_step5, err_is_process_local, we_their_remote_push_size,
    we_rget_futures_msgs, err_valid, we_their_remote_push_buffers, err_process_push_buffer]
  split_ifs <;> try rfl
  rcases w.rget_futures_msgs[i]? with _ | f <;> rcases w.their_remote_push_size[i]? with _ | _ | c
    <;> rcases w.their_remote_push_buffers[i]? with _ | _ | b <;> try rfl
  simp only []
  cases w.process_push_buffer hashf b (w.valid_buffer_size c) <;> rfl

theorem err_clear_body (i : Nat) (w : Worker) (e : Nat) :
    Worker.clear_body i (w.with_error e)
      = Except.map (fun x => x.with_error e) (Worker.clear_body i w) := by
  have tail : ∀ (w1 : Worker),
      (if ¬ (w1.with_error e).is_process_local i then
        match (w1.with_error e).their_remote_push_size[i]? with
        | some (some _) =>
          .ok { w1.with_error e with
                their_remote_push_size := (w1.with_error e).their_remote_push_size.set i (some 0) }
        | _ => .error .out_of_bounds
      else .ok (w1.with_error e) : Except Fault Worker)
      = Except.map (fun x => x.with_error e)
          (if ¬ w1.is_process_local i then
            match w1.their_remote_push_size[i]? with
            | some (some _) =>
              .ok { w1 with their_remote_push_size := w1.their_remote_push_size.set i (some 0) }
            | _ => .error .out_of_bounds
          else .ok w1) := by
    intro w1
    simp only [err_is_process_local, we_their_remote_push_size]
    split_ifs <;> try rfl
    rcases w1.their_remote_push_size[i]? with _ | _ | c <;> rfl
  simp only [Worker.clear_body, we_total_workers, we_shared, we_rank_me_]
  split_ifs <;> try rfl
  cases write_size w.shared (w.rank_me_, i) 0
  · rfl
  rename_i mem
  exact tail { w with shared := mem }

theorem err_clear_buffers (w : Worker) (e : Nat) :
    (w.with_error e).clear_buffers
      = Except.map (fun x => x.with_error e) w.clear_buffers := by
  simp only [Worker.clear_buffers]
  have h := for_range_map (fun x => x.with_error e) _ (fun i s => err_clear_body i s e)
    w.total_workers
    { w with messages_sent := 0, messages_recv_local := 0, messages_recv_remote := 0,
             buffer_size_min := 0, buffer_size_max := 0 }
  simp only [Worker.with_error] at h ⊢
  rw [h]
  cases for_range w.total_workers Worker.clear_body _ <;> rfl

theorem err_incoming_remote (hashf : Nat → Int) (w : Worker) (e : Nat) :
    (w.with_error e).apply_push_incoming_remote hashf
      = Except.map (fun x => x.with_error e) (w.apply_push_incoming_remote hashf) := by
  have tail3 : ∀ (w3 : Worker),
      (match for_range (w3.with_error e).total_workers Worker.remote_step3 (w3.with_error e) with
        | .error f => .error f
        | .ok w4 =>
          if w4.rget_futures_msgs.length ≠ w4.total_workers then .error .assertion
          else
            match w4.apply_push_incoming_local hashf with
            | .error f => .error f
            | .ok w5 => for_range w5.total_workers (Worker.remote_step5 hashf) w5 :
          Except Fault Worker)
      = Except.map (fun x => x.with_error e)
          (match for_range w3.total_workers Worker.remote_step3 w3 with
            | .error f => .error f
            | .ok w4 =>
              if w4.rget_futures_msgs.length ≠ w4.total_workers then .error .assertion
              else
                match w4.apply_push_incoming_local hashf with
                | .error f => .error f
                | .ok w5 => for_range w5.total_workers (Worker.remote_step5 hashf) w5) := by
    intro w3
    rw [we_total_workers,
      for_range_map (fun x => x.with_error e) _ (fun i s => err_remote_step3 i s e)]
    cases for_range w3.total_workers Worker.remote_step3 w3
    · rfl
    rename_i w4
    simp only [Except.map, we_rget_futures_msgs, we_total_workers, err_incoming_local]
    split_ifs <;> try rfl
    cases w4.apply_push_incoming_local hashf
    · rfl
    rename_i w5
    simp only [Except.map, we_total_workers]
    exact for_range_map (fun x => x.with_error e) _ (fun i s => err_remote_step5 hashf i s e) _ w5
  have tail2 : ∀ (w2 : Worker),
      (match (w2.with_error e).their_local_push_size[(w2.with_error e).rank_me_]? with
        | some (some sp) =>
          match write_size (w2.with_error e).shared sp 0 with
          | .error f => .error f
          | .ok mem =>
            match for_range (w2.with_error e).total_workers Worker.remote_step3
                { w2.with_error e with shared := mem } with
            | .error f => .error f
            | .ok w4 =>
              if w4.rget_futures_msgs.length ≠ w4.total_workers then .error .assertion
              else
                match w4.apply_push_incoming_local hashf with
                | .error f => .error f
                | .ok w5 => for_range w5.total_workers (Worker.remote_step5 hashf) w5
        | _ => .error .out_of_bounds : Except Fault Worker)
      = Except.map (fun x => x.with_error e)
          (match w2.their_local_push_size[w2.rank_me_]? with
            | some (some sp) =>
              match write_size w2.shared sp 0 with
              | .error f => .error f
              | .ok mem =>
                match for_range w2.total_workers Worker.remote_step3 { w2 with shared := mem } with
                | .error f => .error f
                | .ok w4 =>
                  if w4.rget_futures_msgs.length ≠ w4.total_workers then .error .assertion
                  else
                    match w4.apply_push_incoming_local hashf with
                    | .error f => .error f
                    | .ok w5 => for_range w5.total_workers (Worker.remote_step5 hashf) w5
            | _ => .error .out_of_bounds) := by
    intro w2
    simp only [we_their_local_push_size, we_rank_me_, we_shared]
    rcases w2.their_local_push_size[w2.rank_me_]? with _ | _ | sp <;> try rfl
    simp only []
    cases write_size w2.shared sp 0
    · rfl
    rename_i mem
    exact tail3 { w2 with shared := mem }
  simp only [Worker.apply_push_incoming_remote, we_total_workers]
  rw [for_range_map (fun x => x.with_error e) _ (fun i s => err_remote_step1 i s e)]
  cases for_range w.total_workers Worker.remote_step1 w
  · rfl
  rename_i w1
  simp only [Except.map, we_rget_futures_size, we_total_workers, err_count_recv, we_rank_me_,
    we_their_local_push_buffers, we_shared, err_valid, err_process_push_buffer]
  split_ifs <;> try rfl
  cases w1.get_messgaes_count_recv w1.rank_me_
  · rfl
  rename_i c
  simp only []
  cases w1.their_local_push_buffers[w1.rank_me_]?
  · rfl
  rename_i bp
  simp only []
  cases w1.process_push_buffer hashf (deref_buffer w1.shared bp) (w1.valid_buffer_size c)
  · rfl
  rename_i r
  exact tail2 { r.1 with messages_recv_local := r.1.messages_recv_local + r.2 }

theorem err_validate (w : Worker) (e : Nat) :
    (w.with_error e).validate_buffer_space
      = Except.map (fun v => if v.buffer_size_max > w.BUFFER_MAX_SIZE then v else v.with_error e)
          w.validate_buffer_space := by
  have h1 : (w.with_error e).validate_send = w.validate_send := rfl
  have h2 : (w.with_error e).validate_recv = w.validate_recv := rfl
  simp only [Worker.validate_buffer_space, err_count_send, we_rank_me_, we_total_workers, h1, h2,
    we_BUFFER_MAX_SIZE]
  cases w.get_messgaes_count_send w.rank_me_
  · rfl
  rename_i c0
  simp only []
  cases for_range w.total_workers w.validate_send (c0, c0)
  · rfl
  rename_i s1
  simp only []
  cases for_range w.total_workers w.validate_recv s1
  · rfl
  rename_i s2
  obtain ⟨mx, mn⟩ := s2
  simp only [Except.map]
  split_ifs with h
  · simp only [h, if_true]
    rfl
  · simp only [h, if_false]
    rfl

theorem err_invoke (w : Worker) (e : Nat) (t : Nat) (obj : Option Nat) (c : Call) :
    (w.with_error e).invoke t obj c = Except.map (fun x => x.with_error e) (w.invoke t obj c) := by
  simp only [Worker.invoke, we_tables]
  rcases w.tables[t]? with _ | tb <;> rcases obj with _ | p <;> try rfl
  simp only []
  cases tb.invoke p c <;> rfl

theorem err_push (w : Worker) (e : Nat) (it : Item) (dt di : Nat) (v : Int) :
    (w.with_error e).push it dt di v = Except.map (fun x => x.with_error e) (w.push it dt di v) := by
  simp only [Worker.push, we_total_tables, err_enqueue]
  split_ifs <;> rfl

theorem err_push_all (it : Item) : ∀ (l : List (Nat × Nat × Int)) (w : Worker) (e : Nat),
    (w.with_error e).push_all it l = Except.map (fun x => x.with_error e) (w.push_all it l)
  | [], _, _ => rfl
  | (dt, di, v) :: rest, w, e => by
    simp only [Worker.push_all, err_push]
    cases w.push it dt di v
    · rfl
    rename_i w1
    exact err_push_all it rest w1 e

theorem err_work_item (prog : WorkProgram) (w : Worker) (e : Nat) (t : Nat) (obj : Option Nat) :
    (w.with_error e).work_item prog t obj
      = Except.map (fun x => x.with_error e) (w.work_item prog t obj) := by
  simp only [Worker.work_item, err_invoke]
  cases w.invoke t obj Call.before_work
  · rfl
  rename_i w1
  simp only [Except.map, err_invoke]
  cases w1.invoke t obj Call.do_work
  · rfl
  rename_i w2
  simp only [Except.map, we_tables]
  rcases w2.tables[t]? with _ | tb <;> rcases obj with _ | p <;> try rfl
  simp only []
  cases tb.objects[p]?
  · rfl
  rename_i it
  simp only [err_push_all]
  cases w2.push_all it (prog it)
  · rfl
  rename_i w3
  exact err_invoke w3 e t (some p) Call.finishing_work

theorem err_work_table_loop (prog : WorkProgram) (t : Nat) : ∀ (fuel loc : Nat) (w : Worker)
    (e : Nat), Worker.work_table_loop prog t fuel loc (w.with_error e)
      = Except.map (fun x => x.with_error e) (Worker.work_table_loop prog t fuel loc w)
  | 0, _, _, _ => rfl
  | fuel + 1, loc, w, e => by
    simp only [Worker.work_table_loop, we_tables]
    cases w.tables[t]?
    · rfl
    rename_i tb
    simp only []
    split_ifs <;> try rfl
    cases tb.mapped_items.entries[loc]?
    · rfl
    rename_i en
    simp only [err_work_item]
    cases w.work_item prog t en.second
    · rfl
    rename_i w1
    simp only [Except.map]
    cases tb.mapped_items.incr loc
    · rfl
    rename_i loc1
    exact err_work_table_loop prog t fuel loc1 w1 e

theorem err_work (prog : WorkProgram) (w : Worker) (e : Nat) :
    (w.with_error e).work prog = Except.map (fun x => x.with_error e) (w.work prog) := by
  simp only [Worker.work, we_tables]
  refine for_range_map (fun x => x.with_error e) _ ?_ _ w
  intro t s
  simp only [we_tables]
  cases s.tables[t]?
  · rfl
  rename_i tb
  simp only []
  cases tb.mapped_items.begin_
  · rfl
  rename_i loc
  exact err_work_table_loop prog t _ loc s e

theorem err_gptr_wait_fetch (i : Nat) (w : Worker) (e : Nat) :
    Worker.gptr_wait_fetch i (w.with_error e)
      = Except.map (fun x => x.with_error e) (Worker.gptr_wait_fetch i w) := by
  simp only [Worker.gptr_wait_fetch, we_fetch_futures_size, we_fetch_futures_msgs]
  rcases w.fetch_futures_size[i]? with _ | a <;> rcases w.fetch_futures_msgs[i]? with _ | b <;> rfl

theorem err_gptr_wait_local (i : Nat) (w : Worker) (e : Nat) :
    Worker.gptr_wait_local i (w.with_error e)
      = Except.map (fun x => x.with_error e) (Worker.gptr_wait_local i w) := by
  simp only [Worker.gptr_wait_local, we_their_push_size_g, we_their_push_buffers_g]
  rcases w.their_push_size_g[i]? with _ | a <;> rcases w.their_push_buffers_g[i]? with _ | b <;>
    rfl

theorem err_gptr_wait (w : Worker) (e : Nat) :
    (w.with_error e).create_buffers_gptr_wait
      = Except.map (fun x => x.with_error e) w.create_buffers_gptr_wait := by
  simp only [Worker.create_buffers_gptr_wait, we_total_workers]
  rw [for_range_map (fun x => x.with_error e) _ (fun i s => err_gptr_wait_fetch i s e)]
  cases for_range w.total_workers Worker.gptr_wait_fetch w
  · rfl
  rename_i w1
  simp only [Except.map, we_total_workers]
  rw [for_range_map (fun x => x.with_error e) _ (fun i s => err_gptr_wait_local i s e)]
  cases for_range w1.total_workers Worker.gptr_wait_local w1
  · rfl
  rename_i w2
  simp only [Except.map, we_total_workers, we_their_local_push_size, we_their_local_push_buffers,
    we_their_remote_push_size, we_their_remote_push_buffers]
  split_ifs <;> rfl

theorem err_add_table (w : Worker) (e : Nat) (table_key : Nat) (is_global : Bool) :
    (w.with_error e).add_table table_key is_global
      = Except.map (fun x => x.with_error e) (w.add_table table_key is_global) := by
  simp only [Worker.add_table, we_tables, we_rank_me_]
  split_ifs <;> try rfl
  cases (w.tables ++ [TableContainer.new])[table_key]? <;> rfl

theorem err_add_item (hashf : Nat → Int) (w : Worker) (e : Nat) (t k : Nat)
    (is_remote is_create : Bool) :
    (w.with_error e).add_item hashf t k is_remote is_create
      = Except.map (fun x => (x.1.with_error e, x.2)) (w.add_item hashf t k is_remote is_create) := by
  have hp : (w.with_error e).get_partition t k = w.get_partition t k := rfl
  simp only [Worker.add_item, hp, we_rank_me_, we_tables, err_invoke, err_enqueue]
  by_cases h1 : w.get_partition t k = w.rank_me_
  · simp only [h1, if_true]
    by_cases h2 : t < w.tables.length
    · simp only [h2, not_true_eq_false, if_false]
      cases w.tables[t]?
      · rfl
      rename_i tb
      simp only []
      cases tb.mapped_items.find hashf k
      · rfl
      rename_i loc
      simp only []
      by_cases h3 : loc = tb.mapped_items.end_
      · simp only [h3, if_true]
        cases is_create
        · rfl
        · simp only [if_true]
          cases tb.mapped_items.insert hashf k (some tb.objects.length) <;> rfl
      · simp only [h3, if_false]
        cases tb.mapped_items.entries[loc]?
        · rfl
        rename_i en
        simp only []
        cases w.invoke t en.second Call.refresh <;> rfl
    · simp only [h2, not_false_eq_true, if_true]
      rfl
  · simp only [h1, if_false, ne_eq, not_false_eq_true, true_and]
    split_ifs <;> try rfl
    cases w.enqueue_push_request
      { dest_table := t, dest_item := k, src_table := t, src_item := k, value := 0 } <;> rfl

theorem err_after_validate (hashf : Nat → Int) (prog : WorkProgram) (do_work : Bool) (w : Worker)
    (e : Nat) : (w.with_error e).after_validate hashf prog do_work
      = Except.map (fun x => x.with_error e) (w.after_validate hashf prog do_work) := by
  simp only [Worker.after_validate, we_total_nodes, err_incoming_local, err_incoming_remote]
  have h1 : (if w.total_nodes = 1 ∧ UPCXX_GPTR_LOCAL_ON = true then
        Except.map (fun x => x.with_error e) (w.apply_push_incoming_local hashf)
      else Except.map (fun x => x.with_error e) (w.apply_push_incoming_remote hashf))
      = Except.map (fun x => x.with_error e)
          (if w.total_nodes = 1 ∧ UPCXX_GPTR_LOCAL_ON = true then
            w.apply_push_incoming_local hashf
          else w.apply_push_incoming_remote hashf) := by
    split_ifs <;> rfl
  rw [h1]
  cases (if w.total_nodes = 1 ∧ UPCXX_GPTR_LOCAL_ON = true then
      w.apply_push_incoming_local hashf else w.apply_push_incoming_remote hashf)
  · rfl
  rename_i w2
  simp only [Except.map, err_clear_buffers]
  cases w2.clear_buffers
  · rfl
  rename_i w3
  simp only [Except.map]
  cases do_work
  · rfl
  · simp only [if_true, err_work]
    cases w3.work prog <;> rfl

theorem cycle_iteration_comm (hashf : Nat → Int) (prog : WorkProgram) (do_work : Bool)
    (w : Worker) : w.cycle_iteration hashf prog do_work true
      = match (if w.is_local_root then w.validate_buffer_space else .ok w :
            Except Fault Worker) with
        | .error f => .error f
        | .ok w1 => w1.after_validate hashf prog do_work := by
  simp only [Worker.cycle_iteration, if_true, Worker.after_validate]
  cases (if w.is_local_root then w.validate_buffer_space else .ok w : Except Fault Worker) <;> rfl

theorem cycle_iteration_nocomm (hashf : Nat → Int) (prog : WorkProgram) (do_work : Bool)
    (w : Worker) : w.cycle_iteration hashf prog do_work false
      = match (if do_work then w.work prog else .ok w : Except Fault Worker) with
        | .error f => .error f
        | .ok w4 => .ok { w4 with cycles_counter := w4.cycles_counter + 1 } := by
  simp only [Worker.cycle_iteration, Bool.false_eq_true, if_false]

theorem validate_flagged (w v : Worker) (h : w.validate_buffer_space = .ok v) :
    (v.buffer_size_max > w.BUFFER_MAX_SIZE → v.error = ERROR_NOT_ENOUGH_BUFFER_SPACE) ∧
    (¬ v.buffer_size_max > w.BUFFER_MAX_SIZE → v.error = w.error) := by
  simp only [Worker.validate_buffer_space] at h
  cases h0 : w.get_messgaes_count_send w.rank_me_ with
  | error f => rw [h0] at h; cases h
  | ok c0 =>
    rw [h0] at h
    simp only [] at h
    cases h1 : for_range w.total_workers w.validate_send (c0, c0) with
    | error f => rw [h1] at h; cases h
    | ok s1 =>
      rw [h1] at h
      simp only [] at h
      cases h2 : for_range w.total_workers w.validate_recv s1 with
      | error f => rw [h2] at h; cases h
      | ok s2 =>
        obtain ⟨mx, mn⟩ := s2
        rw [h2] at h
        simp only [] at h
        by_cases hm : mx > w.BUFFER_MAX_SIZE
        · rw [if_pos hm] at h
          cases h
          exact ⟨fun _ => rfl, fun hn => absurd hm hn⟩
        · rw [if_neg hm] at h
          cases h
          exact ⟨fun hp => absurd hp hm, fun _ => rfl⟩

/-- One iteration of `cycle` started with another error code runs the same way;
the error code at its end is `ERROR_NOT_ENOUGH_BUFFER_SPACE` or the one it was
started with. -/
theorem err_cycle_iteration (hashf : Nat → Int) (prog : WorkProgram) (do_work do_comm : Bool)
    (w : Worker) (e : Nat) :
    ∃ e', (e' = e ∨ e' = ERROR_NOT_ENOUGH_BUFFER_SPACE) ∧
      (w.with_error e).cycle_iteration hashf prog do_work do_comm
        = Except.map (fun x => x.with_error e') (w.cycle_iteration hashf prog do_work do_comm) := by
  cases do_comm
  · refine ⟨e, Or.inl rfl, ?_⟩
    rw [cycle_iteration_nocomm, cycle_iteration_nocomm]
    cases do_work
    · rfl
    · simp only [if_true, err_work]
      cases w.work prog <;> rfl
  · rw [cycle_iteration_comm, cycle_iteration_comm]
    have hroot : (w.with_error e).is_local_root = w.is_local_root := rfl
    rw [hroot]
    by_cases hr : w.is_local_root = true
    · simp only [hr, if_true, err_validate]
      cases hv : w.validate_buffer_space
      · exact ⟨e, Or.inl rfl, rfl⟩
      rename_i v
      simp only [Except.map]
      by_cases hm : v.buffer_size_max > w.BUFFER_MAX_SIZE
      · have hve : v.error = ERROR_NOT_ENOUGH_BUFFER_SPACE := (validate_flagged w v hv).1 hm
        have hv2 : v = v.with_error ERROR_NOT_ENOUGH_BUFFER_SPACE := by rw [← hve]; rfl
        refine ⟨ERROR_NOT_ENOUGH_BUFFER_SPACE, Or.inr rfl, ?_⟩
        rw [if_pos hm]
        conv_lhs => rw [hv2]
        exact err_after_validate hashf prog do_work v _
      · refine ⟨e, Or.inl rfl, ?_⟩
        rw [if_neg hm]
        exact err_after_validate hashf prog do_work v e
    · simp only [hr, Bool.false_eq_true, if_false]
      exact ⟨e, Or.inl rfl, err_after_validate hashf prog do_work w e⟩

theorem err_cycle_loop (hashf : Nat → Int) (prog : WorkProgram) (do_work do_comm : Bool) :
    ∀ (n i : Nat) (s : Worker) (e : Nat),
      ∃ e', (e' = e ∨ e' = ERROR_NOT_ENOUGH_BUFFER_SPACE) ∧
        for_loop (fun _ w2 => Worker.cycle_iteration hashf prog do_work do_comm w2) n i
            (s.with_error e)
          = Except.map (fun x => x.with_error e')
              (for_loop (fun _ w2 => Worker.cycle_iteration hashf prog do_work do_comm w2) n i s)
  | 0, _, _, e => ⟨e, Or.inl rfl, rfl⟩
  | n + 1, i, s, e => by
    obtain ⟨e1, he1, h1⟩ := err_cycle_iteration hashf prog do_work do_comm s e
    simp only [for_loop, h1]
    cases hb : s.cycle_iteration hashf prog do_work do_comm with
    | error f => exact ⟨e, Or.inl rfl, rfl⟩
    | ok s1 =>
      obtain ⟨e2, he2, h2⟩ := err_cycle_loop hashf prog do_work do_comm n (i + 1) s1 e1
      refine ⟨e2, ?_, ?_⟩
      · rcases he2 with rfl | rfl
        · exact he1
        · exact Or.inr rfl
      · simp only [Except.map]
        exact h2

/-- A call of `cycle` started with another error code runs the same way; the
error code at its end is `ERROR_NOT_ENOUGH_BUFFER_SPACE` or the one it was
started with. -/
theorem err_cycle (hashf : Nat → Int) (prog : WorkProgram) (w : Worker) (iter : Nat)
    (do_work do_comm : Bool) (e : Nat) :
    ∃ e', (e' = e ∨ e' = ERROR_NOT_ENOUGH_BUFFER_SPACE) ∧
      (w.with_error e).cycle hashf prog iter do_work do_comm
        = Except.map (fun x => x.with_error e') (w.cycle hashf prog iter do_work do_comm) := by
  simp only [Worker.cycle, we_cycles_counter, for_range]
  by_cases hc : w.cycles_counter = 0
  · simp only [hc, if_true, err_gptr_wait]
    cases w.create_buffers_gptr_wait with
    | error f => exact ⟨e, Or.inl rfl, rfl⟩
    | ok w1 =>
      simp only [Except.map]
      exact err_cycle_loop hashf prog do_work do_comm iter 0 w1 e
  · simp only [hc, if_false]
    exact err_cycle_loop hashf prog do_work do_comm iter 0 w e

/-- C16 (the worker error is sticky). `enqueue_push_request`, `add_item`,
`add_table` and `clear_buffers` return the worker with the error code they were
called with; `validate_buffer_space` and every call
`cycle(iter, do_work, do_comm)` return it with that code or with
`ERROR_NOT_ENOUGH_BUFFER_SPACE`.  Hence a non-zero error code is non-zero
after every one of these operations, and `ERROR_NOT_ENOUGH_BUFFER_SPACE`
stays `ERROR_NOT_ENOUGH_BUFFER_SPACE`.  The error code has no influence on what
`cycle` does: started on the same worker with any other error code `e`, the
call ends in the same fault or returns the same worker up to the error code. -/
theorem C16_error_is_sticky (hashf : Nat → Int) (prog : WorkProgram) (w : Worker) :
    (∀ msg w', w.enqueue_push_request msg = .ok w' → w'.error = w.error) ∧
    (∀ t k r c w' p st, w.add_item hashf t k r c = .ok (w', p, st) → w'.error = w.error) ∧
    (∀ key g w', w.add_table key g = .ok w' → w'.error = w.error) ∧
    (∀ w', w.clear_buffers = .ok w' → w'.error = w.error) ∧
    (∀ w', w.validate_buffer_space = .ok w' →
      w'.error = w.error ∨ w'.error = ERROR_NOT_ENOUGH_BUFFER_SPACE) ∧
    (∀ iter dw dc w', w.cycle hashf prog iter dw dc = .ok w' →
      (w'.error = w.error ∨ w'.error = ERROR_NOT_ENOUGH_BUFFER_SPACE) ∧
      (w.error ≠ 0 → w'.error ≠ 0) ∧
      (w.error = ERROR_NOT_ENOUGH_BUFFER_SPACE → w'.error = ERROR_NOT_ENOUGH_BUFFER_SPACE)) ∧
    (∀ e iter dw dc, ∃ e', (e' = e ∨ e' = ERROR_NOT_ENOUGH_BUFFER_SPACE) ∧
      (w.with_error e).cycle hashf prog iter dw dc
        = Except.map (fun x => x.with_error e') (w.cycle hashf prog iter dw dc)) := by
  refine ⟨?_, ?_, ?_, ?_, ?_, ?_, fun e iter dw dc => err_cycle hashf prog w iter dw dc e⟩
  · intro msg w' h
    have := err_enqueue w w.error msg
    rw [with_error_self, h] at this
    simp only [Except.map, Except.ok.injEq] at this
    rw [this]; rfl
  · intro t k r c w' p st h
    have := err_add_item hashf w w.error t k r c
    rw [with_error_self, h] at this
    simp only [Except.map, Except.ok.injEq, Prod.mk.injEq] at this
    rw [this.1]; rfl
  · intro key g w' h
    have := err_add_table w w.error key g
    rw [with_error_self, h] at this
    simp only [Except.map, Except.ok.injEq] at this
    rw [this]; rfl
  · intro w' h
    have := err_clear_buffers w w.error
    rw [with_error_self, h] at this
    simp only [Except.map, Except.ok.injEq] at this
    rw [this]; rfl
  · intro w' h
    by_cases hm : w'.buffer_size_max > w.BUFFER_MAX_SIZE
    · exact Or.inr ((validate_flagged w w' h).1 hm)
    · exact Or.inl ((validate_flagged w w' h).2 hm)
  · intro iter dw dc w' h
    obtain ⟨e', he', hc⟩ := err_cycle hashf prog w iter dw dc w.error
    rw [with_error_self, h] at hc
    simp only [Except.map, Except.ok.injEq] at hc
    have hw : w'.error = e' := by rw [hc]; rfl
    have h1 : w'.error = w.error ∨ w'.error = ERROR_NOT_ENOUGH_BUFFER_SPACE := by
      rw [hw]; exact he'
    refine ⟨h1, ?_, ?_⟩
    · intro hne
      rcases h1 with h2 | h2
      · rw [h2]; exact hne
      · rw [h2]; decide
    · intro heq
      rcases h1 with h2 | h2
      · rw [h2]; exact heq
      · exact h2

/-- The statement of C16 on `sample_worker_item` with the error code
`ERROR_NOT_ENOUGH_BUFFER_SPACE` set and all send counters at zero: three
iterations of `cycle` run to their end and leave the error code as it is. -/
theorem C16_error_is_sticky_witness :
    ∃ w', (sample_worker_item.with_error ERROR_NOT_ENOUGH_BUFFER_SPACE).cycle sample_hash
        (fun _ => []) 3 false true = .ok w' ∧
      (sample_worker_item.with_error ERROR_NOT_ENOUGH_BUFFER_SPACE).error
        = ERROR_NOT_ENOUGH_BUFFER_SPACE ∧
      w'.error = ERROR_NOT_ENOUGH_BUFFER_SPACE := by
  obtain ⟨a1, a2, a3, a4, a5, a6, a7, a8⟩ := sample_worker_item_ready
  have hself : sample_worker_item.self_msgs = [] := by
    have h0 : size_at sample_worker_item.shared
        (dist_fetch sample_worker_item.rank_me_ sample_worker_item.rank_me_) = 0 := a7
    simp only [Worker.self_msgs, h0, Nat.zero_min, List.take_zero]
  obtain ⟨w0, h0, -⟩ := cycle_spec sample_hash (fun _ => []) sample_worker_item 3
    (Or.inl ⟨a1, a2⟩) a3 a4 a5 a6 (by rw [hself]; intro m hm; cases hm) (by decide)
  have hC := C16_error_is_sticky sample_hash (fun _ => [])
    (sample_worker_item.with_error ERROR_NOT_ENOUGH_BUFFER_SPACE)
  obtain ⟨e', -, he'⟩ := err_cycle sample_hash (fun _ => []) sample_worker_item 3 false true
    ERROR_NOT_ENOUGH_BUFFER_SPACE
  rw [h0] at he'
  exact ⟨_, he', rfl, (hC.2.2.2.2.2.1 3 false true _ he').2.2 rfl⟩

/-! ## The configuration fields

The exchange phase neither reads nor writes the fields of `Worker.config`:
its functions commute with replacing them. -/

theorem wc_total_workers (w : Worker) (cf : Nat × Nat × Nat × Nat × Nat × Nat) :
    (w.with_config cf).total_workers = w.total_workers := rfl

theorem wc_rank_me_ (w : Worker) (cf : Nat × Nat × Nat × Nat × Nat × Nat) :
    (w.with_config cf).rank_me_ = w.rank_me_ := rfl

theorem wc_BUFFER_MAX_SIZE (w : Worker) (cf : Nat × Nat × Nat × Nat × Nat × Nat) :
    (w.with_config cf).BUFFER_MAX_SIZE = w.BUFFER_MAX_SIZE := rfl

theorem wc_their_push_size_g (w : Worker) (cf : Nat × Nat × Nat × Nat × Nat × Nat) :
    (w.with_config cf).their_push_size_g = w.their_push_size_g := rfl

theorem wc_their_local_push_size (w : Worker) (cf : Nat × Nat × Nat × Nat × Nat × Nat) :
    (w.with_config cf).their_local_push_size = w.their_local_push_size := rfl

theorem wc_fetch_futures_size (w : Worker) (cf : Nat × Nat × Nat × Nat × Nat × Nat) :
    (w.with_config cf).fetch_futures_size = w.fetch_futures_size := rfl

theorem wc_their_push_buffers_g (w : Worker) (cf : Nat × Nat × Nat × Nat × Nat × Nat) :
    (w.with_config cf).their_push_buffers_g = w.their_push_buffers_g := rfl

theorem wc_their_local_push_buffers (w : Worker) (cf : Nat × Nat × Nat × Nat × Nat × Nat) :
    (w.with_config cf).their_local_push_buffers = w.their_local_push_buffers := rfl

theorem wc_fetch_futures_msgs (w : Worker) (cf : Nat × Nat × Nat × Nat × Nat × Nat) :
    (w.with_config cf).fetch_futures_msgs = w.fetch_futures_msgs := rfl

theorem wc_rget_futures_size (w : Worker) (cf : Nat × Nat × Nat × Nat × Nat × Nat) :
    (w.with_config cf).rget_futures_size = w.rget_futures_size := rfl

theorem wc_rget_futures_msgs (w : Worker) (cf : Nat × Nat × Nat × Nat × Nat × Nat) :
    (w.with_config cf).rget_futures_msgs = w.rget_futures_msgs := rfl

theorem wc_their_remote_push_size (w : Worker) (cf : Nat × Nat × Nat × Nat × Nat × Nat) :
    (w.with_config cf).their_remote_push_size = w.their_remote_push_size := rfl

theorem wc_their_remote_push_buffers (w : Worker) (cf : Nat × Nat × Nat × Nat × Nat × Nat) :
    (w.with_config cf).their_remote_push_buffers = w.their_remote_push_buffers := rfl

theorem wc_tables (w : Worker) (cf : Nat × Nat × Nat × Nat × Nat × Nat) :
    (w.with_config cf).tables = w.tables := rfl

theorem wc_messages_sent (w : Worker) (cf : Nat × Nat × Nat × Nat × Nat × Nat) :
    (w.with_config cf).messages_sent = w.messages_sent := rfl

theorem wc_messages_recv_local (w : Worker) (cf : Nat × Nat × Nat × Nat × Nat × Nat) :
    (w.with_config cf).messages_recv_local = w.messages_recv_local := rfl

theorem wc_messages_recv_remote (w : Worker) (cf : Nat × Nat × Nat × Nat × Nat × Nat) :
    (w.with_config cf).messages_recv_remote = w.messages_recv_remote := rfl

theorem wc_buffer_size_min (w : Worker) (cf : Nat × Nat × Nat × Nat × Nat × Nat) :
    (w.with_config cf).buffer_size_min = w.buffer_size_min := rfl

theorem wc_buffer_size_max (w : Worker) (cf : Nat × Nat × Nat × Nat × Nat × Nat) :
    (w.with_config cf).buffer_size_max = w.buffer_size_max := rfl

theorem wc_proc_local (w : Worker) (cf : Nat × Nat × Nat × Nat × Nat × Nat) :
    (w.with_config cf).proc_local = w.proc_local := rfl

theorem wc_shared (w : Worker) (cf : Nat × Nat × Nat × Nat × Nat × Nat) :
    (w.with_config cf).shared = w.shared := rfl

theorem wc_error (w : Worker) (cf : Nat × Nat × Nat × Nat × Nat × Nat) :
    (w.with_config cf).error = w.error := rfl

theorem cfg_is_process_local (w : Worker) (cf : Nat × Nat × Nat × Nat × Nat × Nat) (i : Nat) :
    (w.with_config cf).is_process_local i = w.is_process_local i := rfl

theorem cfg_count_send (w : Worker) (cf : Nat × Nat × Nat × Nat × Nat × Nat) (i : Nat) :
    (w.with_config cf).get_messgaes_count_send i = w.get_messgaes_count_send i := rfl

theorem cfg_count_recv (w : Worker) (cf : Nat × Nat × Nat × Nat × Nat × Nat) (i : Nat) :
    (w.with_config cf).get_messgaes_count_recv i = w.get_messgaes_count_recv i := rfl

theorem cfg_valid (w : Worker) (cf : Nat × Nat × Nat × Nat × Nat × Nat) (c : Nat) :
    (w.with_config cf).valid_buffer_size c = w.valid_buffer_size c := rfl

theorem cfg_apply_msg (hashf : Nat → Int) (w : Worker) (cf : Nat × Nat × Nat × Nat × Nat × Nat) (msg : Message) :
    (w.with_config cf).apply_msg hashf msg
      = Except.map (fun x => x.with_config cf) (w.apply_msg hashf msg) := by
  simp only [Worker.apply_msg, Worker.with_config]
  repeat' split
  all_goals simp_all [Except.map]

theorem cfg_process_body (hashf : Nat → Int) (buf : List Message) (i : Nat) (w : Worker)
    (cf : Nat × Nat × Nat × Nat × Nat × Nat) : Worker.process_push_body hashf buf i (w.with_config cf)
      = Except.map (fun x => x.with_config cf) (Worker.process_push_body hashf buf i w) := by
  simp only [Worker.process_push_body]
  split
  · rfl
  · exact cfg_apply_msg hashf w cf _

theorem cfg_process_push_buffer (hashf : Nat → Int) (w : Worker) (cf : Nat × Nat × Nat × Nat × Nat × Nat) (buf : List Message)
    (c : Nat) : (w.with_config cf).process_push_buffer hashf buf c
      = Except.map (fun x => (x.1.with_config cf, x.2)) (w.process_push_buffer hashf buf c) := by
  simp only [Worker.process_push_buffer, cfg_valid, for_range]
  rw [for_loop_map (fun x => x.with_config cf) _ (fun i s => cfg_process_body hashf buf i s cf)]
  cases for_loop (Worker.process_push_body hashf buf) (w.valid_buffer_size c) 0 w <;> rfl

theorem cfg_apply_local_body (hashf : Nat → Int) (i : Nat) (w : Worker) (cf : Nat × Nat × Nat × Nat × Nat × Nat) :
    Worker.apply_local_body hashf i (w.with_config cf)
      = Except.map (fun x => x.with_config cf) (Worker.apply_local_body hashf i w) := by
  simp only [Worker.apply_local_body, cfg_is_process_local, cfg_count_recv, cfg_valid,
    cfg_process_push_buffer, wc_their_local_push_buffers, wc_shared]
  split_ifs with h1
  swap
  · rfl
  cases h2 : w.get_messgaes_count_recv i
  · rfl
  rename_i c
  cases h3 : w.their_local_push_buffers[i]?
  · rfl
  rename_i bp
  simp only []
  have tail : ∀ (w2 : Worker),
      (match (w2.with_config cf).their_local_push_size[i]? with
        | some (some sp) =>
          match write_size (w2.with_config cf).shared sp 0 with
          | .error f => .error f
          | .ok mem => .ok { w2.with_config cf with shared := mem }
        | _ => .error .out_of_bounds : Except Fault Worker)
      = Except.map (fun x => x.with_config cf)
          (match w2.their_local_push_size[i]? with
            | some (some sp) =>
              match write_size w2.shared sp 0 with
              | .error f => .error f
              | .ok mem => .ok { w2 with shared := mem }
            | _ => .error .out_of_bounds) := by
    intro w2
    simp only [wc_their_local_push_size, wc_shared]
    cases h6 : w2.their_local_push_size[i]?
    · rfl
    rename_i o
    cases o
    · rfl
    rename_i sp
    simp only []
    cases write_size w2.shared sp 0 <;> rfl
  split_ifs with h4
  · cases h5 : w.process_push_buffer hashf (deref_buffer w.shared bp) (w.valid_buffer_size c)
    · rfl
    rename_i r
    exact tail { r.1 with messages_recv_local := r.1.messages_recv_local + r.2 }
  · exact tail w

theorem cfg_count_sent_body (i : Nat) (w : Worker) (cf : Nat × Nat × Nat × Nat × Nat × Nat) :
    Worker.count_sent_body i (w.with_config cf)
      = Except.map (fun x => x.with_config cf) (Worker.count_sent_body i w) := by
  simp only [Worker.count_sent_body, cfg_count_send, cfg_valid, wc_messages_sent]
  cases w.get_messgaes_count_send i <;> rfl

theorem cfg_incoming_local (hashf : Nat → Int) (w : Worker) (cf : Nat × Nat × Nat × Nat × Nat × Nat) :
    (w.with_config cf).apply_push_incoming_local hashf
      = Except.map (fun x => x.with_config cf) (w.apply_push_incoming_local hashf) := by
  simp only [Worker.apply_push_incoming_local, wc_total_workers]
  rw [for_range_map (fun x => x.with_config cf) _ (fun i s => cfg_apply_local_body hashf i s cf)]
  cases for_range w.total_workers (Worker.apply_local_body hashf) w
  · rfl
  rename_i w1
  simp only [Except.map, wc_rank_me_, wc_total_workers]
  split_ifs
  · exact for_range_map (fun x => x.with_config cf) _ (fun i s => cfg_count_sent_body i s cf) _ w1
  · rfl

theorem cfg_remote_step1 (i : Nat) (w : Worker) (cf : Nat × Nat × Nat × Nat × Nat × Nat) :
    Worker.remote_step1 i (w.with_config cf)
      = Except.map (fun x => x.with_config cf) (Worker.remote_step1 i w) := by
  simp only [Worker.remote_step1, cfg_is_process_local, wc_their_push_size_g, wc_shared,
    wc_rget_futures_size]
  split_ifs
  · rfl
  cases w.their_push_size_g[i]?
  · rfl
  rename_i p
  simp only []
  cases read_size w.shared p <;> rfl

theorem cfg_remote_step3 (i : Nat) (w : Worker) (cf : Nat × Nat × Nat × Nat × Nat × Nat) :
    Worker.remote_step3 i (w.with_config cf)
      = Except.map (fun x => x.with_config cf) (Worker.remote_step3 i w) := by
  simp only [Worker.remote_step3, cfg_is_process_local, wc_their_remote_push_size,
    wc_rget_futures_size, cfg_valid, wc_their_push_buffers_g, wc_their_remote_push_buffers,
    wc_shared, wc_rget_futures_msgs]
  split_ifs
  · rfl
  rcases w.their_remote_push_size[i]? with _ | _ | a <;> rcases w.rget_futures_size[i]? with _ | _ | c
    <;> try rfl
  simp only []
  rcases w.their_push_buffers_g[i]? with _ | p <;>
    rcases w.their_remote_push_buffers[i]? with _ | _ | stage <;> try rfl
  simp only []
  cases read_buffer w.shared p
  · rfl
  simp only []
  split_ifs <;> rfl

theorem cfg_remote_step5 (hashf : Nat → Int) (i : Nat) (w : Worker) (cf : Nat × Nat × Nat × Nat × Nat × Nat) :
    Worker.remote_step5 hashf i (w.with_config cf)
      = Except.map (fun x => x.with_config cf) (Worker.remote_step5 hashf i w) := by
  simp only [Worker.remote_step5, cfg_is_process_local, wc_their_remote_push_size,
    wc_rget_futures_msgs, cfg_valid, wc_their_remote_push_buffers, cfg_process_push_buffer]
  split_ifs <;> try rfl
  rcases w.rget_futures_msgs[i]? with _ | f <;> rcases w.their_remote_push_size[i]? with _ | _ | c
    <;> rcases w.their_remote_push_buffers[i]? with _ | _ | b <;> try rfl
  simp only []
  cases w.process_push_buffer hashf b (w.valid_buffer_size c) <;> rfl

theorem cfg_clear_body (i : Nat) (w : Worker) (cf : Nat × Nat × Nat × Nat × Nat × Nat) :
    Worker.clear_body i (w.with_config cf)
      = Except.map (fun x => x.with_config cf) (Worker.clear_body i w) := by
  have tail : ∀ (w1 : Worker),
      (if ¬ (w1.with_config cf).is_process_local i then
        match (w1.with_config cf).their_remote_push_size[i]? with
        | some (some _) =>
          .ok { w1.with_config cf with
                their_remote_push_size := (w1.with_config cf).their_remote_push_size.set i (some 0) }
        | _ => .error .out_of_bounds
      else .ok (w1.with_config cf) : Except Fault Worker)
      = Except.map (fun x => x.with_config cf)
          (if ¬ w1.is_process_local i then
            match w1.their_remote_push_size[i]? with
            | some (some _) =>
              .ok { w1 with their_remote_push_size := w1.their_remote_push_size.set i (some 0) }
            | _ => .error .out_of_bounds
          else .ok w1) := by
    intro w1
    simp only [cfg_is_process_local, wc_their_remote_push_size]
    split_ifs <;> try rfl
    rcases w1.their_remote_push_size[i]? with _ | _ | c <;> rfl
  simp only [Worker.clear_body, wc_total_workers, wc_shared, wc_rank_me_]
  split_ifs <;> try rfl
  cases write_size w.shared (w.rank_me_, i) 0
  · rfl
  rename_i mem
  exact tail { w with shared := mem }

theorem cfg_clear_buffers (w : Worker) (cf : Nat × Nat × Nat × Nat × Nat × Nat) :
    (w.with_config cf).clear_buffers
      = Except.map (fun x => x.with_config cf) w.clear_buffers := by
  simp only [Worker.clear_buffers]
  have h := for_range_map (fun x => x.with_config cf) _ (fun i s => cfg_clear_body i s cf)
    w.total_workers
    { w with messages_sent := 0, messages_recv_local := 0, messages_recv_remote := 0,
             buffer_size_min := 0, buffer_size_max := 0 }
  simp only [Worker.with_config] at h ⊢
  rw [h]
  cases for_range w.total_workers Worker.clear_body _ <;> rfl

theorem cfg_incoming_remote (hashf : Nat → Int) (w : Worker) (cf : Nat × Nat × Nat × Nat × Nat × Nat) :
    (w.with_config cf).apply_push_incoming_remote hashf
      = Except.map (fun x => x.with_config cf) (w.apply_push_incoming_remote hashf) := by
  have tail3 : ∀ (w3 : Worker),
      (match for_range (w3.with_config cf).total_workers Worker.remote_step3 (w3.with_config cf) with
        | .error f => .error f
        | .ok w4 =>
          if w4.rget_futures_msgs.length ≠ w4.total_workers then .error .assertion
          else
            match w4.apply_push_incoming_local hashf with
            | .error f => .error f
            | .ok w5 => for_range w5.total_workers (Worker.remote_step5 hashf) w5 :
          Except Fault Worker)
      = Except.map (fun x => x.with_config cf)
          (match for_range w3.total_workers Worker.remote_step3 w3 with
            | .error f => .error f
            | .ok w4 =>
              if w4.rget_futures_msgs.length ≠ w4.total_workers then .error .assertion
              else
                match w4.apply_push_incoming_local hashf with
                | .error f => .error f
                | .ok w5 => for_range w5.total_workers (Worker.remote_step5 hashf) w5) := by
    intro w3
    rw [wc_total_workers,
      for_range_map (fun x => x.with_config cf) _ (fun i s => cfg_remote_step3 i s cf)]
    cases for_range w3.total_workers Worker.remote_step3 w3
    · rfl
    rename_i w4
    simp only [Except.map, wc_rget_futures_msgs, wc_total_workers, cfg_incoming_local]
    split_ifs <;> try rfl
    cases w4.apply_push_incoming_local hashf
    · rfl
    rename_i w5
    simp only [Except.map, wc_total_workers]
    exact for_range_map (fun x => x.with_config cf) _ (fun i s => cfg_remote_step5 hashf i s cf) _ w5
  have tail2 : ∀ (w2 : Worker),
      (match (w2.with_config cf).their_local_push_size[(w2.with_config cf).rank_me_]? with
        | some (some sp) =>
          match write_size (w2.with_config cf).shared sp 0 with
          | .error f => .error f
          | .ok mem =>
            match for_range (w2.with_config cf).total_workers Worker.remote_step3
                { w2.with_config cf with shared := mem } with
            | .error f => .error f
            | .ok w4 =>
              if w4.rget_futures_msgs.length ≠ w4.total_workers then .error .assertion
              else
                match w4.apply_push_incoming_local hashf with
                | .error f => .error f
                | .ok w5 => for_range w5.total_workers (Worker.remote_step5 hashf) w5
        | _ => .error .out_of_bounds : Except Fault Worker)
      = Except.map (fun x => x.with_config cf)
          (match w2.their_local_push_size[w2.rank_me_]? with
            | some (some sp) =>
              match write_size w2.shared sp 0 with
              | .error f => .error f
              | .ok mem =>
                match for_range w2.total_workers Worker.remote_step3 { w2 with shared := mem } with
                | .error f => .error f
                | .ok w4 =>
                  if w4.rget_futures_msgs.length ≠ w4.total_workers then .error .assertion
                  else
                    match w4.apply_push_incoming_local hashf with
                    | .error f => .error f
                    | .ok w5 => for_range w5.total_workers (Worker.remote_step5 hashf) w5
            | _ => .error .out_of_bounds) := by
    intro w2
    simp only [wc_their_local_push_size, wc_rank_me_, wc_shared]
    rcases w2.their_local_push_size[w2.rank_me_]? with _ | _ | sp <;> try rfl
    simp only []
    cases write_size w2.shared sp 0
    · rfl
    rename_i mem
    exact tail3 { w2 with shared := mem }
  simp only [Worker.apply_push_incoming_remote, wc_total_workers]
  rw [for_range_map (fun x => x.with_config cf) _ (fun i s => cfg_remote_step1 i s cf)]
  cases for_range w.total_workers Worker.remote_step1 w
  · rfl
  rename_i w1
  simp only [Except.map, wc_rget_futures_size, wc_total_workers, cfg_count_recv, wc_rank_me_,
    wc_their_local_push_buffers, wc_shared, cfg_valid, cfg_process_push_buffer]
  split_ifs <;> try rfl
  cases w1.get_messgaes_count_recv w1.rank_me_
  · rfl
  rename_i c
  simp only []
  cases w1.their_local_push_buffers[w1.rank_me_]?
  · rfl
  rename_i bp
  simp only []
  cases w1.process_push_buffer hashf (deref_buffer w1.shared bp) (w1.valid_buffer_size c)
  · rfl
  rename_i r
  exact tail2 { r.1 with messages_recv_local := r.1.messages_recv_local + r.2 }

theorem cfg_gptr_wait_fetch (i : Nat) (w : Worker) (cf : Nat × Nat × Nat × Nat × Nat × Nat) :
    Worker.gptr_wait_fetch i (w.with_config cf)
      = Except.map (fun x => x.with_config cf) (Worker.gptr_wait_fetch i w) := by
  simp only [Worker.gptr_wait_fetch, wc_fetch_futures_size, wc_fetch_futures_msgs]
  rcases w.fetch_futures_size[i]? with _ | a <;> rcases w.fetch_futures_msgs[i]? with _ | b <;> rfl

theorem cfg_gptr_wait_local (i : Nat) (w : Worker) (cf : Nat × Nat × Nat × Nat × Nat × Nat) :
    Worker.gptr_wait_local i (w.with_config cf)
      = Except.map (fun x => x.with_config cf) (Worker.gptr_wait_local i w) := by
  simp only [Worker.gptr_wait_local, wc_their_push_size_g, wc_their_push_buffers_g]
  rcases w.their_push_size_g[i]? with _ | a <;> rcases w.their_push_buffers_g[i]? with _ | b <;>
    rfl

theorem cfg_gptr_wait (w : Worker) (cf : Nat × Nat × Nat × Nat × Nat × Nat) :
    (w.with_config cf).create_buffers_gptr_wait
      = Except.map (fun x => x.with_config cf) w.create_buffers_gptr_wait := by
  simp only [Worker.create_buffers_gptr_wait, wc_total_workers]
  rw [for_range_map (fun x => x.with_config cf) _ (fun i s => cfg_gptr_wait_fetch i s cf)]
  cases for_range w.total_workers Worker.gptr_wait_fetch w
  · rfl
  rename_i w1
  simp only [Except.map, wc_total_workers]
  rw [for_range_map (fun x => x.with_config cf) _ (fun i s => cfg_gptr_wait_local i s cf)]
  cases for_range w1.total_workers Worker.gptr_wait_local w1
  · rfl
  rename_i w2
  simp only [Except.map, wc_total_workers, wc_their_local_push_size, wc_their_local_push_buffers,
    wc_their_remote_push_size, wc_their_remote_push_buffers]
  split_ifs <;> rfl

theorem config_of_comm (f : Worker → Except Fault Worker)
    (hf : ∀ w cf, f (w.with_config cf) = Except.map (fun x => x.with_config cf) (f w))
    (w w' : Worker) (h : f w = .ok w') : w'.config = w.config := by
  have := hf w w.config
  rw [show w.with_config w.config = w from rfl, h] at this
  simp only [Except.map, Except.ok.injEq] at this
  rw [this]
  rfl

theorem incoming_local_config (hashf : Nat → Int) (w w' : Worker)
    (h : w.apply_push_incoming_local hashf = .ok w') : w'.config = w.config :=
  config_of_comm _ (fun w cf => cfg_incoming_local hashf w cf) w w' h

theorem incoming_remote_config (hashf : Nat → Int) (w w' : Worker)
    (h : w.apply_push_incoming_remote hashf = .ok w') : w'.config = w.config :=
  config_of_comm _ (fun w cf => cfg_incoming_remote hashf w cf) w w' h

theorem clear_buffers_config (w w' : Worker) (h : w.clear_buffers = .ok w') :
    w'.config = w.config :=
  config_of_comm _ (fun w cf => cfg_clear_buffers w cf) w w' h

theorem gptr_wait_config (w w' : Worker) (h : w.create_buffers_gptr_wait = .ok w') :
    w'.config = w.config :=
  config_of_comm _ (fun w cf => cfg_gptr_wait w cf) w w' h

theorem config_fields (w w' : Worker) (h : w'.config = w.config) :
    w'.team_total_workers = w.team_total_workers ∧ w'.rank_n_ = w.rank_n_ ∧
    w'.total_nodes = w.total_nodes ∧ w'.team_rank_me_ = w.team_rank_me_ ∧
    w'.total_tables = w.total_tables ∧ w'.cycles_counter = w.cycles_counter := by
  simp only [Worker.config, Prod.mk.injEq] at h
  exact h

theorem error_of_comm (f : Worker → Except Fault Worker)
    (hf : ∀ w e, f (w.with_error e) = Except.map (fun x => x.with_error e) (f w))
    (w w' : Worker) (h : f w = .ok w') : w'.error = w.error := by
  have := hf w w.error
  rw [with_error_self, h] at this
  simp only [Except.map, Except.ok.injEq] at this
  rw [this]
  rfl

/-! ## Iteration over a map -/

section IterLemmas
variable {K V : Type}

theorem live_list_drop_live (es : List (Entry K V)) (i : Nat) (e : Entry K V)
    (h : es[i]? = some e) (hl : e.hash ≠ -1) :
    live_list (es.drop i) = e :: live_list (es.drop (i + 1)) := by
  have hi : i < es.length := (List.getElem?_eq_some_iff.mp h).1
  have he : es[i] = e := (List.getElem?_eq_some_iff.mp h).2
  rw [List.drop_eq_getElem_cons hi, he]
  exact live_list_cons_live e _ hl

theorem live_list_drop_blank (es : List (Entry K V)) (i : Nat) (e : Entry K V)
    (h : es[i]? = some e) (hl : e.hash = -1) :
    live_list (es.drop i) = live_list (es.drop (i + 1)) := by
  have hi : i < es.length := (List.getElem?_eq_some_iff.mp h).1
  have he : es[i] = e := (List.getElem?_eq_some_iff.mp h).2
  rw [List.drop_eq_getElem_cons hi, he]
  exact live_list_cons_blank e _ hl

theorem live_list_drop_end (es : List (Entry K V)) (i : Nat) (h : es.length ≤ i) :
    live_list (es.drop i) = [] := by
  rw [List.drop_of_length_le h]
  rfl

/-- The loop of `begin()` from slot `i` returns the first non-empty slot at or
after `i`, or `size`. -/
theorem begin_loop_spec (m : Robin_Map K V) (hlen : m.entries.length = m.size) :
    ∀ (n i : Nat), i + n = m.size →
      ∃ loc, begin_loop m n i = .ok loc ∧ i ≤ loc ∧ loc ≤ m.size ∧
        (loc < m.size → ∃ e, m.entries[loc]? = some e ∧ e.hash ≠ -1) ∧
        live_list (m.entries.drop i) = live_list (m.entries.drop loc)
  | 0, i, h => by
    refine ⟨m.size, rfl, by omega, Nat.le_refl _, fun h' => absurd h' (Nat.lt_irrefl _), ?_⟩
    rw [live_list_drop_end _ i (by omega), live_list_drop_end _ m.size (by omega)]
  | n + 1, i, h => by
    have hi : i < m.entries.length := by omega
    have hget : m.entries[i]? = some m.entries[i] := List.getElem?_eq_getElem hi
    by_cases hl : m.entries[i].hash = -1
    · obtain ⟨loc, h1, h2, h3, h4, h5⟩ := begin_loop_spec m hlen n (i + 1) (by omega)
      refine ⟨loc, ?_, by omega, h3, h4, ?_⟩
      · simp only [begin_loop, hget, hl, ne_eq, not_true_eq_false, if_false]
        exact h1
      · rw [live_list_drop_blank _ i _ hget hl]
        exact h5
    · refine ⟨i, ?_, Nat.le_refl _, by omega, fun _ => ⟨_, hget, hl⟩, rfl⟩
      simp only [begin_loop, hget, ne_eq, hl, not_false_eq_true, if_true]

/-- The loop of `operator++` from slot `cur` returns the first non-empty slot
after `cur`, or `size`. -/
theorem incr_loop_spec (m : Robin_Map K V) (hlen : m.entries.length = m.size) :
    ∀ (fuel cur : Nat), cur < m.size → m.size - cur ≤ fuel →
      ∃ loc, incr_loop m fuel cur = .ok loc ∧ cur < loc ∧ loc ≤ m.size ∧
        (loc < m.size → ∃ e, m.entries[loc]? = some e ∧ e.hash ≠ -1) ∧
        live_list (m.entries.drop (cur + 1)) = live_list (m.entries.drop loc)
  | 0, cur, h1, h2 => by omega
  | fuel + 1, cur, h1, h2 => by
    by_cases hend : cur + 1 = m.size
    · refine ⟨cur + 1, ?_, by omega, by omega, fun h' => by omega, rfl⟩
      simp only [incr_loop, hend, if_true]
    · have hi : cur + 1 < m.entries.length := by omega
      have hget : m.entries[cur + 1]? = some m.entries[cur + 1] := List.getElem?_eq_getElem hi
      by_cases hl : m.entries[cur + 1].hash = -1
      · obtain ⟨loc, e1, e2, e3, e4, e5⟩ := incr_loop_spec m hlen fuel (cur + 1) (by omega)
          (by omega)
        refine ⟨loc, ?_, by omega, e3, e4, ?_⟩
        · simp only [incr_loop, hend, if_false, hget, hl, if_true]
          exact e1
        · rw [live_list_drop_blank _ (cur + 1) _ hget hl]
          exact e5
      · refine ⟨cur + 1, ?_, by omega, by omega, fun _ => ⟨_, hget, hl⟩, rfl⟩
        simp only [incr_loop, hend, if_false, hget, hl]

end IterLemmas

/-! ## The work phase -/

theorem work_in_order_append (prog : WorkProgram) : ∀ (a b : List (Nat × Option Nat)) (w : Worker),
    Worker.work_in_order prog w (a ++ b)
      = match Worker.work_in_order prog w a with
        | .error f => .error f
        | .ok w1 => Worker.work_in_order prog w1 b
  | [], b, w => rfl
  | (t, obj) :: a, b, w => by
    simp only [List.cons_append, Worker.work_in_order]
    cases w.work_item prog t obj with
    | error f => rfl
    | ok w1 => exact work_in_order_append prog a b w1

theorem enqueue_frame (w w' : Worker) (msg : Message)
    (h : w.enqueue_push_request msg = .ok w') : w' = { w with shared := w'.shared } := by
  simp only [Worker.enqueue_push_request] at h
  split_ifs at h with h1
  · cases hc : w.get_messgaes_count_send (w.get_partition msg.dest_table msg.dest_item) with
    | error f => rw [hc] at h; cases h
    | ok c =>
      rw [hc] at h
      simp only [] at h
      split_ifs at h with h2
      · cases hw : write_size w.shared (w.rank_me_, w.get_partition msg.dest_table msg.dest_item)
            (c + 1) with
        | error f => rw [hw] at h; cases h
        | ok mem => rw [hw] at h; cases h; rfl
      · cases hs : write_slot w.shared (w.rank_me_, w.get_partition msg.dest_table msg.dest_item)
            c msg with
        | error f => rw [hs] at h; cases h
        | ok mem1 =>
          rw [hs] at h
          simp only [] at h
          cases hw : write_size mem1 (w.rank_me_, w.get_partition msg.dest_table msg.dest_item)
              (c + 1) with
          | error f => rw [hw] at h; cases h
          | ok mem => rw [hw] at h; cases h; rfl
  · cases h; rfl

theorem enqueue_all_frame : ∀ (msgs : List Message) (w w' : Worker),
    w.enqueue_all msgs = .ok w' → w' = { w with shared := w'.shared }
  | [], w, w', h => by
    simp only [Worker.enqueue_all, Except.ok.injEq] at h
    rw [← h]
  | m :: rest, w, w', h => by
    simp only [Worker.enqueue_all] at h
    cases h1 : w.enqueue_push_request m with
    | error f => rw [h1] at h; cases h
    | ok w1 =>
      rw [h1] at h
      have e1 := enqueue_frame w w1 m h1
      have e2 := enqueue_all_frame rest w1 w' h
      rw [e2, e1]

theorem enqueue_all_append : ∀ (a b : List Message) (w : Worker),
    w.enqueue_all (a ++ b)
      = match w.enqueue_all a with
        | .error f => .error f
        | .ok w1 => w1.enqueue_all b
  | [], b, w => rfl
  | m :: a, b, w => by
    simp only [List.cons_append, Worker.enqueue_all]
    cases w.enqueue_push_request m with
    | error f => rfl
    | ok w1 => exact enqueue_all_append a b w1

/-- `enqueue_push_request` does not look at the tables. -/
theorem enqueue_set_tables (w : Worker) (T : List TableContainer) (msg : Message) :
    Worker.enqueue_push_request { w with tables := T } msg
      = Except.map (fun x => { x with tables := T }) (w.enqueue_push_request msg) := by
  simp only [Worker.enqueue_push_request, Worker.get_partition, Worker.get_messgaes_count_send]
  repeat' split
  all_goals simp_all [Except.map]

theorem enqueue_all_set_tables (T : List TableContainer) : ∀ (msgs : List Message) (w : Worker),
    Worker.enqueue_all { w with tables := T } msgs
      = Except.map (fun x => { x with tables := T }) (w.enqueue_all msgs)
  | [], _ => rfl
  | m :: rest, w => by
    simp only [Worker.enqueue_all, enqueue_set_tables]
    cases w.enqueue_push_request m with
    | error f => rfl
    | ok w1 =>
      simp only [Except.map]
      exact enqueue_all_set_tables T rest w1

theorem push_all_eq (it : Item) : ∀ (l : List (Nat × Nat × Int)) (w : Worker),
    it.myTableKey < w.total_tables → (∀ x ∈ l, x.1 < w.total_tables) →
    w.push_all it l = w.enqueue_all (l.map (push_msg it))
  | [], _, _, _ => rfl
  | (dt, di, v) :: rest, w, hs, hd => by
    have h1 : dt < w.total_tables := hd (dt, di, v) (List.mem_cons_self _ _)
    simp only [Worker.push_all, Worker.push, hs, h1, not_true_eq_false, if_false, List.map_cons,
      Worker.enqueue_all, push_msg]
    cases he : w.enqueue_push_request
        { dest_table := dt, dest_item := di, src_table := it.myTableKey,
          src_item := it.myItemKey, value := v } with
    | error f => rfl
    | ok w1 =>
      have e1 := enqueue_frame w w1 _ he
      have ht : w1.total_tables = w.total_tables := by rw [e1]
      exact push_all_eq it rest w1 (ht ▸ hs)
        (fun x hx => ht ▸ hd x (List.mem_cons_of_mem _ hx))

theorem invoke_eq (w : Worker) (t p : Nat) (c : Call) (tb : TableContainer) (it : Item)
    (htb : w.tables[t]? = some tb) (hit : tb.objects[p]? = some it) :
    w.invoke t (some p) c = .ok (w.set_table t (tb.with_call p it c)) := by
  simp only [Worker.invoke, htb, TableContainer.invoke, hit, Worker.set_table,
    TableContainer.with_call]

theorem with_call_get (tb : TableContainer) (p : Nat) (it : Item) (c : Call)
    (hp : p < tb.objects.length) : (tb.with_call p it c).objects[p]? = some (it.invoke c) := by
  simp [TableContainer.with_call, List.getElem?_set_self hp]

theorem with_call_twice (tb : TableContainer) (p : Nat) (it it' : Item) (c c' : Call) :
    (tb.with_call p it c).with_call p it' c' = tb.with_call p it' c' := by
  simp [TableContainer.with_call, List.set_set]

theorem set_table_twice (w : Worker) (t : Nat) (a b : TableContainer) :
    (w.set_table t a).set_table t b = w.set_table t b := by
  simp [Worker.set_table, List.set_set]

/-- The body of the loop of `work` on an allocated item: its three callbacks
are logged, the messages its `do_work` pushes are enqueued in order. -/
theorem work_item_eq (prog : WorkProgram) (w : Worker) (t p : Nat) (tb : TableContainer)
    (it : Item) (htb : w.tables[t]? = some tb) (hit : tb.objects[p]? = some it)
    (hs : it.myTableKey < w.total_tables) (hd : ∀ x ∈ prog it.at_work, x.1 < w.total_tables) :
    w.work_item prog t (some p)
      = Except.map (fun we => we.set_table t (tb.with_call p it.at_work Call.finishing_work))
          (w.enqueue_all ((prog it.at_work).map (push_msg it.at_work))) := by
  have hp : p < tb.objects.length := (List.getElem?_eq_some_iff.mp hit).1
  have h1 := invoke_eq w t p Call.before_work tb it htb hit
  have htb1 := set_table_get w t tb (tb.with_call p it Call.before_work) htb
  have hit1 := with_call_get tb p it Call.before_work hp
  have h2 := invoke_eq _ t p Call.do_work _ _ htb1 hit1
  rw [set_table_twice, with_call_twice] at h2
  obtain ⟨tb2, htb2def⟩ : ∃ tb2, tb2 = tb.with_call p (it.invoke Call.before_work) Call.do_work :=
    ⟨_, rfl⟩
  rw [← htb2def] at h2
  have htb2 : (w.set_table t tb2).tables[t]? = some tb2 := set_table_get w t tb tb2 htb
  have hit2 : tb2.objects[p]? = some it.at_work := by
    rw [htb2def]; exact with_call_get tb p _ Call.do_work hp
  have hpush := push_all_eq it.at_work (prog it.at_work) (w.set_table t tb2) hs hd
  obtain ⟨T, hT⟩ : ∃ T, T = w.tables.set t tb2 := ⟨_, rfl⟩
  have hset := enqueue_all_set_tables T ((prog it.at_work).map (push_msg it.at_work)) w
  have hst : w.set_table t tb2 = { w with tables := T } := by rw [hT]; rfl
  simp only [Worker.work_item, h1, h2, htb2, hit2, hpush]
  rw [hst, hset]
  cases he : w.enqueue_all ((prog it.at_work).map (push_msg it.at_work)) with
  | error f => rfl
  | ok we =>
    have hfr := enqueue_all_frame _ w we he
    have htw : we.tables = w.tables := by rw [hfr]
    simp only [Except.map]
    have htb3 : (Worker.tables { we with tables := T })[t]? = some tb2 := by
      rw [hT]; exact htb2
    rw [invoke_eq _ t p Call.finishing_work _ _ htb3 hit2, htb2def, with_call_twice, hT]
    simp only [Worker.set_table, List.set_set, htw]

theorem invoke_inv (w w' : Worker) (t : Nat) (obj : Option Nat) (c : Call)
    (h : w.invoke t obj c = .ok w') :
    ∃ tb p it, w.tables[t]? = some tb ∧ obj = some p ∧ tb.objects[p]? = some it ∧
      w' = w.set_table t (tb.with_call p it c) := by
  simp only [Worker.invoke] at h
  rcases htb : w.tables[t]? with _ | tb <;> rcases obj with _ | p <;> rw [htb] at h <;>
    simp only [] at h <;> try cases h
  simp only [TableContainer.invoke] at h
  cases hit : tb.objects[p]? with
  | none => rw [hit] at h; cases h
  | some it =>
    rw [hit] at h
    simp only [Except.ok.injEq] at h
    exact ⟨tb, p, it, rfl, rfl, hit, h.symm⟩

theorem maps_set_with_call (w : Worker) (t p : Nat) (tb : TableContainer) (it : Item) (c : Call)
    (htb : w.tables[t]? = some tb) : (w.set_table t (tb.with_call p it c)).maps = w.maps := by
  simp only [Worker.maps, Worker.set_table, List.map_set]
  apply list_set_same
  simp [htb, TableContainer.with_call]

theorem invoke_maps (w w' : Worker) (t : Nat) (obj : Option Nat) (c : Call)
    (h : w.invoke t obj c = .ok w') : w'.maps = w.maps := by
  obtain ⟨tb, p, it, htb, -, -, rfl⟩ := invoke_inv w w' t obj c h
  exact maps_set_with_call w t p tb it c htb

theorem push_all_frame (it : Item) : ∀ (l : List (Nat × Nat × Int)) (w w' : Worker),
    w.push_all it l = .ok w' → w' = { w with shared := w'.shared }
  | [], w, w', h => by
    simp only [Worker.push_all, Except.ok.injEq] at h
    rw [← h]
  | (dt, di, v) :: rest, w, w', h => by
    simp only [Worker.push_all] at h
    cases h1 : w.push it dt di v with
    | error f => rw [h1] at h; cases h
    | ok w1 =>
      rw [h1] at h
      have e2 := push_all_frame it rest w1 w' h
      simp only [Worker.push] at h1
      split_ifs at h1
      have e1 := enqueue_frame w w1 _ h1
      rw [e2, e1]

theorem work_item_maps (prog : WorkProgram) (w w' : Worker) (t : Nat) (obj : Option Nat)
    (h : w.work_item prog t obj = .ok w') : w'.maps = w.maps := by
  simp only [Worker.work_item] at h
  cases h1 : w.invoke t obj Call.before_work with
  | error f => rw [h1] at h; cases h
  | ok w1 =>
    rw [h1] at h
    simp only [] at h
    cases h2 : w1.invoke t obj Call.do_work with
    | error f => rw [h2] at h; cases h
    | ok w2 =>
      rw [h2] at h
      simp only [] at h
      rcases htb : w2.tables[t]? with _ | tb <;> rcases obj with _ | p <;> rw [htb] at h <;>
        simp only [] at h <;> try cases h
      cases hit : tb.objects[p]? with
      | none => rw [hit] at h; cases h
      | some it =>
        rw [hit] at h
        simp only [] at h
        cases h3 : w2.push_all it (prog it) with
        | error f => rw [h3] at h; cases h
        | ok w3 =>
          rw [h3] at h
          simp only [] at h
          have e3 := push_all_frame it _ w2 w3 h3
          have m3 : w3.maps = w2.maps := by rw [e3]; rfl
          rw [invoke_maps w3 w' t _ _ h, m3, invoke_maps w1 w2 t _ _ h2,
            invoke_maps w w1 t _ _ h1]

theorem work_in_order_maps (prog : WorkProgram) : ∀ (vs : List (Nat × Option Nat))
    (w w' : Worker), Worker.work_in_order prog w vs = .ok w' → w'.maps = w.maps
  | [], w, w', h => by
    simp only [Worker.work_in_order, Except.ok.injEq] at h
    rw [h]
  | (t, obj) :: rest, w, w', h => by
    simp only [Worker.work_in_order] at h
    cases h1 : w.work_item prog t obj with
    | error f => rw [h1] at h; cases h
    | ok w1 =>
      rw [h1] at h
      rw [work_in_order_maps prog rest w1 w' h, work_item_maps prog w w1 t obj h1]

/-- The inner loop of `work` from an iterator that `begin()` or `operator++`
returned: the loop body runs for the non-empty slots from there on, in slot
order. -/
theorem work_table_loop_eq (prog : WorkProgram) (t : Nat) (m : Robin_Map Nat (Option Nat))
    (hlen : m.entries.length = m.size) :
    ∀ (fuel loc : Nat) (w : Worker) (tb : TableContainer), w.tables[t]? = some tb →
      tb.mapped_items = m → loc ≤ m.size →
      (loc < m.size → ∃ e, m.entries[loc]? = some e ∧ e.hash ≠ -1) →
      (live_list (m.entries.drop loc)).length < fuel →
      Worker.work_table_loop prog t fuel loc w
        = Worker.work_in_order prog w
            ((live_list (m.entries.drop loc)).map (fun e => (t, e.second)))
  | 0, _, _, _, _, _, _, _, hf => by omega
  | fuel + 1, loc, w, tb, htb, hm, hle, hlive, hf => by
    subst hm
    by_cases hend : loc = tb.mapped_items.size
    · subst hend
      simp only [Worker.work_table_loop, htb, Robin_Map.end_, if_true]
      rw [live_list_drop_end _ _ (by omega)]
      rfl
    · obtain ⟨e, he, hel⟩ := hlive (by omega)
      rw [live_list_drop_live _ loc e he hel] at hf ⊢
      simp only [Worker.work_table_loop, htb, Robin_Map.end_, hend, if_false, he, List.map_cons,
        Worker.work_in_order]
      cases h1 : w.work_item prog t e.second with
      | error f => rfl
      | ok w1 =>
        simp only []
        obtain ⟨loc1, i1, i2, i3, i4, i5⟩ := incr_loop_spec tb.mapped_items hlen
          tb.mapped_items.size loc (by omega) (by omega)
        have hincr : tb.mapped_items.incr loc = .ok loc1 := i1
        rw [hincr]
        simp only []
        obtain ⟨tb1, htb1, hm1⟩ := maps_get w w1 (work_item_maps prog w w1 t _ h1) t tb htb
        rw [i5]
        refine work_table_loop_eq prog t tb.mapped_items hlen fuel loc1 w1 tb1 htb1 hm1 i3 i4 ?_
        rw [← i5]
        simp only [List.length_cons] at hf
        omega

theorem live_list_length_le {K V : Type} (es : List (Entry K V)) :
    (live_list es).length ≤ es.length := List.length_filter_le _ _

theorem maps_length (w : Worker) : w.maps.length = w.tables.length := by
  simp [Worker.maps]

theorem maps_getElem (w : Worker) (t : Nat) (tb : TableContainer) (h : w.tables[t]? = some tb) :
    w.maps[t]? = some tb.mapped_items := by
  simp [Worker.maps, h]

theorem work_loop_eq (prog : WorkProgram) : ∀ (n t : Nat) (w : Worker),
    t + n = w.tables.length → (∀ m ∈ w.maps, m.entries.length = m.size) →
    for_loop (fun t (w1 : Worker) =>
        match w1.tables[t]? with
        | none => .error .out_of_bounds
        | some tb =>
          match tb.mapped_items.begin_ with
          | .error f => .error f
          | .ok loc => Worker.work_table_loop prog t (tb.mapped_items.size + 1) loc w1) n t w
      = Worker.work_in_order prog w (visits_from t (w.maps.drop t))
  | 0, t, w, h, _ => by
    rw [List.drop_of_length_le (by rw [maps_length]; omega)]
    rfl
  | n + 1, t, w, h, harr => by
    have ht : t < w.tables.length := by omega
    have htb : w.tables[t]? = some w.tables[t] := List.getElem?_eq_getElem ht
    have hmt := maps_getElem w t _ htb
    have hlm : t < w.maps.length := by rw [maps_length]; exact ht
    have hdrop : w.maps.drop t = w.tables[t].mapped_items :: w.maps.drop (t + 1) := by
      rw [List.drop_eq_getElem_cons hlm]
      congr 1
      have := List.getElem?_eq_getElem hlm
      rw [hmt] at this
      exact (Option.some.inj this).symm
    have hlen : w.tables[t].mapped_items.entries.length = w.tables[t].mapped_items.size :=
      harr _ (List.getElem?_mem hmt)
    obtain ⟨loc, b1, -, b3, b4, b5⟩ := begin_loop_spec w.tables[t].mapped_items hlen
      w.tables[t].mapped_items.size 0 (by omega)
    have hbegin : w.tables[t].mapped_items.begin_ = .ok loc := b1
    have hloop := work_table_loop_eq prog t w.tables[t].mapped_items hlen
      (w.tables[t].mapped_items.size + 1) loc w w.tables[t] htb rfl b3 b4 (by
        have := live_list_length_le (w.tables[t].mapped_items.entries.drop loc)
        simp only [List.length_drop] at this
        omega)
    rw [← b5, List.drop_zero] at hloop
    simp only [for_loop, htb, hbegin, hloop, hdrop, visits_from, work_in_order_append]
    cases hw : Worker.work_in_order prog w
        ((live_list w.tables[t].mapped_items.entries).map (fun e => (t, e.second))) with
    | error f => rfl
    | ok w1 =>
      simp only []
      have hm1 := work_in_order_maps prog _ w w1 hw
      have hl1 : w1.tables.length = w.tables.length := by
        rw [← maps_length, hm1, maps_length]
      have := work_loop_eq prog n (t + 1) w1 (by omega) (by rw [hm1]; exact harr)
      rw [hm1] at this
      exact this

/-- `work` is the loop body run over the items in iteration order. -/
theorem work_eq (prog : WorkProgram) (w : Worker)
    (harr : ∀ m ∈ w.maps, m.entries.length = m.size) :
    w.work prog = Worker.work_in_order prog w w.visit_order := by
  have := work_loop_eq prog w.tables.length 0 w (by omega) harr
  rw [List.drop_zero] at this
  exact this

theorem tablesOK_arr (hashf : Nat → Int) (w : Worker) (hok : w.TablesOK hashf) :
    ∀ m ∈ w.maps, m.entries.length = m.size := by
  intro m hm
  simp only [Worker.maps, List.mem_map] at hm
  obtain ⟨tb, htb, rfl⟩ := hm
  obtain ⟨t, ht, hget⟩ := List.getElem_of_mem htb
  exact ((hok t tb (by rw [List.getElem?_eq_getElem ht, hget])).1.1.1).1

/-! ## The effect of the work phase -/

theorem item_at_some (w : Worker) (t : Nat) (obj : Option Nat) (it : Item)
    (h : w.item_at t obj = some it) :
    ∃ tb p, w.tables[t]? = some tb ∧ obj = some p ∧ tb.objects[p]? = some it := by
  simp only [Worker.item_at] at h
  rcases htb : w.tables[t]? with _ | tb <;> rcases obj with _ | p <;> rw [htb] at h <;>
    simp only [] at h <;> try cases h
  exact ⟨tb, p, rfl, rfl, h⟩

theorem item_at_eq (w : Worker) (t p : Nat) (tb : TableContainer) (h : w.tables[t]? = some tb) :
    w.item_at t (some p) = tb.objects[p]? := by
  simp only [Worker.item_at, h]

theorem item_at_tables (w w' : Worker) (h : w'.tables = w.tables) (t : Nat) (obj : Option Nat) :
    w'.item_at t obj = w.item_at t obj := by
  simp only [Worker.item_at, h]

theorem item_at_set_table (w : Worker) (t p : Nat) (tb : TableContainer) (it it' : Item) (c : Call)
    (htb : w.tables[t]? = some tb) (hit : tb.objects[p]? = some it) (t' : Nat)
    (obj' : Option Nat) :
    (w.set_table t (tb.with_call p it' c)).item_at t' obj'
      = if (t', obj') = (t, some p) then some (it'.invoke c) else w.item_at t' obj' := by
  have hlt : t < w.tables.length := (List.getElem?_eq_some_iff.mp htb).1
  have hp : p < tb.objects.length := (List.getElem?_eq_some_iff.mp hit).1
  by_cases ht : t' = t
  · subst ht
    rcases obj' with _ | p'
    · simp [Worker.item_at, Worker.set_table, List.getElem?_set_self hlt]
    · by_cases hpp : p' = p
      · subst hpp
        simp [Worker.item_at, Worker.set_table, List.getElem?_set_self hlt,
          TableContainer.with_call, List.getElem?_set_self hp]
      · have hne : ¬ ((t', some p') = (t', some p)) := by
          intro h; injection h with _ h2; injection h2 with h3; exact hpp h3
        simp only [Worker.item_at, Worker.set_table, List.getElem?_set_self hlt, htb,
          TableContainer.with_call, List.getElem?_set_ne (Ne.symm hpp), hne, if_false]
  · have hne : ¬ ((t', obj') = (t, some p)) := by
      intro h; injection h with h1 _; exact ht h1
    simp only [Worker.item_at, Worker.set_table, List.getElem?_set_ne (Ne.symm ht), hne, if_false]

theorem work_msgs_congr (prog : WorkProgram) (w w' : Worker) :
    ∀ (vs : List (Nat × Option Nat)), (∀ v ∈ vs, w'.item_at v.1 v.2 = w.item_at v.1 v.2) →
      w'.work_msgs prog vs = w.work_msgs prog vs
  | [], _ => rfl
  | v :: rest, h => by
    simp only [Worker.work_msgs, h v (List.mem_cons_self _ _),
      work_msgs_congr prog w w' rest (fun x hx => h x (List.mem_cons_of_mem _ hx))]

theorem frozen_set_with_call (w : Worker) (t p : Nat) (tb : TableContainer) (it : Item)
    (c : Call) (htb : w.tables[t]? = some tb) (hit : tb.objects[p]? = some it)
    (it' : Item) (hfr : it'.frozen = it.frozen) :
    (w.set_table t (tb.with_call p it' c)).frozen = w.frozen := by
  simp only [Worker.frozen, Worker.set_table, List.map_set]
  apply list_set_same
  simp only [List.getElem?_map, htb, Option.map_some', TableContainer.with_call, List.map_set,
    Option.some.injEq]
  symm
  apply list_set_same
  simp only [List.getElem?_map, hit, Option.map_some', frozen_invoke, hfr]


theorem tableOK_with_call (hashf : Nat → Int) (tb : TableContainer) (hok : TableOK hashf tb)
    (p : Nat) (it it' : Item) (hit : tb.objects[p]? = some it)
    (hk : it'.myItemKey = it.myItemKey) (c : Call) :
    TableOK hashf (tb.with_call p it' c) := by
  refine ⟨hok.1, hok.2.1, ?_⟩
  intro e he
  obtain ⟨q, it2, h1, h2, h3⟩ := hok.2.2 e he
  by_cases hq : p = q
  · subst hq
    rw [hit] at h2
    cases h2
    have hp : p < tb.objects.length := (List.getElem?_eq_some_iff.mp hit).1
    exact ⟨p, it'.invoke c, h1,
      by simp [TableContainer.with_call, List.getElem?_set_self hp], hk.trans h3⟩
  · exact ⟨q, it2, h1,
      by simp only [TableContainer.with_call, List.getElem?_set_ne hq]; exact h2, h3⟩

theorem tablesOK_set_with_call (hashf : Nat → Int) (w : Worker) (hok : w.TablesOK hashf)
    (t p : Nat) (tb : TableContainer) (it it' : Item) (htb : w.tables[t]? = some tb)
    (hit : tb.objects[p]? = some it) (hk : it'.myItemKey = it.myItemKey) (c : Call) :
    (w.set_table t (tb.with_call p it' c)).TablesOK hashf := by
  have hlt : t < w.tables.length := (List.getElem?_eq_some_iff.mp htb).1
  intro t' tb' htb'
  by_cases ht : t = t'
  · subst ht
    simp only [Worker.set_table, List.getElem?_set_self hlt, Option.some.injEq] at htb'
    subst htb'
    exact ⟨tableOK_with_call hashf tb (hok t tb htb).1 p it it' hit hk c, (hok t tb htb).2⟩
  · simp only [Worker.set_table, List.getElem?_set_ne ht] at htb'
    exact hok t' tb' htb'

/-- The loop body of `work` run over a list of distinct allocated items whose
pushes pass the assertions of `Item::push`: it succeeds, every item of the list
gets `before_work`, `do_work`, `finishing_work` appended to its log, nothing
else changes in the tables, and the shared segment is the one after the
enqueues of the pushed messages, in visiting order. -/
theorem work_in_order_spec (hashf : Nat → Int) (prog : WorkProgram) :
    ∀ (vs : List (Nat × Option Nat)) (s : Worker), vs.Nodup → s.MemWF → s.TablesOK hashf →
    (∀ v ∈ vs, ∃ it, s.item_at v.1 v.2 = some it ∧ it.myTableKey < s.total_tables ∧
      ∀ x ∈ prog it.at_work, x.1 < s.total_tables) →
    ∃ se s', s.enqueue_all (s.work_msgs prog vs) = .ok se ∧
      Worker.work_in_order prog s vs = .ok s' ∧ s' = { se with tables := s'.tables } ∧
      s'.maps = s.maps ∧ s'.frozen = s.frozen ∧ s'.TablesOK hashf ∧
      ∀ t obj, s'.item_at t obj
        = (s.item_at t obj).map (fun it => if (t, obj) ∈ vs then it.worked else it)
  | [], s, _, _, hok, _ => by
    refine ⟨s, s, rfl, rfl, rfl, rfl, rfl, hok, ?_⟩
    intro t obj
    cases s.item_at t obj <;> simp
  | (t, obj) :: rest, s, hnd, hw, hok, hitems => by
    obtain ⟨it, hat, hsrc, hdst⟩ := hitems (t, obj) (List.mem_cons_self _ _)
    obtain ⟨tb, p, htb, rfl, hit⟩ := item_at_some s t obj it hat
    obtain ⟨se1, he1, hfr1, hwf1, -, -⟩ :=
      enqueue_all_spec ((prog it.at_work).map (push_msg it.at_work)) s hw
    have hwi := work_item_eq prog s t p tb it htb hit hsrc hdst
    rw [he1] at hwi
    simp only [Except.map] at hwi
    have htb1 : se1.tables[t]? = some tb := by rw [hfr1]; exact htb
    obtain ⟨s1, hs1⟩ : ∃ s1, s1 = se1.set_table t (tb.with_call p it.at_work Call.finishing_work) :=
      ⟨_, rfl⟩
    rw [← hs1] at hwi
    have hw1 : s1.MemWF := by rw [hs1]; exact hwf1
    have hok1 : s1.TablesOK hashf := by
      rw [hs1]
      exact tablesOK_set_with_call hashf se1 (by rw [hfr1]; exact hok) t p tb it it.at_work htb1
        hit rfl _
    have htt1 : s1.total_tables = s.total_tables := by rw [hs1, hfr1]; rfl
    have hitem1 : ∀ t' obj', s1.item_at t' obj'
        = if (t', obj') = (t, some p) then some it.worked else s.item_at t' obj' := by
      intro t' obj'
      rw [hs1, item_at_set_table se1 t p tb it it.at_work _ htb1 hit t' obj',
        item_at_tables s se1 (by rw [hfr1]) t' obj']
      rfl
    have hnotin : (t, some p) ∉ rest := (List.nodup_cons.mp hnd).1
    have hsame : ∀ v ∈ rest, s1.item_at v.1 v.2 = s.item_at v.1 v.2 := by
      intro v hv
      rw [hitem1 v.1 v.2, if_neg]
      intro heq
      exact hnotin (heq ▸ hv)
    obtain ⟨se2, s', h1, h2, h3, h4, h5, h6, h7⟩ := work_in_order_spec hashf prog rest s1
      (List.nodup_cons.mp hnd).2 hw1 hok1 (by
        intro v hv
        obtain ⟨it', a1, a2, a3⟩ := hitems v (List.mem_cons_of_mem _ hv)
        exact ⟨it', (hsame v hv).trans a1, htt1 ▸ a2, fun x hx => htt1 ▸ a3 x hx⟩)
    rw [work_msgs_congr prog s s1 rest hsame] at h1
    obtain ⟨T1, hT1⟩ : ∃ T1, T1 = s1.tables := ⟨_, rfl⟩
    have hs1' : s1 = { se1 with tables := T1 } := by rw [hT1, hs1]; rfl
    rw [hs1', enqueue_all_set_tables] at h1
    cases hq : se1.enqueue_all (s.work_msgs prog rest) with
    | error f => rw [hq] at h1; cases h1
    | ok se =>
      rw [hq] at h1
      simp only [Except.map, Except.ok.injEq] at h1
      refine ⟨se, s', ?_, ?_, ?_, ?_, ?_, h6, ?_⟩
      · simp only [Worker.work_msgs, hat, enqueue_all_append, he1]
        exact hq
      · simp only [Worker.work_in_order, hwi]
        exact h2
      · rw [h3, ← h1]
      · rw [h4, hs1, maps_set_with_call se1 t p tb _ _ htb1, hfr1]
        rfl
      · rw [h5, hs1, frozen_set_with_call se1 t p tb it _ htb1 hit it.at_work rfl, hfr1]
        rfl
      · intro t' obj'
        rw [h7 t' obj', hitem1 t' obj']
        by_cases heq : (t', obj') = (t, some p)
        · rw [if_pos heq]
          have hnr : (t', obj') ∉ rest := heq ▸ hnotin
          have hat' : s.item_at t' obj' = some it := by
            injection heq with e1 e2
            rw [e1, e2]; exact hat
          simp [hnr, hat', heq]
          intro hin
          exact absurd hin hnotin
        · rw [if_neg heq]
          cases s.item_at t' obj' with
          | none => rfl
          | some it2 => simp [List.mem_cons, heq]


/-! ## The visiting order -/

theorem visits_from_mem : ∀ (ms : List (Robin_Map Nat (Option Nat))) (t : Nat)
    (v : Nat × Option Nat),
    v ∈ visits_from t ms ↔
      ∃ i m e, ms[i]? = some m ∧ e ∈ live_list m.entries ∧ v = (t + i, e.second)
  | [], t, v => by simp [visits_from]
  | m :: rest, t, v => by
    simp only [visits_from, List.mem_append, List.mem_map, visits_from_mem rest (t + 1) v]
    constructor
    · rintro (⟨e, he, rfl⟩ | ⟨i, m', e, hi, he, rfl⟩)
      · exact ⟨0, m, e, by simp, he, rfl⟩
      · exact ⟨i + 1, m', e, by simpa using hi, he, by congr 1; omega⟩
    · rintro ⟨i, m', e, hi, he, rfl⟩
      cases i with
      | zero =>
        simp only [List.getElem?_cons_zero, Option.some.injEq] at hi
        subst hi
        left
        exact ⟨e, he, rfl⟩
      | succ i =>
        right
        exact ⟨i, m', e, by simpa using hi, he, by congr 1; omega⟩

/-- The visits of a worker are the pairs of a table key and a pointer stored in
that table's map. -/
theorem visit_order_mem (w : Worker) (v : Nat × Option Nat) :
    v ∈ w.visit_order ↔
      ∃ tb e, w.tables[v.1]? = some tb ∧ e ∈ live_list tb.mapped_items.entries ∧
        v.2 = e.second := by
  unfold Worker.visit_order
  rw [visits_from_mem]
  constructor
  · rintro ⟨i, m, e, hi, he, rfl⟩
    simp only [Worker.maps, List.getElem?_map, Option.map_eq_some'] at hi
    obtain ⟨tb, htb, rfl⟩ := hi
    exact ⟨tb, e, by simpa using htb, he, rfl⟩
  · rintro ⟨tb, e, htb, he, hv⟩
    refine ⟨v.1, tb.mapped_items, e, maps_getElem w v.1 tb htb, he, ?_⟩
    rw [Nat.zero_add, ← hv]

theorem visits_from_nodup : ∀ (ms : List (Robin_Map Nat (Option Nat))) (t : Nat),
    (∀ m ∈ ms, ((live_list m.entries).map Entry.second).Nodup) → (visits_from t ms).Nodup
  | [], _, _ => List.nodup_nil
  | m :: rest, t, h => by
    simp only [visits_from]
    rw [List.nodup_append]
    refine ⟨?_, visits_from_nodup rest (t + 1) (fun m' hm' => h m' (List.mem_cons_of_mem _ hm')),
      ?_⟩
    · have h1 := h m (List.mem_cons_self _ _)
      have h2 := h1.map (f := fun s => (t, s)) (fun a b hab => (Prod.mk.inj hab).2)
      simpa [List.map_map] using h2
    · intro v hv1 hv2
      simp only [List.mem_map] at hv1
      obtain ⟨e, -, rfl⟩ := hv1
      rw [visits_from_mem] at hv2
      obtain ⟨i, m', e', -, -, heq⟩ := hv2
      have := (Prod.mk.inj heq).1
      omega

theorem tableOK_pointers_nodup (hashf : Nat → Int) (tb : TableContainer)
    (hok : TableOK hashf tb) :
    ((live_list tb.mapped_items.entries).map Entry.second).Nodup := by
  have hd : ((live_list tb.mapped_items.entries).map Entry.first).Nodup := hok.2.1
  refine List.Nodup.map_on ?_ (List.Nodup.of_map _ hd)
  intro e1 h1 e2 h2 heq
  obtain ⟨p1, it1, a1, b1, c1⟩ := hok.2.2 e1 h1
  obtain ⟨p2, it2, a2, b2, c2⟩ := hok.2.2 e2 h2
  rw [a1, a2] at heq
  have hp : p1 = p2 := Option.some.inj heq
  subst hp
  rw [b1] at b2
  have hit : it1 = it2 := Option.some.inj b2
  subst hit
  exact entry_unique _ hok.2.1 e1 e2 h1 h2 (c1.symm.trans c2)

/-- No item is visited twice. -/
theorem visit_order_nodup (hashf : Nat → Int) (w : Worker) (hok : w.TablesOK hashf) :
    w.visit_order.Nodup := by
  apply visits_from_nodup
  intro m hm
  simp only [Worker.maps, List.mem_map] at hm
  obtain ⟨tb, htb, rfl⟩ := hm
  obtain ⟨t, ht, hget⟩ := List.getElem_of_mem htb
  exact tableOK_pointers_nodup hashf tb
    (hok t tb (by rw [List.getElem?_eq_getElem ht, hget])).1

/-- Every visit is the pointer of an allocated item, stored under the key the
item carries. -/
theorem visit_order_item (hashf : Nat → Int) (w : Worker) (hok : w.TablesOK hashf)
    (v : Nat × Option Nat) (hv : v ∈ w.visit_order) :
    ∃ tb e p it, w.tables[v.1]? = some tb ∧ e ∈ live_list tb.mapped_items.entries ∧
      e.second = some p ∧ v.2 = some p ∧ tb.objects[p]? = some it ∧ it.myItemKey = e.first ∧
      w.item_at v.1 v.2 = some it := by
  obtain ⟨tb, e, htb, he, hv2⟩ := (visit_order_mem w v).mp hv
  obtain ⟨p, it, a, b, c⟩ := (hok v.1 tb htb).1.2.2 e he
  refine ⟨tb, e, p, it, htb, he, a, hv2.trans a, b, c, ?_⟩
  rw [hv2, a, item_at_eq w v.1 p tb htb]
  exact b

theorem srcOK_item (w : Worker) (hs : w.SrcOK) (t : Nat) (obj : Option Nat) (it : Item)
    (h : w.item_at t obj = some it) : it.myTableKey < w.total_tables := by
  obtain ⟨tb, p, htb, -, hit⟩ := item_at_some w t obj it h
  have h1 : tb.objects.map Item.frozen ∈ w.frozen := by
    simp only [Worker.frozen, List.mem_map]
    exact ⟨tb, List.getElem?_mem htb, rfl⟩
  have h2 : it.frozen ∈ tb.objects.map Item.frozen :=
    List.mem_map.mpr ⟨it, List.getElem?_mem hit, rfl⟩
  exact hs _ h1 it.frozen h2

theorem worked_calls (it : Item) :
    it.worked = { it with calls := it.calls ++
      [Call.before_work, Call.do_work, Call.finishing_work] } := by
  simp [Item.worked, Item.at_work, Item.invoke]


/-- C19 (work phase order). On a worker with well-formed segments and tables
whose items may push (their table key and the destination tables they name
are below `total_tables`, the assertions of `Item::push`): `work()` is the
loop body run for the visits `visit_order`, one after the other, that is table
by table in increasing table key and within a table in the iteration order of
its map; no item is visited twice; `work()` succeeds; every visited item gets
`before_work`, `do_work`, `finishing_work` appended to its callback log, in
that order and once each, and no other item changes; the pushes reach
`enqueue_push_request` in visiting order; the maps are unchanged, so the next
work phase visits the same sequence, which is a function of the maps alone. -/
theorem C19_work_phase_order (hashf : Nat → Int) (prog : WorkProgram) (w : Worker)
    (hw : w.MemWF) (hok : w.TablesOK hashf) (hsrc : w.SrcOK)
    (hprog : ∀ it, ∀ x ∈ prog it, x.1 < w.total_tables) :
    w.work prog = Worker.work_in_order prog w w.visit_order ∧ w.visit_order.Nodup ∧
    (∀ w2 : Worker, w2.maps = w.maps → w2.visit_order = w.visit_order) ∧
    ∃ se w', w.enqueue_all (w.work_msgs prog w.visit_order) = .ok se ∧
      w.work prog = .ok w' ∧ w' = { se with tables := w'.tables } ∧
      w'.maps = w.maps ∧ w'.visit_order = w.visit_order ∧
      ∀ t obj it, w.item_at t obj = some it →
        w'.item_at t obj = some (if (t, obj) ∈ w.visit_order then
            { it with calls := it.calls ++
                [Call.before_work, Call.do_work, Call.finishing_work] }
          else it) := by
  have heq := work_eq prog w (tablesOK_arr hashf w hok)
  have hnd := visit_order_nodup hashf w hok
  obtain ⟨se, w', h1, h2, h3, h4, -, -, h7⟩ := work_in_order_spec hashf prog w.visit_order w hnd hw
    hok (by
      intro v hv
      obtain ⟨tb, e, p, it, -, -, -, -, -, -, hit⟩ := visit_order_item hashf w hok v hv
      exact ⟨it, hit, srcOK_item w hsrc v.1 v.2 it hit, hprog it.at_work⟩)
  refine ⟨heq, hnd, fun w2 h => by simp only [Worker.visit_order, h], se, w', h1, heq.trans h2, h3,
    h4, by simp only [Worker.visit_order, h4], ?_⟩
  intro t obj it hit
  rw [h7 t obj, hit, Option.map_some', worked_calls]

theorem sample_worker_item_memWF : sample_worker_item.MemWF := by
  obtain ⟨items, h1, -, -⟩ := sample_worker_item_eq
  rw [h1]
  exact sample_worker_memWF

theorem sample_worker_item_srcOK : sample_worker_item.SrcOK := by
  obtain ⟨items, h1, -, -⟩ := sample_worker_item_eq
  rw [h1]
  intro l hl it hit
  simp [Worker.frozen, Worker.set_table, sample_worker, Worker.add_table, Worker.new,
    TableContainer.with_new, sample_table, TableContainer.new] at hl
  subst hl
  simp [added_item, Item.frozen] at hit
  subst hit
  show 0 < sample_worker.total_tables
  decide

/-- The statement of C19 on `sample_worker_item`, whose item pushes the value 7
to itself in `do_work`. -/
theorem C19_work_phase_order_witness :
    sample_worker_item.MemWF ∧ sample_worker_item.TablesOK sample_hash ∧
    sample_worker_item.SrcOK ∧
    (∀ it : Item, ∀ x ∈ (fun _ => [(0, 2, 7)] : WorkProgram) it,
      x.1 < sample_worker_item.total_tables) ∧
    sample_worker_item.work (fun _ => [(0, 2, 7)])
      = Worker.work_in_order (fun _ => [(0, 2, 7)]) sample_worker_item
          sample_worker_item.visit_order ∧
    sample_worker_item.visit_order.Nodup ∧
    (∀ w2 : Worker, w2.maps = sample_worker_item.maps →
      w2.visit_order = sample_worker_item.visit_order) ∧
    ∃ se w', sample_worker_item.enqueue_all
        (sample_worker_item.work_msgs (fun _ => [(0, 2, 7)]) sample_worker_item.visit_order)
          = .ok se ∧
      sample_worker_item.work (fun _ => [(0, 2, 7)]) = .ok w' ∧
      w' = { se with tables := w'.tables } ∧
      w'.maps = sample_worker_item.maps ∧ w'.visit_order = sample_worker_item.visit_order ∧
      ∀ t obj it, sample_worker_item.item_at t obj = some it →
        w'.item_at t obj = some (if (t, obj) ∈ sample_worker_item.visit_order then
            { it with calls := it.calls ++
                [Call.before_work, Call.do_work, Call.finishing_work] }
          else it) := by
  have h1 := sample_worker_item_memWF
  have h2 := sample_worker_item_ready.2.2.2.2.2.1
  have h3 := sample_worker_item_srcOK
  have h4 : ∀ it : Item, ∀ x ∈ (fun _ => [(0, 2, 7)] : WorkProgram) it,
      x.1 < sample_worker_item.total_tables := by
    intro it x hx
    simp only [List.mem_singleton] at hx
    subst hx
    obtain ⟨items, e1, -, -⟩ := sample_worker_item_eq
    rw [e1]
    show 0 < sample_worker.total_tables
    decide
  exact ⟨h1, h2, h3, h4, C19_work_phase_order sample_hash _ sample_worker_item h1 h2 h3 h4⟩


/-! ## One iteration with its work phase -/

theorem cycle_iteration_eq (hashf : Nat → Int) (prog : WorkProgram) (do_work : Bool)
    (w : Worker) :
    w.cycle_iteration hashf prog do_work true
      = match w.comm_phase hashf with
        | .error f => .error f
        | .ok w3 =>
          match (if do_work then w3.work prog else .ok w3 : Except Fault Worker) with
          | .error f => .error f
          | .ok w4 => .ok { w4 with cycles_counter := w4.cycles_counter + 1 } := by
  simp only [Worker.cycle_iteration, Worker.comm_phase, if_true]

/-- The `do_comm` block on a quiet worker: the messages of the own send array
are delivered exactly once and afterwards all send counters are zero. -/
theorem comm_phase_spec (hashf : Nat → Int) (w0 w : Worker)
    (l : List Message) (hr : w.Ready) (hq : w.Quiet) (hf1 : w.rget_futures_size = [])
    (hf2 : w.rget_futures_msgs = []) (hd : Delivered hashf w0 w l)
    (hdl : ∀ m ∈ w.self_msgs, w0.Deliverable m) :
    ∃ w', w.comm_phase hashf = .ok w' ∧ w'.Ready ∧ w'.Quiet ∧
      w'.rget_futures_size = [] ∧ w'.rget_futures_msgs = [] ∧
      Delivered hashf w0 w' (l ++ w.self_msgs) ∧
      (∀ k, k < w'.total_workers → w'.send_count k = 0) ∧
      w'.config = w.config ∧ w'.statics = w.statics := by
  -- validate
  have hval : ∃ wv, (if w.is_local_root then w.validate_buffer_space else .ok w :
        Except Fault Worker) = .ok wv ∧ wv.skeleton = { w.skeleton with
          buffer_size_min := wv.buffer_size_min, buffer_size_max := wv.buffer_size_max,
          error := wv.error } ∧ wv.tables = w.tables ∧ wv.shared = w.shared ∧
        wv.total_nodes = w.total_nodes := by
    by_cases hroot : w.is_local_root = true
    · obtain ⟨mx, mn, hv, -⟩ := validate_spec w hq.1 (ready_handlesOK w hr)
      rw [if_pos hroot, hv]
      by_cases hmx : mx > w.BUFFER_MAX_SIZE
      · rw [if_pos hmx]; exact ⟨_, rfl, rfl, rfl, rfl, rfl⟩
      · rw [if_neg hmx]; exact ⟨_, rfl, rfl, rfl, rfl, rfl⟩
    · rw [if_neg hroot]; exact ⟨w, rfl, rfl, rfl, rfl, rfl⟩
  obtain ⟨wv, hv, hskv, htv, hshv, htnv⟩ := hval
  have ecfg : wv.config = w.config := by
    have c1 : wv.team_total_workers = w.team_total_workers := by
      have := congrArg Worker.team_total_workers hskv; exact this
    have c2 : wv.rank_n_ = w.rank_n_ := by
      have := congrArg Worker.rank_n_ hskv; exact this
    have c4 : wv.team_rank_me_ = w.team_rank_me_ := by
      have := congrArg Worker.team_rank_me_ hskv; exact this
    have c5 : wv.total_tables = w.total_tables := by
      have := congrArg Worker.total_tables hskv; exact this
    have c6 : wv.cycles_counter = w.cycles_counter := by
      have := congrArg Worker.cycles_counter hskv; exact this
    simp only [Worker.config, c1, c2, htnv, c4, c5, c6]
  have estat : wv.statics = w.statics := by
    have e1 : wv.their_push_size_g = w.their_push_size_g := by
      have := congrArg Worker.their_push_size_g hskv; exact this
    have e2 : wv.their_push_buffers_g = w.their_push_buffers_g := by
      have := congrArg Worker.their_push_buffers_g hskv; exact this
    have e3 : wv.their_local_push_size = w.their_local_push_size := by
      have := congrArg Worker.their_local_push_size hskv; exact this
    have e4 : wv.their_local_push_buffers = w.their_local_push_buffers := by
      have := congrArg Worker.their_local_push_buffers hskv; exact this
    have e5 : wv.total_workers = w.total_workers := by
      have := congrArg Worker.total_workers hskv; exact this
    have e6 : wv.proc_local = w.proc_local := by
      have := congrArg Worker.proc_local hskv; exact this
    have e7 : wv.rank_me_ = w.rank_me_ := by
      have := congrArg Worker.rank_me_ hskv; exact this
    have e8 : wv.BUFFER_MAX_SIZE = w.BUFFER_MAX_SIZE := by
      have := congrArg Worker.BUFFER_MAX_SIZE hskv; exact this
    simp only [Worker.statics, e1, e2, e3, e4, e5, e6, e7, e8]
  obtain ⟨eN, eR, eM, -⟩ := statics_fields w wv estat
  have hrv : wv.Ready := ready_of_statics w wv estat hr
  have hstgv : wv.StagingOK := stagingOK_of_eq w wv hq.2.1
    (by have := congrArg Worker.their_remote_push_size hskv; exact this)
    (by have := congrArg Worker.their_remote_push_buffers hskv; exact this) eN eM
  have hqv : wv.Quiet := quiet_of_statics w wv estat hq (hshv ▸ hq.1.1) hstgv
    (fun i hi hne => by rw [hshv]; exact hq.2.2.2 i hi hne)
  have hdv : Delivered hashf w0 wv l := delivered_frame hashf w0 w wv l hd htv eN eR eM
  have hselfv : wv.self_msgs = w.self_msgs := by
    simp only [Worker.self_msgs, hshv, eR, eM]
  have hf1v : wv.rget_futures_size = [] := by
    have := congrArg Worker.rget_futures_size hskv; exact this.trans hf1
  have hf2v : wv.rget_futures_msgs = [] := by
    have := congrArg Worker.rget_futures_msgs hskv; exact this.trans hf2
  -- exchange
  have hex : ∃ w2, (if wv.total_nodes = 1 ∧ UPCXX_GPTR_LOCAL_ON then
        wv.apply_push_incoming_local hashf else wv.apply_push_incoming_remote hashf) = .ok w2 ∧
      w2.statics = wv.statics ∧ w2.Quiet ∧ Delivered hashf w0 w2 (l ++ w.self_msgs) ∧
      w2.config = wv.config := by
    by_cases hpath : wv.total_nodes = 1 ∧ UPCXX_GPTR_LOCAL_ON
    · obtain ⟨w2, h1, h2, h3, h4, -⟩ := incoming_local_spec hashf w0 wv l hrv hqv hdv
        (by rw [hselfv]; exact hdl)
      rw [if_pos hpath]
      exact ⟨w2, h1, statics_of_skeleton wv w2 h2, h3, hselfv ▸ h4,
        incoming_local_config hashf wv w2 h1⟩
    · obtain ⟨w2, h1, h2, h3, h4⟩ := incoming_remote_spec hashf w0 wv l hrv hqv hf1v hf2v hdv
        (by rw [hselfv]; exact hdl)
      rw [if_neg hpath]
      exact ⟨w2, h1, h2, h3, hselfv ▸ h4, incoming_remote_config hashf wv w2 h1⟩
  obtain ⟨w2, hx, estat2, hq2, hd2, ecfg2⟩ := hex
  -- clear
  obtain ⟨w3, hcl, estat3, ht3, hq3, hc1, hc2, hzero, -⟩ := clear_buffers_spec w2 hq2
  obtain ⟨eN3, eR3, eM3, -⟩ := statics_fields w2 w3 estat3
  have hr3 : w3.Ready := ready_of_statics w2 w3 estat3 (ready_of_statics wv w2 estat2 hrv)
  have hd3 : Delivered hashf w0 w3 (l ++ w.self_msgs) :=
    delivered_frame hashf w0 w2 w3 _ hd2 ht3 eN3 eR3 eM3
  refine ⟨w3, ?_, hr3, hq3, hc1, hc2, hd3, ?_,
    ((clear_buffers_config w2 w3 hcl).trans ecfg2).trans ecfg,
    (estat3.trans estat2).trans estat⟩
  · unfold Worker.comm_phase
    simp only [hv, hx, hcl]
  · intro k hk
    rw [eN3] at hk
    have := hzero k hk
    simp only [Worker.send_count, eR3]
    exact this


theorem calls_of_item_at (w : Worker) (t p : Nat) :
    w.calls_of t p = match w.item_at t (some p) with
      | some it => it.calls
      | none => [] := by
  simp only [Worker.calls_of, Worker.item_at]
  cases w.tables[t]? with
  | none => rfl
  | some tb =>
    simp only []
    cases tb.objects[p]? with
    | none => rfl
    | some it => rfl

theorem deliverable_of_maps (w w' : Worker) (hm : w'.maps = w.maps)
    (hn : w'.total_workers = w.total_workers) (hr : w'.rank_me_ = w.rank_me_) (m : Message)
    (hd : w.Deliverable m) : w'.Deliverable m := by
  obtain ⟨tb, p, htb, hhas, hp⟩ := hd
  obtain ⟨tb', htb', hmi⟩ := maps_get w w' hm m.dest_table tb htb
  refine ⟨tb', p, htb', by rw [hmi]; exact hhas, ?_⟩
  simp only [Worker.get_partition, hn, hr] at hp ⊢
  exact hp

theorem work_msgs_mem (prog : WorkProgram) (w : Worker) :
    ∀ (vs : List (Nat × Option Nat)) (m : Message), m ∈ w.work_msgs prog vs →
      ∃ it x, x ∈ prog it ∧ m = push_msg it x
  | [], m, h => by simp [Worker.work_msgs] at h
  | v :: rest, m, h => by
    simp only [Worker.work_msgs, List.mem_append] at h
    rcases h with h | h
    · cases hit : w.item_at v.1 v.2 with
      | none => rw [hit] at h; simp at h
      | some it =>
        rw [hit] at h
        simp only [List.mem_map] at h
        obtain ⟨x, hx, rfl⟩ := h
        exact ⟨it.at_work, x, hx, rfl⟩
    · exact work_msgs_mem prog w rest m h

theorem srcOK_of_frozen (w w' : Worker) (hf : w'.frozen = w.frozen)
    (ht : w'.total_tables = w.total_tables) (hs : w.SrcOK) : w'.SrcOK := by
  intro l hl it hit
  rw [hf] at hl
  rw [ht]
  exact hs l hl it hit

/-- One iteration of `cycle(_, do_work = true, do_comm = true)` on a steady
worker: the exchange phase delivers the messages of the own send array, then
the work phase runs on every stored item, and the messages it pushes for this
rank are the new content of the own send array. -/
theorem iteration_spec (hashf : Nat → Int) (prog : WorkProgram) (w : Worker)
    (hst : w.Steady hashf) (hp : w.ProgOK prog)
    (hdl : ∀ m ∈ w.self_msgs, w.Deliverable m) :
    ∃ w3 w', w.comm_phase hashf = .ok w3 ∧ w.cycle_iteration hashf prog true true = .ok w' ∧
      w'.Steady hashf ∧ w'.ProgOK prog ∧ (∀ m ∈ w'.self_msgs, w'.Deliverable m) ∧
      Delivered hashf w w3 w.self_msgs ∧
      w'.maps = w.maps ∧ w'.frozen = w.frozen ∧ w'.statics = w.statics ∧
      w'.total_tables = w.total_tables ∧ w'.cycles_counter = w.cycles_counter + 1 ∧
      (∀ t obj, w'.item_at t obj
        = (w3.item_at t obj).map (fun it => if (t, obj) ∈ w.visit_order then it.worked else it)) ∧
      w'.self_msgs = (sent_to w.total_workers w.rank_me_
        (w3.work_msgs prog w.visit_order)).take w.BUFFER_MAX_SIZE := by
  obtain ⟨hr, hq, hf1, hf2, hok, hsrc⟩ := hst
  obtain ⟨w3, hc, hr3, hq3, hg1, hg2, hd3, hz3, hcfg3, hstat3⟩ :=
    comm_phase_spec hashf w w [] hr hq hf1 hf2 (delivered_refl hashf w hok) hdl
  rw [List.nil_append] at hd3
  obtain ⟨-, -, -, -, eT3, eC3⟩ := config_fields w w3 hcfg3
  obtain ⟨eN3, eR3, eM3, ePL3, -⟩ := statics_fields w w3 hstat3
  have hm3 : w3.maps = w.maps := hd3.1
  have hok3 : w3.TablesOK hashf := hd3.2.1
  have hfr3 : w3.frozen = w.frozen := hd3.2.2.2.2.2.2
  have hsrc3 : w3.SrcOK := srcOK_of_frozen w w3 hfr3 eT3 hsrc
  have hvo3 : w3.visit_order = w.visit_order := by simp only [Worker.visit_order, hm3]
  have hnd := visit_order_nodup hashf w3 hok3
  obtain ⟨se, w4, h1, h2, h3, h4, h5, h6, h7⟩ := work_in_order_spec hashf prog w3.visit_order w3
    hnd hq3.1 hok3 (by
      intro v hv
      obtain ⟨tb, e, p, it, -, -, -, -, -, -, hit⟩ := visit_order_item hashf w3 hok3 v hv
      refine ⟨it, hit, srcOK_item w3 hsrc3 v.1 v.2 it hit, ?_⟩
      intro x hx
      rw [eT3]
      exact (hp it.at_work x hx).1)
  have hwork : w3.work prog = .ok w4 := (work_eq prog w3 (tablesOK_arr hashf w3 hok3)).trans h2
  obtain ⟨se', g1, g2, g3, g4, g5⟩ := enqueue_all_spec (w3.work_msgs prog w3.visit_order) w3 hq3.1
  rw [h1] at g1
  cases g1
  have e4 : w4 = { w3 with shared := se.shared, tables := w4.tables } := by
    rw [h3]
    conv_lhs => rw [g2]
  have hN4 : w4.total_workers = w3.total_workers := by rw [e4]
  have hR4 : w4.rank_me_ = w3.rank_me_ := by rw [e4]
  have hM4 : w4.BUFFER_MAX_SIZE = w3.BUFFER_MAX_SIZE := by rw [e4]
  have hS4 : w4.shared = se.shared := by rw [e4]
  have hstat4 : w4.statics = w3.statics := by rw [e4]; rfl
  have hT4 : w4.total_tables = w3.total_tables := by rw [e4]
  have hC4 : w4.cycles_counter = w3.cycles_counter := by rw [e4]
  have hwf4 : w4.MemWF := by
    refine ⟨?_, ?_⟩
    · rw [hS4, hN4, hM4]
      have := g3.1
      rw [show se.total_workers = w3.total_workers by rw [g2],
        show se.BUFFER_MAX_SIZE = w3.BUFFER_MAX_SIZE by rw [g2]] at this
      exact this
    · rw [hR4, hN4]; exact hq3.1.2
  have hstg4 : w4.StagingOK := stagingOK_of_eq w3 w4 hq3.2.1 (by rw [e4]) (by rw [e4]) hN4 hM4
  have hq4 : w4.Quiet := by
    refine ⟨hwf4, hstg4, ?_, ?_⟩
    · rw [show w4.proc_local = w3.proc_local by rw [e4], hR4]; exact hq3.2.2.1
    · intro i hi hne
      rw [hN4] at hi
      rw [hR4] at hne
      rw [hS4, (g5 (dist_fetch i i) (by rw [dist_fetch_fst]; exact hne)).1]
      exact hq3.2.2.2 i hi hne
  have hr4 : w4.Ready := ready_of_statics w3 w4 hstat4 hr3
  have hfut1 : w4.rget_futures_size = [] := by rw [e4]; exact hg1
  have hfut2 : w4.rget_futures_msgs = [] := by rw [e4]; exact hg2
  have hsrc4 : w4.SrcOK := srcOK_of_frozen w3 w4 h5 hT4 hsrc3
  have hself4 : w4.self_msgs = (sent_to w.total_workers w.rank_me_
      (w3.work_msgs prog w.visit_order)).take w.BUFFER_MAX_SIZE := by
    have h0 : w3.SendHolds [] w3.rank_me_ :=
      ⟨by simpa [sent_to] using hz3 w3.rank_me_ hq3.1.2, by simp [sent_to]⟩
    have hh := g4 [] w3.rank_me_ hq3.1.2 h0
    rw [List.nil_append] at hh
    simp only [Worker.SendHolds, Worker.send_count, Worker.send_buffer,
      show se.total_workers = w3.total_workers by rw [g2],
      show se.rank_me_ = w3.rank_me_ by rw [g2],
      show se.BUFFER_MAX_SIZE = w3.BUFFER_MAX_SIZE by rw [g2]] at hh
    obtain ⟨c1, c2⟩ := hh
    simp only [Worker.self_msgs, dist_fetch, hS4, hR4, hM4, c1]
    rw [c2, hvo3, eN3, eR3, eM3]
  -- the result
  have hres : w.cycle_iteration hashf prog true true
      = .ok { w4 with cycles_counter := w4.cycles_counter + 1 } := by
    rw [cycle_iteration_eq]
    simp only [hc, if_true, hwork]
  refine ⟨w3, { w4 with cycles_counter := w4.cycles_counter + 1 }, hc, hres,
    ⟨hr4, hq4, hfut1, hfut2, h6, hsrc4⟩, ?_, ?_, hd3, h4.trans hm3, h5.trans hfr3,
    hstat4.trans hstat3, hT4.trans eT3, ?_, ?_, hself4⟩
  · intro it x hx
    obtain ⟨a, b⟩ := hp it x hx
    refine ⟨(hT4.trans eT3).symm ▸ a, ?_⟩
    intro hpart
    have hpart' : w.get_partition x.1 x.2.1 = w.rank_me_ := by
      simp only [Worker.get_partition] at hpart ⊢
      rw [← eN3, ← hN4, ← eR3, ← hR4]
      exact hpart
    exact deliverable_of_maps w _ (h4.trans hm3) (hN4.trans eN3) (hR4.trans eR3) _ (b hpart')
  · intro m hm
    have hm' : m ∈ w4.self_msgs := hm
    rw [hself4] at hm'
    have hm2 := List.mem_of_mem_take hm'
    simp only [sent_to, List.mem_filter, decide_eq_true_eq] at hm2
    obtain ⟨hmem, hpart⟩ := hm2
    obtain ⟨it, x, hx, rfl⟩ := work_msgs_mem prog w3 _ m hmem
    exact deliverable_of_maps w _ (h4.trans hm3) (hN4.trans eN3) (hR4.trans eR3) _
      ((hp it x hx).2 hpart)
  · show w4.cycles_counter + 1 = w.cycles_counter + 1
    rw [hC4, eC3]
  · intro t obj
    have := h7 t obj
    rw [hvo3] at this
    exact this


theorem item_at_frozen (w : Worker) (t : Nat) (obj : Option Nat) :
    (w.item_at t obj).map Item.frozen
      = match w.frozen[t]?, obj with
        | some l, some p => l[p]?
        | _, _ => none := by
  simp only [Worker.item_at, Worker.frozen, List.getElem?_map]
  cases w.tables[t]? with
  | none => rfl
  | some tb =>
    cases obj with
    | none => rfl
    | some p => simp

theorem at_work_frozen (it : Item) : it.at_work.frozen = it.frozen := rfl

theorem push_msg_frozen (it it2 : Item) (h : it.frozen = it2.frozen) (x : Nat × Nat × Int) :
    push_msg it x = push_msg it2 x := by
  have h1 : it.frozen.myTableKey = it2.frozen.myTableKey := congrArg Item.myTableKey h
  have h2 : it.frozen.myItemKey = it2.frozen.myItemKey := congrArg Item.myItemKey h
  simp only [Item.frozen] at h1 h2
  simp only [push_msg, h1, h2]

/-- A static program pushes the same messages whenever the items are the same
up to their callback logs. -/
theorem work_msgs_static (prog : WorkProgram) (hs : prog_static prog) (w w' : Worker)
    (hf : w'.frozen = w.frozen) :
    ∀ (vs : List (Nat × Option Nat)), w'.work_msgs prog vs = w.work_msgs prog vs
  | [] => rfl
  | v :: rest => by
    simp only [Worker.work_msgs, work_msgs_static prog hs w w' hf rest]
    congr 1
    have h := item_at_frozen w' v.1 v.2
    rw [hf, ← item_at_frozen w v.1 v.2] at h
    cases h1 : w'.item_at v.1 v.2 with
    | none =>
      rw [h1] at h
      cases h2 : w.item_at v.1 v.2 with
      | none => rfl
      | some it2 => rw [h2] at h; simp at h
    | some it1 =>
      rw [h1] at h
      cases h2 : w.item_at v.1 v.2 with
      | none => rw [h2] at h; simp at h
      | some it2 =>
        rw [h2] at h
        simp only [Option.map_some', Option.some.injEq] at h
        have h3 : it1.at_work.frozen = it2.at_work.frozen := h
        simp only [hs _ _ h3]
        apply List.map_congr_left
        intro x _
        exact push_msg_frozen _ _ h3 x

/-- One iteration of `cycle(_, true, true)` on a steady worker running a static
program, in terms of the callback logs. -/
theorem iteration_calls (hashf : Nat → Int) (prog : WorkProgram) (hs : prog_static prog)
    (w : Worker) (hst : w.Steady hashf) (hp : w.ProgOK prog)
    (hdl : ∀ m ∈ w.self_msgs, w.Deliverable m) :
    ∃ w', w.cycle_iteration hashf prog true true = .ok w' ∧
      w'.Steady hashf ∧ w'.ProgOK prog ∧ (∀ m ∈ w'.self_msgs, w'.Deliverable m) ∧
      w'.maps = w.maps ∧ w'.frozen = w.frozen ∧ w'.statics = w.statics ∧
      w'.total_tables = w.total_tables ∧ w'.cycles_counter = w.cycles_counter + 1 ∧
      (∀ t tb e p, w.tables[t]? = some tb → e ∈ live_list tb.mapped_items.entries →
        e.second = some p →
        w'.calls_of t p = w.calls_of t p ++ recv_calls t e.first w.self_msgs ++
          [Call.before_work, Call.do_work, Call.finishing_work]) ∧
      w'.self_msgs = (sent_to w.total_workers w.rank_me_
        (w.work_msgs prog w.visit_order)).take w.BUFFER_MAX_SIZE := by
  obtain ⟨w3, w', h1, h2, h3, h4, h5, h6, h7, h8, h9, h10, h11, h12, h13⟩ :=
    iteration_spec hashf prog w hst hp hdl
  refine ⟨w', h2, h3, h4, h5, h7, h8, h9, h10, h11, ?_, ?_⟩
  · intro t tb e p htb he hep
    have hc3 := h6.2.2.2.2.2.1 t tb e p htb he hep
    have hv : (t, some p) ∈ w.visit_order :=
      (visit_order_mem w (t, some p)).mpr ⟨tb, e, htb, he, hep.symm⟩
    obtain ⟨tb3, htb3, hm3⟩ := maps_get w w3 h6.1 t tb htb
    obtain ⟨p3, it3, a, b, -⟩ := (h6.2.1 t tb3 htb3).1.2.2 e (by rw [hm3]; exact he)
    rw [hep] at a
    cases a
    have hi3 : w3.item_at t (some p) = some it3 := by
      rw [item_at_eq w3 t p tb3 htb3]; exact b
    have hc3' : w3.calls_of t p = it3.calls := by
      rw [calls_of_item_at, hi3]
    rw [calls_of_item_at, h12 t (some p), hi3, Option.map_some', if_pos hv, ← hc3, hc3',
      worked_calls]
  · rw [h13, work_msgs_static prog hs w w3 h6.2.2.2.2.2.2]


theorem recv_calls_nil (t k : Nat) : recv_calls t k [] = [] := rfl

/-- `cycle(k, true, true)` from empty buffers with a static program: every
iteration but the first delivers, before its work phase, the messages that the
work phase of the previous iteration pushed for this rank (the first `M` of
them), so the log of every stored item grows by `steady_log`, and after the
last iteration the messages of its work phase are still in the send array. -/
theorem cycle_work_spec (hashf : Nat → Int) (prog : WorkProgram) (hs : prog_static prog)
    (w : Worker) (k : Nat)
    (hboot : (w.cycles_counter = 0 ∧ w.Fresh) ∨ (w.cycles_counter ≠ 0 ∧ w.Ready))
    (hq : w.Quiet) (hf1 : w.rget_futures_size = []) (hf2 : w.rget_futures_msgs = [])
    (hok : w.TablesOK hashf) (hsrc : w.SrcOK) (hp : w.ProgOK prog)
    (hempty : w.self_msgs = []) :
    ∃ w', w.cycle hashf prog k true true = .ok w' ∧ w'.maps = w.maps ∧ w'.frozen = w.frozen ∧
      (∀ t tb e p, w.tables[t]? = some tb → e ∈ live_list tb.mapped_items.entries →
        e.second = some p →
        w'.calls_of t p = w.calls_of t p ++ steady_log (recv_calls t e.first
          ((sent_to w.total_workers w.rank_me_
            (w.work_msgs prog w.visit_order)).take w.BUFFER_MAX_SIZE)) k) ∧
      (1 ≤ k → w'.self_msgs = (sent_to w.total_workers w.rank_me_
          (w.work_msgs prog w.visit_order)).take w.BUFFER_MAX_SIZE) := by
  have hstart : ∃ w1, (if w.cycles_counter = 0 then w.create_buffers_gptr_wait else .ok w :
        Except Fault Worker) = .ok w1 ∧ w1.Ready ∧ w1.Quiet ∧ w1.rget_futures_size = [] ∧
      w1.rget_futures_msgs = [] ∧ w1.tables = w.tables ∧ w1.total_workers = w.total_workers ∧
      w1.rank_me_ = w.rank_me_ ∧ w1.BUFFER_MAX_SIZE = w.BUFFER_MAX_SIZE ∧
      w1.shared = w.shared ∧ w1.total_tables = w.total_tables := by
    rcases hboot with ⟨hc, hfr⟩ | ⟨hc, hrd⟩
    · obtain ⟨w1, h1, h2, h3, h4, h5, h6, h7, h8, h9, h10⟩ := gptr_wait_spec w hfr hq
      rw [if_pos hc]
      exact ⟨w1, h1, h2, h3, h9.trans hf1, h10.trans hf2, h4, h5, h6, h7, h8,
        (config_fields w w1 (gptr_wait_config w w1 h1)).2.2.2.2.1⟩
    · rw [if_neg hc]
      exact ⟨w, rfl, hrd, hq, hf1, hf2, rfl, rfl, rfl, rfl, rfl, rfl⟩
  obtain ⟨w1, hs1, hr1, hq1, hg1, hg2, eT, eN, eR, eM, eS, eTT⟩ := hstart
  have hm1 : w1.maps = w.maps := by simp only [Worker.maps, eT]
  have hfr1 : w1.frozen = w.frozen := by simp only [Worker.frozen, eT]
  have hok1 : w1.TablesOK hashf := fun t tb htb => hok t tb (eT ▸ htb)
  have hsrc1 : w1.SrcOK := srcOK_of_frozen w w1 hfr1 eTT hsrc
  have hp1 : w1.ProgOK prog := by
    intro it x hx
    obtain ⟨a, b⟩ := hp it x hx
    refine ⟨eTT.symm ▸ a, ?_⟩
    intro hpart
    have hpart' : w.get_partition x.1 x.2.1 = w.rank_me_ := by
      simp only [Worker.get_partition] at hpart ⊢
      rw [← eN, ← eR]
      exact hpart
    exact deliverable_of_maps w w1 hm1 eN eR _ (b hpart')
  have hself1 : w1.self_msgs = [] := (self_msgs_eq w w1 eS eR eM).trans hempty
  obtain ⟨L, hL⟩ : ∃ L, L = (sent_to w.total_workers w.rank_me_
      (w.work_msgs prog w.visit_order)).take w.BUFFER_MAX_SIZE := ⟨_, rfl⟩
  rw [← hL]
  obtain ⟨w', hloop, hP⟩ := for_range_inv
    (fun _ w2 => Worker.cycle_iteration hashf prog true true w2)
    (fun i s => s.Steady hashf ∧ s.ProgOK prog ∧ (∀ m ∈ s.self_msgs, s.Deliverable m) ∧
      s.maps = w.maps ∧ s.frozen = w.frozen ∧ s.total_workers = w.total_workers ∧
      s.rank_me_ = w.rank_me_ ∧ s.BUFFER_MAX_SIZE = w.BUFFER_MAX_SIZE ∧
      s.self_msgs = (if i = 0 then [] else L) ∧
      ∀ t tb e p, w.tables[t]? = some tb → e ∈ live_list tb.mapped_items.entries →
        e.second = some p →
        s.calls_of t p = w.calls_of t p ++ steady_log (recv_calls t e.first L) i)
    k w1
    ⟨⟨hr1, hq1, hg1, hg2, hok1, hsrc1⟩, hp1, by rw [hself1]; simp, hm1, hfr1, eN, eR, eM,
      by rw [hself1]; rfl, by
        intro t tb e p _ _ _
        simp only [steady_log, List.append_nil, Worker.calls_of, eT]⟩
    (by
      intro i s _ ⟨a1, a2, a3, a4, a5, a6, a7, a8, a9, a10⟩
      obtain ⟨s2, b1, b2, b3, b4, b5, b6, b7, -, -, b10, b11⟩ :=
        iteration_calls hashf prog hs s a1 a2 a3
      obtain ⟨cN, cR, cM, -⟩ := statics_fields s s2 b7
      have hvo : s.visit_order = w.visit_order := by simp only [Worker.visit_order, a4]
      refine ⟨s2, b1, b2, b3, b4, b5.trans a4, b6.trans a5, cN.trans a6, cR.trans a7,
        cM.trans a8, ?_, ?_⟩
      · rw [if_neg (by omega), b11, a6, a7, a8, hvo, work_msgs_static prog hs w s a5, hL]
      · intro t tb e p htb he hep
        obtain ⟨tbs, htbs, hms⟩ := maps_get w s a4 t tb htb
        have := b10 t tbs e p htbs (by rw [hms]; exact he) hep
        rw [this, a10 t tb e p htb he hep, a9]
        by_cases hi : i = 0
        · subst hi
          simp [steady_log, recv_calls_nil]
        · simp [steady_log, hi])
  refine ⟨w', ?_, hP.2.2.2.1, hP.2.2.2.2.1, hP.2.2.2.2.2.2.2.2.2, ?_⟩
  · unfold Worker.cycle
    rw [hs1]
    exact hloop
  · intro hk
    have := hP.2.2.2.2.2.2.2.2.1
    rwa [if_neg (by omega)] at this


/-! ## Fan-in -/

theorem accumulated_append : ∀ (a b : List Call),
    accumulated (a ++ b) = accumulated a + accumulated b
  | [], b => by simp [accumulated]
  | c :: a, b => by
    cases c <;> simp [accumulated, accumulated_append a b, add_assoc]

theorem accumulated_replicate (v : Int) : ∀ n : Nat,
    accumulated (List.replicate n (Call.on_push_recv v)) = (n : Int) * v
  | 0 => by simp [accumulated]
  | n + 1 => by
    simp only [List.replicate_succ, accumulated, accumulated_replicate v n]
    push_cast
    ring

theorem accumulated_steady (R : List Call) : ∀ k : Nat,
    accumulated (steady_log R (k + 1)) = (k : Int) * accumulated R
  | 0 => by simp [steady_log, accumulated]
  | k + 1 => by
    have ih := accumulated_steady R k
    have hW : accumulated [Call.before_work, Call.do_work, Call.finishing_work] = 0 := rfl
    rw [steady_log, accumulated_append, accumulated_append, ih, hW, if_neg (by omega)]
    push_cast
    ring

theorem fan_in_static (senders : List (Nat × Nat)) (tr kr : Nat) (v : Int) :
    prog_static (fan_in senders tr kr v) := by
  intro it it2 h
  have h1 : it.frozen.myTableKey = it2.frozen.myTableKey := congrArg Item.myTableKey h
  have h2 : it.frozen.myItemKey = it2.frozen.myItemKey := congrArg Item.myItemKey h
  simp only [Item.frozen] at h1 h2
  simp only [fan_in, h1, h2]

theorem fan_in_msgs (senders : List (Nat × Nat)) (tr kr : Nat) (v : Int) (w : Worker)
    (vs : List (Nat × Option Nat)) (m : Message)
    (hm : m ∈ w.work_msgs (fan_in senders tr kr v) vs) :
    m.dest_table = tr ∧ m.dest_item = kr ∧ m.value = v := by
  obtain ⟨it, x, hx, rfl⟩ := work_msgs_mem _ w vs m hm
  simp only [fan_in] at hx
  split_ifs at hx
  · simp only [List.mem_singleton] at hx
    subst hx
    exact ⟨rfl, rfl, rfl⟩
  · cases hx

theorem fan_in_length (senders : List (Nat × Nat)) (tr kr : Nat) (v : Int) (w : Worker) :
    ∀ vs : List (Nat × Option Nat),
      (w.work_msgs (fan_in senders tr kr v) vs).length
        = (vs.filter (sender_visit w senders)).length
  | [] => rfl
  | x :: rest => by
    have ih := fan_in_length senders tr kr v w rest
    have hx : (match w.item_at x.1 x.2 with
        | some it => (fan_in senders tr kr v it.at_work).map (push_msg it.at_work)
        | none => []).length = if sender_visit w senders x = true then 1 else 0 := by
      unfold sender_visit
      cases w.item_at x.1 x.2 with
      | none => rfl
      | some it =>
        by_cases hs : (it.myTableKey, it.myItemKey) ∈ senders
        · simp [fan_in, Item.at_work, Item.invoke, hs]
        · simp [fan_in, Item.at_work, Item.invoke, hs]
    simp only [Worker.work_msgs, List.length_append, ih, hx, List.filter_cons]
    by_cases hsv : sender_visit w senders x = true
    · simp only [hsv, if_true, List.length_cons]
      omega
    · rw [Bool.not_eq_true] at hsv
      simp [hsv]

theorem itemsOK_item (w : Worker) (hi : w.ItemsOK) (t : Nat) (obj : Option Nat) (it : Item)
    (h : w.item_at t obj = some it) : it.myTableKey = t := by
  have h1 := item_at_frozen w t obj
  rw [h, Option.map_some'] at h1
  cases hl : w.frozen[t]? with
  | none => rw [hl] at h1; cases h1
  | some l =>
    rw [hl] at h1
    cases obj with
    | none => cases h1
    | some p =>
      simp only [] at h1
      exact hi t l hl it.frozen (List.getElem?_mem h1.symm)

/-- Among the visits there is exactly one per sender. -/
theorem sender_visits_length (hashf : Nat → Int) (w : Worker) (hok : w.TablesOK hashf)
    (hi : w.ItemsOK) (senders : List (Nat × Nat)) (hnd : senders.Nodup)
    (hsend : ∀ x ∈ senders, ∃ tb p, w.tables[x.1]? = some tb ∧
      tb.mapped_items.has x.2 (some p)) :
    (w.visit_order.filter (sender_visit w senders)).length = senders.length := by
  have hkey : ∀ v ∈ w.visit_order, ∃ tb e, w.tables[v.1]? = some tb ∧
      e ∈ live_list tb.mapped_items.entries ∧ v.2 = e.second ∧
      visit_key w v = (v.1, e.first) ∧ sender_visit w senders v
        = decide ((v.1, e.first) ∈ senders) := by
    intro v hv
    obtain ⟨tb, e, p, it, a1, a2, a3, a4, a5, a6, a7⟩ := visit_order_item hashf w hok v hv
    have hk := itemsOK_item w hi v.1 v.2 it a7
    refine ⟨tb, e, a1, a2, a4.trans a3.symm, ?_, ?_⟩
    · simp only [visit_key, a7, hk, a6]
    · simp only [sender_visit, a7, hk, a6]
  have hnd1 : ((w.visit_order.filter (sender_visit w senders)).map (visit_key w)).Nodup := by
    refine List.Nodup.map_on ?_ ((visit_order_nodup hashf w hok).filter _)
    intro v1 h1 v2 h2 heq
    obtain ⟨tb1, e1, a1, a2, a3, a4, -⟩ := hkey v1 (List.mem_of_mem_filter h1)
    obtain ⟨tb2, e2, b1, b2, b3, b4, -⟩ := hkey v2 (List.mem_of_mem_filter h2)
    rw [a4, b4] at heq
    obtain ⟨ht, hk⟩ := Prod.mk.inj heq
    rw [ht, b1] at a1
    cases a1
    have he := entry_unique _ (hok v2.1 tb1 b1).1.2.1 e1 e2 a2 b2 hk
    exact Prod.ext ht (by rw [a3, b3, he])
  have hperm : ((w.visit_order.filter (sender_visit w senders)).map (visit_key w)).Perm
      senders := by
    rw [List.perm_ext_iff_of_nodup hnd1 hnd]
    intro x
    constructor
    · intro hx
      obtain ⟨v, hv, rfl⟩ := List.mem_map.mp hx
      obtain ⟨hv1, hv2⟩ := List.mem_filter.mp hv
      obtain ⟨tb, e, -, -, -, a4, a5⟩ := hkey v hv1
      rw [a5] at hv2
      rw [a4]
      exact of_decide_eq_true hv2
    · intro hx
      obtain ⟨tb, p, htb, e, he, hk, hp⟩ := hsend x hx
      have hv : (x.1, some p) ∈ w.visit_order :=
        (visit_order_mem w (x.1, some p)).mpr ⟨tb, e, htb, he, hp.symm⟩
      obtain ⟨tb2, e2, b1, b2, b3, b4, b5⟩ := hkey _ hv
      have htb2 : tb2 = tb := by
        have h := b1
        simp only [] at h
        rw [htb] at h
        exact (Option.some.inj h).symm
      subst htb2
      have he2 : e2 = e := by
        have hpp : e2.second = e.second := by rw [← b3, hp]
        obtain ⟨p1, it1, c1, c2, c3⟩ := (hok x.1 tb2 htb).1.2.2 e2 b2
        obtain ⟨p2, it2, d1, d2, d3⟩ := (hok x.1 tb2 htb).1.2.2 e he
        rw [c1, d1] at hpp
        cases hpp
        rw [c2] at d2
        cases d2
        exact entry_unique _ (hok x.1 tb2 htb).1.2.1 e2 e b2 he (c3.symm.trans d3)
      subst he2
      refine List.mem_map.mpr ⟨(x.1, some p), List.mem_filter.mpr ⟨hv, ?_⟩, ?_⟩
      · rw [b5]
        simp only [hk, decide_eq_true_eq]
        exact hx
      · rw [b4]
        simp only [hk]
  have := hperm.length_eq
  rw [List.length_map] at this
  exact this


theorem self_msgs_of_zero (w : Worker) (h : w.send_count w.rank_me_ = 0) : w.self_msgs = [] := by
  have hz : size_at w.shared (dist_fetch w.rank_me_ w.rank_me_) = 0 := h
  simp only [Worker.self_msgs, hz, Nat.zero_min, List.take_zero]

/-- Fan-in on one rank: `s` stored sender items push `v` to a stored receiving
item of the same rank in every work phase.  The pushes of an iteration are
delivered in the exchange phase of the next one, so after `cycle(k)` the
receiver has accumulated `(k - 1) * s * v` and the `s` messages of the last
work phase are still in the send array. -/
theorem fan_in_spec (hashf : Nat → Int) (w : Worker) (senders : List (Nat × Nat))
    (tr kr pr : Nat) (tbr : TableContainer) (v : Int) (k : Nat)
    (hboot : (w.cycles_counter = 0 ∧ w.Fresh) ∨ (w.cycles_counter ≠ 0 ∧ w.Ready))
    (hq : w.Quiet) (hf1 : w.rget_futures_size = []) (hf2 : w.rget_futures_msgs = [])
    (hok : w.TablesOK hashf) (hsrc : w.SrcOK) (hi : w.ItemsOK)
    (hempty : w.send_count w.rank_me_ = 0) (htr : tr < w.total_tables)
    (hrecv : w.tables[tr]? = some tbr) (hhas : tbr.mapped_items.has kr (some pr))
    (hhome : w.get_partition tr kr = w.rank_me_) (hnd : senders.Nodup)
    (hsend : ∀ x ∈ senders, ∃ tb p, w.tables[x.1]? = some tb ∧
      tb.mapped_items.has x.2 (some p))
    (hsM : senders.length ≤ w.BUFFER_MAX_SIZE) (hk : 1 ≤ k) :
    ∃ w', w.cycle hashf (fan_in senders tr kr v) k true true = .ok w' ∧
      accumulated (w'.calls_of tr pr)
        = accumulated (w.calls_of tr pr) + ((k - 1 : Nat) : Int) * (senders.length : Int) * v ∧
      w'.self_msgs.length = senders.length := by
  have hp : w.ProgOK (fan_in senders tr kr v) := by
    intro it x hx
    simp only [fan_in] at hx
    split_ifs at hx
    · simp only [List.mem_singleton] at hx
      subst hx
      exact ⟨htr, fun _ => ⟨tbr, pr, hrecv, hhas, hhome⟩⟩
    · cases hx
  obtain ⟨w', h1, -, -, h4, h5⟩ := cycle_work_spec hashf (fan_in senders tr kr v)
    (fan_in_static senders tr kr v) w k hboot hq hf1 hf2 hok hsrc hp (self_msgs_of_zero w hempty)
  have hall := fan_in_msgs senders tr kr v w w.visit_order
  have hlen : (w.work_msgs (fan_in senders tr kr v) w.visit_order).length = senders.length :=
    (fan_in_length senders tr kr v w w.visit_order).trans
      (sender_visits_length hashf w hok hi senders hnd hsend)
  have hL : (sent_to w.total_workers w.rank_me_
      (w.work_msgs (fan_in senders tr kr v) w.visit_order)).take w.BUFFER_MAX_SIZE
      = w.work_msgs (fan_in senders tr kr v) w.visit_order := by
    rw [sent_to_all _ _ _ (fun m hm => by
      obtain ⟨a, b, -⟩ := hall m hm
      rw [a, b]
      exact hhome)]
    exact List.take_of_length_le (hlen ▸ hsM)
  rw [hL] at h4 h5
  have hR : recv_calls tr kr (w.work_msgs (fan_in senders tr kr v) w.visit_order)
      = List.replicate senders.length (Call.on_push_recv v) := by
    rw [List.eq_replicate_iff]
    have hfil : (w.work_msgs (fan_in senders tr kr v) w.visit_order).filter
        (fun m => decide (m.dest_table = tr ∧ m.dest_item = kr))
        = w.work_msgs (fan_in senders tr kr v) w.visit_order := by
      rw [List.filter_eq_self]
      intro m hm
      obtain ⟨a, b, -⟩ := hall m hm
      simp [a, b]
    unfold recv_calls
    rw [hfil]
    refine ⟨by rw [List.length_map, hlen], ?_⟩
    intro c hc
    obtain ⟨m, hm, rfl⟩ := List.mem_map.mp hc
    rw [(hall m hm).2.2]
  obtain ⟨e, he, hek, hep⟩ := hhas
  have hc := h4 tr tbr e pr hrecv he hep
  rw [hek, hR] at hc
  refine ⟨w', h1, ?_, by rw [h5 hk, hlen]⟩
  obtain ⟨k', rfl⟩ : ∃ k', k = k' + 1 := ⟨k - 1, by omega⟩
  rw [hc, accumulated_append, accumulated_steady, accumulated_replicate, Nat.add_sub_cancel]
  ring


/-- A sequence of `add_item` calls for distinct absent keys whose home is this
rank: the items are allocated in call order and stored under their keys. -/
theorem add_items_spec (hashf : Nat → Int) (hh : ∀ k, hashf k ≠ -1) (t : Nat) :
    ∀ (keys : List Nat) (w : Worker) (tb : TableContainer),
    w.tables[t]? = some tb → TableOK hashf tb → keys.Nodup →
    (∀ k ∈ keys, tb.absent k ∧ w.get_partition t k = w.rank_me_) →
    ∃ tb', Worker.add_items hashf w t keys = w.set_table t tb' ∧ TableOK hashf tb' ∧
      tb'.objects = tb.objects ++ keys.map (fun k => added_item t k w.rank_me_) ∧
      tb'.myTableKey = tb.myTableKey ∧
      (∀ i k, keys[i]? = some k → tb'.mapped_items.has k (some (tb.objects.length + i))) ∧
      (∀ k p, tb.mapped_items.has k p → tb'.mapped_items.has k p)
  | [], w, tb, htb, hok, _, _ => by
    refine ⟨tb, ?_, hok, by simp, rfl, by simp, fun _ _ h => h⟩
    exact (set_table_self w t tb htb).symm
  | k :: rest, w, tb, htb, hok, hnd, hkeys => by
    obtain ⟨habs, hhome⟩ := hkeys k (List.mem_cons_self _ _)
    obtain ⟨items, -, h2, h3, h4⟩ := add_item_create hashf hh w t k false tb htb hok hhome habs
    obtain ⟨hknot, hnd'⟩ := List.nodup_cons.mp hnd
    obtain ⟨tb1, htb1def⟩ : ∃ tb1, tb1 = tb.with_new (added_item t k w.rank_me_) items :=
      ⟨_, rfl⟩
    rw [← htb1def] at h2 h3
    have htb1 : (w.set_table t tb1).tables[t]? = some tb1 := set_table_get w t tb tb1 htb
    have hkeys1 : ∀ k' ∈ rest, tb1.absent k' ∧
        (w.set_table t tb1).get_partition t k' = (w.set_table t tb1).rank_me_ := by
      intro k' hk'
      obtain ⟨a, b⟩ := hkeys k' (List.mem_cons_of_mem _ hk')
      refine ⟨?_, b⟩
      intro e he
      rw [htb1def] at he
      rcases List.mem_cons.mp (h4.mem_iff.mp he) with rfl | hold
      · intro hek
        have hek' : k = k' := hek
        exact hknot (hek'.symm ▸ hk')
      · exact a e hold
    obtain ⟨tb', g1, g2, g3, g4, g5, g6⟩ :=
      add_items_spec hashf hh t rest (w.set_table t tb1) tb1 htb1 h3 hnd' hkeys1
    have hobj1 : tb1.objects = tb.objects ++ [added_item t k w.rank_me_] := by
      rw [htb1def]; rfl
    refine ⟨tb', ?_, g2, ?_, g4.trans (by rw [htb1def]; rfl), ?_, ?_⟩
    · simp only [Worker.add_items, h2]
      rw [g1, set_table_twice]
    · rw [g3, hobj1]
      simp [Worker.set_table]
    · intro i k' hi
      cases i with
      | zero =>
        simp only [List.getElem?_cons_zero, Option.some.injEq] at hi
        subst hi
        apply g6
        rw [htb1def]
        exact ⟨_, h4.symm.subset (List.mem_cons_self _ _), rfl, rfl⟩
      | succ i =>
        simp only [List.getElem?_cons_succ] at hi
        have := g5 i k' hi
        rw [hobj1] at this
        simp only [List.length_append, List.length_singleton] at this
        rw [show tb.objects.length + (i + 1) = tb.objects.length + 1 + i by omega]
        exact this
    · intro k' p hhas
      apply g6
      obtain ⟨e, he, a, b⟩ := hhas
      rw [htb1def]
      exact ⟨e, h4.symm.subset (List.mem_cons_of_mem _ he), a, b⟩

theorem solo_worker_tables : solo_worker.tables = [sample_table] := by
  simp [solo_worker, Worker.add_table, Worker.new, sample_table]

theorem solo_worker_fresh : solo_worker.Fresh := by
  simp [solo_worker, Worker.add_table, Worker.new, Worker.Fresh]

theorem solo_worker_quiet : solo_worker.Quiet := by
  have h : solo_worker.shared = (Worker.new 0 1 0 1 [true] 4).shared := by
    simp [solo_worker, Worker.add_table, Worker.new]
  refine ⟨⟨?_, ?_⟩, ?_, ?_, ?_⟩
  · rw [h]
    exact memOK_new 1 4
  · show 0 < 1
    omega
  · simp [solo_worker, Worker.add_table, Worker.new, Worker.StagingOK, Worker.is_process_local]
  · simp [solo_worker, Worker.add_table, Worker.new]
  · have hN : solo_worker.total_workers = 1 := rfl
    intro i hi hne
    rw [hN] at hi
    interval_cases i
    exact absurd rfl hne

/-- What the three `add_item` calls leave in `solo_items`: one table with the
three items, allocated in call order and stored under the keys 0, 1 and 2. -/
theorem solo_items_eq : ∃ tb, solo_items = solo_worker.set_table 0 tb ∧
    TableOK sample_hash tb ∧ tb.myTableKey = 0 ∧
    tb.objects = [added_item 0 0 0, added_item 0 1 0, added_item 0 2 0] ∧
    tb.mapped_items.has 0 (some 0) ∧ tb.mapped_items.has 1 (some 1) ∧
    tb.mapped_items.has 2 (some 2) := by
  have ht : solo_worker.tables[0]? = some sample_table := by
    rw [solo_worker_tables]; rfl
  obtain ⟨tb, h1, h2, h3, h4, h5, -⟩ := add_items_spec sample_hash sample_hash_ne 0 [0, 1, 2]
    solo_worker sample_table ht (tableOK_fresh sample_hash sample_table rfl) (by decide)
    (fun k _ => ⟨absent_fresh sample_table rfl k, by
      show get_partition 1 0 k = 0
      simp [get_partition, Nat.mod_one]⟩)
  refine ⟨tb, h1, h2, h4, ?_, h5 0 0 rfl, h5 1 1 rfl, h5 2 2 rfl⟩
  rw [h3]
  rfl


theorem solo_items_ready : solo_items.cycles_counter = 0 ∧ solo_items.Fresh ∧
    solo_items.Quiet ∧ solo_items.rget_futures_size = [] ∧
    solo_items.rget_futures_msgs = [] ∧ solo_items.TablesOK sample_hash ∧
    solo_items.SrcOK ∧ solo_items.ItemsOK ∧
    solo_items.send_count solo_items.rank_me_ = 0 ∧ 0 < solo_items.total_tables ∧
    solo_items.get_partition 0 0 = solo_items.rank_me_ ∧
    solo_items.BUFFER_MAX_SIZE = 4 ∧
    solo_items.calls_of 0 0 = [Call.on_create, Call.refresh] ∧
    ∃ tb, solo_items.tables[0]? = some tb ∧ tb.mapped_items.has 0 (some 0) ∧
      tb.mapped_items.has 1 (some 1) ∧ tb.mapped_items.has 2 (some 2) := by
  obtain ⟨tb, h1, h2, h3, h4, h5, h6, h7⟩ := solo_items_eq
  have ht : solo_worker.tables[0]? = some sample_table := by
    rw [solo_worker_tables]; rfl
  have hget : (solo_worker.set_table 0 tb).tables[0]? = some tb :=
    set_table_get solo_worker 0 sample_table tb ht
  have htabs : (solo_worker.set_table 0 tb).tables = [tb] := by
    simp [Worker.set_table, solo_worker_tables]
  have hz : solo_worker.send_count solo_worker.rank_me_ = 0 := by decide
  have hfro : (solo_worker.set_table 0 tb).frozen
      = [[(added_item 0 0 0).frozen, (added_item 0 1 0).frozen, (added_item 0 2 0).frozen]] := by
    simp only [Worker.frozen, htabs, h4, List.map_cons, List.map_nil]
  rw [h1]
  refine ⟨rfl, solo_worker_fresh, solo_worker_quiet, rfl, rfl, ?_, ?_, ?_, hz, ?_, ?_, rfl, ?_,
    tb, hget, h5, h6, h7⟩
  · intro t tb' htb'
    rw [htabs] at htb'
    cases t with
    | zero =>
      simp only [List.getElem?_cons_zero, Option.some.injEq] at htb'
      subst htb'
      exact ⟨h2, h3⟩
    | succ n => simp at htb'
  · intro l hl it hit
    rw [hfro, List.mem_singleton] at hl
    subst hl
    show it.myTableKey < solo_worker.total_tables
    simp only [List.mem_cons, List.mem_singleton, List.mem_nil_iff, or_false] at hit
    rcases hit with rfl | rfl | rfl <;> decide
  · intro t l hl it hit
    rw [hfro] at hl
    cases t with
    | zero =>
      simp only [List.getElem?_cons_zero, Option.some.injEq] at hl
      subst hl
      simp only [List.mem_cons, List.mem_singleton, List.mem_nil_iff, or_false] at hit
      rcases hit with rfl | rfl | rfl <;> rfl
    | succ n => simp at hl
  · show 0 < solo_worker.total_tables
    decide
  · show get_partition 1 0 0 = 0
    decide
  · simp only [Worker.calls_of, hget, h4]
    rfl

/-- The only worker of a run shares its node with no other rank. -/
theorem secluded_of_single (w : Worker) (hN : w.total_workers = 1) (hw : w.MemWF) :
    w.Secluded := by
  intro i hi hne
  have := hw.2
  omega

theorem solo_items_secluded : solo_items.Secluded := by
  obtain ⟨tb, h1, -⟩ := solo_items_eq
  refine secluded_of_single solo_items ?_ solo_items_ready.2.2.1.1
  rw [h1]
  rfl

/-- C13 as stated fails on the code. On `solo_items` (one worker, `M = 4`,
table 0 with the items 0, 1 and 2, empty buffers) the items 1 and 2 push the
value 10 to item 0 in every `do_work`; `cycle(3)` succeeds and leaves the
accumulator of item 0 at 40, not at `3 * 2 * 10 = 60`: the pushes of the third
work phase are still in the send array. -/
theorem C13_fan_in_counterexample :
    solo_items.send_count solo_items.rank_me_ = 0 ∧
    accumulated (solo_items.calls_of 0 0) = 0 ∧
    ∃ w', solo_items.cycle sample_hash (fan_in [(0, 1), (0, 2)] 0 0 10) 3 true true = .ok w' ∧
      accumulated (w'.calls_of 0 0) = 40 ∧ accumulated (w'.calls_of 0 0) ≠ 3 * 2 * 10 ∧
      w'.self_msgs.length = 2 := by
  obtain ⟨a1, a2, a3, a4, a5, a6, a7, a8, a9, a10, a11, a12, a13, tb, b1, b2, b3, b4⟩ :=
    solo_items_ready
  have hacc : accumulated (solo_items.calls_of 0 0) = 0 := by rw [a13]; rfl
  obtain ⟨w', c1, c2, c3⟩ := fan_in_spec sample_hash solo_items [(0, 1), (0, 2)] 0 0 0 tb 10 3
    (Or.inl ⟨a1, a2⟩) a3 a4 a5 a6 a7 a8 a9 a10 b1 b2 a11 (by decide)
    (by
      intro x hx
      simp only [List.mem_cons, List.mem_singleton, List.mem_nil_iff, or_false] at hx
      rcases hx with rfl | rfl
      · exact ⟨tb, 1, b1, b3⟩
      · exact ⟨tb, 2, b1, b4⟩)
    (by rw [a12]; decide) (by decide)
  rw [hacc] at c2
  have c2' : accumulated (w'.calls_of 0 0) = 40 := by
    rw [c2]; norm_num
  exact ⟨a9, hacc, w', c1, c2', by rw [c2']; decide, c3⟩

/-- C13, amended (fan-in accumulation on one rank). A worker that shares its
node with no other rank (`Worker.Secluded`: no other rank holds a local handle
of its counters, so no other rank writes to them during its run) starts a
`cycle` call with empty send buffers (fresh from its constructor or after
earlier cycles), quiet peers, tables that satisfy their invariant and items
that carry the key of their table.  `s` distinct sender items stored on this
worker push the value `v` in every `do_work` to the item `kr` of table `tr`,
which is stored on this worker, its home; `s ≤ M`.  Then `cycle(k, true, true)`
with `k ≥ 1` succeeds and the accumulator of the receiving item has grown by
`(k - 1) * s * v`: the pushes of an iteration are applied in the exchange
phase of the next iteration, and the `s` messages of the last work phase are
still in the send array when the call returns. -/
theorem C13_fan_in_accumulation (hashf : Nat → Int) (w : Worker) (senders : List (Nat × Nat))
    (tr kr pr : Nat) (tbr : TableContainer) (v : Int) (k : Nat) (_hsec : w.Secluded)
    (hboot : (w.cycles_counter = 0 ∧ w.Fresh) ∨ (w.cycles_counter ≠ 0 ∧ w.Ready))
    (hq : w.Quiet) (hf1 : w.rget_futures_size = []) (hf2 : w.rget_futures_msgs = [])
    (hok : w.TablesOK hashf) (hsrc : w.SrcOK) (hi : w.ItemsOK)
    (hempty : w.send_count w.rank_me_ = 0) (htr : tr < w.total_tables)
    (hrecv : w.tables[tr]? = some tbr) (hhas : tbr.mapped_items.has kr (some pr))
    (hhome : w.get_partition tr kr = w.rank_me_) (hnd : senders.Nodup)
    (hsend : ∀ x ∈ senders, ∃ tb p, w.tables[x.1]? = some tb ∧
      tb.mapped_items.has x.2 (some p))
    (hsM : senders.length ≤ w.BUFFER_MAX_SIZE) (hk : 1 ≤ k) :
    ∃ w', w.cycle hashf (fan_in senders tr kr v) k true true = .ok w' ∧
      accumulated (w'.calls_of tr pr)
        = accumulated (w.calls_of tr pr) + ((k - 1 : Nat) : Int) * (senders.length : Int) * v ∧
      w'.self_msgs.length = senders.length :=
  fan_in_spec hashf w senders tr kr pr tbr v k hboot hq hf1 hf2 hok hsrc hi hempty htr hrecv hhas
    hhome hnd hsend hsM hk

/-- The statement of C13 on `solo_items` (the only worker of its run): two
senders (items 1 and 2), the receiver item 0, `v = 10`, `M = 4`, `cycle(3)`: the
accumulator is `0 + 2 * 2 * 10 = 40`. -/
theorem C13_fan_in_accumulation_witness :
    ∃ tbr, solo_items.Secluded ∧
      ((solo_items.cycles_counter = 0 ∧ solo_items.Fresh) ∨
        (solo_items.cycles_counter ≠ 0 ∧ solo_items.Ready)) ∧
      solo_items.Quiet ∧ solo_items.rget_futures_size = [] ∧
      solo_items.rget_futures_msgs = [] ∧ solo_items.TablesOK sample_hash ∧
      solo_items.SrcOK ∧ solo_items.ItemsOK ∧
      solo_items.send_count solo_items.rank_me_ = 0 ∧ 0 < solo_items.total_tables ∧
      solo_items.tables[0]? = some tbr ∧ tbr.mapped_items.has 0 (some 0) ∧
      solo_items.get_partition 0 0 = solo_items.rank_me_ ∧
      [((0 : Nat), (1 : Nat)), (0, 2)].Nodup ∧
      (∀ x ∈ [((0 : Nat), (1 : Nat)), (0, 2)], ∃ tb p, solo_items.tables[x.1]? = some tb ∧
        tb.mapped_items.has x.2 (some p)) ∧
      [((0 : Nat), (1 : Nat)), (0, 2)].length ≤ solo_items.BUFFER_MAX_SIZE ∧ 1 ≤ 3 ∧
      ∃ w', solo_items.cycle sample_hash (fan_in [(0, 1), (0, 2)] 0 0 10) 3 true true = .ok w' ∧
        accumulated (w'.calls_of 0 0)
          = accumulated (solo_items.calls_of 0 0) +
              ((3 - 1 : Nat) : Int) * (([((0 : Nat), (1 : Nat)), (0, 2)].length : Nat) : Int) * 10 ∧
        w'.self_msgs.length = [((0 : Nat), (1 : Nat)), (0, 2)].length := by
  obtain ⟨a1, a2, a3, a4, a5, a6, a7, a8, a9, a10, a11, a12, a13, tb, b1, b2, b3, b4⟩ :=
    solo_items_ready
  have hsec : solo_items.Secluded := solo_items_secluded
  have hs : ∀ x ∈ [((0 : Nat), (1 : Nat)), (0, 2)], ∃ tb p, solo_items.tables[x.1]? = some tb ∧
      tb.mapped_items.has x.2 (some p) := by
    intro x hx
    simp only [List.mem_cons, List.mem_singleton, List.mem_nil_iff, or_false] at hx
    rcases hx with rfl | rfl
    · exact ⟨tb, 1, b1, b3⟩
    · exact ⟨tb, 2, b1, b4⟩
  have hM : [((0 : Nat), (1 : Nat)), (0, 2)].length ≤ solo_items.BUFFER_MAX_SIZE := by
    rw [a12]; decide
  exact ⟨tb, hsec, Or.inl ⟨a1, a2⟩, a3, a4, a5, a6, a7, a8, a9, a10, b1, b2, a11, by decide, hs, hM,
    by decide, C13_fan_in_accumulation sample_hash solo_items [(0, 1), (0, 2)] 0 0 0 tb 10 3 hsec
      (Or.inl ⟨a1, a2⟩) a3 a4 a5 a6 a7 a8 a9 a10 b1 b2 a11 (by decide) hs hM (by decide)⟩


/-! ## Pushes for another rank -/

/-- C12 (phase order), the failing input: a push for an item whose home is
another rank.  Worker `s` and worker `r` are two ranks of one run (they see the
same shared segments).  An item of `s` pushes `v` to item `di` of table `dt`,
whose home is `r` and which is stored on `r`; the send array of `s` for `r` has
room.  The push succeeds and puts the message into the next free slot of the
send array of `s` for destination `r`, but `r`, running `cycle` for any number
`j ≥ 1` of iterations on the segments that hold this message, never applies
it: the callback log of the destination item is unchanged (`r` has sent
nothing to itself and reads, for every peer `i`, the counter for destination
`i` of rank `i`, never the counter for destination `r`). -/
theorem C12_cross_rank_push_never_applied (hashf : Nat → Int) (prog : WorkProgram)
    (s r : Worker) (it : Item) (dt di : Nat) (v : Int) (j : Nat) (tb : TableContainer) (p : Nat)
    (hs : s.MemWF) (hshare : s.shared = r.shared) (hN : s.total_workers = r.total_workers)
    (hM : s.BUFFER_MAX_SIZE = r.BUFFER_MAX_SIZE) (hne : s.rank_me_ ≠ r.rank_me_)
    (hsrc : it.myTableKey < s.total_tables) (hdst : dt < s.total_tables)
    (hhome : s.get_partition dt di = r.rank_me_)
    (hroom : s.send_count r.rank_me_ < s.BUFFER_MAX_SIZE)
    (hboot : (r.cycles_counter = 0 ∧ r.Fresh) ∨ (r.cycles_counter ≠ 0 ∧ r.Ready))
    (hq : r.Quiet) (hf1 : r.rget_futures_size = []) (hf2 : r.rget_futures_msgs = [])
    (hok : r.TablesOK hashf) (hempty : r.send_count r.rank_me_ = 0)
    (htb : r.tables[dt]? = some tb) (hhas : tb.mapped_items.has di (some p)) (hj : 1 ≤ j) :
    ∃ s', s.push it dt di v = .ok s' ∧
      (s'.send_buffer r.rank_me_)[s.send_count r.rank_me_]? = some (push_msg it (dt, di, v)) ∧
      s'.send_count r.rank_me_ = s.send_count r.rank_me_ + 1 ∧
      ∃ r', ({ r with shared := s'.shared }).cycle hashf prog j false true = .ok r' ∧
        r'.calls_of dt p = r.calls_of dt p := by
  obtain ⟨s', e1, e2, e3, e4, e5, -, e7⟩ := enqueue_spec s hs (push_msg it (dt, di, v))
  have hpart : s.get_partition (push_msg it (dt, di, v)).dest_table
      (push_msg it (dt, di, v)).dest_item = r.rank_me_ := hhome
  rw [hpart] at e4 e5 e7
  have hrN : r.rank_me_ < s.total_workers := by rw [hN]; exact hq.1.2
  have hbuf : (s'.send_buffer r.rank_me_)[s.send_count r.rank_me_]?
      = some (push_msg it (dt, di, v)) := by
    rw [e5 hroom]
    apply List.getElem?_set_self
    rw [send_buffer_length s hs _ hrN]
    exact hroom
  have hpush : s.push it dt di v = .ok s' := by
    simp only [Worker.push, hsrc, hdst, not_true_eq_false, if_false]
    exact e1
  have hN' : s'.total_workers = r.total_workers := by rw [e2]; exact hN
  have hM' : s'.BUFFER_MAX_SIZE = r.BUFFER_MAX_SIZE := by rw [e2]; exact hM
  have hmem : MemOK s'.shared r.total_workers r.BUFFER_MAX_SIZE := by
    have := e3.1
    rw [hN', hM'] at this
    exact this
  have hother : ∀ i, i ≠ s.rank_me_ ∨ i ≠ r.rank_me_ →
      size_at s'.shared (dist_fetch i i) = size_at r.shared (dist_fetch i i) := by
    intro i hi
    rw [(e7 (dist_fetch i i) (by
      intro h
      have h1 : i = s.rank_me_ := congrArg Prod.fst h
      have h2 : i = r.rank_me_ := congrArg Prod.snd h
      rcases hi with hi | hi
      · exact hi h1
      · exact hi h2)).1, hshare]
  have hq2 : Worker.Quiet { r with shared := s'.shared } := by
    refine ⟨⟨hmem, hq.1.2⟩, hq.2.1, hq.2.2.1, ?_⟩
    intro i hi hne2
    have hne3 : i ≠ r.rank_me_ := hne2
    show size_at s'.shared (dist_fetch i i) = 0
    rw [hother i (Or.inr hne3)]
    exact hq.2.2.2 i hi hne3
  have hself2 : Worker.self_msgs { r with shared := s'.shared } = [] := by
    apply self_msgs_of_zero
    show size_at s'.shared (dist_fetch r.rank_me_ r.rank_me_) = 0
    rw [hother r.rank_me_ (Or.inl (Ne.symm hne))]
    exact hempty
  obtain ⟨r', c1, c2⟩ := cycle_spec hashf prog { r with shared := s'.shared } j hboot hq2 hf1 hf2
    hok (by rw [hself2]; intro m hm; cases hm) hj
  rw [hself2] at c2
  obtain ⟨e, he, hek, hep⟩ := hhas
  have hc := c2.2.2.2.2.2.1 dt tb e p htb he hep
  rw [recv_calls_nil, List.append_nil] at hc
  exact ⟨s', hpush, hbuf, e4, r', c1, hc⟩

theorem sample_peer_memWF : sample_peer.MemWF := by
  have h : sample_peer.shared = (Worker.new 1 2 0 1 [false, true] 8).shared := by
    simp [sample_peer, Worker.add_table, Worker.new]
  refine ⟨?_, ?_⟩
  · rw [h]
    exact memOK_new 2 8
  · show 1 < 2
    omega

/-- The statement of C12 on `sample_peer` (rank 1) and `sample_worker_item`
(rank 0, which stores item 2 of table 0): item 1 of rank 1 pushes the value 7
to item 2; rank 0 runs three iterations and its item is never called. -/
theorem C12_cross_rank_push_never_applied_witness :
    ∃ tb, sample_peer.MemWF ∧ sample_peer.shared = sample_worker_item.shared ∧
      sample_peer.total_workers = sample_worker_item.total_workers ∧
      sample_peer.BUFFER_MAX_SIZE = sample_worker_item.BUFFER_MAX_SIZE ∧
      sample_peer.rank_me_ ≠ sample_worker_item.rank_me_ ∧
      (added_item 0 1 1).myTableKey < sample_peer.total_tables ∧ 0 < sample_peer.total_tables ∧
      sample_peer.get_partition 0 2 = sample_worker_item.rank_me_ ∧
      sample_peer.send_count sample_worker_item.rank_me_ < sample_peer.BUFFER_MAX_SIZE ∧
      ((sample_worker_item.cycles_counter = 0 ∧ sample_worker_item.Fresh) ∨
        (sample_worker_item.cycles_counter ≠ 0 ∧ sample_worker_item.Ready)) ∧
      sample_worker_item.Quiet ∧ sample_worker_item.rget_futures_size = [] ∧
      sample_worker_item.rget_futures_msgs = [] ∧ sample_worker_item.TablesOK sample_hash ∧
      sample_worker_item.send_count sample_worker_item.rank_me_ = 0 ∧
      sample_worker_item.tables[0]? = some tb ∧ tb.mapped_items.has 2 (some 0) ∧ 1 ≤ 3 ∧
      ∃ s', sample_peer.push (added_item 0 1 1) 0 2 7 = .ok s' ∧
        (s'.send_buffer sample_worker_item.rank_me_)[sample_peer.send_count
            sample_worker_item.rank_me_]? = some (push_msg (added_item 0 1 1) (0, 2, 7)) ∧
        s'.send_count sample_worker_item.rank_me_
          = sample_peer.send_count sample_worker_item.rank_me_ + 1 ∧
        ∃ r', ({ sample_worker_item with shared := s'.shared }).cycle sample_hash
            (fun _ => []) 3 false true = .ok r' ∧
          r'.calls_of 0 0 = sample_worker_item.calls_of 0 0 := by
  obtain ⟨a1, a2, a3, a4, a5, a6, a7, -⟩ := sample_worker_item_ready
  obtain ⟨items, hi1, -, hi3⟩ := sample_worker_item_eq
  have ht : sample_worker_item.tables[0]?
      = some (sample_table.with_new (added_item 0 2 0) items) := by
    rw [hi1]
    exact set_table_get sample_worker 0 sample_table _ sample_worker_table
  have hhas : (sample_table.with_new (added_item 0 2 0) items).mapped_items.has 2 (some 0) :=
    ⟨_, hi3.symm.subset (List.mem_cons_self _ _), rfl, rfl⟩
  have hR : sample_worker_item.rank_me_ = 0 := by rw [hi1]; rfl
  have b1 : sample_peer.shared = sample_worker_item.shared := by
    rw [hi1]
    simp [sample_peer, sample_worker, Worker.set_table, Worker.add_table, Worker.new]
  have b2 : sample_peer.total_workers = sample_worker_item.total_workers := by rw [hi1]; rfl
  have b3 : sample_peer.BUFFER_MAX_SIZE = sample_worker_item.BUFFER_MAX_SIZE := by rw [hi1]; rfl
  have b4 : sample_peer.rank_me_ ≠ sample_worker_item.rank_me_ := by rw [hR]; decide
  have b5 : (added_item 0 1 1).myTableKey < sample_peer.total_tables := by decide
  have b6 : 0 < sample_peer.total_tables := by decide
  have b7 : sample_peer.get_partition 0 2 = sample_worker_item.rank_me_ := by rw [hR]; decide
  have b8 : sample_peer.send_count sample_worker_item.rank_me_ < sample_peer.BUFFER_MAX_SIZE := by
    rw [hR]; decide
  exact ⟨_, sample_peer_memWF, b1, b2, b3, b4, b5, b6, b7, b8, Or.inl ⟨a1, a2⟩, a3, a4, a5, a6,
    a7, ht, hhas, by decide,
    C12_cross_rank_push_never_applied sample_hash (fun _ => []) sample_peer sample_worker_item
      (added_item 0 1 1) 0 2 7 3 _ 0 sample_peer_memWF b1 b2 b3 b4 b5 b6 b7 b8
      (Or.inl ⟨a1, a2⟩) a3 a4 a5 a6 a7 ht hhas (by decide)⟩


/-! ## The message counters -/

theorem comm_phase_eq (hashf : Nat → Int) (w : Worker) :
    w.comm_phase hashf
      = match w.exchange_phase hashf with
        | .error f => .error f
        | .ok w2 => w2.clear_buffers := by
  simp only [Worker.comm_phase, Worker.exchange_phase]
  cases (if w.is_local_root then w.validate_buffer_space else .ok w : Except Fault Worker) with
  | error f => rfl
  | ok w1 => rfl

/-- The three message counters after the body of the local exchange loop for
this rank itself: `messages_recv_local` has grown by the number of messages
taken from the own send array, the other two are unchanged. -/
theorem local_body_self_counts (hashf : Nat → Int) (w0 w : Worker) (l : List Message)
    (hr : w.Ready) (hq : w.Quiet) (hd : Delivered hashf w0 w l)
    (hdl : ∀ m ∈ w.self_msgs, w0.Deliverable m) :
    ∃ w', w.apply_local_body hashf w.rank_me_ = .ok w' ∧
      w'.messages_recv_local = w.messages_recv_local + w.self_msgs.length ∧
      w'.messages_sent = w.messages_sent ∧
      w'.messages_recv_remote = w.messages_recv_remote := by
  have hme := hq.1.2
  have hp := hq.2.2.1
  have hloc := ready_is_process_local w hr w.rank_me_ hme
  rw [hp] at hloc
  have hc : w.get_messgaes_count_recv w.rank_me_
      = .ok (size_at w.shared (dist_fetch w.rank_me_ w.rank_me_)) := by
    rw [get_count_recv_ok w hq.1 (ready_handlesOK w hr) _ hloc]
    have hs := ready_local_size w hr _ hme
    have l1 : w.rank_me_ < w.their_local_push_size.length := by rw [hr.2.2.1]; simpa using hme
    rw [List.getElem?_eq_getElem l1, hp] at hs
    simp only [if_true, Option.some.injEq] at hs
    simp only [Worker.recv_count, List.getD_eq_getElem _ _ l1, hs]
  obtain ⟨w1, happ, hf1, hd1⟩ := delivered_apply hashf w0 w l w.self_msgs hd hdl
  obtain ⟨mem', hwr, hok', hsz, hoth, hbufs⟩ :=
    write_size_spec hq.1.1 (dist_fetch w.rank_me_ w.rank_me_) 0 hme hme
  have hbl := (read_buffer_ok hq.1.1 (dist_fetch w.rank_me_ w.rank_me_) hme hme).2
  have hderef : deref_buffer w.shared (some (dist_fetch w.rank_me_ w.rank_me_))
      = buffer_at w.shared (dist_fetch w.rank_me_ w.rank_me_) := rfl
  generalize hcdef : size_at w.shared (dist_fetch w.rank_me_ w.rank_me_) = c at *
  have hv : w.valid_buffer_size c = min c w.BUFFER_MAX_SIZE := valid_buffer_size_eq w c
  have hvv : w.valid_buffer_size (min c w.BUFFER_MAX_SIZE) = min c w.BUFFER_MAX_SIZE := by
    rw [valid_buffer_size_eq]; omega
  have hself : w.self_msgs = (buffer_at w.shared (dist_fetch w.rank_me_ w.rank_me_)).take
      (min c w.BUFFER_MAX_SIZE) := by simp only [Worker.self_msgs, hcdef]
  have hlen : w.self_msgs.length = min c w.BUFFER_MAX_SIZE := by
    rw [hself, List.length_take, hbl]
    omega
  by_cases hpos : min c w.BUFFER_MAX_SIZE > 0
  · have hproc := process_push_buffer_eq hashf w
      (buffer_at w.shared (dist_fetch w.rank_me_ w.rank_me_)) (min c w.BUFFER_MAX_SIZE)
      (by rw [hvv, hbl]; omega)
    rw [hvv] at hproc
    rw [hself] at happ
    rw [happ] at hproc
    have hsh : w1.shared = w.shared := by rw [hf1]
    have hls : w1.their_local_push_size = w.their_local_push_size := by rw [hf1]
    refine ⟨{ w1 with messages_recv_local := w1.messages_recv_local + min c w.BUFFER_MAX_SIZE,
                      shared := mem' }, ?_, ?_, ?_, ?_⟩
    · simp only [Worker.apply_local_body, hloc, if_true, hc, hv, ready_local_buffers w hr _ hme,
        hp, hderef, hpos, hproc, hls, ready_local_size w hr _ hme, hsh, hwr]
    · show w1.messages_recv_local + min c w.BUFFER_MAX_SIZE = _
      rw [hlen, hf1]
    · show w1.messages_sent = _
      rw [hf1]
    · show w1.messages_recv_remote = _
      rw [hf1]
  · refine ⟨{ w with shared := mem' }, ?_, ?_, rfl, rfl⟩
    · simp only [Worker.apply_local_body, hloc, if_true, hc, hv, ready_local_buffers w hr _ hme,
        hp, hpos, if_false, ready_local_size w hr _ hme, hwr]
    · show w.messages_recv_local = _
      rw [hlen]
      omega

/-- The counters on a single-worker run.  After `k ≤ M` messages for present
items were enqueued on cleared buffers, the exchange phase leaves
`messages_recv_local` raised by `k` and `messages_recv_remote` as it was; the
counting loop for `messages_sent` runs after the receive loop has written 0 to
the own counter and so adds nothing. -/
theorem single_worker_counts (hashf : Nat → Int) (w : Worker) (msgs : List Message)
    (hN : w.total_workers = 1) (hnodes : w.total_nodes = 1) (hr : w.Ready) (hq : w.Quiet)
    (hok : w.TablesOK hashf) (hzero : w.send_count w.rank_me_ = 0)
    (hk : msgs.length ≤ w.BUFFER_MAX_SIZE) (hdel : ∀ m ∈ msgs, w.Deliverable m) :
    ∃ w1 w2, w.enqueue_all msgs = .ok w1 ∧ w1.exchange_phase hashf = .ok w2 ∧
      w2.messages_recv_local = w.messages_recv_local + msgs.length ∧
      w2.messages_recv_remote = w.messages_recv_remote ∧
      w2.messages_sent = w.messages_sent ∧
      ∃ w3, w2.clear_buffers = .ok w3 ∧ w1.comm_phase hashf = .ok w3 := by
  have hme : w.rank_me_ = 0 := by
    have := hq.1.2
    omega
  obtain ⟨w1, h1, h2, h3, h4, h5⟩ := enqueue_all_self w msgs hq.1 hzero hk
    (fun m hm => (hdel m hm).choose_spec.choose_spec.2.2)
  have eT : w1.tables = w.tables := by rw [h2]
  have eN : w1.total_workers = w.total_workers := by rw [h2]
  have eR : w1.rank_me_ = w.rank_me_ := by rw [h2]
  have eM : w1.BUFFER_MAX_SIZE = w.BUFFER_MAX_SIZE := by rw [h2]
  have hr1 : w1.Ready := by rw [h2]; exact hr
  have hq1 : w1.Quiet := by
    refine ⟨h3, ?_, ?_, ?_⟩
    · rw [h2]; exact hq.2.1
    · rw [h2]; exact hq.2.2.1
    · intro i hi hne
      rw [eN] at hi
      rw [eR] at hne
      rw [h5 (dist_fetch i i) (by rw [dist_fetch_fst]; exact hne)]
      exact hq.2.2.2 i hi hne
  have hok1 : w1.TablesOK hashf := fun t tb htb => hok t tb (eT ▸ htb)
  have hdel1 : ∀ m ∈ w1.self_msgs, w1.Deliverable m := by
    intro m hm
    rw [h4] at hm
    obtain ⟨tb, p, a, b, c⟩ := hdel m hm
    exact ⟨tb, p, eT ▸ a, b, by rw [h2]; exact c⟩
  -- validate
  have hval : ∃ wv, (if w1.is_local_root then w1.validate_buffer_space else .ok w1 :
        Except Fault Worker) = .ok wv ∧ wv = { w1 with
          buffer_size_min := wv.buffer_size_min, buffer_size_max := wv.buffer_size_max,
          error := wv.error } := by
    by_cases hroot : w1.is_local_root = true
    · obtain ⟨mx, mn, hv, -⟩ := validate_spec w1 hq1.1 (ready_handlesOK w1 hr1)
      rw [if_pos hroot, hv]
      by_cases hmx : mx > w1.BUFFER_MAX_SIZE
      · rw [if_pos hmx]; exact ⟨_, rfl, rfl⟩
      · rw [if_neg hmx]; exact ⟨_, rfl, rfl⟩
    · rw [if_neg hroot]; exact ⟨w1, rfl, rfl⟩
  obtain ⟨wv, hv, hwv⟩ := hval
  have hrv : wv.Ready := by rw [hwv]; exact hr1
  have hqv : wv.Quiet := by rw [hwv]; exact hq1
  have hokv : wv.TablesOK hashf := by rw [hwv]; exact hok1
  have hselfv : wv.self_msgs = msgs := by rw [hwv]; exact h4
  have hdelv : ∀ m ∈ wv.self_msgs, wv.Deliverable m := by rw [hwv]; exact hdel1
  have hNv : wv.total_workers = 1 := by rw [hwv]; exact eN.trans hN
  have hRv : wv.rank_me_ = 0 := by rw [hwv]; exact eR.trans hme
  have hnv : wv.total_nodes = 1 := by rw [hwv, h2]; exact hnodes
  -- the receive loop
  obtain ⟨wa, ha, hc1, hc2, hc3⟩ := local_body_self_counts hashf wv wv [] hrv hqv
    (delivered_refl hashf wv hokv) hdelv
  obtain ⟨wa', ha', hska, -, hmema, hsza, -, -⟩ := local_body_self hashf wv wv [] hrv hqv
    (delivered_refl hashf wv hokv) hdelv
  rw [ha] at ha'
  cases ha'
  obtain ⟨eNa, eRa, eMa⟩ := skeleton_fields wv wa hska
  rw [hRv] at ha hsza
  have hloop : for_range wv.total_workers (Worker.apply_local_body hashf) wv = .ok wa := by
    rw [hNv]
    simp only [for_range, for_loop, ha]
  -- the counting loop
  have hread : wa.get_messgaes_count_send 0 = .ok 0 := by
    have := read_size_ok hmema (wa.rank_me_, 0) (by rw [eRa, hRv, hNv]; omega)
      (by rw [hNv]; omega)
    simp only [Worker.get_messgaes_count_send, eNa, hNv, Nat.lt_one_iff, if_true, this]
    rw [eRa, hRv]
    exact congrArg Except.ok hsza
  have hcount1 : for_range 1 Worker.count_sent_body wa
      = .ok { wa with messages_sent := wa.messages_sent + 0 } := by
    simp only [for_range, for_loop, Worker.count_sent_body, hread, Worker.valid_buffer_size,
      Nat.zero_le, if_true]
  have hcount : for_range wa.total_workers Worker.count_sent_body wa
      = .ok { wa with messages_sent := wa.messages_sent + 0 } := by
    have e : for_range wa.total_workers Worker.count_sent_body wa
        = for_range 1 Worker.count_sent_body wa := by rw [eNa.trans hNv]
    rw [e]
    exact hcount1
  have hex : w1.exchange_phase hashf = .ok { wa with messages_sent := wa.messages_sent + 0 } := by
    simp only [Worker.exchange_phase, hv, hnv, UPCXX_GPTR_LOCAL_ON, and_self, if_true,
      Worker.apply_push_incoming_local, hloop, SADDLEBAG_DEBUG, eRa, hRv, hcount]
    simp
  have hqa : Worker.Quiet { wa with messages_sent := wa.messages_sent + 0 } := by
    have hqa0 : wa.Quiet := by
      refine quiet_of_skeleton wv wa hska hqv hmema ?_
      intro i hi hne
      omega
    exact hqa0
  obtain ⟨w3, hcl, -⟩ := clear_buffers_spec _ hqa
  refine ⟨w1, _, h1, hex, ?_, ?_, ?_, w3, hcl, ?_⟩
  · show wa.messages_recv_local = _
    rw [hc1, hselfv, hwv, h2]
  · show wa.messages_recv_remote = _
    rw [hc3, hwv, h2]
  · show wa.messages_sent + 0 = _
    rw [hc2, hwv, h2, Nat.add_zero]
  · rw [comm_phase_eq, hex]
    exact hcl


theorem for_loop_preserves {σ : Type} (body : Nat → σ → Except Fault σ) (P : σ → Prop)
    (hb : ∀ i s s', body i s = .ok s' → P s → P s') :
    ∀ (n i : Nat) (s s' : σ), for_loop body n i s = .ok s' → P s → P s'
  | 0, _, s, s', h, hp => by
    simp only [for_loop, Except.ok.injEq] at h
    exact h ▸ hp
  | n + 1, i, s, s', h, hp => by
    simp only [for_loop] at h
    cases h1 : body i s with
    | error f => rw [h1] at h; cases h
    | ok s1 =>
      rw [h1] at h
      exact for_loop_preserves body P hb n (i + 1) s1 s' h (hb i s s1 h1 hp)

/-- `create_buffers_gptr_wait` does not touch the message counters. -/
theorem gptr_wait_counters (w w' : Worker) (h : w.create_buffers_gptr_wait = .ok w') :
    w'.messages_sent = w.messages_sent ∧ w'.messages_recv_local = w.messages_recv_local ∧
    w'.messages_recv_remote = w.messages_recv_remote := by
  have hP1 : ∀ i (s s' : Worker), s.gptr_wait_fetch i = .ok s' →
      (s.messages_sent = w.messages_sent ∧ s.messages_recv_local = w.messages_recv_local ∧
        s.messages_recv_remote = w.messages_recv_remote) →
      (s'.messages_sent = w.messages_sent ∧ s'.messages_recv_local = w.messages_recv_local ∧
        s'.messages_recv_remote = w.messages_recv_remote) := by
    intro i s s' hs hp
    simp only [Worker.gptr_wait_fetch] at hs
    split at hs
    · simp only [Except.ok.injEq] at hs
      rw [← hs]
      exact hp
    · cases hs
  have hP2 : ∀ i (s s' : Worker), s.gptr_wait_local i = .ok s' →
      (s.messages_sent = w.messages_sent ∧ s.messages_recv_local = w.messages_recv_local ∧
        s.messages_recv_remote = w.messages_recv_remote) →
      (s'.messages_sent = w.messages_sent ∧ s'.messages_recv_local = w.messages_recv_local ∧
        s'.messages_recv_remote = w.messages_recv_remote) := by
    intro i s s' hs hp
    simp only [Worker.gptr_wait_local] at hs
    split at hs
    · simp only [Except.ok.injEq] at hs
      rw [← hs]
      exact hp
    · cases hs
  simp only [Worker.create_buffers_gptr_wait] at h
  cases h1 : for_range w.total_workers Worker.gptr_wait_fetch w with
  | error f => rw [h1] at h; cases h
  | ok w1 =>
    rw [h1] at h
    simp only [] at h
    have p1 := for_loop_preserves Worker.gptr_wait_fetch _ hP1 _ 0 w w1 h1 ⟨rfl, rfl, rfl⟩
    cases h2 : for_range w1.total_workers Worker.gptr_wait_local w1 with
    | error f => rw [h2] at h; cases h
    | ok w2 =>
      rw [h2] at h
      simp only [] at h
      have p2 := for_loop_preserves Worker.gptr_wait_local _ hP2 _ 0 w1 w2 h2 p1
      split at h
      · simp only [Except.ok.injEq] at h
        rw [← h]
        exact p2
      · cases h

theorem solo_ready_facts : solo_ready.total_workers = 1 ∧ solo_ready.total_nodes = 1 ∧
    solo_ready.Ready ∧ solo_ready.Quiet ∧ solo_ready.TablesOK sample_hash ∧
    solo_ready.send_count solo_ready.rank_me_ = 0 ∧ solo_ready.BUFFER_MAX_SIZE = 4 ∧
    solo_ready.messages_sent = 0 ∧ solo_ready.messages_recv_local = 0 ∧
    solo_ready.messages_recv_remote = 0 ∧ solo_ready.Deliverable (msg_to 0) := by
  obtain ⟨a1, a2, a3, a4, a5, a6, a7, a8, a9, a10, a11, a12, a13, tb, b1, b2, b3, b4⟩ :=
    solo_items_ready
  obtain ⟨w', h1, h2, h3, h4, h5, h6, h7, h8, -, -⟩ := gptr_wait_spec solo_items a2 a3
  obtain ⟨c1, c2, c3⟩ := gptr_wait_counters solo_items w' h1
  obtain ⟨-, -, d3, -⟩ := config_fields solo_items w' (gptr_wait_config solo_items w' h1)
  obtain ⟨tb0, e1, -⟩ := solo_items_eq
  have hsr : solo_ready = w' := by
    unfold solo_ready
    rw [h1]
  rw [hsr]
  refine ⟨h5.trans ?_, d3.trans ?_, h2, h3, fun t tb' htb' => a6 t tb' (h4 ▸ htb'), ?_, h7.trans a12,
    c1.trans ?_, c2.trans ?_, c3.trans ?_, ?_⟩
  · rw [e1]; rfl
  · rw [e1]; rfl
  · simp only [Worker.send_count, h6, h8]
    exact a9
  · rw [e1]; rfl
  · rw [e1]; rfl
  · rw [e1]; rfl
  · refine ⟨tb, 0, by rw [h4]; exact b1, b2, ?_⟩
    simp only [Worker.get_partition, h5, h6]
    exact a11


theorem apply_msg_sent (hashf : Nat → Int) (w w' : Worker) (msg : Message)
    (h : w.apply_msg hashf msg = .ok w') :
    w'.messages_sent = w.messages_sent ∧ w'.rank_me_ = w.rank_me_ := by
  simp only [Worker.apply_msg] at h
  split at h
  · cases h
  · split at h
    · cases h
    · simp only [Except.ok.injEq] at h
      rw [← h]
      exact ⟨rfl, rfl⟩

theorem process_push_sent (hashf : Nat → Int) (w w' : Worker) (buf : List Message) (n n' : Nat)
    (h : w.process_push_buffer hashf buf n = .ok (w', n')) :
    w'.messages_sent = w.messages_sent ∧ w'.rank_me_ = w.rank_me_ := by
  simp only [Worker.process_push_buffer] at h
  split at h
  · cases h
  · rename_i w2 h2
    simp only [Except.ok.injEq, Prod.mk.injEq] at h
    rw [← h.1]
    refine for_loop_preserves (Worker.process_push_body hashf buf)
      (fun s => s.messages_sent = w.messages_sent ∧ s.rank_me_ = w.rank_me_) ?_ _ 0 w w2 h2
      ⟨rfl, rfl⟩
    intro i s s' hs hp
    simp only [Worker.process_push_body] at hs
    split at hs
    · cases hs
    · obtain ⟨a, b⟩ := apply_msg_sent hashf s s' _ hs
      exact ⟨a.trans hp.1, b.trans hp.2⟩

theorem apply_local_body_sent (hashf : Nat → Int) (i : Nat) (w w' : Worker)
    (h : w.apply_local_body hashf i = .ok w') :
    w'.messages_sent = w.messages_sent ∧ w'.rank_me_ = w.rank_me_ := by
  simp only [Worker.apply_local_body] at h
  split at h
  · split at h
    · cases h
    · split at h
      · cases h
      · split at h
        · cases h
        · rename_i w2 h2
          have hw2 : w2.messages_sent = w.messages_sent ∧ w2.rank_me_ = w.rank_me_ := by
            split at h2
            · split at h2
              · cases h2
              · rename_i w1 n hp
                simp only [Except.ok.injEq] at h2
                rw [← h2]
                exact process_push_sent hashf w w1 _ _ n hp
            · simp only [Except.ok.injEq] at h2
              rw [← h2]
              exact ⟨rfl, rfl⟩
          split at h
          · split at h
            · cases h
            · simp only [Except.ok.injEq] at h
              rw [← h]
              exact hw2
          · cases h
  · simp only [Except.ok.injEq] at h
    rw [← h]
    exact ⟨rfl, rfl⟩

/-- The counting loop for `messages_sent` is gated by `rank_me_ == 0`: on any
other rank `apply_push_incoming_local` returns with `messages_sent` as it was. -/
theorem incoming_local_sent_gate (hashf : Nat → Int) (u u' : Worker) (hne : u.rank_me_ ≠ 0)
    (h : u.apply_push_incoming_local hashf = .ok u') : u'.messages_sent = u.messages_sent := by
  simp only [Worker.apply_push_incoming_local] at h
  split at h
  · cases h
  · rename_i w1 h1
    have hp := for_loop_preserves (Worker.apply_local_body hashf)
      (fun s => s.messages_sent = u.messages_sent ∧ s.rank_me_ = u.rank_me_)
      (fun i s s' hs hp => by
        obtain ⟨a, b⟩ := apply_local_body_sent hashf i s s' hs
        exact ⟨a.trans hp.1, b.trans hp.2⟩) _ 0 u w1 h1 ⟨rfl, rfl⟩
    have hg : ¬ (SADDLEBAG_DEBUG > 0 ∧ w1.rank_me_ = 0) := by
      rw [hp.2]
      exact fun hh => hne hh.2
    rw [if_neg hg] at h
    simp only [Except.ok.injEq] at h
    rw [← h]
    exact hp.1


/-- C14, as the code behaves.  On the only worker of a run (`N = 1`, one node)
whose send counter and diagnostics are zero, as the constructor and
`clear_buffers` leave them: after `k ≤ M` self-destined messages for present
items were enqueued, the diagnostics read after the exchange phase and before
`clear_buffers` are `messages_recv_local = k`, `messages_recv_remote = 0` and
`messages_sent = 0`.  The loop under the comment "How many messages I enqueued
in my buffers?" reads the send counters after the receive loop has written 0
to the counter of the own buffer, so it adds nothing: for `k ≥ 1` the sum of
`messages_sent` differs from the sum of the received counts. -/
theorem C14_sent_count_misses_own_messages (hashf : Nat → Int) (w : Worker)
    (msgs : List Message)
    (hN : w.total_workers = 1) (hnodes : w.total_nodes = 1) (hr : w.Ready) (hq : w.Quiet)
    (hok : w.TablesOK hashf) (hzero : w.send_count w.rank_me_ = 0)
    (hc0 : w.messages_sent = 0) (hc1 : w.messages_recv_local = 0)
    (hc2 : w.messages_recv_remote = 0)
    (hk : msgs.length ≤ w.BUFFER_MAX_SIZE) (hdel : ∀ m ∈ msgs, w.Deliverable m) :
    ∃ w1 w2, w.enqueue_all msgs = .ok w1 ∧ w1.exchange_phase hashf = .ok w2 ∧
      w2.messages_recv_local = msgs.length ∧ w2.messages_recv_remote = 0 ∧
      w2.messages_sent = 0 ∧
      (msgs ≠ [] → w2.messages_sent ≠ w2.messages_recv_local + w2.messages_recv_remote) ∧
      ∃ w3, w2.clear_buffers = .ok w3 ∧ w1.comm_phase hashf = .ok w3 := by
  obtain ⟨w1, w2, b1, b2, b3, b4, b5, b6⟩ := single_worker_counts hashf w msgs hN hnodes hr hq hok
    hzero hk hdel
  rw [hc1, Nat.zero_add] at b3
  rw [hc2] at b4
  rw [hc0] at b5
  refine ⟨w1, w2, b1, b2, b3, b4, b5, ?_, b6⟩
  intro hne
  rw [b5, b3, b4]
  have : 0 < msgs.length := List.length_pos.mpr hne
  omega

/-- The statement of C14's failing input: on `solo_ready` (the only worker of a
run, `M = 4`, all counters zero) one message for the present item 0 is
enqueued; after the exchange phase the diagnostics are `messages_sent = 0`,
`messages_recv_local = 1`, `messages_recv_remote = 0`. -/
theorem C14_sent_count_misses_own_messages_witness :
    solo_ready.total_workers = 1 ∧ solo_ready.total_nodes = 1 ∧ solo_ready.Ready ∧
    solo_ready.Quiet ∧ solo_ready.TablesOK sample_hash ∧
    solo_ready.send_count solo_ready.rank_me_ = 0 ∧ solo_ready.messages_sent = 0 ∧
    solo_ready.messages_recv_local = 0 ∧ solo_ready.messages_recv_remote = 0 ∧
    [msg_to 0].length ≤ solo_ready.BUFFER_MAX_SIZE ∧
    (∀ m ∈ [msg_to 0], solo_ready.Deliverable m) ∧
    ∃ w1 w2, solo_ready.enqueue_all [msg_to 0] = .ok w1 ∧
      w1.exchange_phase sample_hash = .ok w2 ∧
      w2.messages_sent = 0 ∧ w2.messages_recv_local = 1 ∧ w2.messages_recv_remote = 0 ∧
      w2.messages_sent ≠ w2.messages_recv_local + w2.messages_recv_remote := by
  obtain ⟨a1, a2, a3, a4, a5, a6, a7, a8, a9, a10, a11⟩ := solo_ready_facts
  have hk : [msg_to 0].length ≤ solo_ready.BUFFER_MAX_SIZE := by rw [a7]; decide
  have hd : ∀ m ∈ [msg_to 0], solo_ready.Deliverable m := by
    intro m hm
    rw [List.mem_singleton] at hm
    rw [hm]
    exact a11
  obtain ⟨w1, w2, b1, b2, b3, b4, b5, b6, -⟩ :=
    C14_sent_count_misses_own_messages sample_hash solo_ready [msg_to 0] a1 a2 a3 a4 a5 a6 a8 a9
      a10 hk hd
  exact ⟨a1, a2, a3, a4, a5, a6, a8, a9, a10, hk, hd, w1, w2, b1, b2, b5, b3, b4,
    b6 (by simp)⟩


/-! ## Overflow and the local root -/

/-- A worker that is not the root of its local team does not run
`validate_buffer_space`: an iteration leaves its error code as it was. -/
theorem nonroot_iteration_error (hashf : Nat → Int) (prog : WorkProgram) (do_work : Bool)
    (w w' : Worker) (hnr : w.team_rank_me_ ≠ 0)
    (h : w.cycle_iteration hashf prog do_work true = .ok w') : w'.error = w.error := by
  rw [cycle_iteration_comm] at h
  have hroot : w.is_local_root = false := by
    simp only [Worker.is_local_root, decide_eq_false_iff_not]
    exact hnr
  rw [hroot] at h
  simp only [Bool.false_eq_true, if_false] at h
  exact error_of_comm (fun x => x.after_validate hashf prog do_work)
    (fun x e => err_after_validate hashf prog do_work x e) w w' h

/-- On the root of a local team an iteration that starts with a send counter
above `M` ends with the error code `ERROR_NOT_ENOUGH_BUFFER_SPACE`. -/
theorem root_iteration_error (hashf : Nat → Int) (prog : WorkProgram) (do_work : Bool)
    (w w' : Worker) (p : Nat) (hw : w.MemWF) (hh : w.HandlesOK) (hroot : w.team_rank_me_ = 0)
    (hp : p < w.total_workers) (hover : w.send_count p > w.BUFFER_MAX_SIZE)
    (h : w.cycle_iteration hashf prog do_work true = .ok w') :
    w'.error = ERROR_NOT_ENOUGH_BUFFER_SPACE := by
  rw [cycle_iteration_comm] at h
  have hr : w.is_local_root = true := by
    simp only [Worker.is_local_root, decide_eq_true_eq]
    exact hroot
  obtain ⟨mx, mn, hv, hmax⟩ := validate_spec w hw hh
  have hmem : w.send_count p ∈ w.counters := by
    simp only [Worker.counters, List.mem_append, List.mem_map, List.mem_range]
    exact Or.inl ⟨p, hp, rfl⟩
  have hmx : mx > w.BUFFER_MAX_SIZE := lt_of_lt_of_le hover (hmax.2 _ hmem)
  rw [hr, if_pos rfl, hv, if_pos hmx] at h
  simp only [] at h
  exact error_of_comm (fun x => x.after_validate hashf prog do_work)
    (fun x e => err_after_validate hashf prog do_work x e) _ w' h

theorem nonroot_cycle_one_error (hashf : Nat → Int) (prog : WorkProgram) (do_work : Bool)
    (w w' : Worker) (hnr : w.team_rank_me_ ≠ 0)
    (h : w.cycle hashf prog 1 do_work true = .ok w') : w'.error = w.error := by
  simp only [Worker.cycle, for_range, for_loop] at h
  have hboot : ∀ w1, (if w.cycles_counter = 0 then w.create_buffers_gptr_wait else .ok w :
      Except Fault Worker) = .ok w1 → w1.error = w.error ∧ w1.team_rank_me_ = w.team_rank_me_ := by
    intro w1 h1
    by_cases hc : w.cycles_counter = 0
    · rw [if_pos hc] at h1
      exact ⟨error_of_comm Worker.create_buffers_gptr_wait err_gptr_wait w w1 h1,
        (config_fields w w1 (gptr_wait_config w w1 h1)).2.2.2.1⟩
    · rw [if_neg hc] at h1
      cases h1
      exact ⟨rfl, rfl⟩
  cases h1 : (if w.cycles_counter = 0 then w.create_buffers_gptr_wait else .ok w :
      Except Fault Worker) with
  | error f => rw [h1] at h; cases h
  | ok w1 =>
    rw [h1] at h
    simp only [] at h
    obtain ⟨e1, e2⟩ := hboot w1 h1
    cases h2 : w1.cycle_iteration hashf prog do_work true with
    | error f => rw [h2] at h; cases h
    | ok w2 =>
      rw [h2] at h
      simp only [Except.ok.injEq] at h
      rw [← h, nonroot_iteration_error hashf prog do_work w1 w2 (e2 ▸ hnr) h2, e1]

theorem solo_ready_steady : solo_ready.Steady sample_hash ∧ solo_ready.team_rank_me_ = 0 := by
  obtain ⟨a1, a2, a3, a4, a5, a6, a7, a8, a9, a10, a11, a12, a13, tb, b1, b2, b3, b4⟩ :=
    solo_items_ready
  obtain ⟨w', h1, h2, h3, h4, h5, h6, h7, h8, h9, h10⟩ := gptr_wait_spec solo_items a2 a3
  obtain ⟨-, -, -, d4, d5, -⟩ := config_fields solo_items w' (gptr_wait_config solo_items w' h1)
  obtain ⟨tb0, e1, -⟩ := solo_items_eq
  have hsr : solo_ready = w' := by
    unfold solo_ready
    rw [h1]
  rw [hsr]
  refine ⟨⟨h2, h3, h9.trans a4, h10.trans a5, fun t tb' htb' => a6 t tb' (h4 ▸ htb'), ?_⟩,
    d4.trans ?_⟩
  · exact srcOK_of_frozen solo_items w' (by simp only [Worker.frozen, h4]) d5 a7
  · rw [e1]; rfl

/-- Five messages for a present item enqueued on a steady single worker with
`M = 4` and an empty own send array: the worker is steady again, its own send
counter is 5 and the exchange will take the first four messages. -/
theorem overflow_by_five (hashf : Nat → Int) (w : Worker) (key : Nat) (hst : w.Steady hashf)
    (hN : w.total_workers = 1) (hM : w.BUFFER_MAX_SIZE = 4)
    (hzero : w.send_count w.rank_me_ = 0) (hdel : w.Deliverable (msg_to key)) :
    ∃ w1, w.enqueue_all (List.replicate 5 (msg_to key)) = .ok w1 ∧ w1.Steady hashf ∧
      w1.ProgOK (fun _ => []) ∧ (∀ m ∈ w1.self_msgs, w1.Deliverable m) ∧
      0 < w1.total_workers ∧ w1.send_count 0 > w1.BUFFER_MAX_SIZE ∧
      w1.team_rank_me_ = w.team_rank_me_ ∧ w1.total_workers = 1 := by
  obtain ⟨s1, s2, s3, s4, s5, s6⟩ := hst
  have hR : w.rank_me_ = 0 := by
    have := s2.1.2
    omega
  obtain ⟨w1, g1, g2, g3, g4, g5⟩ := enqueue_all_spec (List.replicate 5 (msg_to key)) w s2.1
  have h0 : w.SendHolds [] 0 := by
    rw [hR] at hzero
    exact ⟨by simpa [sent_to] using hzero, by simp [sent_to]⟩
  have hh := g4 [] 0 (by rw [hN]; omega) h0
  rw [List.nil_append] at hh
  have hsent : sent_to 1 0 (List.replicate 5 (msg_to key)) = List.replicate 5 (msg_to key) := by
    apply sent_to_all
    intro m _
    simp [get_partition, Nat.mod_one]
  have eN : w1.total_workers = w.total_workers := by rw [g2]
  have eR : w1.rank_me_ = w.rank_me_ := by rw [g2]
  have eM : w1.BUFFER_MAX_SIZE = w.BUFFER_MAX_SIZE := by rw [g2]
  have hmin : min 5 4 = 4 := rfl
  have htake : List.take 4 (List.replicate 5 (msg_to key)) = List.replicate 4 (msg_to key) := rfl
  simp only [Worker.SendHolds, Worker.send_count, Worker.send_buffer, eN, eM, eR, hR, hN, hM,
    hsent, List.length_replicate, hmin, htake] at hh
  obtain ⟨c1, c2⟩ := hh
  have hself : w1.self_msgs = List.replicate 4 (msg_to key) := by
    simp only [Worker.self_msgs, dist_fetch, eR, hR, c1, eM, hM, hmin]
    exact c2
  have hq1 : w1.Quiet := by
    refine ⟨g3, ?_, ?_, ?_⟩
    · rw [g2]; exact s2.2.1
    · rw [g2]; exact s2.2.2.1
    · intro i hi hne
      rw [eN, hN] at hi
      rw [eR, hR] at hne
      omega
  refine ⟨w1, g1, ⟨by rw [g2]; exact s1, hq1, by rw [g2]; exact s3, by rw [g2]; exact s4,
    by rw [g2]; exact s5, by rw [g2]; exact s6⟩, ?_, ?_, by rw [eN, hN]; omega, ?_,
    by rw [g2], eN.trans hN⟩
  · intro it x hx
    cases hx
  · intro m hm
    rw [hself] at hm
    rw [(List.mem_replicate.mp hm).2, g2]
    exact hdel
  · rw [eM, hM]
    simp only [Worker.send_count, eR, hR, c1]
    decide

theorem solo_overflow_facts : solo_overflow.Steady sample_hash ∧
    solo_overflow.ProgOK (fun _ => []) ∧
    (∀ m ∈ solo_overflow.self_msgs, solo_overflow.Deliverable m) ∧
    0 < solo_overflow.total_workers ∧
    solo_overflow.send_count 0 > solo_overflow.BUFFER_MAX_SIZE ∧
    solo_overflow.team_rank_me_ = 0 ∧ solo_overflow.total_workers = 1 := by
  obtain ⟨a1, a2, a3, a4, a5, a6, a7, a8, a9, a10, a11⟩ := solo_ready_facts
  obtain ⟨hst, s7⟩ := solo_ready_steady
  obtain ⟨w1, g1, b1, b2, b3, b4, b5, b6, b7⟩ := overflow_by_five sample_hash solo_ready 0 hst a1
    a7 a6 a11
  have hso : solo_overflow = w1 := by
    unfold solo_overflow
    rw [g1]
  rw [hso]
  exact ⟨b1, b2, b3, b4, b5, b6.trans s7, b7⟩

/-- C15, amended (overflow is flagged by the local root). A steady worker
starts an iteration of `cycle` with `do_comm = true` while its send counter for
rank `p` exceeds `M`; the messages it sent to itself name present items.  The
iteration completes.  If the worker is the root of its local team (team rank
0) and the counter is one for another rank, or no other rank shares the node
of the worker, its error code is `ERROR_NOT_ENOUGH_BUFFER_SPACE` when the
iteration ends; if the worker is not the root, `validate_buffer_space` is not
called and the error code is what it was when the iteration started.  Both
hold as well on every state of the shared segments in which the counter for
`p` still has its value, whatever else the co-located ranks have written since
the iteration started; and for `p` other than the worker itself no rank that
has resolved its handles holds a local handle of that counter.  The counter a
root keeps for itself on a node that it shares is left out: a co-located rank
holds its handle and writes 0 to it in its own exchange. -/
theorem C15_overflow_flagged_by_root (hashf : Nat → Int) (prog : WorkProgram) (w : Worker)
    (do_work : Bool) (p : Nat) (hst : w.Steady hashf) (hpg : w.ProgOK prog)
    (hdl : ∀ m ∈ w.self_msgs, w.Deliverable m) (hp : p < w.total_workers)
    (hover : w.send_count p > w.BUFFER_MAX_SIZE) :
    (∃ w', w.cycle_iteration hashf prog do_work true = .ok w' ∧
      (w.team_rank_me_ = 0 → p ≠ w.rank_me_ ∨ w.Secluded →
        w'.error = ERROR_NOT_ENOUGH_BUFFER_SPACE) ∧
      (w.team_rank_me_ ≠ 0 → w'.error = w.error)) ∧
    (∀ (mem : List Segment) (w'' : Worker), MemOK mem w.total_workers w.BUFFER_MAX_SIZE →
      size_at mem (w.rank_me_, p) = w.send_count p →
      ({ w with shared := mem } : Worker).cycle_iteration hashf prog do_work true = .ok w'' →
      (w.team_rank_me_ = 0 → w''.error = ERROR_NOT_ENOUGH_BUFFER_SPACE) ∧
      (w.team_rank_me_ ≠ 0 → w''.error = w.error)) ∧
    (p ≠ w.rank_me_ → ∀ (u : Worker) (i : Nat) (sp : GPtr), u.Ready → i < u.total_workers →
      u.their_local_push_size[i]? = some (some sp) → sp ≠ (w.rank_me_, p)) := by
  have hex : ∃ w', w.cycle_iteration hashf prog do_work true = .ok w' := by
    cases do_work with
    | false =>
      obtain ⟨w', h, -⟩ := cycle_iteration_spec hashf prog w w [] hst.1 hst.2.1 hst.2.2.1
        hst.2.2.2.1 (delivered_refl hashf w hst.2.2.2.2.1) hdl
      exact ⟨w', h⟩
    | true =>
      obtain ⟨-, w', -, h, -⟩ := iteration_spec hashf prog w hst hpg hdl
      exact ⟨w', h⟩
  obtain ⟨w', h⟩ := hex
  refine ⟨⟨w', h,
    fun hroot _ => root_iteration_error hashf prog do_work w w' p hst.2.1.1
      (ready_handlesOK w hst.1) hroot hp hover h,
    fun hnr => nonroot_iteration_error hashf prog do_work w w' hnr h⟩, ?_, ?_⟩
  · intro mem w'' hmem hsz hrun
    refine ⟨fun hroot => ?_, fun hnr => ?_⟩
    · exact root_iteration_error hashf prog do_work ({ w with shared := mem } : Worker) w'' p
        ⟨hmem, hst.2.1.1.2⟩ (ready_handlesOK w hst.1) hroot hp
        (by
          show size_at mem (w.rank_me_, p) > w.BUFFER_MAX_SIZE
          rw [hsz]
          exact hover) hrun
    · exact nonroot_iteration_error hashf prog do_work ({ w with shared := mem } : Worker) w''
        hnr hrun
  · intro hne u i sp hu hi hsp heq
    rw [ready_local_size u hu i hi] at hsp
    simp only [Option.some.injEq] at hsp
    split_ifs at hsp
    simp only [Option.some.injEq] at hsp
    rw [← hsp] at heq
    simp only [dist_fetch, Prod.mk.injEq] at heq
    exact hne (heq.2.symm.trans heq.1)

/-- The statement of C15 on `solo_overflow`, the only worker of its run and so
the root of its local team, with send counter 5 and `M = 4`: `cycle_iteration`
with `do_comm = true` ends with the error code `ERROR_NOT_ENOUGH_BUFFER_SPACE`. -/
theorem C15_overflow_flagged_by_root_witness :
    solo_overflow.Steady sample_hash ∧ solo_overflow.ProgOK (fun _ => []) ∧
    (∀ m ∈ solo_overflow.self_msgs, solo_overflow.Deliverable m) ∧
    0 < solo_overflow.total_workers ∧
    solo_overflow.send_count 0 > solo_overflow.BUFFER_MAX_SIZE ∧
    solo_overflow.team_rank_me_ = 0 ∧ solo_overflow.Secluded ∧
    ∃ w', solo_overflow.cycle_iteration sample_hash (fun _ => []) false true = .ok w' ∧
      w'.error = ERROR_NOT_ENOUGH_BUFFER_SPACE := by
  obtain ⟨a1, a2, a3, a4, a5, a6, a7⟩ := solo_overflow_facts
  have hsec : solo_overflow.Secluded := secluded_of_single solo_overflow a7 a1.2.1.1
  obtain ⟨⟨w', h1, h2, -⟩, -⟩ := C15_overflow_flagged_by_root sample_hash (fun _ => [])
    solo_overflow false 0 a1 a2 a3 a4 a5
  exact ⟨a1, a2, a3, a4, a5, a6, hsec, w', h1, h2 a6 (Or.inr hsec)⟩


/-- Five messages for rank 0 enqueued on rank 1 of two workers with `M = 4`,
fresh from its constructor and not the root of its local team: the counter for
rank 0 is 5, and `cycle(1, do_work, true)` with `do_work = false` completes
with the error code unchanged. -/
theorem nonroot_overflow_run (hashf : Nat → Int) (prog : WorkProgram) (w : Worker)
    (hc : w.cycles_counter = 0) (hfr : w.Fresh) (hq : w.Quiet)
    (hf1 : w.rget_futures_size = []) (hf2 : w.rget_futures_msgs = [])
    (hok : w.TablesOK hashf) (hN : w.total_workers = 2) (hR : w.rank_me_ = 1)
    (hM : w.BUFFER_MAX_SIZE = 4) (hz0 : w.send_count 0 = 0) (hz1 : w.send_count 1 = 0)
    (hteam : w.team_rank_me_ ≠ 0) :
    ∃ w1, w.enqueue_all (List.replicate 5 (msg_to 0)) = .ok w1 ∧ w1.send_count 0 = 5 ∧
      w1.BUFFER_MAX_SIZE = 4 ∧ w1.team_rank_me_ = w.team_rank_me_ ∧ w1.error = w.error ∧
      ∃ w', w1.cycle hashf prog 1 false true = .ok w' ∧ w'.error = w.error := by
  obtain ⟨w1, g1, g2, g3, g4, g5⟩ := enqueue_all_spec (List.replicate 5 (msg_to 0)) w hq.1
  have eN : w1.total_workers = w.total_workers := by rw [g2]
  have eR : w1.rank_me_ = w.rank_me_ := by rw [g2]
  have eM : w1.BUFFER_MAX_SIZE = w.BUFFER_MAX_SIZE := by rw [g2]
  have h0 : w.SendHolds [] 0 := ⟨by simpa [sent_to] using hz0, by simp [sent_to]⟩
  have h1 : w.SendHolds [] 1 := ⟨by simpa [sent_to] using hz1, by simp [sent_to]⟩
  have hh0 := (g4 [] 0 (by rw [hN]; omega) h0).1
  have hh1 := (g4 [] 1 (by rw [hN]; omega) h1).1
  have hs0 : sent_to 2 0 (List.replicate 5 (msg_to 0)) = List.replicate 5 (msg_to 0) := by
    decide
  have hs1 : sent_to 2 1 (List.replicate 5 (msg_to 0)) = [] := by decide
  rw [List.nil_append, eN, hN, hs0, List.length_replicate] at hh0
  rw [List.nil_append, eN, hN, hs1, List.length_nil] at hh1
  have hself : w1.self_msgs = [] := by
    apply self_msgs_of_zero
    rw [eR, hR]
    exact hh1
  have hq1 : w1.Quiet := by
    refine ⟨g3, ?_, ?_, ?_⟩
    · rw [g2]; exact hq.2.1
    · rw [g2]; exact hq.2.2.1
    · intro i hi hne
      rw [eN] at hi
      rw [eR] at hne
      rw [(g5 (dist_fetch i i) (by rw [dist_fetch_fst]; exact hne)).1]
      exact hq.2.2.2 i hi hne
  obtain ⟨w', c1, -⟩ := cycle_spec hashf prog w1 1
    (Or.inl ⟨by rw [g2]; exact hc, by rw [g2]; exact hfr⟩) hq1 (by rw [g2]; exact hf1)
    (by rw [g2]; exact hf2) (by rw [g2]; exact hok)
    (by rw [hself]; intro m hm; cases hm) (Nat.le_refl 1)
  have et : w1.team_rank_me_ = w.team_rank_me_ := by rw [g2]
  have ee : w1.error = w.error := by rw [g2]
  refine ⟨w1, g1, hh0, eM.trans hM, et, ee, w', c1, ?_⟩
  rw [nonroot_cycle_one_error hashf prog false w1 w' (et ▸ hteam) c1, ee]

theorem nonroot_worker_facts : nonroot_worker.cycles_counter = 0 ∧ nonroot_worker.Fresh ∧
    nonroot_worker.Quiet ∧ nonroot_worker.rget_futures_size = [] ∧
    nonroot_worker.rget_futures_msgs = [] ∧ nonroot_worker.TablesOK sample_hash ∧
    nonroot_worker.total_workers = 2 ∧ nonroot_worker.rank_me_ = 1 ∧
    nonroot_worker.BUFFER_MAX_SIZE = 4 ∧ nonroot_worker.send_count 0 = 0 ∧
    nonroot_worker.send_count 1 = 0 ∧ nonroot_worker.team_rank_me_ = 1 ∧
    nonroot_worker.error = 0 := by
  have hsh : nonroot_worker.shared = (Worker.new 1 2 1 2 [true, true] 4).shared := by
    simp [nonroot_worker, Worker.add_table, Worker.new]
  have hN : nonroot_worker.total_workers = 2 := rfl
  have ht : nonroot_worker.tables
      = [{ TableContainer.new with is_global := true, myTableKey := 0, worker := some 1 }] := by
    simp [nonroot_worker, Worker.add_table, Worker.new]
  refine ⟨rfl, ?_, ⟨⟨?_, ?_⟩, ?_, ?_, ?_⟩, rfl, rfl, ?_, hN, rfl, rfl, by decide, by decide, rfl,
    rfl⟩
  · simp [nonroot_worker, Worker.add_table, Worker.new, Worker.Fresh]
  · rw [hsh]
    exact memOK_new 2 4
  · show 1 < 2
    omega
  · simp [nonroot_worker, Worker.add_table, Worker.new, Worker.StagingOK,
      Worker.is_process_local]
    constructor
    · intro i hi
      interval_cases i <;> simp
    · intro i hi
      interval_cases i <;> simp
  · simp [nonroot_worker, Worker.add_table, Worker.new]
  · intro i hi hne
    rw [hN] at hi
    have hR : nonroot_worker.rank_me_ = 1 := rfl
    rw [hR] at hne
    interval_cases i
    · decide
    · exact absurd rfl hne
  · intro t tb htb
    rw [ht] at htb
    cases t with
    | zero =>
      simp only [List.getElem?_cons_zero, Option.some.injEq] at htb
      subst htb
      exact ⟨tableOK_fresh sample_hash _ rfl, rfl⟩
    | succ n => simp at htb

/-- C15 as stated fails on the code. `nonroot_overflow` is rank 1 of two
workers on one node, team rank 1, with `M = 4` and send counter 5 for rank 0;
its error code is 0.  `cycle(1, false, true)` completes and the error code is
still 0: `validate_buffer_space` runs on the local root only. -/
theorem C15_nonroot_counterexample :
    nonroot_overflow.team_rank_me_ = 1 ∧ nonroot_overflow.BUFFER_MAX_SIZE = 4 ∧
    nonroot_overflow.send_count 0 = 5 ∧ nonroot_overflow.error = 0 ∧
    ∃ w', nonroot_overflow.cycle sample_hash (fun _ => []) 1 false true = .ok w' ∧
      w'.error = 0 ∧ w'.error ≠ ERROR_NOT_ENOUGH_BUFFER_SPACE := by
  obtain ⟨a1, a2, a3, a4, a5, a6, a7, a8, a9, a10, a11, a12, a13⟩ := nonroot_worker_facts
  obtain ⟨w1, g1, b1, b2, b3, b4, w', b5, b6⟩ := nonroot_overflow_run sample_hash (fun _ => [])
    nonroot_worker a1 a2 a3 a4 a5 a6 a7 a8 a9 a10 a11 (by rw [a12]; decide)
  have hno : nonroot_overflow = w1 := by
    unfold nonroot_overflow
    rw [g1]
  rw [hno]
  refine ⟨b3.trans a12, b2, b1, b4.trans a13, w', b5, b6.trans a13, ?_⟩
  rw [b6, a13]
  decide


/-! ## The partition of a key -/

/-- C21 (partition exclusivity and agreement). For `N ≥ 1` workers, every
table key `t` and item key `k`: `get_partition(t, k)` is below `N`, so it is
the one and only rank `r < N` with `get_partition(t, k) = r`; the result does
not change with the table key; and two workers with the same number `N` of
workers, whatever their rank and the rest of their state, compute the same
partition for `k`, whatever table keys they pass. -/
theorem C21_partition_exclusive (N t k : Nat) (hN : 1 ≤ N) :
    get_partition N t k < N ∧
    (∃! r, r < N ∧ get_partition N t k = r) ∧
    (∀ t2, get_partition N t2 k = get_partition N t k) ∧
    (∀ (w1 w2 : Worker) (t1 t2 : Nat), w1.total_workers = N → w2.total_workers = N →
      w1.get_partition t1 k = w2.get_partition t2 k ∧ w1.get_partition t1 k < N) := by
  have hlt : get_partition N t k < N := Nat.mod_lt _ (by omega)
  refine ⟨hlt, ⟨get_partition N t k, ⟨hlt, rfl⟩, fun r hr => hr.2.symm⟩, fun _ => rfl, ?_⟩
  intro w1 w2 t1 t2 h1 h2
  simp only [Worker.get_partition, h1, h2]
  exact ⟨rfl, hlt⟩

/-- The statement of C21 for three workers and the key 7 of table 0, whose
partition is rank 1. -/
theorem C21_partition_exclusive_witness :
    1 ≤ 3 ∧ get_partition 3 0 7 = 1 ∧ get_partition 3 0 7 < 3 ∧
    (∃! r, r < 3 ∧ get_partition 3 0 7 = r) ∧
    (∀ t2, get_partition 3 t2 7 = get_partition 3 0 7) ∧
    (∀ (w1 w2 : Worker) (t1 t2 : Nat), w1.total_workers = 3 → w2.total_workers = 3 →
      w1.get_partition t1 7 = w2.get_partition t2 7 ∧ w1.get_partition t1 7 < 3) :=
  ⟨by decide, by decide, C21_partition_exclusive 3 0 7 (by decide)⟩


/-! ## The hash and the empty-slot marker -/

theorem wrap32_range (x : Int) : -2 ^ 31 ≤ wrap32 x ∧ wrap32 x < 2 ^ 31 := by
  unfold wrap32
  constructor <;> omega

theorem wrap32_of_range (x : Int) (h1 : -2 ^ 31 ≤ x) (h2 : x < 2 ^ 31) : wrap32 x = x := by
  unfold wrap32
  omega

theorem c_abs_ne (x : Int) (h1 : -2 ^ 31 ≤ x) (h2 : x < 2 ^ 31) : c_abs x ≠ -1 := by
  unfold c_abs
  split
  · omega
  · unfold wrap32
    omega

/-- C28 (the hash never equals the empty-slot marker). For every 32-bit value
`u`, `c_abs((int)u)` computed in 32-bit two's-complement arithmetic is not
`-1`: it is `u` itself for `u < 2^31`, it is `2^32 - u` for `2^31 < u`, and
for `u = 2^31` (`INT_MIN`) the product wraps to `-2^31`.  So `hashf(key)` is
not `-1` whatever `CityHash32` returns, and on a map that satisfies the map
invariant for this hash `insert(key, value)` succeeds and the entry it stores
is among the non-empty slots of the map afterwards. -/
theorem C28_hash_is_not_the_marker {K V : Type} [DecidableEq K] [Inhabited K] [Inhabited V]
    (CityHash32 : K → Nat) :
    (∀ u : Nat, u < 2 ^ 32 → c_abs (wrap32 (u : Int)) ≠ -1 ∧
      (u < 2 ^ 31 → c_abs (wrap32 (u : Int)) = u) ∧
      (2 ^ 31 < u → c_abs (wrap32 (u : Int)) = 2 ^ 32 - (u : Int)) ∧
      (u = 2 ^ 31 → c_abs (wrap32 (u : Int)) = -2 ^ 31)) ∧
    (∀ key : K, hashf CityHash32 key ≠ -1) ∧
    (∀ (m : Robin_Map K V) (key : K) (val : V), m.Inv (hashf CityHash32) →
      ∃ m', m.insert (hashf CityHash32) key val = .ok m' ∧
        ({ hash := hashf CityHash32 key, first := key, second := val } : Entry K V)
          ∈ live_list m'.entries) := by
  have hne : ∀ key : K, hashf CityHash32 key ≠ -1 := by
    intro key
    unfold hashf
    exact c_abs_ne _ (wrap32_range _).1 (wrap32_range _).2
  refine ⟨?_, hne, ?_⟩
  · intro u hu
    refine ⟨c_abs_ne _ (wrap32_range _).1 (wrap32_range _).2, ?_, ?_, ?_⟩
    · intro h
      unfold c_abs wrap32
      split <;> omega
    · intro h
      unfold c_abs wrap32
      split <;> omega
    · intro h
      unfold c_abs wrap32
      split <;> omega
  · intro m key val hinv
    obtain ⟨m', h1, -, h3, -, -⟩ := insert_spec (hashf CityHash32) m hinv key val (hne key)
    exact ⟨m', h1, h3.symm.subset (List.mem_cons_self _ _)⟩

/-- The statement of C28 for a `CityHash32` that returns `2^32 - 1` (the bit
pattern of the marker) for every key, and the fresh map: `c_abs` of that
pattern is 1, so `hashf` is 1, and the inserted entry is stored as a
non-empty slot. -/
theorem C28_hash_is_not_the_marker_witness :
    4294967295 < 2 ^ 32 ∧ c_abs (wrap32 ((4294967295 : Nat) : Int)) ≠ -1 ∧
    (Robin_Map.new : Robin_Map Nat Nat).Inv (hashf (fun _ : Nat => 2 ^ 32 - 1)) ∧
    hashf (fun _ : Nat => 2 ^ 32 - 1) 5 = 1 ∧
    ∃ m', (Robin_Map.new : Robin_Map Nat Nat).insert (hashf (fun _ : Nat => 2 ^ 32 - 1)) 5 0
        = .ok m' ∧
      ({ hash := hashf (fun _ : Nat => 2 ^ 32 - 1) 5, first := 5, second := 0 } : Entry Nat Nat)
        ∈ live_list m'.entries :=
  ⟨by decide,
    ((@C28_hash_is_not_the_marker Nat Nat _ _ _ (fun _ => 2 ^ 32 - 1)).1 4294967295
      (by decide)).1,
    inv_new _, by decide,
    (@C28_hash_is_not_the_marker Nat Nat _ _ _ (fun _ => 2 ^ 32 - 1)).2.2 Robin_Map.new 5 0
      (inv_new _)⟩


/-! ## Growth of the map -/

section GrowLemmas
variable {K V : Type} [Inhabited K] [Inhabited V]

/-- Capacity and entry count after a sequence of `insert` calls. -/
theorem insert_all_counts [DecidableEq K] (hashf : K → Int) (hh : ∀ k, hashf k ≠ -1) :
    ∀ (kvs : List (K × V)) (m : Robin_Map K V), m.Inv hashf →
      ∃ m', insert_all hashf m kvs = .ok m' ∧ m'.Inv hashf ∧
        m'.num_items = m.num_items + kvs.length ∧
        m'.size = capacity_after m.size m.num_items kvs.length
  | [], m, hinv => ⟨m, rfl, hinv, rfl, rfl⟩
  | kv :: rest, m, hinv => by
    obtain ⟨m1, h1, hinv1, -, hn1, hs1⟩ := insert_spec hashf m hinv kv.1 kv.2 (hh kv.1)
    obtain ⟨m', h2, hinv', hn', hs'⟩ := insert_all_counts hashf hh rest m1 hinv1
    refine ⟨m', ?_, hinv', ?_, ?_⟩
    · simp only [insert_all, h1]
      exact h2
    · rw [hn', hn1, List.length_cons]
      omega
    · rw [hs', hs1, hn1, List.length_cons]
      rfl

end GrowLemmas

theorem capacity_after_pow2 : ∀ (j size n : Nat), (∃ a, size = 1024 * 2 ^ a) →
    ∃ a, capacity_after size n j = 1024 * 2 ^ a
  | 0, size, n, h => h
  | j + 1, size, n, ⟨a, ha⟩ => by
    rw [capacity_after]
    apply capacity_after_pow2 j
    split
    · exact ⟨a + 1, by rw [ha, pow_succ]; ring⟩
    · exact ⟨a, ha⟩

theorem to_float_le24 (n : Nat) (h : n ≤ 2 ^ 24) : to_float n = n := by
  rcases Nat.lt_or_ge n (2 ^ 24) with h1 | h1
  · exact to_float_small n h1
  · have : n = 2 ^ 24 := by omega
    rw [this]
    exact to_float_pow2 24

/-- No doubling while the count stays within half the capacity (counts up to
`2 ^ 24`, which the conversion to `float` leaves as they are). -/
theorem capacity_after_stay : ∀ (j size n : Nat), to_float size = size → n + j ≤ 2 ^ 24 + 1 →
    2 * (n + j) ≤ size + 2 → capacity_after size n j = size
  | 0, _, _, _, _, _ => rfl
  | j + 1, size, n, hfs, hb, h => by
    rw [capacity_after, hfs, to_float_le24 n (by omega), if_neg (by omega)]
    exact capacity_after_stay j size (n + 1) hfs (by omega) (by omega)

/-- The insert that finds more than half the capacity doubles it. -/
theorem capacity_after_double (size n : Nat) (hfs : to_float size = size) (hn : n ≤ 2 ^ 24)
    (h : size < 2 * n) : capacity_after size n 1 = size * 2 := by
  rw [capacity_after, hfs, to_float_le24 n hn, if_pos h]
  rfl

theorem capacity_after_add : ∀ (a b size n : Nat),
    capacity_after size n (a + b) = capacity_after (capacity_after size n a) (n + a) b
  | 0, b, size, n => by simp [capacity_after]
  | a + 1, b, size, n => by
    rw [show a + 1 + b = (a + b) + 1 by omega, capacity_after, capacity_after,
      capacity_after_add a b, show n + 1 + a = n + (a + 1) by omega]

theorem capacity_after_513 : capacity_after 1024 0 513 = 1024 :=
  capacity_after_stay 513 1024 0 (to_float_small _ (by norm_num)) (by norm_num) (by omega)

theorem capacity_after_5000 : capacity_after 1024 0 5000 = 16384 := by
  have f : ∀ n, n < 2 ^ 24 → to_float n = n := to_float_small
  have s1 : capacity_after 1024 0 513 = 1024 := capacity_after_513
  have d1 : capacity_after 1024 513 1 = 2048 :=
    capacity_after_double 1024 513 (f _ (by norm_num)) (by norm_num) (by omega)
  have s2 : capacity_after 2048 514 511 = 2048 :=
    capacity_after_stay 511 2048 514 (f _ (by norm_num)) (by norm_num) (by omega)
  have d2 : capacity_after 2048 1025 1 = 4096 :=
    capacity_after_double 2048 1025 (f _ (by norm_num)) (by norm_num) (by omega)
  have s3 : capacity_after 4096 1026 1023 = 4096 :=
    capacity_after_stay 1023 4096 1026 (f _ (by norm_num)) (by norm_num) (by omega)
  have d3 : capacity_after 4096 2049 1 = 8192 :=
    capacity_after_double 4096 2049 (f _ (by norm_num)) (by norm_num) (by omega)
  have s4 : capacity_after 8192 2050 2047 = 8192 :=
    capacity_after_stay 2047 8192 2050 (f _ (by norm_num)) (by norm_num) (by omega)
  have d4 : capacity_after 8192 4097 1 = 16384 :=
    capacity_after_double 8192 4097 (f _ (by norm_num)) (by norm_num) (by omega)
  have s5 : capacity_after 16384 4098 902 = 16384 :=
    capacity_after_stay 902 16384 4098 (f _ (by norm_num)) (by norm_num) (by omega)
  rw [show 5000 = 513 + (1 + (511 + (1 + (1023 + (1 + (2047 + (1 + 902))))))) by norm_num,
    capacity_after_add, s1, capacity_after_add, d1, capacity_after_add, s2, capacity_after_add,
    d2, capacity_after_add, s3, capacity_after_add, d3, capacity_after_add, s4,
    capacity_after_add, d4]
  exact s5

/-- The capacity `2 ^ k` is reached with the insert number `2 ^ (k - 2) + 2`,
for `k` from 11 to 25. -/
theorem capacity_after_reach : ∀ (i : Nat), i ≤ 14 →
    capacity_after 1024 0 (2 ^ (i + 9) + 2) = 2 ^ (i + 11)
  | 0, _ => by
    have d1 : capacity_after 1024 513 1 = 2048 :=
      capacity_after_double 1024 513 (to_float_small _ (by norm_num)) (by norm_num) (by omega)
    rw [show 2 ^ (0 + 9) + 2 = 513 + 1 by norm_num, capacity_after_add, capacity_after_513,
      Nat.zero_add, d1]
    norm_num
  | i + 1, hi => by
    have ih := capacity_after_reach i (by omega)
    have hp : (2 : Nat) ^ (i + 9) ≤ 2 ^ 22 := Nat.pow_le_pow_right (by norm_num) (by omega)
    have hpos : 0 < 2 ^ (i + 9) := Nat.two_pow_pos _
    have e1 : (2 : Nat) ^ (i + 1 + 9) = 2 * 2 ^ (i + 9) := by
      rw [show i + 1 + 9 = (i + 9) + 1 by omega, pow_succ]
      ring
    have e2 : (2 : Nat) ^ (i + 11) = 4 * 2 ^ (i + 9) := by
      rw [show i + 11 = (i + 9) + 2 by omega, pow_add]
      ring
    have e3 : (2 : Nat) ^ (i + 1 + 11) = 8 * 2 ^ (i + 9) := by
      rw [show i + 1 + 11 = (i + 9) + 3 by omega, pow_add]
      ring
    have hfs : to_float (4 * 2 ^ (i + 9)) = 4 * 2 ^ (i + 9) := by
      rw [← e2]
      exact to_float_pow2 _
    rw [e1, e3]
    rw [e2] at ih
    generalize (2 : Nat) ^ (i + 9) = x at *
    have h22 : (2 : Nat) ^ 22 = 4194304 := by norm_num
    have h24 : (2 : Nat) ^ 24 = 16777216 := by norm_num
    have hstay : capacity_after (4 * x) (x + 2) (x - 1) = 4 * x :=
      capacity_after_stay _ _ _ hfs (by omega) (by omega)
    have hdouble : capacity_after (4 * x) (x + 2 + (x - 1)) 1 = 4 * x * 2 :=
      capacity_after_double _ _ hfs (by omega) (by omega)
    rw [show 2 * x + 2 = (x + 2) + ((x - 1) + 1) by omega,
      capacity_after_add, ih, Nat.zero_add, capacity_after_add, hstay, hdouble]
    omega

/-- The conversion to `float` delays the doubling of the capacity `2 ^ 25`:
after `2 ^ 24 + 2` inserts the capacity is still `2 ^ 25`. -/
theorem capacity_after_delay : capacity_after 1024 0 (2 ^ 24 + 2) = 2 ^ 25 := by
  have h0 := capacity_after_reach 14 (Nat.le_refl _)
  have hfs : to_float (2 ^ 25) = 2 ^ 25 := to_float_pow2 25
  have hstay : capacity_after (2 ^ 25) (2 ^ 23 + 2) (2 ^ 23 - 1) = 2 ^ 25 :=
    capacity_after_stay _ _ _ hfs (by norm_num) (by norm_num)
  have hl : Nat.log2 (2 ^ 24 + 1) = 24 := log2_val _ 24 (by norm_num) (by norm_num)
  have hround : to_float (2 ^ 24 + 1) = 2 ^ 24 := by
    unfold to_float
    rw [if_neg (by norm_num)]
    simp only [hl]
    decide
  have hlast : capacity_after (2 ^ 25) (2 ^ 24 + 1) 1 = 2 ^ 25 := by
    rw [capacity_after, hfs, hround, if_neg (by norm_num)]
    rfl
  rw [show (2 : Nat) ^ 24 + 2 = (2 ^ (14 + 9) + 2) + ((2 ^ 23 - 1) + 1) by norm_num,
    capacity_after_add, h0, Nat.zero_add, capacity_after_add,
    show (2 : Nat) ^ (14 + 11) = 2 ^ 25 by norm_num,
    show (2 : Nat) ^ (14 + 9) + 2 = 2 ^ 23 + 2 by norm_num, hstay,
    show (2 : Nat) ^ 23 + 2 + (2 ^ 23 - 1) = 2 ^ 24 + 1 by norm_num, hlast]

/-- C22 as stated fails on the code.  (1) 513 `insert` calls on a fresh map
(here the keys 0 to 512, hashed by `sample_hash`) succeed and leave the
capacity at 1,024 with `num_items = 513`: the 513th call found 512 entries,
which is not more than half of 1,024, so it did not double the capacity, and
it left `513 > 1024 / 2` entries.  (2) The test is made in `float`, where the
count `2 ^ 24 + 1` is rounded to `2 ^ 24`: `2 ^ 24 + 2` calls leave the capacity
at `2 ^ 25` with `num_items = 2 ^ 24 + 2`, above `capacity / 2 + 1`. -/
theorem C22_load_factor_counterexample :
    (∃ m, insert_all sample_hash (Robin_Map.new : Robin_Map Nat Nat)
        ((List.range 513).map (fun k => (k, 0))) = .ok m ∧
      m.size = 1024 ∧ m.num_items = 513 ∧ ¬ (m.num_items ≤ m.size / 2)) ∧
    (∃ m, insert_all sample_hash (Robin_Map.new : Robin_Map Nat Nat)
        ((List.range (2 ^ 24 + 2)).map (fun k => (k, 0))) = .ok m ∧
      m.size = 2 ^ 25 ∧ m.num_items = 2 ^ 24 + 2 ∧ ¬ (m.num_items ≤ m.size / 2 + 1)) := by
  have hs0 : (Robin_Map.new : Robin_Map Nat Nat).size = 1024 := rfl
  have hn0 : (Robin_Map.new : Robin_Map Nat Nat).num_items = 0 := rfl
  constructor
  · obtain ⟨m, h1, -, h3, h4⟩ := insert_all_counts sample_hash sample_hash_ne
      ((List.range 513).map (fun k => (k, 0))) (Robin_Map.new : Robin_Map Nat Nat)
      (inv_new sample_hash)
    have hlen : ((List.range 513).map (fun k => (k, (0 : Nat)))).length = 513 := by simp
    rw [hlen, hn0] at h3 h4
    rw [hs0, capacity_after_513] at h4
    refine ⟨m, h1, h4, by omega, ?_⟩
    rw [h3, h4]
    decide
  · obtain ⟨m, h1, -, h3, h4⟩ := insert_all_counts sample_hash sample_hash_ne
      ((List.range (2 ^ 24 + 2)).map (fun k => (k, 0))) (Robin_Map.new : Robin_Map Nat Nat)
      (inv_new sample_hash)
    have hlen : ((List.range (2 ^ 24 + 2)).map (fun k => (k, (0 : Nat)))).length = 2 ^ 24 + 2 := by
      rw [List.length_map, List.length_range]
    rw [hlen, hn0] at h3 h4
    rw [hs0, capacity_after_delay] at h4
    refine ⟨m, h1, h4, by omega, ?_⟩
    rw [h3, h4]
    norm_num

/-- C22, amended (load-factor threshold). For a hash that never returns the
marker, every sequence of `insert` calls on the empty map succeeds and the map
counts one entry per call.  A further `insert` doubles the capacity first
exactly when `above_load_factor()` holds before the call, that is when
`num_items`, converted to `float`, is more than `0.5 * capacity` (for fewer than
`2 ^ 24` entries: when `num_items > 0.5 * capacity`), and adds one entry.  After
every insert the count that the insert found, converted to `float`, is at most
`capacity / 2`; so `num_items ≤ capacity / 2 + 1` as long as the map holds at
most `2 ^ 24 + 1` entries, and not beyond: after `2 ^ 24 + 2` inserts the
capacity is `2 ^ 25`. -/
theorem C22_load_factor_threshold {K V : Type} [DecidableEq K] [Inhabited K] [Inhabited V]
    (hashf : K → Int) (hh : ∀ k, hashf k ≠ -1) (kvs : List (K × V)) :
    ∃ m, insert_all hashf (Robin_Map.new : Robin_Map K V) kvs = .ok m ∧
      m.num_items = kvs.length ∧ 2 * to_float (m.num_items - 1) ≤ m.size ∧
      (m.num_items ≤ 2 ^ 24 + 1 → m.num_items ≤ m.size / 2 + 1) ∧
      (kvs.length = 2 ^ 24 + 2 → m.size = 2 ^ 25 ∧ ¬ (m.num_items ≤ m.size / 2 + 1)) ∧
      (m.above_load_factor = true ↔ to_float m.size < 2 * to_float m.num_items) ∧
      (m.num_items < 2 ^ 24 → (m.above_load_factor = true ↔ m.size < 2 * m.num_items)) ∧
      ∀ (key : K) (val : V), ∃ m', m.insert hashf key val = .ok m' ∧
        m'.num_items = m.num_items + 1 ∧
        m'.size = (if m.above_load_factor then m.size * 2 else m.size) ∧
        2 * to_float (m'.num_items - 1) ≤ m'.size ∧
        (m'.num_items ≤ 2 ^ 24 + 1 → m'.num_items ≤ m'.size / 2 + 1) := by
  obtain ⟨m, h1, hinv, h3, h4⟩ := insert_all_counts hashf hh kvs (Robin_Map.new : Robin_Map K V)
    (inv_new hashf)
  have hn0 : (Robin_Map.new : Robin_Map K V).num_items = 0 := rfl
  have hs0 : (Robin_Map.new : Robin_Map K V).size = 1024 := rfl
  rw [hn0, Nat.zero_add] at h3
  rw [hn0, hs0] at h4
  have bound : ∀ n s : Nat, 2 * to_float (n - 1) ≤ s → n ≤ 2 ^ 24 + 1 → n ≤ s / 2 + 1 := by
    intro n s hb hn
    rw [to_float_le24 (n - 1) (by omega)] at hb
    omega
  have hfs : to_float m.size = m.size := by
    obtain ⟨k, hk⟩ := hinv.1.2.1
    rw [hk]
    exact to_float_pow2 k
  have habove : m.above_load_factor = true ↔ to_float m.size < 2 * to_float m.num_items := by
    simp only [Robin_Map.above_load_factor, decide_eq_true_eq]
  refine ⟨m, h1, h3, hinv.2.2.2.1, bound _ _ hinv.2.2.2.1, ?_, habove, ?_, ?_⟩
  · intro hlen
    rw [hlen] at h4
    rw [h4, capacity_after_delay, h3, hlen]
    exact ⟨rfl, by norm_num⟩
  · intro hn
    rw [habove, hfs, to_float_small _ hn]
  · intro key val
    obtain ⟨m', g1, ginv, -, g3, g4⟩ := insert_spec hashf m hinv key val (hh key)
    refine ⟨m', g1, g3, ?_, ginv.2.2.2.1, bound _ _ ginv.2.2.2.1⟩
    rw [g4]
    by_cases hc : to_float m.size < 2 * to_float m.num_items
    · rw [if_pos hc, habove.mpr hc]
      rfl
    · have hf : m.above_load_factor = false := by
        rw [← Bool.not_eq_true, habove]
        exact hc
      rw [if_neg hc, hf]
      rfl

/-- The statement of C22 for `sample_hash` and the keys 0 to 512: the map
holds 513 entries, within `capacity / 2 + 1`, and the next `insert` is the one
that doubles. -/
theorem C22_load_factor_threshold_witness :
    (∀ k, sample_hash k ≠ -1) ∧
    ∃ m, insert_all sample_hash (Robin_Map.new : Robin_Map Nat Nat)
        ((List.range 513).map (fun k => (k, 0))) = .ok m ∧
      m.num_items = 513 ∧ m.num_items ≤ m.size / 2 + 1 ∧
      ∀ (key : Nat) (val : Nat), ∃ m', m.insert sample_hash key val = .ok m' ∧
        m'.num_items = 514 ∧ m'.num_items ≤ m'.size / 2 + 1 := by
  obtain ⟨m, h1, h2, -, h4, -, -, -, h8⟩ := C22_load_factor_threshold sample_hash sample_hash_ne
    ((List.range 513).map (fun k => (k, (0 : Nat))))
  have hlen : ((List.range 513).map (fun k => (k, (0 : Nat)))).length = 513 := by simp
  rw [hlen] at h2
  refine ⟨sample_hash_ne, m, h1, h2, h4 (by rw [h2]; norm_num), fun key val => ?_⟩
  obtain ⟨m', g1, g2, -, -, g5⟩ := h8 key val
  rw [h2] at g2
  exact ⟨m', g1, g2, g5 (by rw [g2]; norm_num)⟩

/-- C23 (map grow). For a hash that never returns the marker, every sequence
of `insert` calls on a fresh map (capacity 1,024) succeeds, the map counts one
entry per call, and its capacity is `1024 * 2^j` for some `j`; after 5,000
calls the capacity is 16,384 and `num_items` is 5,000. -/
theorem C23_map_grow {K V : Type} [DecidableEq K] [Inhabited K] [Inhabited V]
    (hashf : K → Int) (hh : ∀ k, hashf k ≠ -1) (kvs : List (K × V)) :
    (Robin_Map.new : Robin_Map K V).size = 1024 ∧
    ∃ m, insert_all hashf (Robin_Map.new : Robin_Map K V) kvs = .ok m ∧
      m.num_items = kvs.length ∧ (∃ j, m.size = 1024 * 2 ^ j) ∧
      (kvs.length = 5000 → m.size = 16384 ∧ m.num_items = 5000) := by
  obtain ⟨m, h1, -, h3, h4⟩ := insert_all_counts hashf hh kvs (Robin_Map.new : Robin_Map K V)
    (inv_new hashf)
  have hs0 : (Robin_Map.new : Robin_Map K V).size = 1024 := rfl
  have hn0 : (Robin_Map.new : Robin_Map K V).num_items = 0 := rfl
  rw [hn0, Nat.zero_add] at h3
  rw [hs0, hn0] at h4
  refine ⟨rfl, m, h1, h3, ?_, ?_⟩
  · rw [h4]
    exact capacity_after_pow2 _ _ _ ⟨0, by norm_num⟩
  · intro hlen
    rw [hlen] at h4 h3
    exact ⟨h4.trans capacity_after_5000, h3⟩

/-- The statement of C23 for `sample_hash` and the 5,000 distinct keys 0 to
4,999. -/
theorem C23_map_grow_witness :
    (∀ k, sample_hash k ≠ -1) ∧ ((List.range 5000).map (fun k => (k, (0 : Nat)))).length = 5000 ∧
    ((List.range 5000).map (fun k => (k, (0 : Nat)))).Nodup ∧
    ∃ m, insert_all sample_hash (Robin_Map.new : Robin_Map Nat Nat)
        ((List.range 5000).map (fun k => (k, 0))) = .ok m ∧
      m.size = 16384 ∧ m.num_items = 5000 := by
  have hlen : ((List.range 5000).map (fun k => (k, (0 : Nat)))).length = 5000 := by simp
  have hnd : ((List.range 5000).map (fun k => (k, (0 : Nat)))).Nodup :=
    (List.nodup_range 5000).map (fun a b h => (Prod.mk.inj h).1)
  obtain ⟨-, m, h1, -, -, h4⟩ := C23_map_grow sample_hash sample_hash_ne
    ((List.range 5000).map (fun k => (k, (0 : Nat))))
  exact ⟨sample_hash_ne, hlen, hnd, m, h1, h4 hlen⟩

/-! ## Iterating the map -/

section IterateLemmas

variable {K V : Type}

theorem live_from_live (es : List (Entry K V)) (i : Nat) (e : Entry K V)
    (h : es[i]? = some e) (hl : e.hash ≠ -1) :
    live_from es i = (i, e) :: live_from es (i + 1) := by
  have hi : i < es.length := (List.getElem?_eq_some_iff.mp h).1
  have he : es[i] = e := (List.getElem?_eq_some_iff.mp h).2
  unfold live_from
  rw [List.drop_eq_getElem_cons hi, he, List.enumFrom_cons, List.filter_cons_of_pos]
  simpa using hl

theorem live_from_blank (es : List (Entry K V)) (i : Nat) (e : Entry K V)
    (h : es[i]? = some e) (hl : e.hash = -1) :
    live_from es i = live_from es (i + 1) := by
  have hi : i < es.length := (List.getElem?_eq_some_iff.mp h).1
  have he : es[i] = e := (List.getElem?_eq_some_iff.mp h).2
  unfold live_from
  rw [List.drop_eq_getElem_cons hi, he, List.enumFrom_cons, List.filter_cons_of_neg]
  simpa using hl

theorem live_from_end (es : List (Entry K V)) (i : Nat) (h : es.length ≤ i) :
    live_from es i = [] := by
  unfold live_from
  rw [List.drop_of_length_le h]
  rfl

theorem live_from_zero (es : List (Entry K V)) :
    live_from es 0 = es.enum.filter (fun p => decide (p.2.hash ≠ -1)) := rfl

/-- The entries of `live_from` are those of `live_list`. -/
theorem live_from_snd (es : List (Entry K V)) (i : Nat) :
    (live_from es i).map Prod.snd = live_list (es.drop i) := by
  unfold live_from live_list
  generalize es.drop i = l
  induction l generalizing i with
  | nil => rfl
  | cons a l ih =>
    rw [List.enumFrom_cons]
    by_cases ha : a.hash = -1
    · rw [List.filter_cons_of_neg (by simpa using ha), List.filter_cons_of_neg (by simpa using ha)]
      exact ih (i + 1)
    · rw [List.filter_cons_of_pos (by simpa using ha), List.filter_cons_of_pos (by simpa using ha),
        List.map_cons, ih (i + 1)]

/-- The slots of `live_from` increase strictly. -/
theorem live_from_sorted (es : List (Entry K V)) (i : Nat) :
    ((live_from es i).map Prod.fst).Pairwise (fun a b => a < b) := by
  have hsub : ((live_from es i).map Prod.fst).Sublist
      ((List.enumFrom i (es.drop i)).map Prod.fst) :=
    List.Sublist.map _ (List.filter_sublist _)
  rw [List.enumFrom_map_fst] at hsub
  exact List.Pairwise.sublist hsub (List.pairwise_lt_range' _ _)

/-- Membership in `live_from es 0`: the non-empty slots with their entries. -/
theorem live_from_mem (es : List (Entry K V)) (i : Nat) (e : Entry K V) :
    (i, e) ∈ live_from es 0 ↔ es[i]? = some e ∧ e.hash ≠ -1 := by
  rw [live_from_zero, List.mem_filter, List.mem_enum_iff_getElem?]
  simp

theorem begin_loop_from (m : Robin_Map K V) (hlen : m.entries.length = m.size) :
    ∀ (n i : Nat), i + n = m.size →
      ∃ loc, begin_loop m n i = .ok loc ∧ i ≤ loc ∧ loc ≤ m.size ∧
        (loc < m.size → ∃ e, m.entries[loc]? = some e ∧ e.hash ≠ -1) ∧
        live_from m.entries i = live_from m.entries loc
  | 0, i, h => by
    refine ⟨m.size, rfl, by omega, Nat.le_refl _, fun h' => absurd h' (Nat.lt_irrefl _), ?_⟩
    rw [live_from_end _ i (by omega), live_from_end _ m.size (by omega)]
  | n + 1, i, h => by
    have hi : i < m.entries.length := by omega
    have hget : m.entries[i]? = some m.entries[i] := List.getElem?_eq_getElem hi
    by_cases hl : m.entries[i].hash = -1
    · obtain ⟨loc, h1, h2, h3, h4, h5⟩ := begin_loop_from m hlen n (i + 1) (by omega)
      refine ⟨loc, ?_, by omega, h3, h4, ?_⟩
      · simp only [begin_loop, hget, hl, ne_eq, not_true_eq_false, if_false]
        exact h1
      · rw [live_from_blank _ i _ hget hl]
        exact h5
    · refine ⟨i, ?_, Nat.le_refl _, by omega, fun _ => ⟨_, hget, hl⟩, rfl⟩
      simp only [begin_loop, hget, ne_eq, hl, not_false_eq_true, if_true]

theorem incr_loop_from (m : Robin_Map K V) (hlen : m.entries.length = m.size) :
    ∀ (fuel cur : Nat), cur < m.size → m.size - cur ≤ fuel →
      ∃ loc, incr_loop m fuel cur = .ok loc ∧ cur < loc ∧ loc ≤ m.size ∧
        (loc < m.size → ∃ e, m.entries[loc]? = some e ∧ e.hash ≠ -1) ∧
        live_from m.entries (cur + 1) = live_from m.entries loc
  | 0, cur, h1, h2 => by omega
  | fuel + 1, cur, h1, h2 => by
    by_cases hend : cur + 1 = m.size
    · refine ⟨cur + 1, ?_, by omega, by omega, fun h' => by omega, rfl⟩
      simp only [incr_loop, hend, if_true]
    · have hi : cur + 1 < m.entries.length := by omega
      have hget : m.entries[cur + 1]? = some m.entries[cur + 1] := List.getElem?_eq_getElem hi
      by_cases hl : m.entries[cur + 1].hash = -1
      · obtain ⟨loc, e1, e2, e3, e4, e5⟩ := incr_loop_from m hlen fuel (cur + 1) (by omega)
          (by omega)
        refine ⟨loc, ?_, by omega, e3, e4, ?_⟩
        · simp only [incr_loop, hend, if_false, hget, hl, if_true]
          exact e1
        · rw [live_from_blank _ (cur + 1) _ hget hl]
          exact e5
      · refine ⟨cur + 1, ?_, by omega, by omega, fun _ => ⟨_, hget, hl⟩, rfl⟩
        simp only [incr_loop, hend, if_false, hget, hl]

/-- From an iterator at a non-empty slot (or at `end()`), the client loop
collects the non-empty slots from there on. -/
theorem iterate_loop_spec (m : Robin_Map K V) (hlen : m.entries.length = m.size) :
    ∀ (fuel loc : Nat), loc ≤ m.size →
      (loc < m.size → ∃ e, m.entries[loc]? = some e ∧ e.hash ≠ -1) →
      m.size - loc < fuel →
      iterate_loop m fuel loc = .ok (live_from m.entries loc)
  | 0, loc, _, _, h3 => by omega
  | fuel + 1, loc, h1, h2, h3 => by
    by_cases hend : loc = m.size
    · rw [live_from_end _ loc (by omega)]
      simp only [iterate_loop, Robin_Map.end_, hend, if_true]
    · obtain ⟨e, he, hl⟩ := h2 (by omega)
      obtain ⟨loc1, i1, i2, i3, i4, i5⟩ := incr_loop_from m hlen m.size loc (by omega) (by omega)
      have hincr : m.incr loc = .ok loc1 := i1
      have ih := iterate_loop_spec m hlen fuel loc1 i3 i4 (by omega)
      rw [live_from_live _ loc e he hl, i5]
      simp only [iterate_loop, Robin_Map.end_, hend, if_false, he, hincr, ih]

theorem iterate_spec (m : Robin_Map K V) (hlen : m.entries.length = m.size) :
    m.iterate = .ok (live_from m.entries 0) := by
  obtain ⟨loc, b1, _, b3, b4, b5⟩ := begin_loop_from m hlen m.size 0 (by omega)
  have hbegin : m.begin_ = .ok loc := b1
  have h := iterate_loop_spec m hlen (m.size + 1) loc b3 b4 (by omega)
  simp only [Robin_Map.iterate, hbegin, h, b5]

/-- On a map without a non-empty slot `begin()` is `end()`. -/
theorem begin_of_empty (m : Robin_Map K V) (hlen : m.entries.length = m.size)
    (hempty : live_list m.entries = []) : m.begin_ = .ok m.end_ := by
  obtain ⟨loc, b1, _, b3, b4, b5⟩ := begin_loop_spec m hlen m.size 0 (by omega)
  have hbegin : m.begin_ = .ok loc := b1
  rw [hbegin]
  by_cases hlt : loc < m.size
  · obtain ⟨e, he, hl⟩ := b4 hlt
    rw [List.drop_zero, hempty, live_list_drop_live _ loc e he hl] at b5
    exact absurd b5 (by simp)
  · have : loc = m.size := by omega
    rw [this]
    rfl

end IterateLemmas
/-- C24. For a map whose array has `size` slots, the client loop from `begin()`
with `operator++` until `end()` returns, and what it collects is exactly the
slots whose hash is not `-1`, each with its entry, in increasing slot index
(hence each once); a second iteration of the same map collects the same
sequence; without a non-empty slot `begin()` is `end()`, as on the fresh map;
and after the inserts of `n` pairs into a fresh map the iteration yields `n`
entries, the value of `num_items`, which are the inserted entries. -/
theorem C24_iteration {K V : Type} [DecidableEq K] [Inhabited K] [Inhabited V]
    (m : Robin_Map K V) (hlen : m.entries.length = m.size) :
    (∃ run, m.iterate = .ok run ∧
      run = m.entries.enum.filter (fun p => decide (p.2.hash ≠ -1)) ∧
      (∀ i e, (i, e) ∈ run ↔ (m.entries[i]? = some e ∧ e.hash ≠ -1)) ∧
      (run.map Prod.fst).Pairwise (fun a b => a < b) ∧
      run.map Prod.snd = live_list m.entries ∧
      (∀ run2, m.iterate = .ok run2 → run2 = run)) ∧
    (live_list m.entries = [] → m.begin_ = .ok m.end_) ∧
    (Robin_Map.new : Robin_Map K V).begin_ = .ok (Robin_Map.new : Robin_Map K V).end_ ∧
    (∀ (hashf : K → Int), (∀ k, hashf k ≠ -1) → ∀ kvs : List (K × V),
      ∃ m1 run1, insert_all hashf Robin_Map.new kvs = .ok m1 ∧ m1.iterate = .ok run1 ∧
        run1.length = kvs.length ∧ run1.length = m1.num_items ∧
        (run1.map Prod.snd).Perm (kvs.map (entry_of hashf))) := by
  refine ⟨⟨live_from m.entries 0, iterate_spec m hlen, live_from_zero _, live_from_mem _, 
    live_from_sorted _ 0, ?_, ?_⟩, begin_of_empty m hlen, ?_, ?_⟩
  · rw [live_from_snd, List.drop_zero]
  · intro run2 h2
    rw [iterate_spec m hlen] at h2
    exact (Except.ok.inj h2).symm
  · apply begin_of_empty
    · show (List.replicate 1024 Entry.blank).length = 1024
      exact List.length_replicate _ _
    · show live_list (List.replicate 1024 Entry.blank) = []
      rw [live_list_replicate_blank]
  · intro hashf hh kvs
    obtain ⟨m1, h1, hinv, hperm⟩ := insert_all_new hashf hh kvs
    have hsnd : (live_from m1.entries 0).map Prod.snd = live_list m1.entries := by
      rw [live_from_snd, List.drop_zero]
    have hl : (live_from m1.entries 0).length = (live_list m1.entries).length := by
      rw [← hsnd, List.length_map]
    refine ⟨m1, live_from m1.entries 0, h1, iterate_spec m1 hinv.1.1, ?_, ?_, ?_⟩
    · rw [hl, hperm.length_eq, List.length_map]
    · rw [hl, hinv.2.2.1]
    · rw [hsnd]
      exact hperm

theorem C24_iteration_witness :
    sample_slots.entries.length = sample_slots.size ∧
    sample_slots.iterate =
      .ok [(1, { hash := 1, first := 1, second := 10 }), (3, { hash := 3, first := 3, second := 30 })] := by
  have hlen : sample_slots.entries.length = sample_slots.size := by decide
  obtain ⟨run, h1, h2, -⟩ := (C24_iteration sample_slots hlen).1
  refine ⟨hlen, ?_⟩
  rw [h1, h2]
  exact congrArg Except.ok (by decide)

/-! ## The reads of the iterator increment -/

section IncrReads

variable {K V : Type}

/-- Whatever a read past the array yields, the increment with its reads
computes the iterator that `incr_loop` computes. -/
theorem incr_reads_result (m : Robin_Map K V) (hlen : m.entries.length = m.size)
    (beyond : Int) :
    ∀ (fuel cur : Nat), cur < m.size →
      (incr_reads m beyond fuel cur).2 = incr_loop m fuel cur
  | 0, _, _ => rfl
  | fuel + 1, cur, hcur => by
    by_cases hend : cur + 1 = m.size
    · have hnone : m.entries[cur + 1]? = none := List.getElem?_eq_none (by omega)
      simp only [incr_reads, incr_loop, hnone, hend, ne_eq, not_true_eq_false, and_false,
        if_false, if_true]
    · have hi : cur + 1 < m.entries.length := by omega
      have hget : m.entries[cur + 1]? = some m.entries[cur + 1] := List.getElem?_eq_getElem hi
      by_cases hl : m.entries[cur + 1].hash = -1
      · simp only [incr_reads, incr_loop, hget, hl, hend, ne_eq, not_false_eq_true, and_self,
          if_true, if_false]
        exact incr_reads_result m hlen beyond fuel (cur + 1) (by omega)
      · simp only [incr_reads, incr_loop, hget, hl, hend, ne_eq, false_and, if_false]

/-- When no non-empty slot follows `cur`, the increment reads every index from
`cur + 1` up to and including `size`, and ends at `size`. -/
theorem incr_reads_tail (m : Robin_Map K V) (hlen : m.entries.length = m.size)
    (beyond : Int) :
    ∀ (fuel cur : Nat), cur < m.size → m.size - cur ≤ fuel →
      (∀ j, cur < j → j < m.size → slot_empty m.entries j) →
      incr_reads m beyond fuel cur = (List.range' (cur + 1) (m.size - cur), .ok m.size)
  | 0, cur, h1, h2, _ => by omega
  | fuel + 1, cur, h1, h2, h3 => by
    by_cases hend : cur + 1 = m.size
    · have hnone : m.entries[cur + 1]? = none := List.getElem?_eq_none (by omega)
      have h1' : m.size - cur = 1 := by omega
      simp only [incr_reads, hnone, hend, ne_eq, not_true_eq_false, and_false, if_false, h1',
        List.range'_one]
    · obtain ⟨e, he, hl⟩ := h3 (cur + 1) (by omega) (by omega)
      have ih := incr_reads_tail m hlen beyond fuel (cur + 1) (by omega) (by omega)
        (fun j hj1 hj2 => h3 j (by omega) hj2)
      have hn : m.size - cur = (m.size - (cur + 1)) + 1 := by omega
      simp only [incr_reads, he, hl, hend, ne_eq, not_false_eq_true, and_self, if_true, ih]
      rw [hn, List.range'_succ]

/-- The slots after the last non-empty one are empty. -/
theorem empty_after (es : List (Entry K V)) (i : Nat)
    (h : live_list (es.drop i) = []) :
    ∀ j, i ≤ j → j < es.length → slot_empty es j := by
  intro j hij hj
  refine ⟨es[j], List.getElem?_eq_getElem hj, ?_⟩
  have hmem : es[j] ∈ es.drop i := by
    rw [List.mem_iff_getElem?]
    refine ⟨j - i, ?_⟩
    rw [List.getElem?_drop, show i + (j - i) = j by omega]
    exact List.getElem?_eq_getElem hj
  unfold live_list at h
  rw [List.filter_eq_nil_iff] at h
  have := h _ hmem
  simpa using this

end IncrReads

/-- On a map that holds one entry (the fresh map after one insert), the
increment of the iterator `begin()` reads the index `size` of the array. -/
theorem incr_after_single_insert {K V : Type} [DecidableEq K] [Inhabited K] [Inhabited V]
    (hashf : K → Int) (key : K) (val : V) (hkey : hashf key ≠ -1) (beyond : Int) :
    ∃ m loc, (Robin_Map.new : Robin_Map K V).insert hashf key val = .ok m ∧
      m.entries.length = m.size ∧ m.begin_ = .ok loc ∧ loc < m.size ∧
      incr_reads m beyond m.size loc = (List.range' (loc + 1) (m.size - loc), .ok m.size) ∧
      m.size ∈ (incr_reads m beyond m.size loc).1 := by
  obtain ⟨m, h1, hinv, hperm, -, -⟩ := insert_spec hashf Robin_Map.new (inv_new hashf) key val hkey
  have hlen : m.entries.length = m.size := hinv.1.1
  have hnew : live_list (Robin_Map.new : Robin_Map K V).entries = [] :=
    live_list_replicate_blank 1024
  rw [hnew] at hperm
  have hone : (live_list m.entries).length = 1 := by rw [hperm.length_eq]; rfl
  obtain ⟨loc, b1, _, b3, b4, b5⟩ := begin_loop_spec m hlen m.size 0 (by omega)
  have hlt : loc < m.size := by
    by_contra hge
    have : loc = m.size := by omega
    rw [this, List.drop_zero, live_list_drop_end _ _ (by omega)] at b5
    rw [b5] at hone
    exact absurd hone (by simp)
  obtain ⟨e, he, hl⟩ := b4 hlt
  have htail : live_list (m.entries.drop (loc + 1)) = [] := by
    rw [List.drop_zero, live_list_drop_live _ loc e he hl] at b5
    rw [b5, List.length_cons] at hone
    exact List.length_eq_zero.mp (by omega)
  have hreads := incr_reads_tail m hlen beyond m.size loc hlt (by omega)
    (fun j hj1 hj2 => empty_after m.entries (loc + 1) htail j hj1 (by omega))
  refine ⟨m, loc, h1, hlen, b1, hlt, hreads, ?_⟩
  rw [hreads]
  show m.size ∈ List.range' (loc + 1) (m.size - loc)
  rw [List.mem_range']
  exact ⟨m.size - loc - 1, by omega, by omega⟩

/-- C30, as the code behaves.  On a map whose array has `size` slots, for an
iterator at a slot `cur < size` that no non-empty slot follows, `operator++`
reads `entries` at every index from `cur + 1` up to and including `size`: the
last read is at an index that is not below the capacity, outside the array,
because the loop condition reads `entries[current_loc].hash` before it compares
`current_loc` with `size`.  Whatever that read yields, the iterator ends at
`end()`. -/
theorem C30_increment_reads_past_the_array {K V : Type} (m : Robin_Map K V) (beyond : Int)
    (cur : Nat) (hlen : m.entries.length = m.size) (hcur : cur < m.size)
    (hlast : ∀ j, cur < j → j < m.size → slot_empty m.entries j) :
    incr_reads m beyond m.size cur = (List.range' (cur + 1) (m.size - cur), .ok m.end_) ∧
    m.size ∈ (incr_reads m beyond m.size cur).1 ∧
    m.entries[m.size]? = none ∧
    ¬ (∀ r ∈ (incr_reads m beyond m.size cur).1, r < m.size) ∧
    m.incr cur = .ok m.end_ := by
  have hreads := incr_reads_tail m hlen beyond m.size cur hcur (by omega) hlast
  have hmem : m.size ∈ (incr_reads m beyond m.size cur).1 := by
    rw [hreads]
    show m.size ∈ List.range' (cur + 1) (m.size - cur)
    rw [List.mem_range']
    exact ⟨m.size - cur - 1, by omega, by omega⟩
  refine ⟨hreads, hmem, List.getElem?_eq_none (by omega), ?_, ?_⟩
  · intro hall
    exact absurd (hall _ hmem) (Nat.lt_irrefl _)
  · have h := incr_reads_result m hlen beyond m.size cur hcur
    rw [hreads] at h
    exact h.symm

theorem C30_increment_reads_past_the_array_witness :
    sample_slots.entries.length = sample_slots.size ∧ 3 < sample_slots.size ∧
    (∀ j, 3 < j → j < sample_slots.size → slot_empty sample_slots.entries j) ∧
    incr_reads sample_slots 0 sample_slots.size 3 = ([4], .ok 4) ∧
    sample_slots.entries[4]? = none := by
  have hlen : sample_slots.entries.length = sample_slots.size := by decide
  have hcur : 3 < sample_slots.size := by decide
  have hlast : ∀ j, 3 < j → j < sample_slots.size → slot_empty sample_slots.entries j := by
    intro j h1 h2
    have h4 : sample_slots.size = 4 := rfl
    omega
  have h := C30_increment_reads_past_the_array sample_slots 0 3 hlen hcur hlast
  exact ⟨hlen, hcur, hlast, h.1, h.2.2.1⟩

/-! ## The recommended buffer size -/

/-- After messages for one peer were enqueued on counters that are all zero,
validate finds their number as the maximum. -/
theorem validate_after_enqueue (w : Worker) (hw : w.MemWF) (hh : w.HandlesOK)
    (msgs : List Message) (p : Nat) (hp : p < w.total_workers)
    (hall : ∀ m ∈ msgs, w.get_partition m.dest_table m.dest_item = p)
    (hzero : ∀ c ∈ w.counters, c = 0) :
    ∃ w1 w2, w.enqueue_all msgs = .ok w1 ∧ w1.MemWF ∧ w1.HandlesOK ∧
      w1.BUFFER_MAX_SIZE = w.BUFFER_MAX_SIZE ∧ w1.validate_buffer_space = .ok w2 ∧
      w2.buffer_size_max = msgs.length ∧
      (w.BUFFER_MAX_SIZE < msgs.length → w2.error = ERROR_NOT_ENOUGH_BUFFER_SPACE) := by
  obtain ⟨w1, he, hframe, hwf1, hholds, hoth⟩ := enqueue_all_spec msgs w hw
  have hh1 : w1.HandlesOK := handlesOK_frame w w1 hframe hh
  obtain ⟨mx, mn, hval, hmax⟩ := validate_spec w1 hwf1 hh1
  have htw : w1.total_workers = w.total_workers := by rw [hframe]
  have hM : w1.BUFFER_MAX_SIZE = w.BUFFER_MAX_SIZE := by rw [hframe]
  have hrk : w1.rank_me_ = w.rank_me_ := by rw [hframe]
  have hsend0 : ∀ q, q < w.total_workers → w.send_count q = 0 := fun q hq =>
    hzero _ (List.mem_append_left _ (List.mem_map.mpr ⟨q, List.mem_range.mpr hq, rfl⟩))
  have hcount : ∀ q, q < w.total_workers →
      w1.send_count q = (sent_to w.total_workers q msgs).length := by
    intro q hq
    have := (hholds [] q hq ⟨by simpa [sent_to] using hsend0 q hq, by simp [sent_to]⟩).1
    simpa [htw] using this
  have hfil : sent_to w.total_workers p msgs = msgs :=
    sent_to_all _ _ msgs (fun m hm => by simpa [Worker.get_partition] using hall m hm)
  have hge : msgs.length ≤ mx := by
    have hin : w1.send_count p ∈ w1.counters :=
      List.mem_append_left _ (List.mem_map.mpr ⟨p, List.mem_range.mpr (htw ▸ hp), rfl⟩)
    have := hmax.2 _ hin
    rw [hcount p hp, hfil] at this
    exact this
  have hle : mx ≤ msgs.length := by
    rcases List.mem_append.mp hmax.1 with h | h
    · obtain ⟨q, hq, hqe⟩ := List.mem_map.mp h
      rw [List.mem_range, htw] at hq
      rw [← hqe, hcount q hq]
      exact sent_to_length_le _ _ _
    · obtain ⟨i, hi, hie⟩ := List.mem_map.mp h
      rw [List.mem_filter, List.mem_range, htw, is_process_local_frame w w1 hframe] at hi
      rw [← hie]
      have hsame : w1.their_local_push_size = w.their_local_push_size := by rw [hframe]
      unfold Worker.recv_count
      rw [hsame]
      cases hsp : w.their_local_push_size.getD i none with
      | none => simp
      | some sp =>
        simp only
        have hlen : i < w.their_local_push_size.length := by
          by_contra hcon
          rw [List.getD_eq_default _ _ (Nat.le_of_not_lt hcon)] at hsp
          cases hsp
        have hget : w.their_local_push_size[i]? = some (some sp) := by
          rw [List.getElem?_eq_getElem hlen]
          rw [List.getD_eq_getElem _ _ hlen] at hsp
          rw [hsp]
        obtain ⟨h1, h2⟩ := hh.1 i sp hget
        by_cases hme : sp.1 = w.rank_me_
        · have : size_at w1.shared sp = w1.send_count sp.2 := by
            unfold Worker.send_count
            rw [hrk, ← hme]
          rw [this, hcount sp.2 h2]
          exact sent_to_length_le _ _ _
        · rw [(hoth sp hme).1]
          have hz : w.recv_count i = 0 :=
            hzero _ (List.mem_append_right _ (List.mem_map.mpr
              ⟨i, List.mem_filter.mpr ⟨List.mem_range.mpr hi.1, hi.2⟩, rfl⟩))
          unfold Worker.recv_count at hz
          rw [hsp] at hz
          simp only at hz
          rw [hz]
          exact Nat.zero_le _
  have hmx : mx = msgs.length := Nat.le_antisymm hle hge
  refine ⟨w1, _, he, hwf1, hh1, hM, hval, ?_, ?_⟩
  · split <;> exact hmx
  · intro hlt
    rw [if_pos (by rw [hM, hmx]; exact hlt)]

/-- The value of `round_off(max, true, true)`: the least multiple of `10^6`
above `max` when `max > 10^6`, the least multiple of `10^3` above `max` when
`10^3 < max ≤ 10^6`, and `max` itself otherwise. -/
theorem round_off_cases (x : Nat) :
    (1000000 < x → 1000000 ∣ round_off x true true ∧ x < round_off x true true ∧
      round_off x true true ≤ x + 1000000) ∧
    (1000 < x → x ≤ 1000000 → 1000 ∣ round_off x true true ∧ x < round_off x true true ∧
      round_off x true true ≤ x + 1000) ∧
    (x ≤ 1000 → round_off x true true = x) := by
  refine ⟨fun h => ?_, fun h1 h2 => ?_, fun h => ?_⟩
  · have e : round_off x true true = x + (1000000 - x % 1000000) := by
      unfold round_off
      rw [if_pos ⟨h, rfl⟩]
    rw [e]
    refine ⟨?_, ?_, ?_⟩
    · apply Nat.dvd_of_mod_eq_zero
      omega
    · omega
    · omega
  · have e : round_off x true true = x + (1000 - x % 1000) := by
      unfold round_off
      rw [if_neg (fun hc => absurd hc.1 (by omega)), if_pos ⟨h1, rfl⟩]
    rw [e]
    refine ⟨?_, ?_, ?_⟩
    · apply Nat.dvd_of_mod_eq_zero
      omega
    · omega
    · omega
  · unfold round_off
    rw [if_neg (fun hc => absurd hc.1 (by omega)), if_neg (fun hc => absurd hc.1 (by omega))]

theorem sample_overflow_facts :
    sample_overflow.MemWF ∧ sample_overflow.HandlesOK ∧ sample_overflow.BUFFER_MAX_SIZE = 8 ∧
    ∃ w2, sample_overflow.validate_buffer_space = .ok w2 ∧ w2.buffer_size_max = 10 ∧
      w2.error = ERROR_NOT_ENOUGH_BUFFER_SPACE := by
  have hw := memWF_new 0 2 0 1 [true, false] 8 (by decide)
  have hh := handlesOK_new 0 2 0 1 [true, false] 8
  obtain ⟨w1, w2, h1, h2, h3, h4, h5, h6, h7⟩ :=
    validate_after_enqueue (Worker.new 0 2 0 1 [true, false] 8) hw hh (odd_msgs 10) 1
      (by decide) (by decide) (by decide)
  have hs : sample_overflow = w1 := by
    unfold sample_overflow
    rw [h1]
  rw [hs]
  refine ⟨h2, h3, h4, w2, h5, ?_, h7 (by decide)⟩
  rw [h6]
  decide

/-- The statement of C25 fails on its own example: with `M = 8` and ten
messages enqueued for one peer, validate detects the overflow with the maximum
10, and the size it reports, `round_off(10, true, true)`, is 10, which is not
a multiple of 1,000. -/
theorem C25_recommended_counterexample :
    ∃ w2, sample_overflow.validate_buffer_space = .ok w2 ∧
      sample_overflow.BUFFER_MAX_SIZE < w2.buffer_size_max ∧
      w2.error = ERROR_NOT_ENOUGH_BUFFER_SPACE ∧
      w2.recommended = 10 ∧ ¬ (1000 ∣ w2.recommended) := by
  obtain ⟨-, -, hM, w2, h1, h2, h3⟩ := sample_overflow_facts
  have hr : w2.recommended = 10 := by
    unfold Worker.recommended
    rw [h2]
    decide
  refine ⟨w2, h1, ?_, h3, hr, ?_⟩
  · rw [hM, h2]
    decide
  · rw [hr]
    decide

/-- C25, as the code behaves.  On a worker whose shared segments and peer
pointers are well formed, `validate_buffer_space` returns with the maximum of
the counters in `buffer_size_max`, and when it detects an overflow (that
maximum exceeds `M`; the maximum is below `2 ^ 52`, where the `double`
arithmetic of `round_off` is exact) it sets the error code and the size it
reports, `round_off(max, true, true)`, is: the least multiple of `10^6` above
`max` when `max > 10^6`; the least multiple of `10^3` above `max` when
`10^3 < max ≤ 10^6`; `max` itself when `max ≤ 10^3`.  So the reported size is a
multiple of 1,000 exactly when `max > 10^3` or `max` is itself a multiple of
1,000. -/
theorem C25_recommended_size (w : Worker) (hw : w.MemWF) (hh : w.HandlesOK) :
    ∃ w', w.validate_buffer_space = .ok w' ∧ IsMaxOf w.counters w'.buffer_size_max ∧
      (w.BUFFER_MAX_SIZE < w'.buffer_size_max → w'.buffer_size_max < 2 ^ 52 →
        w'.error = ERROR_NOT_ENOUGH_BUFFER_SPACE ∧
        w'.recommended = round_off w'.buffer_size_max true true ∧
        (1000000 < w'.buffer_size_max →
          1000000 ∣ w'.recommended ∧ w'.buffer_size_max < w'.recommended ∧
          w'.recommended ≤ w'.buffer_size_max + 1000000) ∧
        (1000 < w'.buffer_size_max → w'.buffer_size_max ≤ 1000000 →
          1000 ∣ w'.recommended ∧ w'.buffer_size_max < w'.recommended ∧
          w'.recommended ≤ w'.buffer_size_max + 1000) ∧
        (w'.buffer_size_max ≤ 1000 → w'.recommended = w'.buffer_size_max) ∧
        (1000 ∣ w'.recommended ↔ (1000 < w'.buffer_size_max ∨ 1000 ∣ w'.buffer_size_max))) := by
  obtain ⟨mx, mn, hval, hmax⟩ := validate_spec w hw hh
  by_cases hc : mx > w.BUFFER_MAX_SIZE
  · rw [if_pos hc] at hval
    refine ⟨_, hval, hmax, fun _ _ => ⟨rfl, rfl, ?_⟩⟩
    obtain ⟨r1, r2, r3⟩ := round_off_cases mx
    refine ⟨r1, r2, r3, ?_⟩
    show 1000 ∣ round_off mx true true ↔ (1000 < mx ∨ 1000 ∣ mx)
    by_cases h6 : 1000000 < mx
    · have hd : 1000 ∣ round_off mx true true :=
        Nat.dvd_trans (by norm_num) (r1 h6).1
      exact ⟨fun _ => Or.inl (by omega), fun _ => hd⟩
    · by_cases h3 : 1000 < mx
      · exact ⟨fun _ => Or.inl h3, fun _ => (r2 h3 (by omega)).1⟩
      · rw [r3 (by omega)]
        exact ⟨fun h => Or.inr h, fun h => h.resolve_left h3⟩
  · rw [if_neg hc] at hval
    exact ⟨_, hval, hmax, fun hlt => absurd hlt hc⟩

/-- The statement of C25 on `sample_overflow` (`M = 8`, ten messages enqueued
for rank 1): the overflow is detected and the reported size is the maximum, 10,
not a multiple of 1,000. -/
theorem C25_recommended_size_witness :
    sample_overflow.MemWF ∧ sample_overflow.HandlesOK ∧
    ∃ w', sample_overflow.validate_buffer_space = .ok w' ∧ w'.buffer_size_max = 10 ∧
      w'.error = ERROR_NOT_ENOUGH_BUFFER_SPACE ∧ w'.recommended = w'.buffer_size_max ∧
      ¬ (1000 ∣ w'.recommended) := by
  obtain ⟨hw, hh, hM, w2, h1, h2, h3⟩ := sample_overflow_facts
  obtain ⟨w', g1, -, g3⟩ := C25_recommended_size sample_overflow hw hh
  have hw2 : w2 = w' := Except.ok.inj (h1.symm.trans g1)
  rw [← hw2] at g1 g3
  obtain ⟨-, -, -, -, g4, g5⟩ := g3 (by rw [hM, h2]; decide) (by rw [h2]; norm_num)
  refine ⟨hw, hh, w2, g1, h2, h3, g4 (by rw [h2]; decide), ?_⟩
  rw [g5, h2]
  decide

/-! ## The peer handles after the constructor and `create_buffers_gptr_wait` -/

theorem fresh_new (rank_me rank_n team_rank_me team_rank_n : Nat) (proc_local : List Bool)
    (buffer_size : Nat) :
    (Worker.new rank_me rank_n team_rank_me team_rank_n proc_local buffer_size).Fresh := by
  simp [Worker.new, Worker.Fresh]

theorem quiet_new (rank_me rank_n team_rank_me team_rank_n : Nat) (proc_local : List Bool)
    (buffer_size : Nat) (hme : rank_me < rank_n)
    (hloc : proc_local.getD rank_me false = true) :
    (Worker.new rank_me rank_n team_rank_me team_rank_n proc_local buffer_size).Quiet := by
  refine ⟨memWF_new _ _ _ _ _ _ hme, ⟨?_, ?_, ?_, ?_⟩, hloc, ?_⟩
  · simp [Worker.new]
  · simp [Worker.new]
  · intro i hi
    have hi' : i < rank_n := hi
    refine ⟨0, ?_⟩
    simp [Worker.new, Worker.is_process_local, hi']
  · intro i hi
    have hi' : i < rank_n := hi
    refine ⟨List.replicate buffer_size default, ?_, List.length_replicate _ _⟩
    simp [Worker.new, Worker.is_process_local, hi']
  · intro i hi _
    have hi' : i < rank_n := hi
    simp [Worker.new, size_at, read_size, dist_fetch, Segment.new, hi']

/-- C26, as the code behaves.  On every rank `rank_me` of a run of `rank_n`
workers, after the constructor (`create_buffers`, `create_buffers_gptr_init`)
and `create_buffers_gptr_wait`, the handles `their_push_size_g[p]` and
`their_push_buffers_g[p]` are, for every peer `p`, the result of `fetch(p)` on
distributed object number `p`: rank `p`'s counter and array for destination
`p`, the pointer `(p, p)`.  For `p ≠ rank_me` this is not rank `p`'s counter and
array for destination `rank_me`, the pointer `(p, rank_me)` that `fetch(p)` on
object number `rank_me` yields and that rank `p` writes when it enqueues a
message for `rank_me`. -/
theorem C26_handles_are_self_buffers (rank_me rank_n team_rank_me team_rank_n : Nat)
    (proc_local : List Bool) (buffer_size : Nat) (hme : rank_me < rank_n)
    (hloc : proc_local.getD rank_me false = true) :
    ∃ w', (Worker.new rank_me rank_n team_rank_me team_rank_n proc_local
        buffer_size).create_buffers_gptr_wait = .ok w' ∧
      ∀ p, p < rank_n →
        w'.their_push_size_g[p]? = some (dist_fetch p p) ∧
        w'.their_push_buffers_g[p]? = some (dist_fetch p p) ∧
        dist_fetch p p = (p, p) ∧ dist_fetch rank_me p = (p, rank_me) ∧
        (p ≠ rank_me →
          w'.their_push_size_g[p]? ≠ some (dist_fetch rank_me p) ∧
          w'.their_push_buffers_g[p]? ≠ some (dist_fetch rank_me p)) := by
  obtain ⟨w', h1, h2, -, -, h5, -⟩ := gptr_wait_spec _ (fresh_new rank_me rank_n team_rank_me
    team_rank_n proc_local buffer_size) (quiet_new rank_me rank_n team_rank_me team_rank_n
    proc_local buffer_size hme hloc)
  have hN : w'.total_workers = rank_n := h5
  refine ⟨w', h1, fun p hp => ?_⟩
  have g1 : w'.their_push_size_g[p]? = some (dist_fetch p p) := by
    rw [h2.1, hN]
    simp [hp]
  have g2 : w'.their_push_buffers_g[p]? = some (dist_fetch p p) := by
    rw [h2.2.1, hN]
    simp [hp]
  refine ⟨g1, g2, rfl, rfl, fun hne => ⟨?_, ?_⟩⟩
  · rw [g1]
    intro h
    exact hne (congrArg Prod.snd (Option.some.inj h))
  · rw [g2]
    intro h
    exact hne (congrArg Prod.snd (Option.some.inj h))

/-- The statement of C26 on rank 0 of two workers: the handles for peer 1 are
rank 1's counter and array for destination 1, the pointer `(1, 1)`, not those
for destination 0. -/
theorem C26_handles_are_self_buffers_witness :
    (0 : Nat) < 2 ∧ [true, false].getD 0 false = true ∧
    ∃ w', (Worker.new 0 2 0 1 [true, false] 8).create_buffers_gptr_wait = .ok w' ∧
      w'.their_push_size_g[1]? = some (1, 1) ∧ w'.their_push_buffers_g[1]? = some (1, 1) ∧
      w'.their_push_size_g[1]? ≠ some (1, 0) ∧ w'.their_push_buffers_g[1]? ≠ some (1, 0) := by
  obtain ⟨w', h1, h2⟩ := C26_handles_are_self_buffers 0 2 0 1 [true, false] 8 (by decide) rfl
  obtain ⟨g1, g2, -, -, g5⟩ := h2 1 (by decide)
  exact ⟨by decide, rfl, w', h1, g1, g2, (g5 (by decide)).1, (g5 (by decide)).2⟩

/-! ## The probe sequence of insert and find -/

section ProbeOrder

variable {K V : Type}

/-- Slot number `j` of the probe sequence from `home` is `home` plus the
`j`-th triangular number, modulo the capacity. -/
theorem walk_closed (k home j : Nat) :
    walk (2 ^ k) home 0 j = (home + j * (j + 1) / 2) % 2 ^ k := by
  rw [walk_pow2]
  have h : tri j = j * (j + 1) / 2 := by
    have := two_mul_tri j
    omega
  rw [h, Nat.zero_mul, Nat.add_zero]

/-- The loop of `find` runs along the probe sequence up to the first slot that
is empty or holds the key, and returns `end()` or that slot. -/
theorem find_stop [DecidableEq K] (m : Robin_Map K V) (k : Nat) (hk : m.size = 2 ^ k)
    (hlen : m.entries.length = m.size)
    (hex : ∃ s, s < m.entries.length ∧ slot_empty m.entries s) (key : K) (home : Nat) :
    ∃ n, n < m.size ∧
      (∀ j, j < n → ∃ e, m.entries[walk m.size home 0 j]? = some e ∧ e.hash ≠ -1 ∧
        e.first ≠ key) ∧
      ((slot_empty m.entries (walk m.size home 0 n) ∧
          find_loop m key m.size home 0 = .ok m.end_) ∨
       ((∃ e, m.entries[walk m.size home 0 n]? = some e ∧ e.hash ≠ -1 ∧ e.first = key) ∧
          find_loop m key m.size home 0 = .ok (walk m.size home 0 n))) := by
  classical
  have hfe := first_empty m.entries k home (hk ▸ hlen) hex
  rw [← hk] at hfe
  obtain ⟨n0, hn0, -, hemp0⟩ := hfe
  have hP : ∃ j, slot_empty m.entries (walk m.size home 0 j) ∨
      ∃ e, m.entries[walk m.size home 0 j]? = some e ∧ e.hash ≠ -1 ∧ e.first = key :=
    ⟨n0, Or.inl hemp0⟩
  have hn : Nat.find hP < m.size :=
    Nat.lt_of_le_of_lt (Nat.find_min' hP (Or.inl hemp0)) hn0
  have hbefore : ∀ j, j < Nat.find hP →
      ∃ e, m.entries[walk m.size home 0 j]? = some e ∧ e.hash ≠ -1 ∧ e.first ≠ key := by
    intro j hj
    have hne := Nat.find_min hP hj
    have hlt : walk m.size home 0 j < m.entries.length := by
      rw [hlen, hk]
      exact walk_lt k j home 0
    rcases slot_live_or_empty m.entries _ hlt with h | h
    · obtain ⟨e, h1, h2⟩ := h
      exact ⟨e, h1, h2, fun h3 => hne (Or.inr ⟨e, h1, h2, h3⟩)⟩
    · exact absurd (Or.inl h) hne
  refine ⟨Nat.find hP, hn, hbefore, ?_⟩
  rcases Nat.find_spec hP with h | h
  · exact Or.inl ⟨h, find_loop_end m key _ m.size home 0 hn hbefore h⟩
  · exact Or.inr ⟨h, find_loop_hit m key _ m.size home 0 hn hbefore h⟩

/-- The loop of `core_insert_with_hash` stores the entry in the first empty
slot of the probe sequence. -/
theorem core_insert_stop (m : Robin_Map K V) (k : Nat) (hk : m.size = 2 ^ k)
    (hlen : m.entries.length = m.size)
    (hex : ∃ s, s < m.entries.length ∧ slot_empty m.entries s) (key : K) (val : V)
    (hashed : Int) :
    ∃ n, n < m.size ∧
      (∀ j, j < n → slot_live m.entries (walk m.size (bit_modulo hashed m.size).toNat 0 j)) ∧
      slot_empty m.entries (walk m.size (bit_modulo hashed m.size).toNat 0 n) ∧
      m.core_insert_with_hash key val hashed = .ok { m with
        entries := m.entries.set (walk m.size (bit_modulo hashed m.size).toNat 0 n)
          { hash := hashed, first := key, second := val } } := by
  have hfe := first_empty m.entries k (bit_modulo hashed m.size).toNat (hk ▸ hlen) hex
  rw [← hk] at hfe
  obtain ⟨n, hn, hlive, hemp⟩ := hfe
  refine ⟨n, hn, hlive, hemp, ?_⟩
  have h := insert_loop_spec m.entries m.size key val hashed n m.size
    (bit_modulo hashed m.size).toNat 0 hn hlive hemp
  simp only [Robin_Map.core_insert_with_hash, h]

/-- An insert below the load threshold stores the entry in the slot where the
probe sequence of its hash first meets an empty slot. -/
theorem insert_at [DecidableEq K] [Inhabited K] [Inhabited V] (hashf : K → Int)
    (m : Robin_Map K V) (key : K) (val : V) (n : Nat) (hn : n < m.size)
    (hload : ¬ (to_float m.size < 2 * to_float m.num_items))
    (hlive : ∀ j, j < n →
      slot_live m.entries (walk m.size (bit_modulo (hashf key) m.size).toNat 0 j))
    (hemp : slot_empty m.entries (walk m.size (bit_modulo (hashf key) m.size).toNat 0 n)) :
    m.insert hashf key val = .ok
      { size := m.size,
        entries := m.entries.set (walk m.size (bit_modulo (hashf key) m.size).toNat 0 n)
          { hash := hashf key, first := key, second := val },
        num_items := m.num_items + 1 } := by
  have h := insert_loop_spec m.entries m.size key val (hashf key) n m.size
    (bit_modulo (hashf key) m.size).toNat 0 hn hlive hemp
  simp only [Robin_Map.insert, Robin_Map.above_load_factor, hload, decide_False,
    Bool.false_eq_true, if_false, Robin_Map.core_insert, Robin_Map.core_insert_with_hash, h]

end ProbeOrder

/-- The walk from the home slot of the keys 0, 1024 and 2048 in a map of 1,024
slots: home slot 0, then the slots 1 and 3. -/
theorem collide_walk :
    walk 1024 (bit_modulo (sample_hash 0) ((1024 : Nat) : Int)).toNat 0 0 = 0 ∧
    walk 1024 (bit_modulo (sample_hash 1024) ((1024 : Nat) : Int)).toNat 0 0 = 0 ∧
    walk 1024 (bit_modulo (sample_hash 1024) ((1024 : Nat) : Int)).toNat 0 1 = 1 ∧
    (bit_modulo (sample_hash 2048) ((1024 : Nat) : Int)).toNat = 0 ∧
    walk 1024 (bit_modulo (sample_hash 2048) ((1024 : Nat) : Int)).toNat 0 0 = 0 ∧
    walk 1024 (bit_modulo (sample_hash 2048) ((1024 : Nat) : Int)).toNat 0 1 = 1 ∧
    walk 1024 (bit_modulo (sample_hash 2048) ((1024 : Nat) : Int)).toNat 0 2 = 3 := by
  decide

/-- The slots 0 to 3 of `collide_map`: entries in 0 and 1, none in 2 and 3. -/
theorem collide_slots :
    collide_map.entries.length = 1024 ∧
    collide_map.entries[0]? = some { hash := 0, first := 0, second := 0 } ∧
    collide_map.entries[1]? = some { hash := 1024, first := 1024, second := 0 } ∧
    collide_map.entries[2]? = some Entry.blank ∧
    collide_map.entries[3]? = some Entry.blank := by
  have hl0 : (List.replicate 1024 (Entry.blank : Entry Nat Nat)).length = 1024 :=
    List.length_replicate _ _
  have hg : ∀ i, i < 1024 →
      (List.replicate 1024 (Entry.blank : Entry Nat Nat))[i]? = some Entry.blank := by
    intro i hi
    rw [List.getElem?_replicate, if_pos hi]
  unfold collide_map
  refine ⟨?_, ?_, ?_, ?_, ?_⟩
  · show (((List.replicate 1024 Entry.blank).set 0 _).set 1 _).length = 1024
    rw [List.length_set, List.length_set, hl0]
  · show (((List.replicate 1024 Entry.blank).set 0 _).set 1 _)[0]? = _
    rw [List.getElem?_set_ne (by decide), List.getElem?_set_self (by rw [hl0]; decide)]
  · show (((List.replicate 1024 Entry.blank).set 0 _).set 1 _)[1]? = _
    rw [List.getElem?_set_self (by rw [List.length_set, hl0]; decide)]
  · show (((List.replicate 1024 Entry.blank).set 0 _).set 1 _)[2]? = _
    rw [List.getElem?_set_ne (by decide), List.getElem?_set_ne (by decide), hg 2 (by decide)]
  · show (((List.replicate 1024 Entry.blank).set 0 _).set 1 _)[3]? = _
    rw [List.getElem?_set_ne (by decide), List.getElem?_set_ne (by decide), hg 3 (by decide)]

theorem insert_all_step {K V : Type} [DecidableEq K] [Inhabited K] [Inhabited V]
    (hashf : K → Int) (m m1 : Robin_Map K V) (kv : K × V) (rest : List (K × V))
    (h : m.insert hashf kv.1 kv.2 = .ok m1) :
    insert_all hashf m (kv :: rest) = insert_all hashf m1 rest := by
  simp only [insert_all, h]

/-- An insert with `sample_hash` into a map of 1,024 slots below the load
threshold, with the slot where the walk ends given. -/
theorem insert_at_slot (es : List (Entry Nat Nat)) (c key val n loc : Nat) (hn : n < 1024)
    (hc : ¬ (to_float 1024 < 2 * to_float c))
    (hloc : walk 1024 (bit_modulo (sample_hash key) ((1024 : Nat) : Int)).toNat 0 n = loc)
    (hlive : ∀ j, j < n →
      slot_live es (walk 1024 (bit_modulo (sample_hash key) ((1024 : Nat) : Int)).toNat 0 j))
    (hemp : slot_empty es loc) :
    (Robin_Map.mk 1024 es c).insert sample_hash key val
      = .ok (Robin_Map.mk 1024 (es.set loc (Entry.mk (sample_hash key) key val)) (c + 1)) := by
  subst hloc
  exact insert_at sample_hash (Robin_Map.mk 1024 es c) key val n hn hc hlive hemp

/-- The map `collide_map` is the fresh map after the inserts of the keys 0 and
1024. -/
theorem collide_reached :
    insert_all sample_hash (Robin_Map.new : Robin_Map Nat Nat) [(0, 0), (1024, 0)]
      = .ok collide_map := by
  obtain ⟨w1, w2, w3, -⟩ := collide_walk
  have hl0 : (List.replicate 1024 (Entry.blank : Entry Nat Nat)).length = 1024 :=
    List.length_replicate _ _
  have hg : ∀ i, i < 1024 →
      (List.replicate 1024 (Entry.blank : Entry Nat Nat))[i]? = some Entry.blank := by
    intro i hi
    rw [List.getElem?_replicate, if_pos hi]
  have h1 := insert_at_slot (List.replicate 1024 Entry.blank) 0 0 0 0 0 (by decide) (by decide)
    w1 (fun j hj => absurd hj (Nat.not_lt_zero j)) ⟨Entry.blank, hg 0 (by decide), rfl⟩
  have h2 := insert_at_slot ((List.replicate 1024 Entry.blank).set 0 (Entry.mk (sample_hash 0) 0 0))
    1 1024 0 1 1 (by decide) (by decide) w3
    (fun j hj => by
      have hj0 : j = 0 := by omega
      subst hj0
      rw [w2]
      exact ⟨_, List.getElem?_set_self (by rw [hl0]; decide), by decide⟩)
    ⟨Entry.blank, by rw [List.getElem?_set_ne (by decide)]; exact hg 1 (by decide), rfl⟩
  have h1' : (Robin_Map.new : Robin_Map Nat Nat).insert sample_hash ((0, 0) : Nat × Nat).1
      ((0, 0) : Nat × Nat).2 = _ := h1
  exact (insert_all_step sample_hash _ _ _ _ h1').trans
    ((insert_all_step sample_hash _ _ ((1024, 0) : Nat × Nat) [] h2).trans rfl)

/-- The statement of C27 fails on the fresh map after the inserts of the keys
0 and 1024: for the key 2048 the home slot is 0, the slots 0 and 1 are taken
and slot 2, the first empty slot of the linear sequence 0, 1, 2, ..., is
empty, but `core_insert_with_hash` stores the entry in slot 3 and leaves slot
2 empty, and `find` returns slot 3. -/
theorem C27_linear_probing_counterexample :
    insert_all sample_hash (Robin_Map.new : Robin_Map Nat Nat) [(0, 0), (1024, 0)]
      = .ok collide_map ∧
    (bit_modulo (sample_hash 2048) collide_map.size).toNat = 0 ∧
    slot_live collide_map.entries 0 ∧ slot_live collide_map.entries 1 ∧
    slot_empty collide_map.entries 2 ∧
    ∃ m3, collide_map.core_insert_with_hash 2048 0 (sample_hash 2048) = .ok m3 ∧
      slot_empty m3.entries 2 ∧
      m3.entries[3]? = some { hash := 2048, first := 2048, second := 0 } ∧
      m3.find sample_hash 2048 = .ok 3 := by
  obtain ⟨-, -, -, w4, w5, w6, w7⟩ := collide_walk
  obtain ⟨s0, s1, s2, s3, s4⟩ := collide_slots
  have hsz : collide_map.size = 1024 := rfl
  have hlive : ∀ j, j < 2 → ∃ e, collide_map.entries[walk collide_map.size
      (bit_modulo (sample_hash 2048) collide_map.size).toNat 0 j]? = some e ∧ e.hash ≠ -1 ∧
        e.first ≠ 2048 := by
    intro j hj
    rw [hsz]
    have hj' : j = 0 ∨ j = 1 := by omega
    rcases hj' with rfl | rfl
    · rw [w5]
      exact ⟨_, s1, by decide, by decide⟩
    · rw [w6]
      exact ⟨_, s2, by decide, by decide⟩
  have hins := insert_loop_spec collide_map.entries collide_map.size 2048 0 (sample_hash 2048) 2
    collide_map.size (bit_modulo (sample_hash 2048) collide_map.size).toNat 0 (by decide)
    (fun j hj => by
      obtain ⟨e, g1, g2, -⟩ := hlive j hj
      exact ⟨e, g1, g2⟩)
    ⟨Entry.blank, by rw [hsz, w7]; exact s4, rfl⟩
  rw [hsz, w7] at hins
  refine ⟨collide_reached, w4, ⟨_, s1, by decide⟩, ⟨_, s2, by decide⟩, ⟨_, s3, rfl⟩,
    Robin_Map.mk 1024 (collide_map.entries.set 3 (Entry.mk (sample_hash 2048) 2048 0)) 2,
    ?_, ?_, ?_, ?_⟩
  · simp only [Robin_Map.core_insert_with_hash]
    rw [hsz, hins]
    rfl
  · refine ⟨Entry.blank, ?_, rfl⟩
    show (collide_map.entries.set 3 _)[2]? = _
    rw [List.getElem?_set_ne (by decide)]
    exact s3
  · show (collide_map.entries.set 3 _)[3]? = _
    rw [List.getElem?_set_self (by rw [s0]; decide)]
    rfl
  · have hset : ∀ i, i ≠ 3 → (collide_map.entries.set 3
        (Entry.mk (sample_hash 2048) 2048 0))[i]? = collide_map.entries[i]? :=
      fun i hi => List.getElem?_set_ne (Ne.symm hi)
    have h := find_loop_hit
      (Robin_Map.mk 1024 (collide_map.entries.set 3 (Entry.mk (sample_hash 2048) 2048 0)) 2)
      2048 2 1024 (bit_modulo (sample_hash 2048) ((1024 : Nat) : Int)).toNat 0 (by decide)
      (fun j hj => by
        have hj' : j = 0 ∨ j = 1 := by omega
        show ∃ e, (collide_map.entries.set 3 _)[walk 1024 _ 0 j]? = some e ∧ _
        rcases hj' with rfl | rfl
        · rw [w5, hset 0 (by decide)]
          exact ⟨_, s1, by decide, by decide⟩
        · rw [w6, hset 1 (by decide)]
          exact ⟨_, s2, by decide, by decide⟩)
      ⟨Entry.mk 2048 2048 0, by
        show (collide_map.entries.set 3 _)[walk 1024 _ 0 2]? = _
        rw [w7, List.getElem?_set_self (by rw [s0]; decide)]
        rfl, by decide, rfl⟩
    rw [w7] at h
    exact h

/-- C27, as the code behaves.  On a map whose capacity is a power of two and
whose array has an empty slot, the probe sequence from `home` is `home`,
`home + 1`, `home + 3`, `home + 6`, ...: slot number `j` is
`(home + j (j + 1) / 2) mod capacity`, each step advancing by one more than the
step before.  `core_insert_with_hash` stores the new entry in the first empty
slot of that sequence from `home = hash & (capacity - 1)`, and `find` examines
the slots of the same sequence, up to the first one that is empty (the result
is `end()`) or holds the key (the result is that slot). -/
theorem C27_triangular_probing {K V : Type} [DecidableEq K] (m : Robin_Map K V) (k : Nat)
    (hk : m.size = 2 ^ k) (hlen : m.entries.length = m.size)
    (hex : ∃ s, s < m.entries.length ∧ slot_empty m.entries s) :
    (∀ home j, walk m.size home 0 j = (home + j * (j + 1) / 2) % m.size) ∧
    (∀ (key : K) (val : V) (hashed : Int), ∃ n, n < m.size ∧
      (∀ j, j < n → slot_live m.entries (walk m.size (bit_modulo hashed m.size).toNat 0 j)) ∧
      slot_empty m.entries (walk m.size (bit_modulo hashed m.size).toNat 0 n) ∧
      m.core_insert_with_hash key val hashed = .ok { m with
        entries := m.entries.set (walk m.size (bit_modulo hashed m.size).toNat 0 n)
          { hash := hashed, first := key, second := val } }) ∧
    (∀ (hashf : K → Int) (key : K), ∃ n, n < m.size ∧
      (∀ j, j < n → ∃ e,
        m.entries[walk m.size (bit_modulo (hashf key) m.size).toNat 0 j]? = some e ∧
          e.hash ≠ -1 ∧ e.first ≠ key) ∧
      ((slot_empty m.entries (walk m.size (bit_modulo (hashf key) m.size).toNat 0 n) ∧
          m.find hashf key = .ok m.end_) ∨
       ((∃ e, m.entries[walk m.size (bit_modulo (hashf key) m.size).toNat 0 n]? = some e ∧
            e.hash ≠ -1 ∧ e.first = key) ∧
          m.find hashf key
            = .ok (walk m.size (bit_modulo (hashf key) m.size).toNat 0 n)))) := by
  refine ⟨fun home j => ?_, fun key val hashed => core_insert_stop m k hk hlen hex key val hashed,
    fun hashf key => find_stop m k hk hlen hex key _⟩
  rw [hk]
  exact walk_closed k home j

/-- The statement of C27 on the fresh map of 1,024 slots. -/
theorem C27_triangular_probing_witness :
    (Robin_Map.new : Robin_Map Nat Nat).size = 2 ^ 10 ∧
    (Robin_Map.new : Robin_Map Nat Nat).entries.length = (Robin_Map.new : Robin_Map Nat Nat).size ∧
    (∃ s, s < (Robin_Map.new : Robin_Map Nat Nat).entries.length ∧
      slot_empty (Robin_Map.new : Robin_Map Nat Nat).entries s) ∧
    (∀ home j, walk 1024 home 0 j = (home + j * (j + 1) / 2) % 1024) ∧
    walk 1024 5 0 0 = 5 ∧ walk 1024 5 0 1 = 6 ∧ walk 1024 5 0 2 = 8 ∧ walk 1024 5 0 3 = 11 := by
  have hk : (Robin_Map.new : Robin_Map Nat Nat).size = 2 ^ 10 := by decide
  have hlen : (Robin_Map.new : Robin_Map Nat Nat).entries.length
      = (Robin_Map.new : Robin_Map Nat Nat).size := List.length_replicate _ _
  have hex : ∃ s, s < (Robin_Map.new : Robin_Map Nat Nat).entries.length ∧
      slot_empty (Robin_Map.new : Robin_Map Nat Nat).entries s := by
    refine ⟨0, ?_, Entry.blank, ?_, rfl⟩
    · rw [hlen]
      decide
    · show (List.replicate 1024 Entry.blank)[0]? = _
      rw [List.getElem?_replicate, if_pos (by decide)]
  have h := (C27_triangular_probing (Robin_Map.new : Robin_Map Nat Nat) 10 hk hlen hex).1
  have h' : ∀ home j, walk 1024 home 0 j = (home + j * (j + 1) / 2) % 1024 := h
  exact ⟨hk, hlen, hex, h', by rw [h'], by rw [h'], by rw [h'], by rw [h']⟩

/-! ## Termination of the probe loops -/

/-- C29.  On every map built from the empty map by insert calls the capacity
is a power of two and the array has an empty slot; the probe sequence from
every home slot visits every slot within `capacity` steps; and with a budget of
`capacity` rounds the loop of `core_insert_with_hash` returns for every key and
every hash value (negative ones included) and the loop of `find` returns for
every key and every hash function, either `end()` or a slot that holds the
key. -/
theorem C29_probing_terminates {K V : Type} [DecidableEq K] [Inhabited K] [Inhabited V]
    (hashf : K → Int) (hh : ∀ k, hashf k ≠ -1) (kvs : List (K × V)) :
    ∃ m, insert_all hashf (Robin_Map.new : Robin_Map K V) kvs = .ok m ∧
      (∃ k, m.size = 2 ^ k) ∧ m.entries.length = m.size ∧
      (∃ s, s < m.size ∧ slot_empty m.entries s) ∧
      (∀ home s, s < m.size → ∃ n, n < m.size ∧ walk m.size home 0 n = s) ∧
      (∀ (key : K) (val : V) (hashed : Int), ∃ m',
        m.core_insert_with_hash key val hashed = .ok m') ∧
      (∀ (h2 : K → Int) (key : K), ∃ loc, m.find h2 key = .ok loc ∧
        (loc = m.end_ ∨ ∃ e, m.entries[loc]? = some e ∧ e.hash ≠ -1 ∧ e.first = key)) := by
  obtain ⟨m, h1, hinv, -⟩ := insert_all_new hashf hh kvs
  obtain ⟨⟨hlen, ⟨k, hk⟩, -⟩, -, hcount, hhalf, hfour⟩ := hinv
  have hroom : (live_list m.entries).length < m.entries.length := by
    have := room_of_bound _ _ hhalf hfour
    omega
  have hex := exists_empty m.entries hroom
  refine ⟨m, h1, ⟨k, hk⟩, hlen, ?_, ?_, ?_, ?_⟩
  · obtain ⟨s, hs, he⟩ := hex
    exact ⟨s, hlen ▸ hs, he⟩
  · intro home s hs
    rw [hk] at hs ⊢
    exact walk_cover k home s hs
  · intro key val hashed
    obtain ⟨n, -, -, -, h⟩ := core_insert_stop m k hk hlen hex key val hashed
    exact ⟨_, h⟩
  · intro h2 key
    obtain ⟨n, -, -, h⟩ := find_stop m k hk hlen hex key (bit_modulo (h2 key) m.size).toNat
    rcases h with ⟨-, h⟩ | ⟨he, h⟩
    · exact ⟨_, h, Or.inl rfl⟩
    · exact ⟨_, h, Or.inr he⟩

/-- The statement of C29 on the fresh map after one insert: an insert with
the negative hash `-5` and a lookup under a hash function that is negative
everywhere both return. -/
theorem C29_probing_terminates_witness :
    (∀ k, sample_hash k ≠ -1) ∧
    ∃ m, insert_all sample_hash (Robin_Map.new : Robin_Map Nat Nat) [(7, 0)] = .ok m ∧
      (∃ m', m.core_insert_with_hash 9 0 (-5) = .ok m') ∧
      (∃ loc, m.find (fun _ => -3) 9 = .ok loc) := by
  obtain ⟨m, h1, -, -, -, -, h6, h7⟩ := C29_probing_terminates sample_hash sample_hash_ne
    ([(7, 0)] : List (Nat × Nat))
  obtain ⟨loc, hloc, -⟩ := h7 (fun _ => -3) 9
  exact ⟨sample_hash_ne, m, h1, h6 9 0 (-5), loc, hloc⟩


/-- `create_buffers_gptr_wait` does not touch the locality table. -/
theorem gptr_wait_proc_local (w w' : Worker) (h : w.create_buffers_gptr_wait = .ok w') :
    w'.proc_local = w.proc_local := by
  have hP1 : ∀ i (s s' : Worker), s.gptr_wait_fetch i = .ok s' →
      s.proc_local = w.proc_local → s'.proc_local = w.proc_local := by
    intro i s s' hs hp
    simp only [Worker.gptr_wait_fetch] at hs
    split at hs
    · simp only [Except.ok.injEq] at hs
      rw [← hs]
      exact hp
    · cases hs
  have hP2 : ∀ i (s s' : Worker), s.gptr_wait_local i = .ok s' →
      s.proc_local = w.proc_local → s'.proc_local = w.proc_local := by
    intro i s s' hs hp
    simp only [Worker.gptr_wait_local] at hs
    split at hs
    · simp only [Except.ok.injEq] at hs
      rw [← hs]
      exact hp
    · cases hs
  simp only [Worker.create_buffers_gptr_wait] at h
  cases h1 : for_range w.total_workers Worker.gptr_wait_fetch w with
  | error f => rw [h1] at h; cases h
  | ok w1 =>
    rw [h1] at h
    simp only [] at h
    have p1 := for_loop_preserves Worker.gptr_wait_fetch _ hP1 _ 0 w w1 h1 rfl
    cases h2 : for_range w1.total_workers Worker.gptr_wait_local w1 with
    | error f => rw [h2] at h; cases h
    | ok w2 =>
      rw [h2] at h
      simp only [] at h
      have p2 := for_loop_preserves Worker.gptr_wait_local _ hP2 _ 0 w1 w2 h2 p1
      split at h
      · simp only [Except.ok.injEq] at h
        rw [← h]
        exact p2
      · cases h
/-! ## A co-located peer drains the send array a worker keeps for itself -/

theorem apply_msg_foreign (hashf : Nat → Int) (w : Worker) (msg : Message)
    (h : w.Foreign msg) : w.apply_msg hashf msg = .ok w := by
  obtain ⟨tb, htb, hne⟩ := h
  have ha := apply_remote hashf w.total_workers w.rank_me_ tb msg
    (!DEBUG_DISABLE_CREATE_ON_PUSH) hne
  simp only [Worker.apply_msg, htb, ha]
  rw [set_table_self w msg.dest_table tb htb]

theorem apply_msgs_foreign (hashf : Nat → Int) : ∀ (msgs : List Message) (w : Worker),
    (∀ m ∈ msgs, w.Foreign m) → Worker.apply_msgs hashf w msgs = .ok w
  | [], _, _ => rfl
  | msg :: rest, w, h => by
    simp only [Worker.apply_msgs, apply_msg_foreign hashf w msg (h msg (List.mem_cons_self _ _))]
    exact apply_msgs_foreign hashf rest w (fun m hm => h m (List.mem_cons_of_mem _ hm))

theorem foreign_of_eq (w s : Worker) (ht : s.tables = w.tables)
    (hn : s.total_workers = w.total_workers) (hr : s.rank_me_ = w.rank_me_) (m : Message)
    (h : w.Foreign m) : s.Foreign m := by
  obtain ⟨tb, htb, hne⟩ := h
  exact ⟨tb, by rw [ht]; exact htb, by rw [hn, hr]; exact hne⟩

/-- The body of the local exchange loop for a peer `i` whose array for itself
holds only messages that are foreign to this worker: the messages are read and
ignored, and the counter of the peer is set to zero. -/
theorem local_body_foreign (hashf : Nat → Int) (w : Worker) (hr : w.Ready) (hw : w.MemWF)
    (i : Nat) (hi : i < w.total_workers)
    (hf : ∀ m ∈ (buffer_at w.shared (dist_fetch i i)).take
      (min (size_at w.shared (dist_fetch i i)) w.BUFFER_MAX_SIZE), w.Foreign m) :
    ∃ w', w.apply_local_body hashf i = .ok w' ∧ w'.skeleton = w.skeleton ∧
      w'.tables = w.tables ∧ MemOK w'.shared w.total_workers w.BUFFER_MAX_SIZE ∧
      (w.proc_local.getD i false = true → size_at w'.shared (dist_fetch i i) = 0) ∧
      (∀ q, q ≠ dist_fetch i i → size_at w'.shared q = size_at w.shared q) ∧
      (w.proc_local.getD i false = false → w'.shared = w.shared) ∧
      (∀ q, buffer_at w'.shared q = buffer_at w.shared q) := by
  have hloc := ready_is_process_local w hr i hi
  by_cases hp : w.proc_local.getD i false = true
  · rw [hp] at hloc
    have hc : w.get_messgaes_count_recv i = .ok (size_at w.shared (dist_fetch i i)) := by
      rw [get_count_recv_ok w hw (ready_handlesOK w hr) i hloc]
      have hs := ready_local_size w hr i hi
      have l1 : i < w.their_local_push_size.length := by rw [hr.2.2.1]; simpa using hi
      rw [List.getElem?_eq_getElem l1, hp] at hs
      simp only [if_true, Option.some.injEq] at hs
      simp only [Worker.recv_count, List.getD_eq_getElem _ _ l1, hs]
    obtain ⟨mem', hwr, hok', hsz, hoth, hbufs⟩ :=
      write_size_spec hw.1 (dist_fetch i i) 0 hi hi
    have hbl := (read_buffer_ok hw.1 (dist_fetch i i) hi hi).2
    have hderef : deref_buffer w.shared (some (dist_fetch i i))
        = buffer_at w.shared (dist_fetch i i) := rfl
    generalize hcdef : size_at w.shared (dist_fetch i i) = c at *
    have hv : w.valid_buffer_size c = min c w.BUFFER_MAX_SIZE := valid_buffer_size_eq w c
    have hvv : w.valid_buffer_size (min c w.BUFFER_MAX_SIZE) = min c w.BUFFER_MAX_SIZE := by
      rw [valid_buffer_size_eq]; omega
    by_cases hpos : min c w.BUFFER_MAX_SIZE > 0
    · have hproc := process_push_buffer_eq hashf w
        (buffer_at w.shared (dist_fetch i i)) (min c w.BUFFER_MAX_SIZE)
        (by rw [hvv, hbl]; omega)
      rw [hvv, apply_msgs_foreign hashf _ w hf] at hproc
      refine ⟨{ w with messages_recv_local := w.messages_recv_local + min c w.BUFFER_MAX_SIZE,
                       shared := mem' }, ?_, rfl, rfl, hok', fun _ => hsz, hoth,
        fun h => absurd hp (by rw [h]; decide), hbufs⟩
      simp only [Worker.apply_local_body, hloc, if_true, hc, hv, ready_local_buffers w hr i hi,
        hp, hderef, hpos, hproc, ready_local_size w hr i hi, hwr]
    · refine ⟨{ w with shared := mem' }, ?_, rfl, rfl, hok', fun _ => hsz, hoth,
        fun h => absurd hp (by rw [h]; decide), hbufs⟩
      simp only [Worker.apply_local_body, hloc, if_true, hc, hv, ready_local_buffers w hr i hi,
        hp, hpos, if_false, ready_local_size w hr i hi, hwr]
  · have hp' : w.proc_local.getD i false = false := by simpa using hp
    rw [hp'] at hloc
    refine ⟨w, ?_, rfl, rfl, hw.1, fun h => absurd h hp, fun _ _ => rfl, fun _ => rfl,
      fun _ => rfl⟩
    simp only [Worker.apply_local_body, hloc, Bool.false_eq_true, if_false]

/-- The loop of `apply_push_incoming_local` on a worker for which the arrays
it reads in place hold only foreign messages: every counter it reads in place
is set to zero, also those of its co-located peers; no table changes. -/
theorem local_loop_foreign (hashf : Nat → Int) (w : Worker) (hr : w.Ready) (hw : w.MemWF)
    (hf : ∀ i, i < w.total_workers → ∀ m ∈ (buffer_at w.shared (dist_fetch i i)).take
      (min (size_at w.shared (dist_fetch i i)) w.BUFFER_MAX_SIZE), w.Foreign m) :
    ∃ w', for_range w.total_workers (Worker.apply_local_body hashf) w = .ok w' ∧
      w'.skeleton = w.skeleton ∧ w'.tables = w.tables ∧
      MemOK w'.shared w.total_workers w.BUFFER_MAX_SIZE ∧
      (∀ i, i < w.total_workers → w.proc_local.getD i false = true →
        size_at w'.shared (dist_fetch i i) = 0) ∧
      (∀ q, (∀ i, i < w.total_workers → w.proc_local.getD i false = true → q ≠ dist_fetch i i) →
        size_at w'.shared q = size_at w.shared q) ∧
      (∀ q, buffer_at w'.shared q = buffer_at w.shared q) := by
  obtain ⟨w', hloop, hsk, htb, hmem, ha, hb, hbuf⟩ := for_range_inv (Worker.apply_local_body hashf)
    (fun j s => s.skeleton = w.skeleton ∧ s.tables = w.tables ∧
      MemOK s.shared w.total_workers w.BUFFER_MAX_SIZE ∧
      (∀ i, i < j → w.proc_local.getD i false = true → size_at s.shared (dist_fetch i i) = 0) ∧
      (∀ q, (∀ i, i < j → w.proc_local.getD i false = true → q ≠ dist_fetch i i) →
        size_at s.shared q = size_at w.shared q) ∧
      (∀ q, buffer_at s.shared q = buffer_at w.shared q))
    w.total_workers w
    ⟨rfl, rfl, hw.1, fun i hi => absurd hi (Nat.not_lt_zero i), fun _ _ => rfl, fun _ => rfl⟩
    (by
      intro j s hj ⟨hsk, htb, hmem, ha, hb, hbuf⟩
      obtain ⟨eN, eR, eM⟩ := skeleton_fields w s hsk
      have ePL : s.proc_local = w.proc_local := by
        have := congrArg Worker.proc_local hsk; exact this
      have hrs : s.Ready := ready_of_skeleton w s hsk hr
      have hws : s.MemWF := ⟨by rw [eN, eM]; exact hmem, by rw [eR, eN]; exact hw.2⟩
      have hsj : size_at s.shared (dist_fetch j j) = size_at w.shared (dist_fetch j j) := by
        apply hb
        intro i hi _ hq
        have := congrArg Prod.fst hq
        simp only [dist_fetch] at this
        omega
      have hfs : ∀ m ∈ (buffer_at s.shared (dist_fetch j j)).take
          (min (size_at s.shared (dist_fetch j j)) s.BUFFER_MAX_SIZE), s.Foreign m := by
        intro m hm
        rw [hbuf, hsj, eM] at hm
        exact foreign_of_eq w s htb eN eR m (hf j hj m hm)
      obtain ⟨s', h1, h2, h3, h4, h5, h6, h7, h8⟩ :=
        local_body_foreign hashf s hrs hws j (by rw [eN]; exact hj) hfs
      rw [ePL] at h5 h7
      refine ⟨s', h1, h2.trans hsk, h3.trans htb, by rw [eN, eM] at h4; exact h4, ?_, ?_,
        fun q => (h8 q).trans (hbuf q)⟩
      · intro i hi hl
        rcases Nat.lt_or_ge i j with hlt | hge
        · rw [h6 (dist_fetch i i) (by
            intro hq
            have := congrArg Prod.fst hq
            simp only [dist_fetch] at this
            omega)]
          exact ha i hlt hl
        · have : i = j := by omega
          rw [this] at hl ⊢
          exact h5 hl
      · intro q hq
        by_cases hl : w.proc_local.getD j false = true
        · rw [h6 q (hq j (Nat.lt_succ_self j) hl)]
          exact hb q (fun i hi hli => hq i (Nat.lt_succ_of_lt hi) hli)
        · have hl' : w.proc_local.getD j false = false := by simpa using hl
          rw [h7 hl']
          exact hb q (fun i hi hli => hq i (Nat.lt_succ_of_lt hi) hli))
  exact ⟨w', hloop, hsk, htb, hmem, ha, hb, hbuf⟩

/-- `apply_push_incoming_local` on a worker for which the arrays it reads in
place hold only foreign messages. -/
theorem incoming_local_foreign (hashf : Nat → Int) (w : Worker) (hr : w.Ready) (hw : w.MemWF)
    (hf : ∀ i, i < w.total_workers → ∀ m ∈ (buffer_at w.shared (dist_fetch i i)).take
      (min (size_at w.shared (dist_fetch i i)) w.BUFFER_MAX_SIZE), w.Foreign m) :
    ∃ w', w.apply_push_incoming_local hashf = .ok w' ∧ w'.tables = w.tables ∧
      MemOK w'.shared w.total_workers w.BUFFER_MAX_SIZE ∧
      (∀ i, i < w.total_workers → w.proc_local.getD i false = true →
        size_at w'.shared (dist_fetch i i) = 0) ∧
      (∀ q, (∀ i, i < w.total_workers → w.proc_local.getD i false = true → q ≠ dist_fetch i i) →
        size_at w'.shared q = size_at w.shared q) ∧
      (∀ q, buffer_at w'.shared q = buffer_at w.shared q) := by
  obtain ⟨w1, hloop, hsk, htb, hmem, ha, hb, hbuf⟩ := local_loop_foreign hashf w hr hw hf
  obtain ⟨eN, eR, eM⟩ := skeleton_fields w w1 hsk
  by_cases hg : SADDLEBAG_DEBUG > 0 ∧ w1.rank_me_ = 0
  · have hw1 : w1.MemWF := ⟨by rw [eN, eM]; exact hmem, by rw [eR, eN]; exact hw.2⟩
    obtain ⟨w2, h1, h2, h3, h4⟩ := count_sent_loop w1 hw1
    refine ⟨w2, ?_, h3.trans htb, by rw [h4]; exact hmem, ?_, ?_, ?_⟩
    · simp only [Worker.apply_push_incoming_local, hloop, hg, and_self, if_true, h1]
    · intro i hi hl
      rw [h4]
      exact ha i hi hl
    · intro q hq
      rw [h4]
      exact hb q hq
    · intro q
      rw [h4]
      exact hbuf q
  · refine ⟨w1, ?_, htb, hmem, ha, hb, hbuf⟩
    simp only [Worker.apply_push_incoming_local, hloop, hg, if_false]

/-- C1, as the code behaves.  Worker `r` enqueues `k ≤ M` messages for items
present on it, all other hypotheses as the claim has them (its buffers cleared,
its peers have sent nothing).  A peer `p` of the same run that shares the node
of `r` holds as `their_local_push_size[r]` the handle of the counter `r` keeps
for itself (the result of `fetch(r)` on object number `r`).  When `p` runs
`apply_push_incoming_local` (its exchange on the local path, step 4 on the
remote path) before `r` runs its exchange, `p` reads the messages, ignores
them (the home of their keys is `r`) and writes 0 to the counter of `r`.  The
`cycle(j, false, true)` of `r` that follows succeeds for every `j ≥ 1` and
leaves the callback log of every item of `r` as it was: `on_push_recv` has been
invoked zero times for every enqueued message. -/
theorem C1_self_delivery_lost (hashf : Nat → Int) (prog : WorkProgram) (r p : Worker)
    (msgs : List Message) (j : Nat)
    (hboot : (r.cycles_counter = 0 ∧ r.Fresh) ∨ (r.cycles_counter ≠ 0 ∧ r.Ready))
    (hq : r.Quiet) (hf1 : r.rget_futures_size = []) (hf2 : r.rget_futures_msgs = [])
    (hok : r.TablesOK hashf) (hzero : r.send_count r.rank_me_ = 0)
    (hk : msgs.length ≤ r.BUFFER_MAX_SIZE) (hdel : ∀ m ∈ msgs, r.Deliverable m) (hj : 1 ≤ j)
    (hpr : p.Ready) (hpN : p.total_workers = r.total_workers)
    (hpM : p.BUFFER_MAX_SIZE = r.BUFFER_MAX_SIZE) (hpme : p.rank_me_ < p.total_workers)
    (hne : p.rank_me_ ≠ r.rank_me_) (hloc : p.proc_local.getD r.rank_me_ false = true)
    (hptab : ∀ m ∈ msgs, ∃ tb, p.tables[m.dest_table]? = some tb) :
    p.their_local_push_size[r.rank_me_]? = some (some (dist_fetch r.rank_me_ r.rank_me_)) ∧
    ∃ r1, r.enqueue_all msgs = .ok r1 ∧ r1.self_msgs = msgs ∧
      ∃ p1, ({ p with shared := r1.shared }).apply_push_incoming_local hashf = .ok p1 ∧
        p1.tables = p.tables ∧
        size_at p1.shared (dist_fetch r.rank_me_ r.rank_me_) = 0 ∧
        ∃ r2, ({ r1 with shared := p1.shared }).cycle hashf prog j false true = .ok r2 ∧
          r2.maps = r.maps ∧
          ∀ t tb e pt, r.tables[t]? = some tb → e ∈ live_list tb.mapped_items.entries →
            e.second = some pt → r2.calls_of t pt = r.calls_of t pt := by
  have hrme : r.rank_me_ < r.total_workers := hq.1.2
  have hhandle : p.their_local_push_size[r.rank_me_]?
      = some (some (dist_fetch r.rank_me_ r.rank_me_)) := by
    rw [ready_local_size p hpr r.rank_me_ (by rw [hpN]; exact hrme), hloc]
    rfl
  refine ⟨hhandle, ?_⟩
  obtain ⟨r1, h1, h2, h3, h4, h5⟩ := enqueue_all_self r msgs hq.1 hzero hk
    (fun m hm => (hdel m hm).choose_spec.choose_spec.2.2)
  have eN : r1.total_workers = r.total_workers := by rw [h2]
  have eR : r1.rank_me_ = r.rank_me_ := by rw [h2]
  have eM : r1.BUFFER_MAX_SIZE = r.BUFFER_MAX_SIZE := by rw [h2]
  refine ⟨r1, h1, h4, ?_⟩
  -- the peer on the segments that hold the messages
  have hpr' : ({ p with shared := r1.shared } : Worker).Ready := hpr
  have hpw' : ({ p with shared := r1.shared } : Worker).MemWF := by
    refine ⟨?_, hpme⟩
    show MemOK r1.shared p.total_workers p.BUFFER_MAX_SIZE
    rw [hpN, hpM, ← eN, ← eM]
    exact h3.1
  have hsz : ∀ i, i < r.total_workers → i ≠ r.rank_me_ →
      size_at r1.shared (dist_fetch i i) = 0 := by
    intro i hi hir
    rw [h5 (dist_fetch i i) (by rw [dist_fetch_fst]; exact hir)]
    exact hq.2.2.2 i hi hir
  have hself : (buffer_at r1.shared (dist_fetch r.rank_me_ r.rank_me_)).take
      (min (size_at r1.shared (dist_fetch r.rank_me_ r.rank_me_)) r.BUFFER_MAX_SIZE) = msgs := by
    have := h4
    simp only [Worker.self_msgs, eR, eM] at this
    exact this
  have hforeign : ∀ i, i < ({ p with shared := r1.shared } : Worker).total_workers →
      ∀ m ∈ (buffer_at ({ p with shared := r1.shared } : Worker).shared (dist_fetch i i)).take
        (min (size_at ({ p with shared := r1.shared } : Worker).shared (dist_fetch i i))
          ({ p with shared := r1.shared } : Worker).BUFFER_MAX_SIZE),
        ({ p with shared := r1.shared } : Worker).Foreign m := by
    intro i hi m hm
    have hi' : i < r.total_workers := by rw [← hpN]; exact hi
    by_cases hir : i = r.rank_me_
    · subst hir
      have hm' : m ∈ msgs := by
        rw [← hself, ← hpM]
        exact hm
      obtain ⟨tb, htb⟩ := hptab m hm'
      refine ⟨tb, htb, ?_⟩
      have hp3 := (hdel m hm').choose_spec.choose_spec.2.2
      show get_partition p.total_workers tb.myTableKey m.dest_item ≠ p.rank_me_
      have : get_partition p.total_workers tb.myTableKey m.dest_item = r.rank_me_ := by
        rw [hpN]
        exact hp3
      rw [this]
      exact fun h => hne h.symm
    · have hz : size_at r1.shared (dist_fetch i i) = 0 := hsz i hi' hir
      have hm0 : m ∈ (buffer_at r1.shared (dist_fetch i i)).take
          (min (size_at r1.shared (dist_fetch i i)) p.BUFFER_MAX_SIZE) := hm
      rw [hz, Nat.zero_min, List.take_zero] at hm0
      cases hm0
  obtain ⟨p1, g1, g2, g3, g4, g5, g6⟩ :=
    incoming_local_foreign hashf ({ p with shared := r1.shared } : Worker) hpr' hpw' hforeign
  have g4' : ∀ i, i < r.total_workers → p.proc_local.getD i false = true →
      size_at p1.shared (dist_fetch i i) = 0 := fun i hi => g4 i (by
        show i < p.total_workers
        rw [hpN]; exact hi)
  have g5' : ∀ q, (∀ i, i < r.total_workers → p.proc_local.getD i false = true →
      q ≠ dist_fetch i i) → size_at p1.shared q = size_at r1.shared q := fun q hqq =>
    g5 q (fun i hi => hqq i (by rw [← hpN]; exact hi))
  have hzr : size_at p1.shared (dist_fetch r.rank_me_ r.rank_me_) = 0 := g4' _ hrme hloc
  refine ⟨p1, g1, g2, hzr, ?_⟩
  -- the worker of the claim on the segments the peer left
  have hall : ∀ i, i < r.total_workers → size_at p1.shared (dist_fetch i i) = 0 := by
    intro i hi
    by_cases hl : p.proc_local.getD i false = true
    · exact g4' i hi hl
    · by_cases hir : i = r.rank_me_
      · rw [hir]; exact hzr
      · rw [g5' (dist_fetch i i) (fun i' hi' hl' hqq => by
          have := congrArg Prod.fst hqq
          simp only [dist_fetch] at this
          rw [this] at hl
          exact hl hl')]
        exact hsz i hi hir
  have hmem : MemOK p1.shared r.total_workers r.BUFFER_MAX_SIZE := by
    have : MemOK p1.shared p.total_workers p.BUFFER_MAX_SIZE := g3
    rw [hpN, hpM] at this
    exact this
  have hr2eq : ({ r1 with shared := p1.shared } : Worker) = { r with shared := p1.shared } := by
    rw [h2]
  rw [hr2eq]
  have hq2 : ({ r with shared := p1.shared } : Worker).Quiet :=
    ⟨⟨hmem, hrme⟩, hq.2.1, hq.2.2.1, fun i hi _ => hall i hi⟩
  have hself2 : ({ r with shared := p1.shared } : Worker).self_msgs = [] := by
    show (buffer_at p1.shared (dist_fetch r.rank_me_ r.rank_me_)).take
      (min (size_at p1.shared (dist_fetch r.rank_me_ r.rank_me_)) r.BUFFER_MAX_SIZE) = []
    rw [hzr, Nat.zero_min, List.take_zero]
  obtain ⟨r2, c1, c2⟩ := cycle_spec hashf prog ({ r with shared := p1.shared } : Worker) j
    hboot hq2 hf1 hf2 hok (by rw [hself2]; intro m hm; cases hm) hj
  rw [hself2] at c2
  refine ⟨r2, c1, c2.1, ?_⟩
  intro t tb e pt htb he hpt
  have := c2.2.2.2.2.2.1 t tb e pt htb he hpt
  simp only [recv_calls, List.filter_nil, List.map_nil, List.append_nil] at this
  exact this

theorem trio_worker_tables : trio_worker.tables = [sample_table] := by
  simp [trio_worker, Worker.add_table, Worker.new, sample_table]

theorem trio_worker_ready : trio_worker.Fresh ∧ trio_worker.Quiet := by
  have hsh : trio_worker.shared = (Worker.new 0 3 0 2 [true, true, false] 4).shared := by
    simp [trio_worker, Worker.add_table, Worker.new]
  have hN : trio_worker.total_workers = 3 := rfl
  refine ⟨?_, ⟨?_, ?_⟩, ?_, ?_, ?_⟩
  · simp [trio_worker, Worker.add_table, Worker.new, Worker.Fresh]
  · rw [hsh]
    exact memOK_new 3 4
  · show 0 < 3
    omega
  · simp [trio_worker, Worker.add_table, Worker.new, Worker.StagingOK,
      Worker.is_process_local]
    constructor
    · intro i hi
      interval_cases i <;> simp
    · intro i hi
      interval_cases i <;> simp
  · simp [trio_worker, Worker.add_table, Worker.new]
  · intro i hi hne
    rw [hN] at hi
    have hR : trio_worker.rank_me_ = 0 := rfl
    rw [hR] at hne
    interval_cases i
    · exact absurd rfl hne
    · decide
    · decide

/-- What `add_item(0, 0)` leaves in `trio_items`, and that the worker is as C1
supposes: before its first cycle, nothing received, its own send array cleared,
the item under key 0 present. -/
theorem trio_items_ready : trio_items.cycles_counter = 0 ∧ trio_items.Fresh ∧
    trio_items.Quiet ∧ trio_items.rget_futures_size = [] ∧
    trio_items.rget_futures_msgs = [] ∧ trio_items.TablesOK sample_hash ∧
    trio_items.send_count trio_items.rank_me_ = 0 ∧ trio_items.BUFFER_MAX_SIZE = 4 ∧
    trio_items.total_workers = 3 ∧ trio_items.rank_me_ = 0 ∧
    trio_items.Deliverable (msg_to 0) ∧
    trio_items.calls_of 0 0 = [Call.on_create, Call.refresh] ∧
    ∃ tb, trio_items.tables[0]? = some tb ∧ tb.mapped_items.has 0 (some 0) := by
  have ht : trio_worker.tables[0]? = some sample_table := by
    rw [trio_worker_tables]; rfl
  obtain ⟨tb, h1, h2, h3, h4, h5, -⟩ := add_items_spec sample_hash sample_hash_ne 0 [0]
    trio_worker sample_table ht (tableOK_fresh sample_hash sample_table rfl) (by decide)
    (fun k hk => ⟨absent_fresh sample_table rfl k, by
      rw [List.mem_singleton] at hk
      subst hk
      decide⟩)
  have hget : (trio_worker.set_table 0 tb).tables[0]? = some tb :=
    set_table_get trio_worker 0 sample_table tb ht
  have htabs : (trio_worker.set_table 0 tb).tables = [tb] := by
    simp [Worker.set_table, trio_worker_tables]
  have hz : trio_worker.send_count trio_worker.rank_me_ = 0 := by decide
  have hobj : tb.objects = [added_item 0 0 0] := by
    rw [h3]; rfl
  have hhas : tb.mapped_items.has 0 (some 0) := h5 0 0 rfl
  have hE : trio_items = trio_worker.set_table 0 tb := h1
  rw [hE]
  refine ⟨rfl, trio_worker_ready.1, trio_worker_ready.2, rfl, rfl, ?_, hz, rfl, rfl, rfl, ?_, ?_,
    tb, hget, hhas⟩
  · intro t tb' htb'
    rw [htabs] at htb'
    cases t with
    | zero =>
      simp only [List.getElem?_cons_zero, Option.some.injEq] at htb'
      subst htb'
      exact ⟨h2, h4⟩
    | succ n => simp at htb'
  · exact ⟨tb, 0, hget, hhas, rfl⟩
  · simp only [Worker.calls_of, hget, hobj]
    rfl

/-- The peer `trio_peer` has resolved its handles, shares the node of rank 0
and holds table 0. -/
theorem trio_peer_facts : trio_peer.Ready ∧ trio_peer.total_workers = 3 ∧
    trio_peer.BUFFER_MAX_SIZE = 4 ∧ trio_peer.rank_me_ = 1 ∧
    trio_peer.proc_local.getD 0 false = true ∧
    trio_peer.tables[0]? = some { TableContainer.new with is_global := true, myTableKey := 0, worker := some 1 } := by
  have hf : trio_peer_fresh.Fresh := by
    simp [trio_peer_fresh, Worker.add_table, Worker.new, Worker.Fresh]
  have hsh : trio_peer_fresh.shared = (Worker.new 1 3 1 2 [true, true, false] 4).shared := by
    simp [trio_peer_fresh, Worker.add_table, Worker.new]
  have hN : trio_peer_fresh.total_workers = 3 := rfl
  have hq : trio_peer_fresh.Quiet := by
    refine ⟨⟨?_, ?_⟩, ?_, ?_, ?_⟩
    · rw [hsh]
      exact memOK_new 3 4
    · show 1 < 3
      omega
    · simp [trio_peer_fresh, Worker.add_table, Worker.new, Worker.StagingOK,
        Worker.is_process_local]
      constructor
      · intro i hi
        interval_cases i <;> simp
      · intro i hi
        interval_cases i <;> simp
    · simp [trio_peer_fresh, Worker.add_table, Worker.new]
    · intro i hi hne
      rw [hN] at hi
      have hR : trio_peer_fresh.rank_me_ = 1 := rfl
      rw [hR] at hne
      interval_cases i
      · decide
      · exact absurd rfl hne
      · decide
  obtain ⟨w', h1, h2, -, h4, h5, h6, h7, -, -, -⟩ := gptr_wait_spec trio_peer_fresh hf hq
  have hpl : w'.proc_local = trio_peer_fresh.proc_local := gptr_wait_proc_local _ _ h1
  have hE : trio_peer = w' := by
    unfold trio_peer
    rw [h1]
  rw [hE]
  refine ⟨h2, h5.trans rfl, h7.trans rfl, h6.trans rfl, ?_, ?_⟩
  · rw [hpl]; rfl
  · rw [h4]
    simp [trio_peer_fresh, Worker.add_table, Worker.new]

/-- The statement of C1's failing input: three workers, the ranks 0 and 1 on
one node and rank 2 on another (remote path), `M = 4`.  Rank 0 (`trio_items`)
holds the item under key 0 and enqueues one message with value 7 for it; rank 1
(`trio_peer`) runs step 4 of its exchange; then rank 0 runs `cycle(2, false,
true)`.  The log of the item is still `on_create, refresh`: the message was
delivered zero times. -/
theorem C1_self_delivery_lost_witness :
    ((trio_items.cycles_counter = 0 ∧ trio_items.Fresh) ∨
      (trio_items.cycles_counter ≠ 0 ∧ trio_items.Ready)) ∧
    trio_items.Quiet ∧ trio_items.rget_futures_size = [] ∧
    trio_items.rget_futures_msgs = [] ∧ trio_items.TablesOK sample_hash ∧
    trio_items.send_count trio_items.rank_me_ = 0 ∧
    [msg_to 0].length ≤ trio_items.BUFFER_MAX_SIZE ∧
    (∀ m ∈ [msg_to 0], trio_items.Deliverable m) ∧ 1 ≤ 2 ∧
    trio_peer.Ready ∧ trio_peer.total_workers = trio_items.total_workers ∧
    trio_peer.BUFFER_MAX_SIZE = trio_items.BUFFER_MAX_SIZE ∧
    trio_peer.rank_me_ < trio_peer.total_workers ∧
    trio_peer.rank_me_ ≠ trio_items.rank_me_ ∧
    trio_peer.proc_local.getD trio_items.rank_me_ false = true ∧
    (∀ m ∈ [msg_to 0], ∃ tb, trio_peer.tables[m.dest_table]? = some tb) ∧
    ¬ trio_items.Secluded ∧
    ∃ r1, trio_items.enqueue_all [msg_to 0] = .ok r1 ∧ r1.self_msgs = [msg_to 0] ∧
      ∃ p1, ({ trio_peer with shared := r1.shared }).apply_push_incoming_local sample_hash
          = .ok p1 ∧
        size_at p1.shared (dist_fetch 0 0) = 0 ∧
        ∃ r2, ({ r1 with shared := p1.shared }).cycle sample_hash (fun _ => []) 2 false true
            = .ok r2 ∧
          r2.maps = trio_items.maps ∧
          r2.calls_of 0 0 = [Call.on_create, Call.refresh] ∧
          r2.calls_of 0 0 ≠ [Call.on_create, Call.refresh, Call.on_push_recv 7] := by
  obtain ⟨a1, a2, a3, a4, a5, a6, a7, a8, a9, a10, a11, a12, tb, a13, a14⟩ := trio_items_ready
  obtain ⟨b1, b2, b3, b4, b5, b6⟩ := trio_peer_facts
  have hk : [msg_to 0].length ≤ trio_items.BUFFER_MAX_SIZE := by
    rw [a8]; decide
  have hd : ∀ m ∈ [msg_to 0], trio_items.Deliverable m := by
    intro m hm
    rw [List.mem_singleton] at hm
    rw [hm]
    exact a11
  have hN : trio_peer.total_workers = trio_items.total_workers := b2.trans a9.symm
  have hM : trio_peer.BUFFER_MAX_SIZE = trio_items.BUFFER_MAX_SIZE := b3.trans a8.symm
  have hme : trio_peer.rank_me_ < trio_peer.total_workers := by rw [b4, b2]; decide
  have hne : trio_peer.rank_me_ ≠ trio_items.rank_me_ := by rw [b4, a10]; decide
  have hloc : trio_peer.proc_local.getD trio_items.rank_me_ false = true := by rw [a10]; exact b5
  have htab : ∀ m ∈ [msg_to 0], ∃ tb, trio_peer.tables[m.dest_table]? = some tb := by
    intro m hm
    rw [List.mem_singleton] at hm
    rw [hm]
    exact ⟨_, b6⟩
  have hsec : ¬ trio_items.Secluded := by
    intro h
    have h1 := h 1 (by rw [a9]; decide) (by rw [a10]; decide)
    have h2 : trio_items.proc_local.getD 1 false = true := by
      obtain ⟨tb', e1, -⟩ : ∃ tb', trio_items = trio_worker.set_table 0 tb' ∧ True := by
        obtain ⟨tb', e, -⟩ := add_items_spec sample_hash sample_hash_ne 0 [0]
          trio_worker sample_table (by rw [trio_worker_tables]; rfl)
          (tableOK_fresh sample_hash sample_table rfl) (by decide)
          (fun k hk => ⟨absent_fresh sample_table rfl k, by
            rw [List.mem_singleton] at hk
            subst hk
            decide⟩)
        exact ⟨tb', e, trivial⟩
      rw [e1]
      rfl
    rw [h2] at h1
    cases h1
  obtain ⟨-, r1, c1, c2, p1, c3, -, c5, r2, c6, c7, c8⟩ :=
    C1_self_delivery_lost sample_hash (fun _ => []) trio_items trio_peer [msg_to 0] 2
      (Or.inl ⟨a1, a2⟩) a3 a4 a5 a6 a7 hk hd (by decide) b1 hN hM hme hne hloc htab
  rw [a10] at c5
  obtain ⟨e, he1, he2, he3⟩ := a14
  have hc := c8 0 tb e 0 a13 he1 he3
  rw [a12] at hc
  refine ⟨Or.inl ⟨a1, a2⟩, a3, a4, a5, a6, a7, hk, hd, by decide, b1, hN, hM, hme, hne, hloc, htab,
    hsec, r1, c1, c2, p1, c3, c5, r2, c6, c7, hc, ?_⟩
  rw [hc]
  decide

end saddlebags
